import Mathlib

/-!
Kdenlive timeline track over an MLT playlist.

A shallow embedding of `src/timeline/track.cpp`.  A `Track` wraps a playlist of
the multimedia engine; every edit of `Track` is a short sequence of calls to the
engine's playlist primitives.  The first part of the file models those
primitives on a list of entries, the second part embeds the methods of `Track`
line by line, and the last part states and proves properties of the methods.

Times are seconds, positions are frames (integers).  A rational time or frame
rate stands for the `double` nearest to it, and `Track::frame` is computed as
the `double` arithmetic of the source computes it.  The duration-change signal
and the playlist lock are made explicit:
the track state records every emitted `newTrackDuration` payload and the
nesting depth of the lock.
-/

namespace Mlt

/-- The properties of a parent producer that `track.cpp` reads. -/
structure Producer where
  /-- The property "id". -/
  id : String
  /-- The property "mlt_service". -/
  service : String
  /-- The property "audio_index". -/
  audioIndex : Int
  /-- The property "video_index". -/
  videoIndex : Int := 0
deriving DecidableEq, Repr

/-- Modelled from the spec: a region of the playlist, which the engine (not under src/)
stores as a cut `[frame_in, frame_out]` of a parent producer.  `parent = none` is a cut of
the playlist's own blank producer (a blank region).  `length` is the "length" property
of the cut, the bound the engine clamps the out point with; the parent's own "length"
is represented by this copy. -/
structure Entry where
  /-- The parent producer, or `none` for a blank. -/
  parent : Option Producer
  /-- First frame of the cut. -/
  frame_in : Int
  /-- Last frame of the cut (inclusive). -/
  frame_out : Int
  /-- The "length" property. -/
  length : Int
deriving DecidableEq, Repr

namespace Entry

/-- Modelled from the spec: `is_blank` of a producer (engine, not under src/): a region is
either a blank or a clip instance. -/
def is_blank (e : Entry) : Bool := e.parent.isNone

/-- Modelled from the spec: the number of frames of a region (engine, not under src/),
`frame_out - frame_in + 1`; also `get_playtime` of a cut. -/
def frame_count (e : Entry) : Int := e.frame_out - e.frame_in + 1

/-- Modelled from the spec: the engine's `set_in_and_out` of a producer (not under src/):
the in point is clamped to the producer, the out point of a clip is clamped to its
"length", a blank is unbounded (its "length" grows), and the two are swapped when
they come in the wrong order. -/
def set_in_and_out (e : Entry) (i o : Int) : Entry :=
  let i1 := if i < 0 then 0 else if i ≥ e.length then e.length - 1 else i
  let o1 := if (o < 0 ∨ o ≥ e.length) ∧ e.is_blank = false then e.length - 1 else o
  let len := if (o < 0 ∨ o ≥ e.length) ∧ e.is_blank = true then o + 1 else e.length
  if o1 < i1 then { e with frame_in := o1, frame_out := i1, length := len }
  else { e with frame_in := i1, frame_out := o1, length := len }

/-- Modelled from the spec: the per-entry effect of the engine's `resize_clip` (not under
src/): a blank is first made long enough, then in and out are clamped to the "length"
of the cut, swapped if reversed, and set. -/
def resize (e : Entry) (i o : Int) : Entry :=
  let e1 : Entry := if e.is_blank = true ∧ o - i + 1 > e.length then { e with length := o - i + 1 } else e
  let i1 := if i < 0 then 0 else i
  let o1 := if o < 0 ∨ o ≥ e1.length then e1.length - 1 else o
  if o1 < i1 then e1.set_in_and_out o1 i1 else e1.set_in_and_out i1 o1

/-- Modelled from the spec: the engine's `cut` of a producer (not under src/): a new cut of
the same parent with the given bounds, clamped to the parent's length. -/
def cut (e : Entry) (i o : Int) : Entry :=
  let i1 := if i ≤ 0 then 0 else i
  let o1 := if (o < 0 ∨ o ≥ e.length) ∧ e.is_blank = false then e.length - 1 else o
  e.set_in_and_out i1 o1

/-- Modelled from the spec: a cut `[0, out]` of the playlist's blank producer (engine, not
under src/), a blank region of `out + 1` frames. -/
def blankCut (out : Int) : Entry :=
  { parent := none, frame_in := 0, frame_out := out, length := out + 1 }

end Entry

/-- Modelled from the spec: the engine's playlist (not under src/), an ordered sequence of
regions. -/
abbrev Playlist := List Entry

namespace Playlist

/-- Modelled from the spec: `count` (engine, not under src/): the region count. -/
def count (pl : Playlist) : Int := pl.length

/-- Modelled from the spec: `get_playtime` (engine, not under src/): "total duration of a
track, in frames, equal to the end of its last region". -/
def get_playtime (pl : Playlist) : Int := (pl.map Entry.frame_count).sum

/-- Modelled from the spec: `get_clip` (engine, not under src/): the region at an index, null
when the index is out of range. -/
def get_clip (pl : Playlist) (clip : Int) : Option Entry :=
  if clip < 0 then none else pl[clip.toNat]?

/-- Modelled from the spec: `is_blank` of an index (engine, not under src/); a missing region
counts as blank. -/
def is_blank (pl : Playlist) (clip : Int) : Bool :=
  match get_clip pl clip with
  | none => true
  | some e => e.is_blank

/-- Modelled from the spec: the engine's search for the region holding a position (not under
src/): walk the regions, subtracting each frame count, and stop at the first region
the remaining position falls into. -/
def locate : List Entry → Int → Nat
  | [], _ => 0
  | e :: rest, position =>
    if position < e.frame_count then 0 else locate rest (position - e.frame_count) + 1

/-- Modelled from the spec: `get_clip_index_at` (engine, not under src/): "ordered region
indexing by position"; the result is `count` when the position is past the end. -/
def get_clip_index_at (pl : Playlist) (position : Int) : Int := locate pl position

/-- Modelled from the spec: `clip_start` (engine, not under src/): the sum of the frame
counts of the regions before the index (0 below the range, the playtime above it). -/
def clip_start (pl : Playlist) (clip : Int) : Int :=
  ((pl.take clip.toNat).map Entry.frame_count).sum

/-- Modelled from the spec: `clip_length` (engine, not under src/): the frame count of the
region at the index, 0 when out of range. -/
def clip_length (pl : Playlist) (clip : Int) : Int :=
  match get_clip pl clip with
  | none => 0
  | some e => e.frame_count

/-- Modelled from the spec: the `start` field of the engine's clip info (not under src/),
zeroed when the index is out of range. -/
def info_start (pl : Playlist) (clip : Int) : Int :=
  if clip < 0 ∨ clip ≥ count pl then 0 else clip_start pl clip

/-- Modelled from the spec: the engine's `move` (not under src/): both indices are clamped to
the list, then the entry at `src` is taken out and put back at index `dest`. -/
def move (pl : Playlist) (src dest : Int) : Playlist :=
  let s := (min (max src 0) (count pl - 1)).toNat
  let d := (min (max dest 0) (count pl - 1)).toNat
  match pl[s]? with
  | none => pl
  | some e =>
    if s ≠ d ∧ count pl > 1 then (pl.eraseIdx s).take d ++ e :: (pl.eraseIdx s).drop d
    else pl

/-- Modelled from the spec: `remove` (engine, not under src/): "blank insertion/removal";
drops the region at the index, an error (no change) when out of range. -/
def remove (pl : Playlist) (clip : Int) : Bool × Playlist :=
  if clip < 0 ∨ clip ≥ count pl then (true, pl) else (false, pl.eraseIdx clip.toNat)

/-- Modelled from the spec: `blank` (engine, not under src/): appends a blank whose last frame
is `out`, that is `out + 1` frames; nothing for a negative `out`. -/
def blank (pl : Playlist) (out : Int) : Playlist :=
  if out ≥ 0 then pl ++ [Entry.blankCut out] else pl

/-- Modelled from the spec: `insert_blank` (engine, not under src/): a blank of `out + 1`
frames is appended and moved to the index. -/
def insert_blank (pl : Playlist) (clip : Int) (out : Int) : Playlist :=
  if out ≥ 0 then move (blank pl out) (count (blank pl out) - 1) clip else pl

/-- Modelled from the spec: `append` of a cut (engine, not under src/): the cut becomes the
last region, with its own in and out. -/
def append (pl : Playlist) (producer : Entry) : Playlist := pl ++ [producer]

/-- Modelled from the spec: `insert` of a cut (engine, not under src/): the cut is appended
and moved to the index. -/
def insert (pl : Playlist) (producer : Entry) (clip : Int) : Playlist :=
  move (append pl producer) (count (append pl producer) - 1) clip

/-- Modelled from the spec: `resize_clip` (engine, not under src/): "blank
insertion/removal/resize"; an error (no change) when the index is out of range. -/
def resize_clip (pl : Playlist) (clip : Int) (i o : Int) : Bool × Playlist :=
  if clip < 0 ∨ clip ≥ count pl then (true, pl)
  else
    match pl[clip.toNat]? with
    | none => (true, pl)
    | some e => (false, pl.set clip.toNat (e.resize i o))

/-- Modelled from the spec: the body of the engine's `split` (not under src/) once the
region `entry` at the index and the non-negative relative `position` are known: the
region keeps its first `position + 1` frames and a second cut (of the same producer, or
of the blank) with the remaining frames is inserted after it.  An error (no change)
when the position is not inside the region. -/
def split_entry (pl : Playlist) (clip : Int) (entry : Entry) (position : Int) : Bool × Playlist :=
  if 0 ≤ position ∧ position < entry.frame_count - 1 then
    let i := entry.frame_in
    let o := entry.frame_out
    let pl1 := (resize_clip pl clip i (i + position)).2
    if entry.is_blank = false then
      (false, insert pl1 (entry.cut (i + position + 1) o) (clip + 1))
    else
      (false, insert pl1 (Entry.blankCut (o - position - 1)) (clip + 1))
  else (true, pl)

/-- Modelled from the spec: `split` (engine, not under src/): the region at the index is cut in
two after its relative frame `position` (counted from the end when negative).  An error
(no change) when the index is out of range. -/
def split (pl : Playlist) (clip : Int) (position : Int) : Bool × Playlist :=
  if clip < 0 ∨ clip ≥ count pl then (true, pl)
  else
    match pl[clip.toNat]? with
    | none => (true, pl)
    | some entry =>
      split_entry pl clip entry
        (if position < 0 then entry.frame_count + position - 1 else position)

/-- Modelled from the spec: the merging loop of `consolidate_blanks` (engine, not under src/):
`left` is the region before the cursor; a blank `left` absorbs every blank that
follows it. -/
def mergeFrom (left : Entry) : List Entry → List Entry
  | [] => [left]
  | right :: rest =>
    if left.is_blank = true ∧ right.is_blank = true then
      mergeFrom (left.resize 0 (left.frame_count + right.frame_count - 1)) rest
    else left :: mergeFrom right rest

/-- Modelled from the spec: the first phase of `consolidate_blanks` (engine, not under src/):
every run of adjacent blanks becomes one blank. -/
def merge_blanks : Playlist → Playlist
  | [] => []
  | e :: rest => mergeFrom e rest

/-- Modelled from the spec: `consolidate_blanks` (engine, not under src/): "merging adjacent
blank regions into one"; unless `keep_length` is set, a blank left at the end of the
playlist is removed. -/
def consolidate_blanks (pl : Playlist) (keep_length : Int) : Playlist :=
  if keep_length = 0 ∧ is_blank (merge_blanks pl) (count (merge_blanks pl) - 1) = true then
    (remove (merge_blanks pl) (count (merge_blanks pl) - 1)).2
  else merge_blanks pl

/-- Modelled from the spec: `replace_with_blank` (engine, not under src/): a clip region is
taken out and a blank of the same number of frames is put at its index; the clip is
returned, null when the region is blank or missing. -/
def replace_with_blank (pl : Playlist) (clip : Int) : Option Entry × Playlist :=
  if is_blank pl clip = false then
    match get_clip pl clip with
    | none => (none, pl)
    | some entry =>
      let pl1 := (remove pl clip).2
      let pl2 := blank pl1 (entry.frame_out - entry.frame_in)
      (some entry, move pl2 (count pl2 - 1) clip)
  else (none, pl)

/-- Modelled from the spec: `split_at` with the default `left = true` (engine, not under
src/): splits the region holding `position` so that a region starts at `position`. -/
def split_at (pl : Playlist) (position : Int) : Playlist :=
  if position ≥ 0 ∧ position < get_playtime pl then
    let clip_index := get_clip_index_at pl position
    if position ≠ info_start pl clip_index then
      (split pl clip_index (position - info_start pl clip_index - 1)).2
    else pl
  else pl

/-- Modelled from the spec: the removal loop of `remove_region` (engine, not under src/): while
frames remain, the region at `index` is split if it is longer than what remains, and
removed.  `fuel` bounds the number of iterations. -/
def remove_loop : Nat → Playlist → Int → Int → Playlist
  | 0, pl, _, _ => pl
  | fuel + 1, pl, index, length =>
    if length > 0 then
      let pl1 := if clip_length pl index > length then (split pl index (length - 1)).2 else pl
      remove_loop fuel (remove pl1 index).2 index (length - clip_length pl1 index)
    else pl

/-- Modelled from the spec: `remove_region` (engine, not under src/): removes `length` frames
from `position` on (no more than the playlist holds), whatever the region boundaries,
consolidates, and returns the index of the region now at `position`. -/
def remove_region (pl : Playlist) (position : Int) (length : Int) : Int × Playlist :=
  let index := get_clip_index_at pl position
  if index ≥ 0 ∧ index < count pl then
    let start := clip_start pl index
    let list_length := get_playtime pl
    let length := if position + length > list_length then length - (position + length - list_length) else length
    let r : Int × Playlist :=
      if start < position then (index + 1, (split pl index (position - start - 1)).2) else (index, pl)
    let pl2 := remove_loop (r.2.length + 1) r.2 r.1 length
    let pl3 := consolidate_blanks pl2 0
    (get_clip_index_at pl3 position, pl3)
  else (index, pl)

/-- Modelled from the spec: the first step of `insert_at` (engine, not under src/) on the blank
at index `clip`: unless the position is the start of the blank, the blank is split just
before the position and the cursor moves to the second part.  Returns the cursor and the
playlist. -/
def insert_at_blank_head (pl : Playlist) (position : Int) (clip : Int) : Int × Playlist :=
  if position ≠ info_start pl clip then
    if (split pl clip (position - info_start pl clip - 1)).1 = false then
      (clip + 1, (split pl clip (position - info_start pl clip - 1)).2)
    else (clip, (split pl clip (position - info_start pl clip - 1)).2)
  else (clip, pl)

/-- Modelled from the spec: the branch of `insert_at` (engine, not under src/) for a position
inside the blank at index `clip`: after the first step the blank under the cursor is
split again after the length of the cut (if it is longer), and the part the cut covers
is removed and replaced by the cut. -/
def insert_at_blank (pl : Playlist) (position : Int) (producer : Entry) (clip : Int) :
    Int × Playlist :=
  let length := producer.frame_count
  let r := insert_at_blank_head pl position clip
  let frame_count := if r.1 = clip then clip_length pl clip else clip_length r.2 r.1
  let pl2 := if length < frame_count then (split r.2 r.1 (length - 1)).2 else r.2
  let pl3 := (remove pl2 r.1).2
  (r.1, insert pl3 producer r.1)

/-- Modelled from the spec: the branch of `insert_at` (engine, not under src/) for a position
inside the clip at index `clip`: the cut goes before the clip, or after it when the
position is past the clip's middle; in mode 1 a blank at the target index gives up the
frames the cut needs. -/
def insert_at_clip (pl : Playlist) (position : Int) (producer : Entry) (mode : Int) (clip : Int) :
    Int × Playlist :=
  let length := producer.frame_count
  let clip2 := if position > info_start pl clip + (clip_length pl clip).tdiv 2 then clip + 1 else clip
  let pl2 :=
    if mode = 1 ∧ clip2 < count pl ∧ is_blank pl clip2 = true then
      let pl1 := if length < clip_length pl clip2 then (split pl clip2 length).2 else pl
      (remove pl1 clip2).2
    else pl
  (clip2, insert pl2 producer clip2)

/-- Modelled from the spec: the branch of `insert_at` (engine, not under src/) for a position
past the end (`clip = count`, clip info zeroed): in mode 1 the gap up to the position is
filled with a blank, then the cut is appended. -/
def insert_at_end (pl : Playlist) (position : Int) (producer : Entry) (mode : Int) (clip : Int) :
    Int × Playlist :=
  let pl2 :=
    if mode = 1 then
      if position = info_start pl clip then (remove pl clip).2
      else blank pl (position - get_playtime pl - 1)
    else pl
  (count (append pl2 producer) - 1, append pl2 producer)

/-- Modelled from the spec: `insert_at` (engine, not under src/): puts a cut at a position, on
a blank, on a clip or past the end.  Returns the index of the inserted cut, -1 (no
change) for a negative position. -/
def insert_at (pl : Playlist) (position : Int) (producer : Entry) (mode : Int) : Int × Playlist :=
  if position < 0 then (-1, pl)
  else if get_clip_index_at pl position < count pl ∧
      is_blank pl (get_clip_index_at pl position) = true then
    insert_at_blank pl position producer (get_clip_index_at pl position)
  else if get_clip_index_at pl position < count pl then
    insert_at_clip pl position producer mode (get_clip_index_at pl position)
  else insert_at_end pl position producer mode (get_clip_index_at pl position)

end Playlist

end Mlt

open Mlt Mlt.Playlist

/-- Modelled from the spec: the type `TrackType` (declared outside src/): the kind of a
track. -/
inductive TrackType where
  | AudioTrack
  | VideoTrack
deriving DecidableEq, Repr

/-- The state of a `Track` that the methods read and write: the frame rate `m_fps`, the
wrapped playlist `m_playlist`, the nesting depth of the playlist lock, the payloads of
the `newTrackDuration` signals emitted so far (oldest first), the properties of the
playlist that `track.cpp` reads and writes, and the member `type`. -/
structure Track where
  /-- The member `m_fps`. -/
  m_fps : ℚ
  /-- The member `m_playlist`. -/
  m_playlist : Playlist
  /-- Calls of `m_playlist.lock()` minus calls of `m_playlist.unlock()`. -/
  lockDepth : Int
  /-- Payloads of the emitted `newTrackDuration` signals. -/
  emitted : List Int
  /-- The property "id" of `m_playlist`, the track id used in producer tags. -/
  playlistId : String := ""
  /-- The property "kdenlive:track_name" of `m_playlist`. -/
  trackName : String := ""
  /-- The property "kdenlive:locked_track" of `m_playlist`, read as an integer. -/
  lockedTrack : Int := 0
  /-- The property "hide" of the parent of `m_playlist`, read as an integer. -/
  hide : Int := 0
  /-- The member `type`. -/
  type : TrackType := TrackType.VideoTrack

namespace Double

/-- Modelled from the spec: the exponent of the spacing of the `double` values (IEEE 754
binary64, the arithmetic of the C++ type `double`; not under src/) around `x`: 52 below the
binary exponent of `x`, and -1074 for the subnormal range. -/
def quantumExp (x : ℚ) : Int := max (Int.log 2 |x| - 52) (-1074)

/-- Rounding to the nearest integer, a tie going to the even one. -/
def roundEven (y : ℚ) : Int :=
  if y - ⌊y⌋ < 1 / 2 then ⌊y⌋
  else if 1 / 2 < y - ⌊y⌋ then ⌊y⌋ + 1
  else if ⌊y⌋ % 2 = 0 then ⌊y⌋ else ⌊y⌋ + 1

/-- Modelled from the spec: the conversion of a real number to `double` (IEEE 754 binary64,
round to nearest, ties to even; not under src/): the multiple of the spacing around `x`
that is nearest to `x`; `none` when the result is not finite (2^1024 or more in size). -/
def ofReal (x : ℚ) : Option ℚ :=
  if |(roundEven (x / (2 : ℚ) ^ quantumExp x) : ℚ) * (2 : ℚ) ^ quantumExp x| <
      (2 : ℚ) ^ (1024 : Int) then
    some ((roundEven (x / (2 : ℚ) ^ quantumExp x) : ℚ) * (2 : ℚ) ^ quantumExp x)
  else none

end Double

/-- Modelled from the spec: the C library function `round` (not under src/): the nearest
integer, a half rounds away from zero.  On a `double` the result is exact. -/
def Libm.round (x : ℚ) : Int := if 0 ≤ x then ⌊x + 1 / 2⌋ else ⌈x - 1 / 2⌉

/-- Modelled from the spec: the conversion of a `double` with an integer value to `int`
(C++ on x86-64, not under src/): the value itself when it is in the range of a 32-bit
`int`; for any other value, where C++ leaves the result undefined, the value -2^31 that
the conversion instruction gives. -/
def Libm.toInt (n : Int) : Int :=
  if -2147483648 ≤ n ∧ n ≤ 2147483647 then n else -2147483648

namespace Track

/-- The expression `round(t * m_fps)` of `Track::frame`, returned as `int`, for the frame
rate `fps`: `t` and `fps` stand for the `double` values nearest to them, their product is
the `double` product (the exact product rounded to the nearest `double`), and the rounded
product is converted to `int`.  A product that is not finite converts like a value out of
the range of `int`. -/
def frame_value (t fps : ℚ) : Int :=
  match Double.ofReal t, Double.ofReal fps with
  | some a, some b =>
    match Double.ofReal (a * b) with
    | some p => Libm.toInt (Libm.round p)
    | none => -2147483648
  | _, _ => -2147483648

/-- The method `Track::frame(qreal t)`: `return round(t * m_fps);`. -/
def frame (tr : Track) (t : ℚ) : Int := frame_value t tr.m_fps

/-- The call `m_playlist.lock()`. -/
def lock (tr : Track) : Track := { tr with lockDepth := tr.lockDepth + 1 }

/-- The call `m_playlist.unlock()`. -/
def unlock (tr : Track) : Track := { tr with lockDepth := tr.lockDepth - 1 }

/-- The statement `emit newTrackDuration(m_playlist.get_playtime())`. -/
def emitDuration (tr : Track) : Track :=
  { tr with emitted := tr.emitted ++ [get_playtime tr.m_playlist] }

/-- Replaces the wrapped playlist by the result of an engine call. -/
def withPlaylist (tr : Track) (pl : Playlist) : Track := { tr with m_playlist := pl }

/-- The method `Track::doAdd(qreal t, Mlt::Producer *cut, int mode)`.  In the test
`insert_at(...) == count() - 1` the count is the one after the insertion: the signal is
emitted when the new region is the last one. -/
def doAdd (tr : Track) (t : ℚ) (cut : Entry) (mode : Int) : Bool × Track :=
  let pos := tr.frame t
  let len := cut.frame_out - cut.frame_in + 1
  let pl1 : Playlist :=
    if pos < get_playtime tr.m_playlist ∧ mode > 0 then
      let pl0 :=
        if mode = 1 then (remove_region tr.m_playlist pos len).2
        else if mode = 2 then split_at tr.m_playlist pos
        else tr.m_playlist
      insert_blank pl0 (get_clip_index_at pl0 pos) len
    else tr.m_playlist
  let pl2 := consolidate_blanks pl1 0
  let r := insert_at pl2 (tr.frame t) cut 1
  if r.1 = count r.2 - 1 then (true, (tr.withPlaylist r.2).emitDuration)
  else (true, tr.withPlaylist r.2)

/-- The two overloads of `Track::add`, from the point where the cut has been obtained
from the parent producer (which does not touch the playlist): lock, `doAdd`, unlock. -/
def add (tr : Track) (t : ℚ) (cut : Entry) (mode : Int) : Bool × Track :=
  let r := doAdd tr.lock t cut mode
  (r.1, r.2.unlock)

/-- The method `Track::move(qreal start, qreal end, int mode)`.  The test
`end >= m_playlist.get_playtime()` compares the time `end` with a number of frames, as
in the source. -/
def move (tr : Track) (start «end» : ℚ) (mode : Int) : Bool × Track :=
  let pos := tr.frame start
  let tr1 := tr.lock
  let clipIndex := get_clip_index_at tr1.m_playlist pos
  let durationChanged : Bool := decide (clipIndex = count tr1.m_playlist - 1)
  let r := replace_with_blank tr1.m_playlist clipIndex
  match r.1 with
  | none => (false, (tr1.withPlaylist r.2).unlock)
  | some clipProducer =>
    if clipProducer.is_blank = true then (false, (tr1.withPlaylist r.2).unlock)
    else
      let tr2 := tr1.withPlaylist (consolidate_blanks r.2 0)
      let durationChanged : Bool :=
        if «end» ≥ (get_playtime tr2.m_playlist : ℚ) then false else durationChanged
      let a := doAdd tr2 «end» clipProducer mode
      let tr3 := a.2.unlock
      if durationChanged = true then (a.1, tr3.emitDuration) else (a.1, tr3)

/-- The method `Track::del(qreal t)`. -/
def del (tr : Track) (t : ℚ) : Bool × Track :=
  let tr1 := tr.lock
  let ix := get_clip_index_at tr1.m_playlist (tr1.frame t)
  let durationChanged : Bool := decide (ix = count tr1.m_playlist - 1)
  let r := replace_with_blank tr1.m_playlist ix
  match r.1 with
  | none => (false, (tr1.withPlaylist r.2).unlock)
  | some _ =>
    let tr2 := (tr1.withPlaylist (consolidate_blanks r.2 0)).unlock
    if durationChanged = true then (true, tr2.emitDuration) else (true, tr2)

/-- The method `Track::del(qreal t, qreal dt)`. -/
def del_dt (tr : Track) (t dt : ℚ) : Bool × Track :=
  let tr1 := tr.lock
  let r := remove_region tr1.m_playlist (tr1.frame t) (tr1.frame dt + 1)
  let pl1 := insert_blank r.2 r.1 (tr1.frame dt)
  (true, (tr1.withPlaylist (consolidate_blanks pl1 0)).unlock)

/-- The assignments `clip->parent().set("length", v); clip->set("length", v)` of
`Track::resize`, on the region at `index`. -/
def set_length (pl : Playlist) (index : Int) (v : Int) : Playlist :=
  match get_clip pl index with
  | none => pl
  | some e => pl.set index.toNat { e with length := v }

/-- The method `Track::resize(qreal t, qreal dt, bool end)`. -/
def resize (tr : Track) (t dt : ℚ) («end» : Bool) : Bool × Track :=
  let tr1 := tr.lock
  let index := get_clip_index_at tr1.m_playlist (tr1.frame t)
  let length := tr1.frame dt
  match get_clip tr1.m_playlist index with
  | none => (false, tr1)
  | some clip =>
    if clip.is_blank = true then (false, tr1)
    else
      let in0 := if «end» = true then clip.frame_in else clip.frame_in + length
      let out0 := if «end» = true then clip.frame_out + length else clip.frame_out
      let out1 := if in0 < 0 then out0 - in0 else out0
      let in1 := if in0 < 0 then 0 else in0
      let pl1 := if clip.length < out1 + 1 then set_length tr1.m_playlist index (out1 + 2) else tr1.m_playlist
      let r := resize_clip pl1 index in1 out1
      if r.1 = true then (false, (tr1.withPlaylist r.2).unlock)
      else
        let tr2 := tr1.withPlaylist r.2
        if «end» = true ∧ index + 1 > count tr2.m_playlist - 1 then
          (true, tr2.unlock.emitDuration)
        else
          let index1 := if «end» = true then index + 1 else index
          let length1 := if «end» = true then -length else length
          let pl2 : Playlist :=
            if length1 > 0 then insert_blank tr2.m_playlist index1 (length1 - 1)
            else
              let index2 := if «end» = false then index1 - 1 else index1
              let out2 := clip_length tr2.m_playlist index2 + length1 - 1
              if out2 ≥ 0 then (resize_clip tr2.m_playlist index2 0 out2).2
              else (remove tr2.m_playlist index2).2
          (true, (tr2.withPlaylist (consolidate_blanks pl2 0)).unlock)

/-- The method `Track::cut(qreal t)`.  Copying the effects to the new piece does not
change the region sequence and is left out. -/
def cut (tr : Track) (t : ℚ) : Bool × Track :=
  let pos := tr.frame t
  let tr1 := tr.lock
  let index := get_clip_index_at tr1.m_playlist pos
  if is_blank tr1.m_playlist index = true then (false, tr1)
  else
    let s := split tr1.m_playlist index (pos - clip_start tr1.m_playlist index - 1)
    if s.1 = true then (false, (tr1.withPlaylist s.2).unlock)
    else (true, (tr1.withPlaylist s.2).unlock)

end Track

namespace Mlt

/-- A region is well formed: `0 ≤ in ≤ out < length`, and a blank starts at 0. -/
def Entry.wf (e : Entry) : Prop :=
  0 ≤ e.frame_in ∧ e.frame_in ≤ e.frame_out ∧ e.frame_out < e.length ∧
    (e.is_blank = true → e.frame_in = 0)

instance (e : Entry) : Decidable e.wf := by unfold Entry.wf; infer_instance

/-- Every region of the playlist is well formed. -/
def Playlist.wf (pl : Playlist) : Prop := ∀ e ∈ pl, Entry.wf e

instance (pl : Playlist) : Decidable (Playlist.wf pl) := by unfold Playlist.wf; infer_instance

end Mlt

namespace Track

/-- The playlist on which `doAdd` calls `insert_at`: the blank gap of the overwrite
modes has been inserted and the blanks are consolidated. -/
def doAdd_prepared (tr : Track) (t : ℚ) (c : Entry) (mode : Int) : Playlist :=
  consolidate_blanks
    (if tr.frame t < get_playtime tr.m_playlist ∧ mode > 0 then
      insert_blank
        (if mode = 1 then (remove_region tr.m_playlist (tr.frame t) (c.frame_out - c.frame_in + 1)).2
          else if mode = 2 then split_at tr.m_playlist (tr.frame t)
          else tr.m_playlist)
        (get_clip_index_at
          (if mode = 1 then (remove_region tr.m_playlist (tr.frame t) (c.frame_out - c.frame_in + 1)).2
            else if mode = 2 then split_at tr.m_playlist (tr.frame t)
            else tr.m_playlist) (tr.frame t))
        (c.frame_out - c.frame_in + 1)
    else tr.m_playlist) 0

/-- The track states that a finite sequence of `add`, `move`, `del`, `del_dt`, `resize` and
`cut` calls produces from an empty track.  The cut handed to `add` is a cut of a real
producer: not blank, with `0 ≤ in ≤ out < length`. -/
inductive Reachable : Track → Prop
  | empty (fps : ℚ) :
      Reachable { m_fps := fps, m_playlist := [], lockDepth := 0, emitted := [] }
  | add {tr : Track} (t : ℚ) (c : Entry) (mode : Int) :
      Reachable tr → c.wf → c.is_blank = false → Reachable (tr.add t c mode).2
  | move {tr : Track} (start stop : ℚ) (mode : Int) :
      Reachable tr → Reachable (tr.move start stop mode).2
  | del {tr : Track} (t : ℚ) : Reachable tr → Reachable (tr.del t).2
  | del_dt {tr : Track} (t dt : ℚ) : Reachable tr → Reachable (tr.del_dt t dt).2
  | resize {tr : Track} (t dt : ℚ) (fromEnd : Bool) :
      Reachable tr → Reachable (tr.resize t dt fromEnd).2
  | cut {tr : Track} (t : ℚ) : Reachable tr → Reachable (tr.cut t).2

end Track

/-- A 100-frame cut of an audio/video file. -/
def clipA : Entry :=
  { parent := some { id := "A", service := "avformat", audioIndex := 0 },
    frame_in := 0, frame_out := 99, length := 1000 }

/-- A 10-frame cut of a colour generator. -/
def clipB : Entry :=
  { parent := some { id := "B", service := "color", audioIndex := -1 },
    frame_in := 0, frame_out := 9, length := 1000 }

/-- An empty track at 25 frames per second. -/
def emptyTrack : Track := { m_fps := 25, m_playlist := [], lockDepth := 0, emitted := [] }

/-- A track at 25 frames per second holding `clipA` on frames [0, 100) and `clipB` on
frames [100, 110). -/
def trackAB : Track := { m_fps := 25, m_playlist := [clipA, clipB], lockDepth := 0, emitted := [] }

namespace Mlt.Playlist

/-- No two neighbouring regions of the playlist are both blank. -/
def no_adjacent_blanks (pl : Playlist) : Prop :=
  List.Chain' (fun a b : Entry => ¬(a.is_blank = true ∧ b.is_blank = true)) pl

/-- The last region of the playlist, if there is one, is a clip. -/
def no_trailing_blank (pl : Playlist) : Prop := ∀ e ∈ pl.getLast?, e.is_blank = false

instance (pl : Playlist) : Decidable (no_trailing_blank pl) := by
  unfold no_trailing_blank; infer_instance

/-- The index at which the engine's `move` drops an entry aimed at index `w` of a list of
`n + 1` entries. -/
def clampIdx (w : Int) (n : Nat) : Nat := (min (max w 0) n).toNat

end Mlt.Playlist

/-- A track at 25 frames per second holding `clipA` on frames [0, 100), a blank on frames
[100, 150) and `clipB` on frames [150, 160). -/
def trackGap : Track :=
  { m_fps := 25, m_playlist := [clipA, Entry.blankCut 49, clipB], lockDepth := 0, emitted := [] }

/-- Modelled from the spec: the operations of Qt's `QString` (not under src/) that `track.cpp`
applies to producer ids and service names, on the character lists of the strings. -/
def QString.containsChars : List Char → List Char → Bool
  | [], sub => sub.isEmpty
  | c :: cs, sub => sub.isPrefixOf (c :: cs) || QString.containsChars cs sub

namespace QString

/-- Modelled from the spec: `QString::contains` (Qt, not under src/): `sub` occurs in `s`. -/
def contains (s sub : String) : Bool := containsChars s.data sub.data

/-- Modelled from the spec: `QString::startsWith` (Qt, not under src/). -/
def startsWith (s pre : String) : Bool := pre.data.isPrefixOf s.data

/-- Modelled from the spec: `QString::endsWith` (Qt, not under src/). -/
def endsWith (s suf : String) : Bool := suf.data.isSuffixOf s.data

/-- Modelled from the spec: `QString::section(sep, 0, 0)` (Qt, not under src/): the first
field, that is the string up to its first separator. -/
def section_first (s : String) (sep : Char) : String := ⟨s.data.takeWhile (fun c => c != sep)⟩

/-- What follows the first separator of a character list, if there is a separator. -/
def afterSep (l : List Char) (sep : Char) : Option (List Char) :=
  match l.dropWhile (fun c => c != sep) with
  | [] => none
  | _ :: rest => some rest

/-- Modelled from the spec: `QString::section(sep, 2)` (Qt, not under src/): the fields from
the third one on, that is what follows the second separator; empty when there are fewer
than three fields. -/
def section_from2 (s : String) (sep : Char) : String :=
  match afterSep s.data sep with
  | none => ""
  | some r1 =>
    match afterSep r1 sep with
    | none => ""
    | some r2 => ⟨r2⟩

/-- Modelled from the spec: `QString::remove(0, 1)` (Qt, not under src/): the string without
its first character. -/
def remove_first (s : String) : String := ⟨s.data.drop 1⟩

end QString

/-- Modelled from the spec: the type `PlaylistState::ClipState` (declared outside src/): which
streams of a producer a clip instance uses. -/
inductive ClipState where
  | Original
  | VideoOnly
  | AudioOnly
deriving DecidableEq, Repr

/-- Modelled from the spec: `GenTime::frames(fps)` (class declared outside src/): a time in
seconds as a number of frames, `floor(time * fps + 0.5)`. -/
def GenTime.frames (time fps : ℚ) : Int := ⌊time * fps + 1 / 2⌋

/-- Modelled from the spec: the constructor `GenTime(frames, fps)` (class declared outside
src/): the time in seconds of a number of frames, `frames / fps`. -/
def GenTime.ofFrames (frames : Int) (fps : ℚ) : ℚ := (frames : ℚ) / fps

/-- Modelled from the spec: the fields of `ItemInfo` (declared outside src/) that
`changeClipSpeed` reads, each a `GenTime` in seconds. -/
structure ItemInfo where
  /-- Start of the clip on the track. -/
  startPos : ℚ
  /-- Start of the crop inside the producer. -/
  cropStart : ℚ
  /-- Duration of the crop. -/
  cropDuration : ℚ

/-- Modelled from the spec: the C conversion `(int)x` of a real number (language rule, not
under src/): truncation toward zero. -/
def Libm.trunc (x : ℚ) : Int := if 0 ≤ x then ⌊x⌋ else ⌈x⌉

/-- What `Track::clipProducer` hands back: the parent producer itself, a producer found on
the track under the duplicate's tag, or a fresh clone of the parent. -/
inductive Duplicate where
  | same (p : Entry)
  | found (p : Entry)
  | cloned (p : Entry)
deriving DecidableEq, Repr

/-- The producer that `Track::clipProducer` returns. -/
def Duplicate.producer : Duplicate → Entry
  | .same p => p
  | .found p => p
  | .cloned p => p

/-- True when `Track::clipProducer` created a clone. -/
def Duplicate.isClone : Duplicate → Bool
  | .cloned _ => true
  | _ => false

namespace Mlt

/-- Modelled from the spec: `Properties::get(name)` on a producer (engine, not under src/), for
the two string properties `track.cpp` reads; an unset property is the empty string. -/
def Producer.get (p : Producer) (name : String) : String :=
  if name = "id" then p.id else if name = "mlt_service" then p.service else ""

/-- The expression `p->parent().get(name)` of `track.cpp` on a producer handle or region; the
blank producer has none of the properties read. -/
def Entry.get (e : Entry) (name : String) : String :=
  match e.parent with
  | none => ""
  | some p => p.get name

/-- Modelled from the spec: `Producer::parent()` of a producer handle (engine, not under src/):
the parent producer as a handle of its own, spanning its whole length. -/
def Entry.parentHandle (e : Entry) : Entry :=
  { parent := e.parent, frame_in := 0, frame_out := e.length - 1, length := e.length }

/-- Modelled from the spec: `Clip::clone()` followed by `set("id", id)` and, for an audio-only
duplicate, `set("video_index", -1)` (clip.cpp is not under src/): a new producer with the
properties and the length of the parent of `e`, under a new id. -/
def Entry.cloneWithId (e : Entry) (id : String) (audioOnly : Bool) : Entry :=
  { parent := e.parent.map (fun p =>
      { p with id := id, videoIndex := if audioOnly = true then -1 else p.videoIndex }),
    frame_in := 0, frame_out := e.length - 1, length := e.length }

end Mlt

namespace Track

/-- The method `Track::needsDuplicate(const QString &service)`. -/
def needsDuplicate (service : String) : Bool :=
  QString.contains service "avformat" || QString.contains service "consumer" ||
    QString.contains service "xml"

/-- The method `Track::find(name, value, startindex)`: the first non-blank region from
`startindex` on whose parent producer has the property `name` equal to `value`. -/
def find (tr : Track) (name value : String) (startindex : Int) : Option Entry :=
  (tr.m_playlist.drop startindex.toNat).find? (fun e =>
    e.is_blank = false && decide (value = e.get name))

/-- The tag that `Track::clipProducer` computes for the duplicate of `parent` on this
track: `<rootId>_<trackId>`, with `_audio` appended for an audio-only duplicate. -/
def idForTrack (tr : Track) (originalId : String) (state : ClipState) : String :=
  (QString.section_first originalId '_' ++ "_" ++ tr.playlistId) ++
    (if state = ClipState.AudioOnly then "_audio"
     else if state = ClipState.VideoOnly then "_video" else "")

/-- The method `Track::clipProducer(parent, state, forceCreation)`. -/
def clipProducer (tr : Track) (parent : Entry) (state : ClipState) (forceCreation : Bool) :
    Duplicate :=
  if needsDuplicate (parent.get "mlt_service") = false ∨ state = ClipState.VideoOnly ∨
      QString.endsWith (parent.get "id") "_video" = true then
    Duplicate.same parent
  else
    match (if forceCreation = false then tr.find "id" (tr.idForTrack (parent.get "id") state) 0
           else none) with
    | some prod => Duplicate.found prod.parentHandle
    | none =>
      Duplicate.cloned
        (parent.cloneWithId (tr.idForTrack (parent.get "id") state)
          (decide (state = ClipState.AudioOnly)))

/-- The method `Track::replace(qreal t, Mlt::Producer *prod, PlaylistState::ClipState state)`.
`none` stands for the call that does not return: when no clip is at `frame(t)`,
`replace_with_blank` gives a null pointer that the method dereferences.  The returned
flag is the index given by `insert_at` converted to `bool`. -/
def replace (tr : Track) (t : ℚ) (prod : Entry) (state : ClipState) : Option (Bool × Track) :=
  let tr1 := tr.lock
  let index := get_clip_index_at tr1.m_playlist (tr1.frame t)
  let r := replace_with_blank tr1.m_playlist index
  match r.1 with
  | none => none
  | some orig =>
    let tr2 := tr1.withPlaylist r.2
    let cut :=
      if state ≠ ClipState.VideoOnly then
        (tr2.clipProducer prod state false).producer.cut orig.frame_in orig.frame_out
      else prod.cut orig.frame_in orig.frame_out
    let ins := insert_at tr2.m_playlist (tr2.frame t) cut 1
    some (decide (ins.1 ≠ 0), (tr2.withPlaylist ins.2).unlock)

end Track

namespace QString

/-- Modelled from the spec: `QString::section(sep, 1, 1)` (Qt, not under src/): the second
field, that is what stands between the first separator and the next one; empty when there
is no separator. -/
def section_second (s : String) (sep : Char) : String :=
  match afterSep s.data sep with
  | none => ""
  | some r => ⟨r.takeWhile (fun c => c != sep)⟩

/-- Modelled from the spec: `QString::number(int)` (Qt, not under src/): the decimal digits of
an integer. -/
def number (n : Int) : String := toString n

end QString

namespace Mlt

/-- Modelled from the spec: `Properties::get_int(name)` on a producer (engine, not under src/),
for the two integer properties `track.cpp` reads; an unset property is 0. -/
def Producer.get_int (p : Producer) (name : String) : Int :=
  if name = "audio_index" then p.audioIndex
  else if name = "video_index" then p.videoIndex else 0

/-- The expression `p->parent().get_int(name)` of `track.cpp` on a producer handle or region. -/
def Entry.get_int (e : Entry) (name : String) : Int :=
  match e.parent with
  | none => 0
  | some p => p.get_int name

/-- Modelled from the spec: `Properties::set("id", value)` on a producer handle (engine, not
under src/). -/
def Entry.setId (e : Entry) (id : String) : Entry :=
  { e with parent := e.parent.map (fun p => { p with id := id }) }

end Mlt

namespace Track

/-- The decision that the loop body of `Track::replaceAll` takes for the clip region `p`:
`some (some cut)` when the region is to be replaced by `cut`, `some none` when the region
is left alone (a `continue`, or no case applies and `cut` stays null), and `none` when the
body dereferences a null `videoOnlyProducer`.  `newSlowMos` maps a slowmotion id to its
replacement producer, `none` for one that is absent or invalid.  The producers
`trackProducer` and `audioTrackProducer`, which the method creates on first use and keeps
for the later regions, are the values `original.cloneWithId idForTrack false` and
`clipProducer(original, AudioOnly, true)`. -/
def replaceAll_cut (tr : Track) (id : String) (original : Entry) (videoOnlyProducer : Option Entry)
    (newSlowMos : String → Option Entry) (p : Entry) : Option (Option Entry) :=
  let service := original.get "mlt_service"
  let idForAudioTrack :=
    if needsDuplicate service = true then original.get "id" ++ "_" ++ tr.playlistId ++ "_audio"
    else ""
  let idForVideoTrack :=
    if needsDuplicate service = true then original.get "id" ++ "_" ++ tr.playlistId ++ "_video"
    else ""
  let idForTrack :=
    if needsDuplicate service = true then original.get "id" ++ "_" ++ tr.playlistId
    else original.get "id"
  if QString.startsWith (p.get "id") "#" = false then some none
  else
    let current := QString.remove_first (p.get "id")
    if QString.startsWith current ("slowmotion:" ++ id ++ ":") = true then
      match newSlowMos (QString.section_from2 current ':') with
      | none => some none
      | some slowProd => some (some (slowProd.cut p.frame_in p.frame_out))
    else if idForAudioTrack.isEmpty = true then
      if current = idForTrack then some (some (original.cut p.frame_in p.frame_out))
      else some none
    else if p.get_int "audio_index" = -1 ∧ current = id then
      some (some (original.cut p.frame_in p.frame_out))
    else if current = idForTrack then
      some (some ((original.cloneWithId idForTrack false).cut p.frame_in p.frame_out))
    else if current = idForAudioTrack then
      some (some ((tr.clipProducer original ClipState.AudioOnly true).producer.cut
        p.frame_in p.frame_out))
    else if current = idForVideoTrack then
      match videoOnlyProducer with
      | none => none
      | some v => some (some (v.cut p.frame_in p.frame_out))
    else some none

/-- The loop `for (int i = 0; i < m_playlist.count(); i++)` of `Track::replaceAll`, from the
index `i` on, with the flag `found` so far.  The first argument bounds the number of
iterations; the loop never needs more than `count - i` of them. -/
def replaceAll_loop (tr : Track) (id : String) (original : Entry)
    (videoOnlyProducer : Option Entry) (newSlowMos : String → Option Entry) :
    Nat → Int → Playlist → Bool → Option (Bool × Playlist)
  | 0, _, pl, found => some (found, pl)
  | fuel + 1, i, pl, found =>
    if i < count pl then
      if is_blank pl i = true then
        replaceAll_loop tr id original videoOnlyProducer newSlowMos fuel (i + 1) pl found
      else
        match get_clip pl i with
        | none => replaceAll_loop tr id original videoOnlyProducer newSlowMos fuel (i + 1) pl found
        | some p =>
          match replaceAll_cut tr id original videoOnlyProducer newSlowMos p with
          | none => none
          | some none =>
            replaceAll_loop tr id original videoOnlyProducer newSlowMos fuel (i + 1) pl found
          | some (some cut) =>
            replaceAll_loop tr id original videoOnlyProducer newSlowMos fuel (i + 1)
              (consolidate_blanks (insert (remove pl i).2 cut i) 0) true
    else some (found, pl)

/-- The method `Track::replaceAll(id, original, videoOnlyProducer, newSlowMos)`.  `none`
stands for the call that does not return (a null `videoOnlyProducer` is dereferenced). -/
def replaceAll (tr : Track) (id : String) (original : Entry) (videoOnlyProducer : Option Entry)
    (newSlowMos : String → Option Entry) : Option (Bool × Track) :=
  match replaceAll_loop tr id original videoOnlyProducer newSlowMos tr.m_playlist.length 0
      tr.m_playlist false with
  | none => none
  | some r => some (r.1, tr.withPlaylist r.2)

/-- The block `if (!prod || !prod->is_valid()) { prod = new Mlt::Producer(...); ... }` of
`Track::changeClipSpeed`: the producer passed in when it is usable (`prod = none` stands
for a null or invalid one), else the newly created "framebuffer" producer `created` with
its id set, and `none` when the created producer is invalid (`created = none`).  The
other properties set on the new producer and the signal `storeSlowMotion` are not part of
the model. -/
def slowmotionProducer (prod created : Option Entry) (producerid : String) : Option Entry :=
  match prod with
  | some p => some p
  | none =>
    match created with
    | none => none
    | some p => some (p.setId producerid)

/-- The statements `replace_with_blank(clipIndex); consolidate_blanks(0);` shared by the
three branches of `Track::changeClipSpeed`. -/
def changeClipSpeed_clear (pl : Playlist) (clipIndex : Int) : Playlist :=
  consolidate_blanks (replace_with_blank pl clipIndex).2 0

/-- The statements `insert_at(startPos, cut, 1); clipIndex = get_clip_index_at(startPos);
newLength = clip_length(clipIndex); unlock();` shared by the three branches of
`Track::changeClipSpeed`, on the locked track `tr` with the playlist `pl`. -/
def changeClipSpeed_place (tr : Track) (pl : Playlist) (startPos : Int) (cut : Entry) :
    Int × Track :=
  let pl2 := (insert_at pl startPos cut 1).2
  (clip_length pl2 (get_clip_index_at pl2 startPos), (tr.withPlaylist pl2).unlock)

/-- The method `Track::changeClipSpeed(info, speedIndependantInfo, speed, strobe, prod,
passProps, needsDuplicate)`: the returned `int` and the track after the call.  `prod = none`
is a null or invalid producer argument; `created` is what `new Mlt::Producer(profile, 0,
"framebuffer:" + url)` yields, `none` when that producer is invalid; `speedText` is the
text `locale.toString(speed)`.  The arithmetic on `double` is exact arithmetic on
rationals and `int` is unbounded.  The arguments `passProps` and `needsDuplicate` do not
reach the playlist. -/
def changeClipSpeed (tr : Track) (info speedIndependantInfo : ItemInfo) (speed : ℚ)
    (strobe : Int) (prod created : Option Entry) (speedText : String) : Int × Track :=
  let startPos := GenTime.frames info.startPos tr.m_fps
  let clipIndex := get_clip_index_at tr.m_playlist startPos
  let clipLength := clip_length tr.m_playlist clipIndex
  match get_clip tr.m_playlist clipIndex with
  | none => (-1, tr)
  | some original =>
    if original.is_blank = true then (-1, tr)
    else
      let speed1 : ℚ := if speed ≤ 0 ∧ speed > -1 then 1 else speed
      let serv := original.get "mlt_service"
      let id := QString.section_first (original.get "id") '_'
      let strobeText := if strobe > 1 then ":" ++ QString.number strobe else ""
      if QString.contains serv "avformat" = true then
        if speed1 ≠ 1 ∨ strobe > 1 then
          let tr1 := tr.lock
          match slowmotionProducer prod created
              ("slowmotion:" ++ id ++ ":" ++ speedText ++ strobeText) with
          | none => (-1, tr1)
          | some p =>
            let pl1 := changeClipSpeed_clear tr1.m_playlist clipIndex
            let clipIndex1 := get_clip_index_at pl1 startPos
            let blankEnd := clip_start pl1 clipIndex1 + clip_length pl1 clipIndex1
            let cropStart := GenTime.frames info.cropStart tr.m_fps
            let cut :=
              if clipIndex1 + 1 < count pl1 ∧
                  (startPos : ℚ) + (clipLength : ℚ) / speed1 > (blankEnd : ℚ) then
                let maxLength := GenTime.ofFrames blankEnd tr.m_fps - info.startPos
                p.cut (Libm.trunc ((cropStart : ℚ) / speed1))
                  (Libm.trunc ((cropStart : ℚ) / speed1 + GenTime.frames maxLength tr.m_fps - 1))
              else
                p.cut (Libm.trunc ((cropStart : ℚ) / speed1))
                  (Libm.trunc (((cropStart : ℚ) + clipLength) / speed1 - 1))
            changeClipSpeed_place tr1 pl1 startPos cut
        else
          let tr1 := tr.lock
          let pl1 := changeClipSpeed_clear tr1.m_playlist clipIndex
          let clipIndex1 := get_clip_index_at pl1 startPos
          let blankEnd := clip_start pl1 clipIndex1 + clip_length pl1 clipIndex1
          match slowmotionProducer prod created
              ("slowmotion:" ++ id ++ ":" ++ speedText ++ strobeText) with
          | none => (-1, tr1.withPlaylist pl1)
          | some p =>
            let originalStart := GenTime.frames speedIndependantInfo.cropStart tr.m_fps
            let cut :=
              if clipIndex1 + 1 < count pl1 ∧
                  GenTime.frames (info.startPos + speedIndependantInfo.cropDuration) tr.m_fps >
                    blankEnd then
                let maxLength := GenTime.ofFrames blankEnd tr.m_fps - info.startPos
                p.cut originalStart (originalStart + GenTime.frames maxLength tr.m_fps - 1)
              else
                p.cut originalStart
                  (originalStart + GenTime.frames speedIndependantInfo.cropDuration tr.m_fps - 1)
            changeClipSpeed_place tr1 pl1 startPos cut
      else if serv = "framebuffer" then
        let tr1 := tr.lock
        match slowmotionProducer prod created
            ("slowmotion:" ++ QString.section_second id ':' ++ ":" ++ speedText ++ strobeText) with
        | none => (-1, tr1)
        | some p =>
          let pl1 := changeClipSpeed_clear tr1.m_playlist clipIndex
          let duration :=
            Libm.trunc ((GenTime.frames speedIndependantInfo.cropDuration tr.m_fps : ℚ) / speed1)
          let originalStart :=
            Libm.trunc ((GenTime.frames speedIndependantInfo.cropStart tr.m_fps : ℚ) / speed1)
          let clipIndex1 := get_clip_index_at pl1 startPos
          let blankEnd := clip_start pl1 clipIndex1 + clip_length pl1 clipIndex1
          let cut :=
            if clipIndex1 + 1 < count pl1 ∧ startPos + duration > blankEnd then
              let maxLength := GenTime.ofFrames blankEnd tr.m_fps - info.startPos
              p.cut originalStart (originalStart + GenTime.frames maxLength tr.m_fps - 1)
            else p.cut originalStart (originalStart + duration - 1)
          changeClipSpeed_place tr1 pl1 startPos cut
      else (0, tr)

end Track

/-- A one-frame cut (source frame 2) of the audio/video file of `clipA`. -/
def clipF : Entry :=
  { parent := some { id := "A", service := "avformat", audioIndex := 0 },
    frame_in := 2, frame_out := 2, length := 1000 }

/-- A slowmotion producer of 1000 frames, as a handle spanning all of it. -/
def slowS : Entry :=
  { parent := some { id := "slowmotion:A:2", service := "framebuffer", audioIndex := 0 },
    frame_in := 0, frame_out := 999, length := 1000 }

/-- A track at 25 frames per second holding `clipF` on frame 0 and `clipB` on frames
[1, 11). -/
def trackFB : Track := { m_fps := 25, m_playlist := [clipF, clipB], lockDepth := 0, emitted := [] }

/-- A track at 25 frames per second holding the first ten frames of `slowS` on frames
[0, 10) and `clipB` on frames [10, 20). -/
def trackSB : Track :=
  { m_fps := 25, m_playlist := [{ slowS with frame_out := 9 }, clipB], lockDepth := 0,
    emitted := [] }

namespace Track

/-- The region that `Track::replaceAll` leaves at the place of the region `p` when the loop
body is run on it: the cut chosen by the body, or `p` itself. -/
def replaceAll_region (tr : Track) (id : String) (original : Entry)
    (videoOnlyProducer : Option Entry) (newSlowMos : String → Option Entry) (p : Entry) : Entry :=
  if p.is_blank = true then p
  else
    match replaceAll_cut tr id original videoOnlyProducer newSlowMos p with
    | some (some cut) => cut
    | _ => p

/-- True when the loop body of `Track::replaceAll`, run on the region `p`, re-cuts it
against a replacement producer (and sets `found`). -/
def replaceAll_recut (tr : Track) (id : String) (original : Entry)
    (videoOnlyProducer : Option Entry) (newSlowMos : String → Option Entry) (p : Entry) : Bool :=
  if p.is_blank = true then false
  else
    match replaceAll_cut tr id original videoOnlyProducer newSlowMos p with
    | some (some _) => true
    | _ => false

end Track

/-- A cut [10, 59] of a producer marked for replacement, whose id is "#A". -/
def clipMarked : Entry :=
  { parent := some { id := "#A", service := "color", audioIndex := -1 },
    frame_in := 10, frame_out := 59, length := 1000 }

/-- A track at 25 frames per second holding `clipMarked` on frames [0, 50) and `clipB` on
frames [50, 60). -/
def trackMarked : Track :=
  { m_fps := 25, m_playlist := [clipMarked, clipB], lockDepth := 0, emitted := [] }

/-- A colour generator with the id "A", the producer that replaces the one of `clipMarked`. -/
def prodA : Entry :=
  { parent := some { id := "A", service := "color", audioIndex := -1 },
    frame_in := 0, frame_out := 999, length := 1000 }

namespace Mlt

/-- What the track shows at one frame position: a frame of a producer, or nothing (a
blank). -/
abbrev Frame := Option (Producer × Int)

/-- The frames a region shows, in order: the frames `frame_in .. frame_out` of its parent
producer, or as many empty frames for a blank. -/
def Entry.frames (e : Entry) : List Frame :=
  (List.range e.frame_count.toNat).map
    (fun (k : Nat) => e.parent.map (fun p => (p, e.frame_in + (k : Int))))

/-- The frames a playlist shows, position by position. -/
def Playlist.frames : Playlist → List Frame
  | [] => []
  | e :: rest => e.frames ++ Playlist.frames rest

/-- The position `p` does not fall strictly inside a clip region: it is a region boundary,
lies inside a blank, or lies outside the playlist. -/
def Playlist.softBoundary : Playlist → Int → Prop
  | [], _ => True
  | e :: rest, p =>
    if p < e.frame_count then 0 < p → e.is_blank = true
    else Playlist.softBoundary rest (p - e.frame_count)

end Mlt

namespace Mlt

/-- Modelled from the spec: the expression `p->get(name)` of `track.cpp` on the region `p` that
`get_clip` returns (engine, not under src/).  The spec gives a region the properties of
the producer that it shows; a blank has none of the properties read. -/
def Entry.region_get (e : Entry) (name : String) : String := e.get name

/-- Modelled from the spec: the expression `p->get_int(name)` of `track.cpp` on the region `p`
that `get_clip` returns (engine, not under src/), as `Entry.region_get`. -/
def Entry.region_get_int (e : Entry) (name : String) : Int := e.get_int name

end Mlt

/-- Modelled from the spec: the fields of `TrackInfo` (declared outside src/) that
`Track::info` and `Track::setInfo` read and write; the field `effectsList` is not part of
the model. -/
structure TrackInfo where
  /-- The kind of the track. -/
  type : TrackType
  /-- The name of the track. -/
  trackName : String
  /-- The track is muted. -/
  isMute : Bool
  /-- The track is hidden. -/
  isBlind : Bool
  /-- The track is locked. -/
  isLocked : Bool
deriving DecidableEq, Repr

namespace Track

/-- The method `Track::info()`.  The conversions of an `int` to `bool` are tests for a
value other than 0; `&` is the bitwise and. -/
def info (tr : Track) : TrackInfo :=
  { trackName := tr.trackName,
    isLocked := decide (tr.lockedTrack ≠ 0),
    isMute := decide (Int.land tr.hide 2 ≠ 0),
    isBlind := decide (Int.land tr.hide 1 ≠ 0),
    type := tr.type }

/-- The method `Track::setInfo(TrackInfo info)`.  A property keeps the value that is set:
the conversion of the name with `toUtf8().constData()` and back is taken as lossless. -/
def setInfo (tr : Track) (info : TrackInfo) : Track :=
  { tr with
    trackName := info.trackName,
    lockedTrack := if info.isLocked = true then 1 else 0,
    hide :=
      if info.isMute = true then (if info.isBlind = true then 3 else 2)
      else if info.isBlind = true then 1 else 0,
    type := info.type }

/-- The method `Track::state()`. -/
def state (tr : Track) : Int := tr.hide

/-- The method `Track::setState(int state)`. -/
def setState (tr : Track) (state : Int) : Track := { tr with hide := state }

/-- The method `Track::getBlankLength(int pos, bool fromBlankStart)`. -/
def getBlankLength (tr : Track) (pos : Int) (fromBlankStart : Bool) : Int :=
  let clipIndex := get_clip_index_at tr.m_playlist pos
  if clipIndex = count tr.m_playlist then -1
  else if is_blank tr.m_playlist clipIndex = false then 0
  else if fromBlankStart = true then clip_length tr.m_playlist clipIndex
  else clip_length tr.m_playlist clipIndex + clip_start tr.m_playlist clipIndex - pos

/-- The loop `for (int i = 0; i < m_playlist.count(); i++)` of `Track::hasAudio`, from the
index `i` on.  The first argument bounds the number of iterations; the loop never needs
more than `count - i` of them. -/
def hasAudio_loop (pl : Playlist) : Nat → Int → Bool
  | 0, _ => false
  | fuel + 1, i =>
    if i < count pl then
      if is_blank pl i = true then hasAudio_loop pl fuel (i + 1)
      else
        match get_clip pl i with
        | none => hasAudio_loop pl fuel (i + 1)
        | some p =>
          if p.region_get "mlt_service" = "xml" ∨ p.region_get "mlt_service" = "consumer" ∨
              p.region_get_int "audio_index" > -1 then true
          else hasAudio_loop pl fuel (i + 1)
    else false

/-- The method `Track::hasAudio()`. -/
def hasAudio (tr : Track) : Bool := hasAudio_loop tr.m_playlist tr.m_playlist.length 0

/-- The test of `Track::replaceId` on the id `current` of a producer: it is `id`, one of
the three tags `id_<trackId>`, `id_<trackId>_audio`, `id_<trackId>_video`, or it starts
with "slowmotion:" + id + ":". -/
def replaceId_matches (id playlistId current : String) : Bool :=
  decide (current = id) || decide (current = id ++ "_" ++ playlistId) ||
    decide (current = id ++ "_" ++ playlistId ++ "_audio") ||
    decide (current = id ++ "_" ++ playlistId ++ "_video") ||
    QString.startsWith current ("slowmotion:" ++ id ++ ":")

end Track

/-- The playlist as `Track::replaceId` sees it.  The method reads and writes the id of the
parent producer of each region, and a producer is an object that several regions may be
cuts of: `producers` holds the producer objects, and `regions` gives for each region the
index of its producer in `producers`, `none` for a blank.  `playlistId` is the property
"id" of the playlist. -/
structure SharedTrack where
  /-- The producer objects. -/
  producers : List Producer
  /-- For each region the index of its parent producer, `none` for a blank. -/
  regions : List (Option Nat)
  /-- The property "id" of the playlist. -/
  playlistId : String

namespace SharedTrack

/-- The body of the loop of `Track::replaceId` for one region: a blank is skipped; if the
id of the parent producer passes the test, "#" is prepended to it and set on the
producer. -/
def replaceId_step (id playlistId : String) (producers : List Producer) (region : Option Nat) :
    List Producer :=
  match region with
  | none => producers
  | some k =>
    match producers[k]? with
    | none => producers
    | some p =>
      if Track.replaceId_matches id playlistId p.id = true then
        producers.set k { p with id := "#" ++ p.id }
      else producers

/-- The method `Track::replaceId(const QString &id)`: the loop body is run on the regions in
order. -/
def replaceId (tr : SharedTrack) (id : String) : SharedTrack :=
  { tr with producers := tr.regions.foldl (replaceId_step id tr.playlistId) tr.producers }

end SharedTrack

/-- Modelled from the spec: the splitting loop of `QString::split` (Qt, not under src/) for a
separator that is not empty, on character lists: `acc` holds the current piece in
reverse, `skip` the number of characters of a separator still to be passed over. -/
def QString.splitChars (sep : List Char) : List Char → List Char → Nat → List (List Char)
  | [], acc, _ => [acc.reverse]
  | _ :: cs, acc, skip + 1 => QString.splitChars sep cs acc skip
  | c :: cs, acc, 0 =>
    if sep.isPrefixOf (c :: cs) = true then
      acc.reverse :: QString.splitChars sep cs [] (sep.length - 1)
    else QString.splitChars sep cs (c :: acc) 0

/-- Modelled from the spec: the search loop of `QString::indexOf` (Qt, not under src/) on
character lists, `k` being the index of the head of the list. -/
def QString.indexOfChars (sub : List Char) : List Char → Nat → Int
  | [], k => if sub.isEmpty = true then (k : Int) else -1
  | c :: cs, k =>
    if sub.isPrefixOf (c :: cs) = true then (k : Int) else QString.indexOfChars sub cs (k + 1)

namespace QString

/-- Modelled from the spec: `QString::split(sep)` (Qt, not under src/) for a separator that is
not empty: the pieces between the occurrences of the separator, empty pieces included. -/
def split (s sep : String) : List String := (splitChars sep.data s.data [] 0).map String.mk

/-- Modelled from the spec: `QString::indexOf(sub)` (Qt, not under src/): the index of the first
occurrence of `sub`, -1 when there is none. -/
def indexOf (s sub : String) : Int := indexOfChars sub.data s.data 0

/-- Modelled from the spec: `QChar::isSpace` (Qt, not under src/), for the ASCII white space
characters. -/
def isSpace (c : Char) : Bool :=
  c = ' ' || c = '\t' || c = '\n' || c = '\x0b' || c = '\x0c' || c = '\r'

/-- Modelled from the spec: `QString::simplified()` (Qt, not under src/): white space is removed
at both ends and every run of white space inside becomes one space. -/
def simplified (s : String) : String :=
  ⟨List.intercalate [' '] ((List.splitOnP isSpace s.data).filter (fun w => !w.isEmpty))⟩

/-- Modelled from the spec: `QString::remove(0, n)` (Qt, not under src/): the string without
its first `n` characters. -/
def remove_front (s : String) (n : Nat) : String := ⟨s.data.drop n⟩

/-- Modelled from the spec: `QString::toLower()` (Qt, not under src/), for the ASCII
letters. -/
def toLower (s : String) : String := ⟨s.data.map Char.toLower⟩

/-- The value of a list of decimal digits. -/
def digitsValue (l : List Char) : Nat := l.foldl (fun acc c => 10 * acc + (c.toNat - 48)) 0

/-- A character list without the white space at its two ends. -/
def trimChars (l : List Char) : List Char :=
  ((l.dropWhile isSpace).reverse.dropWhile isSpace).reverse

/-- Modelled from the spec: `QString::toInt()` (Qt, not under src/): the value of a decimal
number with an optional sign, white space at the two ends being ignored; 0 when the
string is not such a number or the value is not a 32-bit `int`. -/
def toInt (s : String) : Int :=
  let t := trimChars s.data
  let digits := if t.head? = some '-' ∨ t.head? = some '+' then t.tail else t
  if digits ≠ [] ∧ digits.all Char.isDigit = true then
    let v : Int :=
      if t.head? = some '-' then -(digitsValue digits : Int) else (digitsValue digits : Int)
    if -2147483648 ≤ v ∧ v ≤ 2147483647 then v else 0
  else 0

end QString

namespace AbstractPythonInterface

/-- Modelled from the spec: the macro `QT_VERSION_CHECK(major, minor, patch)` (Qt, not under
src/): `((major<<16)|(minor<<8)|(patch))`, on integers without a width. -/
def QT_VERSION_CHECK (major minor patch : Int) : Int :=
  Int.lor (Int.lor (major <<< (16 : Int)) (minor <<< (8 : Int))) patch

/-- The method `AbstractPythonInterface::versionToInt(const QString &version)`. -/
def versionToInt (version : String) : Int :=
  let v := QString.split version "."
  QT_VERSION_CHECK
    (if v.length > 0 then QString.toInt (v.getD 0 "") else 0)
    (if v.length > 1 then QString.toInt (v.getD 1 "") else 0)
    (if v.length > 2 then QString.toInt (v.getD 2 "") else 0)

/-- The assignment `(*m_versions)[key] = value` and the call `m_versions->insert(key, value)`
on the map `m_versions`, kept as a list of pairs: the value of an existing key is replaced,
a new key is added. -/
def mapInsert (m : List (String × String)) (key value : String) : List (String × String) :=
  if m.any (fun kv => decide (kv.1 = key)) = true then
    m.map (fun kv => if kv.1 = key then (key, value) else kv)
  else m ++ [(key, value)]

/-- The loop `for (int i = 0; i < raw.count(); i++)` of
`AbstractPythonInterface::checkVersions`, from the index `i` on, with the list `versions`
and the map `m_versions` so far.  `none` stands for a run that reads `raw.at(i + 1)` with
`i + 1` out of range.  The first argument bounds the number of iterations; the loop never
needs more than `count - i` of them. -/
def checkVersions_loop (raw : List String) :
    Nat → Nat → List String × List (String × String) → Option (List String × List (String × String))
  | 0, _, st => some st
  | fuel + 1, i, st =>
    if i < raw.length then
      if QString.indexOf (raw.getD i "") "Name:" > -1 then
        match raw[i + 1]? with
        | none => none
        | some version0 =>
          checkVersions_loop raw fuel (i + 1)
            (st.1 ++
              [QString.section_second (QString.simplified
                  (if QString.indexOf (raw.getD i "") "Name:" ≠ 0 then
                    QString.remove_front (raw.getD i "")
                      (QString.indexOf (raw.getD i "") "Name:").toNat
                  else raw.getD i "")) ' ' ++ " " ++
                QString.section_first (QString.simplified version0) ' '],
              mapInsert st.2
                (QString.toLower (QString.section_second (QString.simplified
                  (if QString.indexOf (raw.getD i "") "Name:" ≠ 0 then
                    QString.remove_front (raw.getD i "")
                      (QString.indexOf (raw.getD i "") "Name:").toNat
                  else raw.getD i "")) ' '))
                (QString.section_first (QString.simplified version0) ' '))
      else checkVersions_loop raw fuel (i + 1) st
    else some st

/-- The method `AbstractPythonInterface::checkVersions(bool signalOnResult)`, given the value
of `installDisabled()` and the text `output` that `runPackageScript("--details")`
returned: the map `m_versions` after the call and the payload of the signal
`checkVersionsResult` if it is emitted.  `none` stands for a run that reads `raw.at(i + 1)`
out of range. -/
def checkVersions (installDisabled : Bool) (output : String) (m_versions : List (String × String))
    (signalOnResult : Bool) : Option (List (String × String) × Option (List String)) :=
  if installDisabled = true then some (m_versions, none)
  else if output.isEmpty = true then some (m_versions, none)
  else
    match checkVersions_loop (QString.split output "Version: ")
        (QString.split output "Version: ").length 0 ([], m_versions) with
    | none => none
    | some r => some (r.2, if signalOnResult = true then some r.1 else none)

end AbstractPythonInterface

/-- A 10-frame cut of a second colour generator. -/
def clipC : Entry :=
  { parent := some { id := "C", service := "color", audioIndex := -1 },
    frame_in := 0, frame_out := 9, length := 1000 }

namespace VersionSpec

/-- The version string that the claim on `versionToInt` speaks of, made of its components:
the components in order with a dot between neighbours. -/
def versionString : List String → String
  | [] => ""
  | [s] => s
  | s :: t :: r => s ++ "." ++ versionString (t :: r)

/-- A decimal component in 0..255: a string of decimal digits, not empty, whose value is at
most 255. -/
def isComponent (s : String) : Prop :=
  s.data ≠ [] ∧ (∀ c ∈ s.data, c.isDigit = true) ∧ QString.digitsValue s.data ≤ 255

instance (s : String) : Decidable (isComponent s) := by unfold isComponent; infer_instance

/-- The triple (major, minor, patch) of a list of components, a missing component counting
as 0. -/
def triple (cs : List String) : Nat × Nat × Nat :=
  ((cs[0]?.map (fun s => QString.digitsValue s.data)).getD 0,
   (cs[1]?.map (fun s => QString.digitsValue s.data)).getD 0,
   (cs[2]?.map (fun s => QString.digitsValue s.data)).getD 0)

/-- The lexicographic order on triples: `a` precedes `b`. -/
def precedes (a b : Nat × Nat × Nat) : Prop :=
  a.1 < b.1 ∨ (a.1 = b.1 ∧ (a.2.1 < b.2.1 ∨ (a.2.1 = b.2.1 ∧ a.2.2 < b.2.2)))

instance (a b : Nat × Nat × Nat) : Decidable (precedes a b) := by unfold precedes; infer_instance

end VersionSpec

/-- A track at 25 frames per second holding `clipA` on frames [0, 100), a blank on frames
[100, 125) and `clipB` on frames [125, 135): the clip at frame 125 is the last region. -/
def trackLate : Track :=
  { m_fps := 25, m_playlist := [clipA, Entry.blankCut 24, clipB], lockDepth := 0, emitted := [] }

/-- The track of `trackMarked` followed by a blank of 5 frames: `clipMarked` on frames
[0, 50), `clipB` on frames [50, 60) and a blank on frames [60, 65). -/
def trackMarkedTail : Track :=
  { m_fps := 25, m_playlist := [clipMarked, clipB, Entry.blankCut 4], lockDepth := 0,
    emitted := [] }

/-- A track holding `clipMarked` on frames [0, 50), two blanks next to each other on frames
[50, 55) and [55, 58), and `clipB` on frames [58, 68). -/
def trackMarkedGap : Track :=
  { m_fps := 25, m_playlist := [clipMarked, Entry.blankCut 4, Entry.blankCut 2, clipB],
    lockDepth := 0, emitted := [] }

/-- A 10-frame cut of the video-only duplicate of the file "A" for the track with the id
"", marked for replacement: its id is "#A__video". -/
def clipMarkedVideo : Entry :=
  { parent := some { id := "#A__video", service := "avformat", audioIndex := 0 },
    frame_in := 0, frame_out := 9, length := 1000 }

/-- A track holding `clipMarkedVideo` on frames [0, 10) and `clipB` on frames [10, 20). -/
def trackMarkedVideo : Track :=
  { m_fps := 25, m_playlist := [clipMarkedVideo, clipB], lockDepth := 0, emitted := [] }

namespace Double

theorem roundEven_int (n : Int) : roundEven (n : ℚ) = n := by
  unfold roundEven
  rw [Int.floor_intCast, sub_self, if_pos (by norm_num)]

theorem roundEven_of_lt {y : ℚ} {n : Int} (h : |y - n| < 1 / 2) : roundEven y = n := by
  have h1 := abs_lt.1 h
  have hf1 : ((⌊y⌋ : Int) : ℚ) ≤ y := Int.floor_le y
  have hf2 : y < ((⌊y⌋ : Int) : ℚ) + 1 := Int.lt_floor_add_one y
  unfold roundEven
  by_cases hn : y < n
  · have hfl : ⌊y⌋ = n - 1 := by
      rw [Int.floor_eq_iff]
      push_cast
      constructor <;> linarith [h1.1, h1.2]
    rw [hfl]
    push_cast
    rw [if_neg (by linarith [h1.1]), if_pos (by linarith [h1.1])]
    omega
  · have hfl : ⌊y⌋ = n := by
      rw [Int.floor_eq_iff]
      constructor <;> linarith [h1.1, h1.2]
    rw [hfl, if_pos (by linarith [h1.2])]

theorem abs_roundEven_sub_le (y : ℚ) : |(roundEven y : ℚ) - y| ≤ 1 / 2 := by
  have hf1 : ((⌊y⌋ : Int) : ℚ) ≤ y := Int.floor_le y
  have hf2 : y < ((⌊y⌋ : Int) : ℚ) + 1 := Int.lt_floor_add_one y
  unfold roundEven
  rw [abs_le]
  split_ifs with h1 h2 h3
  · constructor <;> linarith
  · push_cast; constructor <;> linarith
  · constructor <;> linarith
  · push_cast; constructor <;> linarith

theorem two_zpow_pos (k : Int) : (0 : ℚ) < (2 : ℚ) ^ k := zpow_pos (by norm_num) k

/-- The binary exponent of a number between two neighbouring powers of two. -/
theorem log_eq_of_bounds {x : ℚ} {k : Int} (h1 : (2 : ℚ) ^ k ≤ |x|)
    (h2 : |x| < (2 : ℚ) ^ (k + 1)) : Int.log 2 |x| = k := by
  have hpos : (0 : ℚ) < |x| := lt_of_lt_of_le (two_zpow_pos k) h1
  have ha : k ≤ Int.log 2 |x| := by
    rw [← Int.zpow_le_iff_le_log (by norm_num) hpos]
    exact_mod_cast h1
  have hb : Int.log 2 |x| < k + 1 := by
    rw [← Int.lt_zpow_iff_log_lt (by norm_num) hpos]
    exact_mod_cast h2
  omega

theorem quantumExp_eq {x : ℚ} {k : Int} (h1 : (2 : ℚ) ^ k ≤ |x|)
    (h2 : |x| < (2 : ℚ) ^ (k + 1)) : quantumExp x = max (k - 52) (-1074) := by
  unfold quantumExp
  rw [log_eq_of_bounds h1 h2]

/-- The `double` nearest to `x`, given the binary exponent `k` of `x` and the multiple `n`
of the spacing that is nearest to `x`. -/
theorem ofReal_eq {x : ℚ} (k q n : Int) (y : ℚ) (h1 : (2 : ℚ) ^ k ≤ |x|)
    (h2 : |x| < (2 : ℚ) ^ (k + 1)) (hq : max (k - 52) (-1074) = q)
    (hn : |x / (2 : ℚ) ^ q - n| < 1 / 2) (hy : (n : ℚ) * (2 : ℚ) ^ q = y)
    (hfin : |y| < (2 : ℚ) ^ (1024 : Int)) : ofReal x = some y := by
  unfold ofReal
  rw [quantumExp_eq h1 h2, hq, roundEven_of_lt hn, hy, if_pos hfin]

/-- A number that is a multiple of the spacing around it, and finite, is a `double`. -/
theorem ofReal_of_multiple {x : ℚ} (m : Int) (hm : x = (m : ℚ) * (2 : ℚ) ^ quantumExp x)
    (hfin : |x| < (2 : ℚ) ^ (1024 : Int)) : ofReal x = some x := by
  have hq : x / (2 : ℚ) ^ quantumExp x = (m : ℚ) := by
    rw [div_eq_iff (ne_of_gt (two_zpow_pos _))]
    exact hm
  unfold ofReal
  rw [hq, roundEven_int, ← hm, if_pos hfin]

/-- An integer below 2^53 in size is a `double`. -/
theorem ofReal_intCast (n : Int) (h : |n| < 2 ^ 53) : ofReal (n : ℚ) = some (n : ℚ) := by
  by_cases h0 : n = 0
  · subst h0
    apply ofReal_of_multiple 0
    · simp
    · simp only [Int.cast_zero, abs_zero]
      exact two_zpow_pos _
  · have hna : (1 : ℚ) ≤ |(n : ℚ)| := by
      have : (1 : Int) ≤ |n| := Int.one_le_abs h0
      exact_mod_cast this
    have hnb0 : |(n : ℚ)| < (2 : ℚ) ^ (53 : Nat) := by exact_mod_cast h
    have hnb : |(n : ℚ)| < (2 : ℚ) ^ (53 : Int) := by
      rw [show ((53 : Int)) = ((53 : Nat) : Int) from rfl, zpow_natCast]
      exact hnb0
    have hpos : (0 : ℚ) < |(n : ℚ)| := by linarith
    have hk0 : 0 ≤ Int.log 2 |(n : ℚ)| := by
      rw [← Int.zpow_le_iff_le_log (by norm_num) hpos]
      simpa using hna
    have hk1 : Int.log 2 |(n : ℚ)| < 53 := by
      rw [← Int.lt_zpow_iff_log_lt (by norm_num) hpos]
      exact_mod_cast hnb
    have hqe : quantumExp (n : ℚ) = Int.log 2 |(n : ℚ)| - 52 := by
      unfold quantumExp
      omega
    generalize Int.log 2 |(n : ℚ)| = k at hk0 hk1 hqe
    obtain ⟨j, hj⟩ : ∃ j : Nat, (j : Int) = 52 - k := ⟨(52 - k).toNat, by omega⟩
    apply ofReal_of_multiple (n * 2 ^ j)
    · rw [hqe]
      have hk : k - 52 = -(j : Int) := by omega
      rw [hk, zpow_neg, zpow_natCast]
      push_cast
      field_simp
    · calc |(n : ℚ)| < (2 : ℚ) ^ (53 : Int) := hnb
        _ ≤ (2 : ℚ) ^ (1024 : Int) := zpow_le_zpow_right₀ (by norm_num) (by norm_num)

/-- The `double` nearest to `x` differs from `x` by at most half the spacing around `x`. -/
theorem abs_ofReal_sub_le {x y : ℚ} (h : ofReal x = some y) :
    |y - x| ≤ max (|x| / 2 ^ 53) (1 / 2 ^ 1075) := by
  by_cases hx0 : x = 0
  · subst hx0
    unfold ofReal at h
    split_ifs at h
    simp only [Option.some.injEq] at h
    rw [← h]
    simp [roundEven_int 0, (by simpa using roundEven_int 0 : roundEven 0 = 0)]
  unfold ofReal at h
  split_ifs at h
  simp only [Option.some.injEq] at h
  have hq := two_zpow_pos (quantumExp x)
  have hr := abs_roundEven_sub_le (x / (2 : ℚ) ^ quantumExp x)
  have h1 : |y - x| ≤ (2 : ℚ) ^ quantumExp x / 2 := by
    rw [← h]
    have e : (roundEven (x / (2 : ℚ) ^ quantumExp x) : ℚ) * (2 : ℚ) ^ quantumExp x - x =
        ((roundEven (x / (2 : ℚ) ^ quantumExp x) : ℚ) - x / (2 : ℚ) ^ quantumExp x) *
          (2 : ℚ) ^ quantumExp x := by
      field_simp
    rw [e, abs_mul, abs_of_pos hq]
    calc |(roundEven (x / (2 : ℚ) ^ quantumExp x) : ℚ) - x / (2 : ℚ) ^ quantumExp x| *
          (2 : ℚ) ^ quantumExp x ≤ 1 / 2 * (2 : ℚ) ^ quantumExp x :=
          mul_le_mul_of_nonneg_right hr (le_of_lt hq)
      _ = (2 : ℚ) ^ quantumExp x / 2 := by ring
  refine le_trans h1 ?_
  unfold quantumExp
  rcases le_total (Int.log 2 |x| - 52) (-1074) with hc | hc
  · rw [max_eq_right hc]
    apply le_max_of_le_right
    have : (2 : ℚ) ^ (-1074 : Int) / 2 = 1 / 2 ^ 1075 := by
      rw [zpow_neg]
      norm_num
    rw [this]
  · rw [max_eq_left hc]
    apply le_max_of_le_left
    have hpos : (0 : ℚ) < |x| := abs_pos.2 hx0
    have hle : ((2 : ℕ) : ℚ) ^ Int.log 2 |x| ≤ |x| := Int.zpow_log_le_self (by norm_num) hpos
    rw [zpow_sub₀ (by norm_num)]
    have h52 : (2 : ℚ) ^ (52 : Int) = 2 ^ 52 := by norm_num
    rw [h52]
    have hle2 : (2 : ℚ) ^ Int.log 2 |x| ≤ |x| := by exact_mod_cast hle
    have e2 : (2 : ℚ) ^ Int.log 2 |x| / 2 ^ 52 / 2 = (2 : ℚ) ^ Int.log 2 |x| / 2 ^ 53 := by
      rw [div_div]
      norm_num
    rw [e2]
    exact div_le_div_of_nonneg_right hle2 (by norm_num)

end Double

theorem Libm.round_intCast (n : Int) : Libm.round (n : ℚ) = n := by
  unfold Libm.round
  split_ifs
  · rw [Int.floor_eq_iff]
    constructor <;> norm_num
  · rw [Int.ceil_eq_iff]
    constructor <;> norm_num

theorem Libm.toInt_of_range {n : Int} (h1 : -2147483648 ≤ n) (h2 : n ≤ 2147483647) :
    Libm.toInt n = n := by
  unfold Libm.toInt
  rw [if_pos ⟨h1, h2⟩]

namespace Track

/-- The frame of a time, given the `double` values of the time, of the frame rate and of
their product. -/
theorem frame_value_eq {t fps a b p : ℚ} (ha : Double.ofReal t = some a)
    (hb : Double.ofReal fps = some b) (hp : Double.ofReal (a * b) = some p) :
    frame_value t fps = Libm.toInt (Libm.round p) := by
  unfold frame_value
  rw [ha, hb]
  dsimp only
  rw [hp]

/-- At 25 frames per second a whole number of seconds `k` is the frame `25 * k`. -/
theorem frame_value_int (k : Int) (hk : |k| ≤ 85899345) :
    frame_value (k : ℚ) 25 = 25 * k := by
  have hk2 := abs_le.1 hk
  have ha : Double.ofReal (k : ℚ) = some (k : ℚ) :=
    Double.ofReal_intCast k (by rw [abs_lt]; constructor <;> omega)
  have hb : Double.ofReal (25 : ℚ) = some (25 : ℚ) := by
    simpa using Double.ofReal_intCast 25 (by norm_num)
  have hp : Double.ofReal ((k : ℚ) * 25) = some (((25 * k : Int) : ℚ)) := by
    have := Double.ofReal_intCast (25 * k) (by rw [abs_lt]; constructor <;> omega)
    rw [← this]
    congr 1
    push_cast
    ring
  rw [frame_value_eq ha hb hp, Libm.round_intCast,
    Libm.toInt_of_range (by omega) (by omega)]

/-- On a track at 25 frames per second a whole number of seconds `k` is the frame
`25 * k`. -/
theorem frame_int (tr : Track) (k : Int) (h25 : tr.m_fps = 25) (hk : |k| ≤ 85899345) :
    tr.frame (k : ℚ) = 25 * k := by
  unfold frame
  rw [h25]
  exact frame_value_int k hk

/-- At 25 frames per second the time 0.02 s is frame 1: the `double` nearest to 0.02 times
25 is, as a `double`, one half. -/
theorem frame_value_fiftieth : frame_value (1 / 50) 25 = 1 := by
  have ha : Double.ofReal (1 / 50) = some (5764607523034235 / 288230376151711744) := by
    apply Double.ofReal_eq (-6) (-58) 5764607523034235 <;> norm_num [abs_lt, abs_of_pos]
  have hb : Double.ofReal (25 : ℚ) = some (25 : ℚ) := by
    simpa using Double.ofReal_intCast 25 (by norm_num)
  have hp : Double.ofReal (5764607523034235 / 288230376151711744 * 25) = some (1 / 2) := by
    apply Double.ofReal_eq (-1) (-53) 4503599627370496 <;> norm_num [abs_lt, abs_of_pos]
  rw [frame_value_eq ha hb hp]
  have hr : Libm.round (1 / 2) = 1 := by norm_num [Libm.round]
  rw [hr]
  decide

/-- At 25 frames per second the time 0.4 s is frame 10. -/
theorem frame_value_two_fifths : frame_value (2 / 5) 25 = 10 := by
  have ha : Double.ofReal (2 / 5) = some (3602879701896397 / 9007199254740992) := by
    apply Double.ofReal_eq (-2) (-54) 7205759403792794 <;> norm_num [abs_lt, abs_of_pos]
  have hb : Double.ofReal (25 : ℚ) = some (25 : ℚ) := by
    simpa using Double.ofReal_intCast 25 (by norm_num)
  have hp : Double.ofReal (3602879701896397 / 9007199254740992 * 25) = some 10 := by
    apply Double.ofReal_eq 3 (-49) 5629499534213120 <;> norm_num [abs_lt, abs_of_pos]
  rw [frame_value_eq ha hb hp]
  have hr : Libm.round 10 = 10 := by norm_num [Libm.round]
  rw [hr]
  decide

end Track

namespace Mlt
namespace Entry

theorem wf_frame_count_pos {e : Entry} (h : e.wf) : 1 ≤ e.frame_count := by
  unfold wf at h; unfold frame_count; omega

theorem parent_set_in_and_out (e : Entry) (i o : Int) :
    (e.set_in_and_out i o).parent = e.parent := by
  unfold set_in_and_out; simp only []; split_ifs <;> rfl

theorem parent_resize (e : Entry) (i o : Int) : (e.resize i o).parent = e.parent := by
  unfold resize; simp only []
  split_ifs <;> simp only [parent_set_in_and_out]

theorem parent_cut (e : Entry) (i o : Int) : (e.cut i o).parent = e.parent := by
  unfold cut; simp only [parent_set_in_and_out]

theorem is_blank_resize (e : Entry) (i o : Int) : (e.resize i o).is_blank = e.is_blank := by
  unfold is_blank; rw [parent_resize]

theorem is_blank_cut (e : Entry) (i o : Int) : (e.cut i o).is_blank = e.is_blank := by
  unfold is_blank; rw [parent_cut]

theorem is_blank_blankCut (o : Int) : (blankCut o).is_blank = true := rfl

theorem wf_blankCut {o : Int} (h : 0 ≤ o) : (blankCut o).wf := by
  unfold wf blankCut; simp; omega

theorem wf_set_in_and_out {e : Entry} (hl : 1 ≤ e.length) (i o : Int)
    (hb : e.is_blank = true → i = 0 ∧ 0 ≤ o) : (e.set_in_and_out i o).wf := by
  unfold wf set_in_and_out is_blank
  unfold is_blank at hb
  cases hp : e.parent.isNone
  · simp only [hp, and_false, if_false, and_true, Bool.false_eq_true, false_implies]
    split_ifs <;> simp [hp] <;> omega
  · obtain ⟨rfl, ho⟩ := hb hp
    simp only [hp, and_false, if_false, and_true, Bool.true_eq_false]
    split_ifs <;> simp [hp] <;> omega

theorem resize_blank {e : Entry} (hb : e.is_blank = true) (hl : 1 ≤ e.length) {o : Int}
    (ho : 0 ≤ o) :
    e.resize 0 o = { e with frame_in := 0, frame_out := o, length := max e.length (o + 1) } := by
  have hb2 : e.parent.isNone = true := hb
  by_cases h1 : e.length < o + 1
  · have h2 : ¬ (o + 1 ≤ o) := by omega
    have h3 : ¬ (o < 0) := by omega
    have h4 : ¬ (o + 1 ≤ 0) := by omega
    have h5 : max e.length (o + 1) = o + 1 := by omega
    simp [resize, set_in_and_out, is_blank, hb2, h1, h2, h3, h4, h5]
  · have h2 : ¬ (e.length ≤ o) := by omega
    have h3 : ¬ (o < 0) := by omega
    have h4 : ¬ (e.length ≤ 0) := by omega
    have h5 : max e.length (o + 1) = e.length := by omega
    simp [resize, set_in_and_out, is_blank, hb2, h1, h2, h3, h4, h5]

theorem wf_resize {e : Entry} (h : e.wf) (i o : Int) (hb : e.is_blank = true → i = 0 ∧ 0 ≤ o) :
    (e.resize i o).wf := by
  cases hp : e.is_blank
  · unfold wf at h
    unfold wf resize set_in_and_out
    unfold is_blank at hp
    simp only [is_blank, hp, and_false, if_false, and_true, Bool.false_eq_true, false_and]
    split_ifs <;> simp [hp] <;> omega
  · obtain ⟨rfl, ho⟩ := hb hp
    have hl : 1 ≤ e.length := by unfold wf at h; omega
    rw [resize_blank hp hl ho]
    unfold wf
    refine ⟨le_refl _, ho, ?_, fun _ => rfl⟩
    show o < max e.length (o + 1)
    omega

theorem wf_cut {e : Entry} (h : e.wf) (hb : e.is_blank = false) (i o : Int) : (e.cut i o).wf := by
  unfold cut
  apply wf_set_in_and_out
  · unfold wf at h; omega
  · intro h1; rw [hb] at h1; cases h1

end Entry
end Mlt

namespace Mlt
namespace Playlist

theorem mem_move {pl : Playlist} {s d : Int} {x : Entry} (h : x ∈ move pl s d) : x ∈ pl := by
  unfold move at h
  simp only [] at h
  split at h
  · exact h
  · rename_i e he
    split_ifs at h
    · rcases List.mem_append.1 h with h1 | h1
      · exact List.mem_of_mem_eraseIdx (List.mem_of_mem_take h1)
      · rcases List.mem_cons.1 h1 with rfl | h2
        · exact List.getElem?_mem he
        · exact List.mem_of_mem_eraseIdx (List.mem_of_mem_drop h2)
    · exact h

theorem wf_move {pl : Playlist} (h : wf pl) (s d : Int) : wf (move pl s d) :=
  fun e he => h e (mem_move he)

theorem wf_remove {pl : Playlist} (h : wf pl) (c : Int) : wf (remove pl c).2 := by
  unfold remove
  split_ifs
  · exact h
  · exact fun e he => h e (List.mem_of_mem_eraseIdx he)

theorem wf_append {pl : Playlist} (h : wf pl) {e : Entry} (he : e.wf) : wf (append pl e) := by
  intro x hx
  unfold append at hx
  rcases List.mem_append.1 hx with h1 | h1
  · exact h x h1
  · rw [List.mem_singleton.1 h1]; exact he

theorem wf_blank {pl : Playlist} (h : wf pl) (o : Int) : wf (blank pl o) := by
  unfold blank
  split_ifs with h1
  · exact wf_append h (Entry.wf_blankCut h1)
  · exact h

theorem wf_insert_blank {pl : Playlist} (h : wf pl) (c o : Int) : wf (insert_blank pl c o) := by
  unfold insert_blank
  split_ifs
  · exact wf_move (wf_blank h o) _ _
  · exact h

theorem wf_insert {pl : Playlist} (h : wf pl) {e : Entry} (he : e.wf) (c : Int) :
    wf (insert pl e c) := by
  unfold insert
  exact wf_move (wf_append h he) _ _

theorem wf_set {pl : Playlist} (h : wf pl) {e : Entry} (he : e.wf) (n : Nat) :
    wf (pl.set n e) := by
  intro x hx
  rcases List.mem_or_eq_of_mem_set hx with h1 | h1
  · exact h x h1
  · rw [h1]; exact he

theorem wf_resize_clip {pl : Playlist} (h : wf pl) (c i o : Int)
    (hb : ∀ e, pl[c.toNat]? = some e → e.is_blank = true → i = 0 ∧ 0 ≤ o) :
    wf (resize_clip pl c i o).2 := by
  unfold resize_clip
  split_ifs
  · exact h
  · cases hget : pl[c.toNat]? with
    | none => exact h
    | some e =>
      exact wf_set h (Entry.wf_resize (h e (List.getElem?_mem hget)) i o (hb e hget)) _

theorem wf_split_entry {pl : Playlist} (h : wf pl) (c : Int) {e : Entry}
    (hget : pl[c.toNat]? = some e) (p : Int) : wf (split_entry pl c e p).2 := by
  have hew : e.wf := h e (List.getElem?_mem hget)
  have hew2 := hew
  unfold Entry.wf at hew2
  unfold split_entry
  simp only []
  split_ifs with h1 h2
  · apply wf_insert
    · apply wf_resize_clip h
      intro e2 he2 hb2
      rw [hget] at he2
      cases he2
      rw [h2] at hb2; cases hb2
    · exact Entry.wf_cut hew h2 _ _
  · apply wf_insert
    · apply wf_resize_clip h
      intro e2 he2 hb2
      rw [hget] at he2
      cases he2
      have := hew2.2.2.2 hb2
      constructor
      · exact this
      · omega
    · apply Entry.wf_blankCut
      unfold Entry.frame_count at h1
      omega
  · exact h

theorem wf_split {pl : Playlist} (h : wf pl) (c p : Int) : wf (split pl c p).2 := by
  unfold split
  by_cases hc : c < 0 ∨ c ≥ count pl
  · rw [if_pos hc]; exact h
  · rw [if_neg hc]
    cases hget : pl[c.toNat]? with
    | none => exact h
    | some e => exact wf_split_entry h c hget _

theorem wf_mergeFrom (rest : List Entry) : ∀ (left : Entry), left.wf → wf rest →
    wf (mergeFrom left rest) := by
  induction rest with
  | nil =>
    intro left hl _ x hx
    unfold mergeFrom at hx
    rw [List.mem_singleton.1 hx]; exact hl
  | cons right rest ih =>
    intro left hl hr
    have hrw : right.wf := hr right (List.mem_cons_self _ _)
    have hrest : wf rest := fun e he => hr e (List.mem_cons_of_mem _ he)
    unfold mergeFrom
    split_ifs with h1
    · apply ih _ _ hrest
      apply Entry.wf_resize hl
      intro _
      have := Entry.wf_frame_count_pos hl
      have := Entry.wf_frame_count_pos hrw
      constructor
      · rfl
      · omega
    · intro x hx
      rcases List.mem_cons.1 hx with h2 | h2
      · rw [h2]; exact hl
      · exact ih right hrw hrest x h2

theorem wf_merge_blanks {pl : Playlist} (h : wf pl) : wf (merge_blanks pl) := by
  cases pl with
  | nil => exact h
  | cons e rest =>
    exact wf_mergeFrom rest e (h e (List.mem_cons_self _ _))
      (fun x hx => h x (List.mem_cons_of_mem _ hx))

theorem wf_consolidate_blanks {pl : Playlist} (h : wf pl) (k : Int) :
    wf (consolidate_blanks pl k) := by
  unfold consolidate_blanks
  split_ifs
  · exact wf_remove (wf_merge_blanks h) _
  · exact wf_merge_blanks h

theorem wf_get_clip {pl : Playlist} (h : wf pl) {c : Int} {e : Entry}
    (he : get_clip pl c = some e) : e.wf := by
  unfold get_clip at he
  split_ifs at he
  exact h e (List.getElem?_mem he)

theorem wf_replace_with_blank {pl : Playlist} (h : wf pl) (c : Int) :
    wf (replace_with_blank pl c).2 := by
  unfold replace_with_blank
  by_cases hb : is_blank pl c = false
  · rw [if_pos hb]
    cases hget : get_clip pl c with
    | none => exact h
    | some e => exact wf_move (wf_blank (wf_remove h _) _) _ _
  · rw [if_neg hb]; exact h

theorem wf_of_replace_with_blank {pl : Playlist} (h : wf pl) {c : Int} {e : Entry}
    (he : (replace_with_blank pl c).1 = some e) : e.wf ∧ e.is_blank = false := by
  unfold replace_with_blank at he
  by_cases hb : is_blank pl c = false
  · rw [if_pos hb] at he
    cases hget : get_clip pl c with
    | none => rw [hget] at he; cases he
    | some e2 =>
      rw [hget] at he
      simp only [Option.some.injEq] at he
      subst he
      refine ⟨wf_get_clip h hget, ?_⟩
      unfold is_blank at hb
      rw [hget] at hb
      exact hb
  · rw [if_neg hb] at he; cases he

theorem wf_split_at {pl : Playlist} (h : wf pl) (p : Int) : wf (split_at pl p) := by
  unfold split_at
  dsimp only
  split_ifs
  · exact wf_split h _ _
  · exact h
  · exact h

theorem wf_remove_loop (fuel : Nat) : ∀ (pl : Playlist) (index length : Int), wf pl →
    wf (remove_loop fuel pl index length) := by
  induction fuel with
  | zero => intro pl _ _ h; exact h
  | succ n ih =>
    intro pl index length h
    unfold remove_loop
    dsimp only
    split_ifs
    · exact ih _ _ _ (wf_remove (wf_split h _ _) _)
    · exact ih _ _ _ (wf_remove h _)
    · exact h

theorem wf_remove_region {pl : Playlist} (h : wf pl) (p l : Int) :
    wf (remove_region pl p l).2 := by
  unfold remove_region
  dsimp only
  split_ifs
  all_goals first
    | exact h
    | (apply wf_consolidate_blanks; apply wf_remove_loop; first | exact h | exact wf_split h _ _)

theorem wf_insert_at_blank_head {pl : Playlist} (h : wf pl) (p c : Int) :
    wf (insert_at_blank_head pl p c).2 := by
  unfold insert_at_blank_head
  split_ifs
  · exact wf_split h _ _
  · exact wf_split h _ _
  · exact h

theorem wf_insert_at_blank {pl : Playlist} (h : wf pl) (p : Int) {e : Entry} (he : e.wf)
    (c : Int) : wf (insert_at_blank pl p e c).2 := by
  unfold insert_at_blank
  dsimp only
  have hr := wf_insert_at_blank_head h p c
  generalize insert_at_blank_head pl p c = r at hr
  apply wf_insert _ he
  apply wf_remove
  split_ifs
  · exact wf_split hr _ _
  · exact hr
  · exact wf_split hr _ _
  · exact hr

theorem wf_insert_at_clip {pl : Playlist} (h : wf pl) (p : Int) {e : Entry} (he : e.wf)
    (m c : Int) : wf (insert_at_clip pl p e m c).2 := by
  unfold insert_at_clip
  dsimp only
  generalize (if p > info_start pl c + (clip_length pl c).tdiv 2 then c + 1 else c) = c2
  apply wf_insert _ he
  split_ifs
  · exact wf_remove (wf_split h _ _) _
  · exact wf_remove h _
  · exact h

theorem wf_insert_at_end {pl : Playlist} (h : wf pl) (p : Int) {e : Entry} (he : e.wf)
    (m c : Int) : wf (insert_at_end pl p e m c).2 := by
  unfold insert_at_end
  dsimp only
  apply wf_append _ he
  split_ifs
  · exact wf_remove h _
  · exact wf_blank h _
  · exact h

theorem wf_insert_at {pl : Playlist} (h : wf pl) (p : Int) {e : Entry} (he : e.wf) (m : Int) :
    wf (insert_at pl p e m).2 := by
  unfold insert_at
  split_ifs
  · exact h
  · exact wf_insert_at_blank h p he _
  · exact wf_insert_at_clip h p he _ _
  · exact wf_insert_at_end h p he _ _

end Playlist
end Mlt

namespace Track

theorem doAdd_fst (tr : Track) (t : ℚ) (c : Entry) (mode : Int) : (doAdd tr t c mode).1 = true := by
  unfold doAdd; dsimp only; split_ifs <;> rfl

theorem doAdd_fps (tr : Track) (t : ℚ) (c : Entry) (mode : Int) :
    (doAdd tr t c mode).2.m_fps = tr.m_fps := by
  unfold doAdd; dsimp only; split_ifs <;> rfl

theorem doAdd_lockDepth (tr : Track) (t : ℚ) (c : Entry) (mode : Int) :
    (doAdd tr t c mode).2.lockDepth = tr.lockDepth := by
  unfold doAdd; dsimp only; split_ifs <;> rfl

theorem doAdd_playlist (tr : Track) (t : ℚ) (c : Entry) (mode : Int) :
    (doAdd tr t c mode).2.m_playlist = (insert_at (doAdd_prepared tr t c mode) (tr.frame t) c 1).2 := by
  unfold doAdd doAdd_prepared; dsimp only; split_ifs <;> rfl

theorem wf_doAdd_prepared {tr : Track} (h : wf tr.m_playlist) (t : ℚ) (c : Entry) (mode : Int) :
    wf (doAdd_prepared tr t c mode) := by
  unfold doAdd_prepared
  apply wf_consolidate_blanks
  split_ifs
  · exact wf_insert_blank (wf_remove_region h _ _) _ _
  · exact wf_insert_blank (wf_split_at h _) _ _
  · exact wf_insert_blank h _ _
  · exact h

theorem wf_track_doAdd {tr : Track} (h : wf tr.m_playlist) (t : ℚ) {c : Entry} (hc : c.wf) (mode : Int) :
    wf (doAdd tr t c mode).2.m_playlist := by
  rw [doAdd_playlist]
  exact wf_insert_at (wf_doAdd_prepared h t c mode) _ hc _

theorem wf_track_add {tr : Track} (h : wf tr.m_playlist) (t : ℚ) {c : Entry} (hc : c.wf) (mode : Int) :
    wf (add tr t c mode).2.m_playlist := by
  unfold add
  exact wf_track_doAdd (show wf tr.lock.m_playlist from h) t hc mode

theorem wf_track_move {tr : Track} (h : wf tr.m_playlist) (s e : ℚ) (mode : Int) :
    wf (move tr s e mode).2.m_playlist := by
  unfold move
  dsimp only
  have hr := wf_replace_with_blank (show wf tr.lock.m_playlist from h)
    (get_clip_index_at tr.lock.m_playlist (tr.frame s))
  cases hget : (replace_with_blank tr.lock.m_playlist
      (get_clip_index_at tr.lock.m_playlist (tr.frame s))).1 with
  | none => exact hr
  | some cp =>
    have hcp := wf_of_replace_with_blank (show wf tr.lock.m_playlist from h) hget
    dsimp only
    rw [if_neg (by rw [hcp.2]; decide)]
    split_ifs <;>
      exact wf_track_doAdd (show wf (tr.lock.withPlaylist _).m_playlist from wf_consolidate_blanks hr 0) _ hcp.1 _

theorem wf_track_del {tr : Track} (h : wf tr.m_playlist) (t : ℚ) : wf (del tr t).2.m_playlist := by
  unfold del
  dsimp only
  have hr := wf_replace_with_blank (show wf tr.lock.m_playlist from h)
    (get_clip_index_at tr.lock.m_playlist (tr.lock.frame t))
  cases hget : (replace_with_blank tr.lock.m_playlist
      (get_clip_index_at tr.lock.m_playlist (tr.lock.frame t))).1 with
  | none => exact hr
  | some cp =>
    dsimp only
    split_ifs <;> exact wf_consolidate_blanks hr 0

theorem wf_track_del_dt {tr : Track} (h : wf tr.m_playlist) (t dt : ℚ) :
    wf (del_dt tr t dt).2.m_playlist := by
  unfold del_dt
  exact wf_consolidate_blanks (wf_insert_blank (wf_remove_region (show wf tr.lock.m_playlist from h) _ _) _ _) 0

theorem wf_set_length {pl : Playlist} (h : wf pl) (index v : Int)
    (hv : ∀ e, get_clip pl index = some e → e.length ≤ v) : wf (set_length pl index v) := by
  unfold set_length
  cases hget : get_clip pl index with
  | none => exact h
  | some e =>
    apply wf_set h
    have he := wf_get_clip h hget
    have := hv e hget
    unfold Entry.wf at he ⊢
    refine ⟨he.1, he.2.1, ?_, he.2.2.2⟩
    show e.frame_out < v
    omega

end Track

namespace Mlt.Playlist

theorem wf_resize_clip_zero {pl : Playlist} (h : wf pl) (c : Int) {o : Int} (ho : 0 ≤ o) :
    wf (resize_clip pl c 0 o).2 :=
  wf_resize_clip h c 0 o (fun _ _ _ => ⟨rfl, ho⟩)

theorem wf_resize_clip_of_clip {pl : Playlist} (h : wf pl) (c i o : Int)
    (hb : is_blank pl c = false) : wf (resize_clip pl c i o).2 := by
  apply wf_resize_clip h
  intro e he hbe
  unfold is_blank get_clip at hb
  split_ifs at hb with h1
  rw [he] at hb
  dsimp only at hb
  rw [hbe] at hb; cases hb

end Mlt.Playlist

namespace Track

theorem is_blank_set_length (pl : Playlist) (index v c : Int) :
    is_blank (set_length pl index v) c = is_blank pl c := by
  unfold set_length
  cases hget : get_clip pl index with
  | none => rfl
  | some e =>
    dsimp only
    unfold is_blank get_clip
    unfold get_clip at hget
    split_ifs at hget with hi
    by_cases hc : c < 0
    · simp only [hc, if_true]
    · simp only [hc, if_false]
      by_cases heq : index.toNat = c.toNat
      · rw [← heq, hget]
        have hlt : index.toNat < pl.length := by
          rcases List.getElem?_eq_some.1 hget with ⟨hlt, _⟩
          exact hlt
        rw [List.getElem?_set_self hlt]
        rfl
      · rw [List.getElem?_set_ne heq]

theorem wf_track_resize {tr : Track} (h : wf tr.m_playlist) (t dt : ℚ) (e : Bool) :
    wf (resize tr t dt e).2.m_playlist := by
  unfold resize
  dsimp only
  cases hget : get_clip tr.lock.m_playlist
      (get_clip_index_at tr.lock.m_playlist (tr.lock.frame t)) with
  | none => exact h
  | some clip =>
    dsimp only
    have hcw : clip.wf := wf_get_clip (show wf tr.lock.m_playlist from h) hget
    by_cases hb : clip.is_blank = true
    · rw [if_pos hb]; exact h
    · rw [if_neg hb]
      have hb2 : is_blank tr.lock.m_playlist
          (get_clip_index_at tr.lock.m_playlist (tr.lock.frame t)) = false := by
        unfold is_blank; rw [hget]; simpa using hb
      have key : ∀ (i o : Int), wf (resize_clip
          (if clip.length < o + 1 then
            set_length tr.lock.m_playlist
              (get_clip_index_at tr.lock.m_playlist (tr.lock.frame t)) (o + 2)
           else tr.lock.m_playlist)
          (get_clip_index_at tr.lock.m_playlist (tr.lock.frame t)) i o).2 := by
        intro i o
        split_ifs with hl
        · apply wf_resize_clip_of_clip
          · apply wf_set_length (show wf tr.lock.m_playlist from h)
            intro e2 he2
            rw [hget] at he2
            cases he2
            omega
          · rw [is_blank_set_length]; exact hb2
        · exact wf_resize_clip_of_clip (show wf tr.lock.m_playlist from h) _ _ _ hb2
      generalize hin : (if (if e = true then clip.frame_in else clip.frame_in + tr.lock.frame dt) < 0
        then 0 else if e = true then clip.frame_in else clip.frame_in + tr.lock.frame dt) = in1
      generalize hout : (if (if e = true then clip.frame_in else clip.frame_in + tr.lock.frame dt) < 0
        then (if e = true then clip.frame_out + tr.lock.frame dt else clip.frame_out) -
          (if e = true then clip.frame_in else clip.frame_in + tr.lock.frame dt)
        else if e = true then clip.frame_out + tr.lock.frame dt else clip.frame_out) = out1
      have key2 := key in1 out1
      generalize (resize_clip
          (if clip.length < out1 + 1 then
            set_length tr.lock.m_playlist
              (get_clip_index_at tr.lock.m_playlist (tr.lock.frame t)) (out1 + 2)
           else tr.lock.m_playlist)
          (get_clip_index_at tr.lock.m_playlist (tr.lock.frame t)) in1 out1) = r at key2
      split_ifs
      all_goals (simp only [Track.unlock, Track.emitDuration, Track.withPlaylist, Track.lock])
      all_goals first
        | exact key2
        | (apply wf_consolidate_blanks
           first
            | (apply wf_insert_blank; exact key2)
            | (apply wf_remove; exact key2)
            | (apply wf_resize_clip_zero key2; assumption))

theorem wf_track_cut {tr : Track} (h : wf tr.m_playlist) (t : ℚ) : wf (cut tr t).2.m_playlist := by
  unfold cut
  dsimp only
  split_ifs
  · exact h
  · exact wf_split (show wf tr.lock.m_playlist from h) _ _
  · exact wf_split (show wf tr.lock.m_playlist from h) _ _

end Track

namespace Mlt.Playlist

theorem get_playtime_nil : get_playtime [] = 0 := rfl

theorem get_playtime_cons (e : Entry) (pl : Playlist) :
    get_playtime (e :: pl) = e.frame_count + get_playtime pl := by
  simp [get_playtime]

theorem get_playtime_append (p q : Playlist) :
    get_playtime (p ++ q) = get_playtime p + get_playtime q := by
  simp [get_playtime, List.sum_append]

theorem get_playtime_nonneg {pl : Playlist} (h : ∀ e ∈ pl, 0 ≤ e.frame_count) :
    0 ≤ get_playtime pl := by
  induction pl with
  | nil => simp [get_playtime]
  | cons e rest ih =>
    rw [get_playtime_cons]
    have h1 := h e (List.mem_cons_self _ _)
    have h2 := ih (fun x hx => h x (List.mem_cons_of_mem _ hx))
    omega

theorem frame_count_nonneg_of_wf {pl : Playlist} (h : wf pl) : ∀ e ∈ pl, 0 ≤ e.frame_count :=
  fun e he => by have := Entry.wf_frame_count_pos (h e he); omega

/-- A position at or after the end of `pre` is located after `pre`. -/
theorem locate_append (pre : Playlist) : ∀ (rest : Playlist) (pos : Int),
    (∀ e ∈ pre, 0 ≤ e.frame_count) → get_playtime pre ≤ pos →
    locate (pre ++ rest) pos = pre.length + locate rest (pos - get_playtime pre) := by
  induction pre with
  | nil => intro rest pos _ _; simp [get_playtime]
  | cons e pre ih =>
    intro rest pos h hp
    have he := h e (List.mem_cons_self _ _)
    have hpre : ∀ x ∈ pre, 0 ≤ x.frame_count := fun x hx => h x (List.mem_cons_of_mem _ hx)
    have hnn := get_playtime_nonneg hpre
    rw [get_playtime_cons] at hp
    rw [List.cons_append, locate, if_neg (by omega), ih rest _ hpre (by omega), get_playtime_cons,
      List.length_cons]
    have : pos - e.frame_count - get_playtime pre = pos - (e.frame_count + get_playtime pre) := by
      omega
    rw [this]; omega

theorem locate_of_playtime_le {pl : Playlist} (h : ∀ e ∈ pl, 0 ≤ e.frame_count) {pos : Int}
    (hp : get_playtime pl ≤ pos) : locate pl pos = pl.length := by
  have := locate_append pl [] pos h hp
  simpa [locate] using this

theorem locate_le_length (pl : Playlist) : ∀ pos : Int, locate pl pos ≤ pl.length := by
  induction pl with
  | nil => intro _; simp [locate]
  | cons e rest ih =>
    intro pos
    unfold locate
    split_ifs
    · simp
    · have := ih (pos - e.frame_count)
      simp only [List.length_cons]; omega

/-- The address of a position inside the region that follows `pre`. -/
theorem get_clip_index_at_mid (pre : Playlist) (e : Entry) (post : Playlist) {pos : Int}
    (h : ∀ x ∈ pre, 0 ≤ x.frame_count) (h1 : get_playtime pre ≤ pos)
    (h2 : pos < get_playtime pre + e.frame_count) :
    get_clip_index_at (pre ++ e :: post) pos = pre.length := by
  unfold get_clip_index_at
  rw [locate_append pre _ pos h h1, locate, if_pos (by omega)]
  simp

theorem get_clip_at (pre : Playlist) (e : Entry) (post : Playlist) :
    get_clip (pre ++ e :: post) pre.length = some e := by
  unfold get_clip
  rw [if_neg (by omega)]
  have h : ((pre.length : Int)).toNat = pre.length := by omega
  rw [h, List.getElem?_append_right (le_refl _)]
  simp

theorem get_clip_of_count_le (pl : Playlist) {c : Int} (h : count pl ≤ c) :
    get_clip pl c = none := by
  unfold get_clip count at *
  split_ifs
  · rfl
  · rw [List.getElem?_eq_none]; omega

theorem is_blank_of_count_le (pl : Playlist) {c : Int} (h : count pl ≤ c) :
    is_blank pl c = true := by
  unfold is_blank; rw [get_clip_of_count_le pl h]

theorem is_blank_at (pre : Playlist) (e : Entry) (post : Playlist) :
    is_blank (pre ++ e :: post) pre.length = e.is_blank := by
  unfold is_blank; rw [get_clip_at]

theorem replace_with_blank_of_blank {pl : Playlist} {c : Int} (h : is_blank pl c = true) :
    replace_with_blank pl c = (none, pl) := by
  unfold replace_with_blank
  rw [if_neg (by rw [h]; decide)]

end Mlt.Playlist

namespace Mlt.Playlist

theorem clampIdx_le (w : Int) (n : Nat) : clampIdx w n ≤ n := by
  unfold clampIdx; omega

theorem clampIdx_of_le {w : Int} {n : Nat} (h1 : w ≤ n) : clampIdx w n = w.toNat := by
  unfold clampIdx; omega

theorem clampIdx_natCast_le {k n : Nat} (h : k ≤ n) : clampIdx (k : Int) n = k := by
  unfold clampIdx; omega

/-- The engine's `insert`: append and move to the index, that is, insertion at the clamped
index. -/
theorem insert_eq (pl : Playlist) (e : Entry) (w : Int) :
    insert pl e w =
      pl.take (clampIdx w pl.length) ++ e :: pl.drop (clampIdx w pl.length) := by
  unfold insert move append count clampIdx
  simp only [List.length_append, List.length_singleton, Nat.cast_add, Nat.cast_one,
    add_sub_cancel_right]
  have hs : (min (max (pl.length : Int) 0) (pl.length : Int)).toNat = pl.length := by omega
  rw [hs]
  have hget : (pl ++ [e])[pl.length]? = some e := by
    rw [List.getElem?_append_right (le_refl _)]; simp
  rw [hget]
  dsimp only
  have her : (pl ++ [e]).eraseIdx pl.length = pl := by
    rw [List.eraseIdx_append_of_length_le (le_refl _)]; simp
  split_ifs with h
  · rw [her]
  · have hd : (min (max w 0) (pl.length : Int)).toNat = pl.length := by
      by_contra hne
      apply h
      refine ⟨fun h2 => hne h2.symm, ?_⟩
      have : (min (max w 0) (pl.length : Int)).toNat < pl.length := by omega
      omega
    rw [hd]; simp

theorem insert_at_length (pre post : Playlist) (e : Entry) :
    insert (pre ++ post) e pre.length = pre ++ e :: post := by
  rw [insert_eq, clampIdx_natCast_le (by simp)]
  simp

theorem blank_of_nonneg (pl : Playlist) {o : Int} (h : 0 ≤ o) :
    blank pl o = pl ++ [Entry.blankCut o] := by
  unfold blank; rw [if_pos h]

theorem insert_blank_eq (pl : Playlist) (c : Int) {o : Int} (h : 0 ≤ o) :
    insert_blank pl c o = insert pl (Entry.blankCut o) c := by
  unfold insert_blank insert append
  rw [if_pos h, blank_of_nonneg pl h]

theorem remove_at (pre : Playlist) (e : Entry) (post : Playlist) :
    remove (pre ++ e :: post) pre.length = (false, pre ++ post) := by
  unfold remove count
  rw [if_neg (by simp)]
  have h : ((pre.length : Int)).toNat = pre.length := by omega
  rw [h, List.eraseIdx_append_of_length_le (le_refl _)]
  simp

theorem remove_of_count_le (pl : Playlist) {c : Int} (h : count pl ≤ c) :
    remove pl c = (true, pl) := by
  unfold remove; rw [if_pos (Or.inr h)]

theorem resize_clip_at (pre : Playlist) (e : Entry) (post : Playlist) (i o : Int) :
    resize_clip (pre ++ e :: post) pre.length i o = (false, pre ++ e.resize i o :: post) := by
  unfold resize_clip count
  rw [if_neg (by simp)]
  have h : ((pre.length : Int)).toNat = pre.length := by omega
  rw [h, List.getElem?_append_right (le_refl _)]
  simp

/-- Every valid index splits the playlist around its region. -/
theorem exists_decomp {pl : Playlist} {c : Int} (h0 : 0 ≤ c) (h1 : c < count pl) :
    ∃ pre e post, pl = pre ++ e :: post ∧ c = (pre.length : Int) := by
  unfold count at h1
  have hlt : c.toNat < pl.length := by omega
  refine ⟨pl.take c.toNat, pl[c.toNat], pl.drop (c.toNat + 1), ?_, ?_⟩
  · rw [List.getElem_cons_drop _ _ hlt, List.take_append_drop]
  · rw [List.length_take]; omega

end Mlt.Playlist

namespace Mlt.Playlist

theorem split_cases (pre : Playlist) (x : Entry) (post : Playlist) (p : Int) :
    split (pre ++ x :: post) pre.length p = (true, pre ++ x :: post) ∨
    ∃ x1 x2, split (pre ++ x :: post) pre.length p = (false, pre ++ x1 :: x2 :: post) ∧
      x1.is_blank = x.is_blank ∧ x2.is_blank = x.is_blank := by
  unfold split count
  rw [if_neg (by simp)]
  have h : ((pre.length : Int)).toNat = pre.length := by omega
  rw [h, List.getElem?_append_right (le_refl _)]
  simp only [Nat.sub_self, List.getElem?_cons_zero]
  generalize (if p < 0 then x.frame_count + p - 1 else p) = q
  unfold split_entry
  dsimp only
  split_ifs with h1 h2
  · right
    refine ⟨x.resize x.frame_in (x.frame_in + q), x.cut (x.frame_in + q + 1) x.frame_out, ?_,
      Entry.is_blank_resize _ _ _, Entry.is_blank_cut _ _ _⟩
    rw [resize_clip_at]
    have h3 : ((pre.length : Int) + 1) = ((pre ++ [x.resize x.frame_in (x.frame_in + q)]).length : Int) := by
      simp
    have h4 : pre ++ x.resize x.frame_in (x.frame_in + q) :: post =
        (pre ++ [x.resize x.frame_in (x.frame_in + q)]) ++ post := by simp
    rw [h3, h4, insert_at_length]
    simp
  · right
    have hb : x.is_blank = true := by simpa using h2
    refine ⟨x.resize x.frame_in (x.frame_in + q), Entry.blankCut (x.frame_out - q - 1), ?_,
      Entry.is_blank_resize _ _ _, ?_⟩
    · rw [resize_clip_at]
      have h3 : ((pre.length : Int) + 1) = ((pre ++ [x.resize x.frame_in (x.frame_in + q)]).length : Int) := by
        simp
      have h4 : pre ++ x.resize x.frame_in (x.frame_in + q) :: post =
          (pre ++ [x.resize x.frame_in (x.frame_in + q)]) ++ post := by simp
      rw [h3, h4, insert_at_length]
      simp
    · rw [hb]; rfl
  · left; rfl

/-- Inserting a clip between two regions creates no pair of adjacent blanks. -/
theorem nab_insert_clip {l1 l2 : Playlist} (h : no_adjacent_blanks (l1 ++ l2)) {e : Entry}
    (he : e.is_blank = false) : no_adjacent_blanks (l1 ++ e :: l2) := by
  unfold no_adjacent_blanks at *
  rw [List.chain'_split]
  constructor
  · rw [List.chain'_append]
    refine ⟨h.left_of_append, List.chain'_singleton _, ?_⟩
    intro x _ y hy
    simp only [List.head?_cons, Option.mem_def, Option.some.injEq] at hy
    subst hy
    rw [he]; simp
  · rw [List.chain'_cons']
    refine ⟨?_, h.right_of_append⟩
    intro y _
    rw [he]; simp

theorem nab_insert {pl : Playlist} (h : no_adjacent_blanks pl) {e : Entry}
    (he : e.is_blank = false) (w : Int) : no_adjacent_blanks (insert pl e w) := by
  rw [insert_eq]
  apply nab_insert_clip _ he
  rw [List.take_append_drop]
  exact h

/-- Dropping a blank that stands between two regions of a playlist without adjacent
blanks creates no pair of adjacent blanks. -/
theorem nab_remove_blank {l1 l2 : Playlist} {b : Entry} (hb : b.is_blank = true)
    (h : no_adjacent_blanks (l1 ++ b :: l2)) : no_adjacent_blanks (l1 ++ l2) := by
  unfold no_adjacent_blanks at *
  obtain ⟨ha, hc⟩ := List.chain'_split.1 h
  obtain ⟨ha1, _, ha3⟩ := List.chain'_append.1 ha
  obtain ⟨_, hc2⟩ := List.chain'_cons'.1 hc
  rw [List.chain'_append]
  refine ⟨ha1, hc2, ?_⟩
  intro x hx y _
  have h1 := ha3 x hx b (by simp)
  rw [hb] at h1
  intro h2
  exact h1 ⟨h2.1, rfl⟩

/-- Whether a playlist has adjacent blanks depends only on which regions are blank. -/
theorem nab_of_flags {l1 l2 : Playlist} (h : l1.map Entry.is_blank = l2.map Entry.is_blank)
    (h1 : no_adjacent_blanks l1) : no_adjacent_blanks l2 := by
  unfold no_adjacent_blanks at *
  have key : ∀ l : Playlist,
      List.Chain' (fun a b : Entry => ¬(a.is_blank = true ∧ b.is_blank = true)) l ↔
      List.Chain' (fun a b : Bool => ¬(a = true ∧ b = true)) (l.map Entry.is_blank) :=
    fun l => (List.chain'_map (R := fun a b : Bool => ¬(a = true ∧ b = true)) Entry.is_blank).symm
  rw [key] at h1 ⊢
  rw [← h]; exact h1

theorem nab_mergeFrom (rest : Playlist) : ∀ left : Entry,
    no_adjacent_blanks (mergeFrom left rest) ∧
      ∃ hd tl, mergeFrom left rest = hd :: tl ∧ hd.is_blank = left.is_blank := by
  induction rest with
  | nil =>
    intro left
    exact ⟨List.chain'_singleton _, left, [], rfl, rfl⟩
  | cons right rest ih =>
    intro left
    unfold mergeFrom
    split_ifs with hb
    · obtain ⟨h1, hd, tl, h2, h3⟩ := ih (left.resize 0 (left.frame_count + right.frame_count - 1))
      exact ⟨h1, hd, tl, h2, by rw [h3, Entry.is_blank_resize]⟩
    · obtain ⟨h1, hd, tl, h2, h3⟩ := ih right
      refine ⟨?_, left, mergeFrom right rest, rfl, rfl⟩
      rw [h2] at h1 ⊢
      unfold no_adjacent_blanks at *
      refine List.Chain'.cons ?_ h1
      rw [h3]; exact hb

theorem nab_merge_blanks (pl : Playlist) : no_adjacent_blanks (merge_blanks pl) := by
  cases pl with
  | nil => exact List.chain'_nil
  | cons e rest => exact (nab_mergeFrom rest e).1

theorem get_clip_last (l : Playlist) : get_clip l (count l - 1) = l.getLast? := by
  unfold get_clip count
  cases l with
  | nil => simp
  | cons a t =>
    rw [if_neg (by simp), List.getLast?_eq_getElem?]
    congr 1
    simp

theorem remove_last (l : Playlist) : (remove l (count l - 1)).2 = l.dropLast := by
  unfold remove count
  cases l with
  | nil => simp
  | cons a t =>
    rw [if_neg (by simp only [List.length_cons]; omega)]
    have h : (((a :: t).length : Int) - 1).toNat + 1 = (a :: t).length := by
      simp only [List.length_cons]; omega
    exact (List.dropLast_eq_eraseIdx h).symm

theorem ntb_dropLast_of_blank {l : Playlist} (h : no_adjacent_blanks l)
    (hb : ∀ e ∈ l.getLast?, e.is_blank = true) : no_trailing_blank l.dropLast := by
  unfold no_trailing_blank
  intro x hx
  rcases List.eq_nil_or_concat l with hl | ⟨l2, b, hl⟩
  · subst hl; simp at hx
  · subst hl
    simp only [List.concat_eq_append, List.dropLast_concat] at hx
    have hbb : b.is_blank = true := hb b (by simp)
    unfold no_adjacent_blanks at h
    rw [List.concat_eq_append] at h
    obtain ⟨_, _, h3⟩ := List.chain'_append.1 h
    have := h3 x hx b (by simp)
    rw [hbb] at this
    cases hxb : x.is_blank
    · rfl
    · exact absurd ⟨hxb, rfl⟩ this

theorem nab_consolidate_blanks (pl : Playlist) (k : Int) :
    no_adjacent_blanks (consolidate_blanks pl k) := by
  unfold consolidate_blanks
  split_ifs
  · rw [remove_last]
    exact List.Chain'.init (nab_merge_blanks pl)
  · exact nab_merge_blanks pl

theorem ntb_consolidate_blanks (pl : Playlist) :
    no_trailing_blank (consolidate_blanks pl 0) := by
  unfold consolidate_blanks
  by_cases hb : is_blank (merge_blanks pl) (count (merge_blanks pl) - 1) = true
  · rw [if_pos ⟨rfl, hb⟩, remove_last]
    apply ntb_dropLast_of_blank (nab_merge_blanks pl)
    intro e he
    unfold is_blank at hb
    rw [get_clip_last] at hb
    rw [Option.mem_def] at he
    rw [he] at hb
    exact hb
  · rw [if_neg (fun h => hb h.2)]
    unfold no_trailing_blank
    intro e he
    unfold is_blank at hb
    rw [get_clip_last] at hb
    rw [Option.mem_def] at he
    rw [he] at hb
    simpa using hb

end Mlt.Playlist

namespace Mlt.Playlist

/-- Two playlists without adjacent blanks, glued with a clip between them. -/
theorem nab_glue {l1 l2 : Playlist} (h1 : no_adjacent_blanks l1) (h2 : no_adjacent_blanks l2)
    {e : Entry} (he : e.is_blank = false) : no_adjacent_blanks (l1 ++ e :: l2) := by
  unfold no_adjacent_blanks at *
  rw [List.chain'_split]
  constructor
  · rw [List.chain'_append]
    refine ⟨h1, List.chain'_singleton _, ?_⟩
    intro x _ y hy
    simp only [List.head?_cons, Option.mem_def, Option.some.injEq] at hy
    subst hy
    rw [he]; simp
  · rw [List.chain'_cons']
    refine ⟨?_, h2⟩
    intro y _
    rw [he]; simp

theorem nab_left {l1 l2 : Playlist} (h : no_adjacent_blanks (l1 ++ l2)) :
    no_adjacent_blanks l1 := List.Chain'.left_of_append h

theorem nab_right {l1 l2 : Playlist} (h : no_adjacent_blanks (l1 ++ l2)) :
    no_adjacent_blanks l2 := List.Chain'.right_of_append h

theorem nab_left_snoc {pre post : Playlist} {b x : Entry}
    (h : no_adjacent_blanks (pre ++ b :: post)) (hx : x.is_blank = b.is_blank) :
    no_adjacent_blanks (pre ++ [x]) := by
  have h1 : no_adjacent_blanks (pre ++ [b]) := by
    have : pre ++ b :: post = (pre ++ [b]) ++ post := by simp
    rw [this] at h
    exact nab_left h
  exact nab_of_flags (by simp [hx]) h1

theorem nab_right_cons {pre post : Playlist} {b y : Entry}
    (h : no_adjacent_blanks (pre ++ b :: post)) (hy : y.is_blank = b.is_blank) :
    no_adjacent_blanks (y :: post) :=
  nab_of_flags (by simp [hy]) (nab_right h)

theorem nab_right_tail {pre post : Playlist} {b : Entry}
    (h : no_adjacent_blanks (pre ++ b :: post)) : no_adjacent_blanks post := by
  have : pre ++ b :: post = (pre ++ [b]) ++ post := by simp
  rw [this] at h
  exact nab_right h

theorem info_start_at (pre : Playlist) (e : Entry) (post : Playlist) :
    info_start (pre ++ e :: post) pre.length = get_playtime pre := by
  unfold info_start count clip_start get_playtime
  rw [if_neg (by simp)]
  have h : ((pre.length : Int)).toNat = pre.length := by omega
  rw [h]
  simp

/-- The first step of `insert_at` on a blank leaves the cursor on a blank, possibly after a
new blank. -/
theorem insert_at_blank_head_shape (pre : Playlist) (b : Entry) (post : Playlist) (p : Int) :
    ∃ pre2 b2, insert_at_blank_head (pre ++ b :: post) p pre.length =
        ((pre2.length : Int), pre2 ++ b2 :: post) ∧
      b2.is_blank = b.is_blank ∧
      (pre2 = pre ∨ ∃ x1, pre2 = pre ++ [x1] ∧ x1.is_blank = b.is_blank) := by
  unfold insert_at_blank_head
  by_cases hp : p ≠ info_start (pre ++ b :: post) pre.length
  · rw [if_pos hp]
    rcases split_cases pre b post (p - info_start (pre ++ b :: post) pre.length - 1) with
      h | ⟨x1, x2, h, h1, h2⟩
    · rw [h]
      exact ⟨pre, b, by simp, rfl, Or.inl rfl⟩
    · rw [h]
      refine ⟨pre ++ [x1], x2, ?_, h2, Or.inr ⟨x1, rfl, h1⟩⟩
      simp
  · rw [if_neg hp]
    exact ⟨pre, b, rfl, rfl, Or.inl rfl⟩

theorem insert_at_blank_shape (pre : Playlist) (b : Entry) (post : Playlist) (p : Int)
    (e : Entry) :
    ∃ l1 l2, insert_at_blank (pre ++ b :: post) p e pre.length = ((l1.length : Int), l1 ++ e :: l2) ∧
      (l1 = pre ∨ ∃ x1, l1 = pre ++ [x1] ∧ x1.is_blank = b.is_blank) ∧
      (l2 = post ∨ ∃ y2, l2 = y2 :: post ∧ y2.is_blank = b.is_blank) := by
  unfold insert_at_blank
  dsimp only
  obtain ⟨pre2, b2, h, hb2, hpre2⟩ := insert_at_blank_head_shape pre b post p
  rw [h]
  dsimp only
  generalize (if (pre2.length : Int) = (pre.length : Int) then
      clip_length (pre ++ b :: post) pre.length
    else clip_length (pre2 ++ b2 :: post) pre2.length) = fc
  by_cases hlt : e.frame_count < fc
  · rw [if_pos hlt]
    rcases split_cases pre2 b2 post (e.frame_count - 1) with hs | ⟨y1, y2, hs, _, hy2⟩
    · rw [hs]
      dsimp only
      rw [remove_at, insert_at_length]
      exact ⟨pre2, post, rfl, hpre2, Or.inl rfl⟩
    · rw [hs]
      dsimp only
      rw [remove_at, insert_at_length]
      exact ⟨pre2, y2 :: post, rfl, hpre2, Or.inr ⟨y2, rfl, by rw [hy2, hb2]⟩⟩
  · rw [if_neg hlt, remove_at, insert_at_length]
    exact ⟨pre2, post, rfl, hpre2, Or.inl rfl⟩

theorem nab_insert_at_blank {pre post : Playlist} {b : Entry}
    (h : no_adjacent_blanks (pre ++ b :: post)) (p : Int) {e : Entry}
    (he : e.is_blank = false) :
    no_adjacent_blanks (insert_at_blank (pre ++ b :: post) p e pre.length).2 := by
  obtain ⟨l1, l2, hr, h1, h2⟩ := insert_at_blank_shape pre b post p e
  rw [hr]
  dsimp only
  apply nab_glue _ _ he
  · rcases h1 with rfl | ⟨x1, rfl, hx⟩
    · exact nab_left h
    · exact nab_left_snoc h hx
  · rcases h2 with rfl | ⟨y2, rfl, hy⟩
    · exact nab_right_tail h
    · exact nab_right_cons h hy

theorem insert_at_clip_shape (pre : Playlist) (x : Entry) (post : Playlist) (p : Int)
    (e : Entry) (m : Int) (hx : x.is_blank = false) :
    ∃ l1 l2, insert_at_clip (pre ++ x :: post) p e m pre.length = ((l1.length : Int), l1 ++ e :: l2) ∧
      ((l1 = pre ∧ l2 = x :: post) ∨ (l1 = pre ++ [x] ∧ l2 = post) ∨
        (l1 = pre ++ [x] ∧ ∃ b post2, post = b :: post2 ∧ b.is_blank = true ∧
          (l2 = post2 ∨ ∃ y2, l2 = y2 :: post2 ∧ y2.is_blank = true))) := by
  unfold insert_at_clip
  dsimp only
  by_cases hgt : p > info_start (pre ++ x :: post) pre.length +
      (clip_length (pre ++ x :: post) pre.length).tdiv 2
  · rw [if_pos hgt]
    have hidx : ((pre.length : Int) + 1) = ((pre ++ [x]).length : Int) := by simp
    have hpl : pre ++ x :: post = (pre ++ [x]) ++ post := by simp
    by_cases hc : m = 1 ∧ (pre.length : Int) + 1 < count (pre ++ x :: post) ∧
        is_blank (pre ++ x :: post) ((pre.length : Int) + 1) = true
    · rw [if_pos hc]
      obtain ⟨_, hcnt, hbl⟩ := hc
      cases post with
      | nil =>
        exfalso
        unfold count at hcnt
        simp at hcnt
      | cons b post2 =>
        have hpl2 : pre ++ x :: b :: post2 = (pre ++ [x]) ++ b :: post2 := by simp
        rw [hidx, hpl2] at hbl
        rw [is_blank_at] at hbl
        rw [hidx, hpl2]
        by_cases hlt : e.frame_count < clip_length ((pre ++ [x]) ++ b :: post2) ((pre ++ [x]).length : Int)
        · rw [if_pos hlt]
          rcases split_cases (pre ++ [x]) b post2 e.frame_count with hs | ⟨y1, y2, hs, _, hy2⟩
          · rw [hs]
            dsimp only
            rw [remove_at, insert_at_length]
            exact ⟨pre ++ [x], post2, rfl, Or.inr (Or.inr ⟨rfl, b, post2, rfl, hbl, Or.inl rfl⟩)⟩
          · rw [hs]
            dsimp only
            rw [remove_at, insert_at_length]
            exact ⟨pre ++ [x], y2 :: post2, rfl,
              Or.inr (Or.inr ⟨rfl, b, post2, rfl, hbl, Or.inr ⟨y2, rfl, by rw [hy2, hbl]⟩⟩)⟩
        · rw [if_neg hlt, remove_at, insert_at_length]
          exact ⟨pre ++ [x], post2, rfl, Or.inr (Or.inr ⟨rfl, b, post2, rfl, hbl, Or.inl rfl⟩)⟩
    · rw [if_neg hc, hidx, hpl, insert_at_length]
      exact ⟨pre ++ [x], post, rfl, Or.inr (Or.inl ⟨rfl, rfl⟩)⟩
  · rw [if_neg hgt]
    have hc : ¬(m = 1 ∧ (pre.length : Int) < count (pre ++ x :: post) ∧
        is_blank (pre ++ x :: post) (pre.length : Int) = true) := by
      rw [is_blank_at, hx]
      simp
    rw [if_neg hc]
    have hpl : pre ++ x :: post = pre ++ (x :: post) := rfl
    rw [hpl, insert_at_length]
    exact ⟨pre, x :: post, rfl, Or.inl ⟨rfl, rfl⟩⟩

theorem nab_insert_at_clip {pre post : Playlist} {x : Entry}
    (h : no_adjacent_blanks (pre ++ x :: post)) (hx : x.is_blank = false) (p : Int) {e : Entry}
    (he : e.is_blank = false) (m : Int) :
    no_adjacent_blanks (insert_at_clip (pre ++ x :: post) p e m pre.length).2 := by
  obtain ⟨l1, l2, hr, hs⟩ := insert_at_clip_shape pre x post p e m hx
  rw [hr]
  dsimp only
  rcases hs with ⟨rfl, rfl⟩ | ⟨rfl, rfl⟩ | ⟨rfl, b, post2, rfl, hb, h2⟩
  · exact nab_glue (nab_left h) (nab_right h) he
  · exact nab_glue (nab_left_snoc h rfl) (nab_right_tail h) he
  · have hpl : pre ++ x :: b :: post2 = (pre ++ [x]) ++ b :: post2 := by simp
    rw [hpl] at h
    apply nab_glue (nab_left h) _ he
    rcases h2 with rfl | ⟨y2, rfl, hy⟩
    · exact nab_right_tail h
    · exact nab_right_cons h (by rw [hy, hb])

theorem insert_at_end_shape (pl : Playlist) (p : Int) (e : Entry) (m : Int) {c : Int}
    (hc : count pl ≤ c) :
    insert_at_end pl p e m c = (count pl, pl ++ [e]) ∨
    ∃ k, 0 ≤ k ∧ k = p - get_playtime pl - 1 ∧ m = 1 ∧
      insert_at_end pl p e m c = (count pl + 1, pl ++ [Entry.blankCut k, e]) := by
  unfold insert_at_end
  dsimp only
  by_cases hm : m = 1
  · rw [if_pos hm]
    by_cases hp : p = info_start pl c
    · rw [if_pos hp, remove_of_count_le pl hc]
      left
      unfold append count
      simp
    · rw [if_neg hp]
      by_cases hk : 0 ≤ p - get_playtime pl - 1
      · right
        refine ⟨p - get_playtime pl - 1, hk, rfl, hm, ?_⟩
        rw [blank_of_nonneg pl hk]
        unfold append count
        simp
        omega
      · left
        unfold blank
        rw [if_neg hk]
        unfold append count
        simp
  · rw [if_neg hm]
    left
    unfold append count
    simp

theorem nab_snoc_blank {pl : Playlist} (h : no_adjacent_blanks pl) (ht : no_trailing_blank pl)
    (b : Entry) : no_adjacent_blanks (pl ++ [b]) := by
  unfold no_adjacent_blanks at *
  rw [List.chain'_append]
  refine ⟨h, List.chain'_singleton _, ?_⟩
  intro x hx y _
  rw [ht x hx]; simp

theorem nab_insert_at_end {pl : Playlist} (h : no_adjacent_blanks pl)
    (ht : no_trailing_blank pl) (p : Int) {e : Entry} (he : e.is_blank = false) (m : Int)
    {c : Int} (hc : count pl ≤ c) : no_adjacent_blanks (insert_at_end pl p e m c).2 := by
  rcases insert_at_end_shape pl p e m hc with hs | ⟨k, _, _, _, hs⟩
  · rw [hs]
    exact nab_glue h List.chain'_nil he
  · rw [hs]
    have : pl ++ [Entry.blankCut k, e] = (pl ++ [Entry.blankCut k]) ++ e :: [] := by simp
    dsimp only
    rw [this]
    exact nab_glue (nab_snoc_blank h ht _) List.chain'_nil he

theorem get_clip_index_at_nonneg (pl : Playlist) (p : Int) : 0 ≤ get_clip_index_at pl p := by
  unfold get_clip_index_at; omega

/-- `insert_at` of a clip keeps a consolidated playlist free of adjacent blanks. -/
theorem nab_insert_at {pl : Playlist} (h : no_adjacent_blanks pl) (ht : no_trailing_blank pl)
    (p : Int) {e : Entry} (he : e.is_blank = false) (m : Int) :
    no_adjacent_blanks (insert_at pl p e m).2 := by
  unfold insert_at
  by_cases hp : p < 0
  · rw [if_pos hp]; exact h
  · rw [if_neg hp]
    by_cases hc : get_clip_index_at pl p < count pl
    · obtain ⟨pre, x, post, hpl, hidx⟩ := exists_decomp (get_clip_index_at_nonneg pl p) hc
      rw [hidx]
      subst hpl
      by_cases hb : x.is_blank = true
      · rw [if_pos ⟨by rw [← hidx]; exact hc, by rw [is_blank_at]; exact hb⟩]
        exact nab_insert_at_blank h p he
      · rw [if_neg (by rw [is_blank_at]; exact fun h2 => hb h2.2),
          if_pos (by rw [← hidx]; exact hc)]
        exact nab_insert_at_clip h (by simpa using hb) p he m
    · rw [if_neg (fun h2 => hc h2.1), if_neg hc]
      exact nab_insert_at_end h ht p he m (by omega)

end Mlt.Playlist

namespace Mlt.Playlist

theorem flags_set {pl : Playlist} {n : Nat} {e e2 : Entry} (h : pl[n]? = some e)
    (h2 : e2.is_blank = e.is_blank) :
    (pl.set n e2).map Entry.is_blank = pl.map Entry.is_blank := by
  apply List.ext_getElem?
  intro m
  rw [List.getElem?_map, List.getElem?_map, List.getElem?_set]
  split_ifs with h3 h4
  · subst h3
    rw [h]
    simp [h2]
  · subst h3
    rw [List.getElem?_eq_none (by omega)]
  · rfl

theorem flags_resize_clip (pl : Playlist) (c i o : Int) :
    (resize_clip pl c i o).2.map Entry.is_blank = pl.map Entry.is_blank := by
  unfold resize_clip
  split_ifs
  · rfl
  · cases hget : pl[c.toNat]? with
    | none => rfl
    | some e => exact flags_set hget (Entry.is_blank_resize _ _ _)

end Mlt.Playlist

namespace Track

theorem flags_set_length (pl : Playlist) (index v : Int) :
    (set_length pl index v).map Entry.is_blank = pl.map Entry.is_blank := by
  unfold set_length
  cases hget : get_clip pl index with
  | none => rfl
  | some e =>
    unfold get_clip at hget
    split_ifs at hget
    exact flags_set hget rfl

theorem nab_doAdd (tr : Track) (t : ℚ) {c : Entry} (hc : c.is_blank = false) (mode : Int) :
    no_adjacent_blanks (doAdd tr t c mode).2.m_playlist := by
  rw [doAdd_playlist]
  unfold doAdd_prepared
  exact nab_insert_at (nab_consolidate_blanks _ 0) (ntb_consolidate_blanks _) _ hc _

theorem nab_add (tr : Track) (t : ℚ) {c : Entry} (hc : c.is_blank = false) (mode : Int) :
    no_adjacent_blanks (add tr t c mode).2.m_playlist := by
  unfold add
  exact nab_doAdd tr.lock t hc mode

theorem nab_move {tr : Track} (h : no_adjacent_blanks tr.m_playlist) (s e : ℚ) (mode : Int) :
    no_adjacent_blanks (move tr s e mode).2.m_playlist := by
  unfold move
  dsimp only
  by_cases hb : is_blank tr.lock.m_playlist
      (get_clip_index_at tr.lock.m_playlist (tr.frame s)) = true
  · rw [replace_with_blank_of_blank hb]
    exact h
  · cases hget : (replace_with_blank tr.lock.m_playlist
        (get_clip_index_at tr.lock.m_playlist (tr.frame s))).1 with
    | none =>
      exfalso
      unfold replace_with_blank at hget
      rw [if_pos (by simpa using hb)] at hget
      unfold is_blank at hb
      cases hg : get_clip tr.lock.m_playlist
          (get_clip_index_at tr.lock.m_playlist (tr.frame s)) with
      | none => rw [hg] at hb; exact hb rfl
      | some x => rw [hg] at hget; cases hget
    | some cp =>
      have hcp : cp.is_blank = false := by
        unfold replace_with_blank at hget
        rw [if_pos (by simpa using hb)] at hget
        unfold is_blank at hb
        cases hg : get_clip tr.lock.m_playlist
            (get_clip_index_at tr.lock.m_playlist (tr.frame s)) with
        | none => rw [hg] at hb; exact absurd rfl hb
        | some x =>
          rw [hg] at hget hb
          simp only [Option.some.injEq] at hget
          subst hget
          simpa using hb
      dsimp only
      rw [if_neg (by rw [hcp]; decide)]
      split_ifs <;> exact nab_doAdd _ _ hcp _

theorem nab_del {tr : Track} (h : no_adjacent_blanks tr.m_playlist) (t : ℚ) :
    no_adjacent_blanks (del tr t).2.m_playlist := by
  unfold del
  dsimp only
  by_cases hb : is_blank tr.lock.m_playlist
      (get_clip_index_at tr.lock.m_playlist (tr.lock.frame t)) = true
  · rw [replace_with_blank_of_blank hb]
    exact h
  · cases hget : (replace_with_blank tr.lock.m_playlist
        (get_clip_index_at tr.lock.m_playlist (tr.lock.frame t))).1 with
    | none =>
      dsimp only
      unfold replace_with_blank at hget ⊢
      rw [if_pos (by simpa using hb)] at hget ⊢
      cases hg : get_clip tr.lock.m_playlist
          (get_clip_index_at tr.lock.m_playlist (tr.lock.frame t)) with
      | none => exact h
      | some x => rw [hg] at hget; cases hget
    | some cp =>
      dsimp only
      split_ifs <;> exact nab_consolidate_blanks _ 0

theorem nab_del_dt (tr : Track) (t dt : ℚ) :
    no_adjacent_blanks (del_dt tr t dt).2.m_playlist := by
  unfold del_dt
  exact nab_consolidate_blanks _ 0

theorem nab_resize {tr : Track} (h : no_adjacent_blanks tr.m_playlist) (t dt : ℚ) (e : Bool) :
    no_adjacent_blanks (resize tr t dt e).2.m_playlist := by
  unfold resize
  dsimp only
  cases hget : get_clip tr.lock.m_playlist
      (get_clip_index_at tr.lock.m_playlist (tr.lock.frame t)) with
  | none => exact h
  | some clip =>
    dsimp only
    by_cases hb : clip.is_blank = true
    · rw [if_pos hb]; exact h
    · rw [if_neg hb]
      have key : ∀ (i o : Int), no_adjacent_blanks (resize_clip
          (if clip.length < o + 1 then
            set_length tr.lock.m_playlist
              (get_clip_index_at tr.lock.m_playlist (tr.lock.frame t)) (o + 2)
           else tr.lock.m_playlist)
          (get_clip_index_at tr.lock.m_playlist (tr.lock.frame t)) i o).2 := by
        intro i o
        apply nab_of_flags _ h
        rw [flags_resize_clip]
        split_ifs
        · rw [flags_set_length]; rfl
        · rfl
      generalize hin : (if (if e = true then clip.frame_in else clip.frame_in + tr.lock.frame dt) < 0
        then 0 else if e = true then clip.frame_in else clip.frame_in + tr.lock.frame dt) = in1
      generalize hout : (if (if e = true then clip.frame_in else clip.frame_in + tr.lock.frame dt) < 0
        then (if e = true then clip.frame_out + tr.lock.frame dt else clip.frame_out) -
          (if e = true then clip.frame_in else clip.frame_in + tr.lock.frame dt)
        else if e = true then clip.frame_out + tr.lock.frame dt else clip.frame_out) = out1
      have key2 := key in1 out1
      generalize (resize_clip
          (if clip.length < out1 + 1 then
            set_length tr.lock.m_playlist
              (get_clip_index_at tr.lock.m_playlist (tr.lock.frame t)) (out1 + 2)
           else tr.lock.m_playlist)
          (get_clip_index_at tr.lock.m_playlist (tr.lock.frame t)) in1 out1) = r at key2
      split_ifs
      all_goals (simp only [Track.unlock, Track.emitDuration, Track.withPlaylist, Track.lock])
      all_goals first
        | exact key2
        | exact nab_consolidate_blanks _ 0

end Track

namespace Mlt

theorem Entry.resize_clip_exact {e : Entry} (hb : e.is_blank = false) {i o : Int}
    (hi : 0 ≤ i) (hio : i ≤ o) (ho : o < e.length) :
    e.resize i o = { e with frame_in := i, frame_out := o } := by
  have hb2 : e.parent.isNone = false := hb
  have h1 : ¬ (i < 0) := by omega
  have h2 : ¬ (o < 0) := by omega
  have h3 : ¬ (e.length ≤ o) := by omega
  have h4 : ¬ (e.length ≤ i) := by omega
  have h5 : ¬ (o < i) := by omega
  simp [Entry.resize, Entry.set_in_and_out, Entry.is_blank, hb2, h1, h2, h3, h4, h5]

namespace Playlist

theorem clip_length_at (pre : Playlist) (e : Entry) (post : Playlist) :
    clip_length (pre ++ e :: post) pre.length = e.frame_count := by
  unfold clip_length; rw [get_clip_at]

theorem mergeFrom_id (rest : Playlist) : ∀ left : Entry, no_adjacent_blanks (left :: rest) →
    mergeFrom left rest = left :: rest := by
  induction rest with
  | nil => intro left _; rfl
  | cons right rest ih =>
    intro left h
    unfold no_adjacent_blanks at h
    obtain ⟨h1, h2⟩ := List.chain'_cons.1 h
    unfold mergeFrom
    rw [if_neg h1, ih right h2]

theorem merge_blanks_id {pl : Playlist} (h : no_adjacent_blanks pl) : merge_blanks pl = pl := by
  cases pl with
  | nil => rfl
  | cons e rest => exact mergeFrom_id rest e h

/-- Consolidation changes nothing on a playlist without adjacent blanks and without a
trailing blank. -/
theorem consolidate_blanks_id {pl : Playlist} (h : no_adjacent_blanks pl)
    (ht : no_trailing_blank pl) : consolidate_blanks pl 0 = pl := by
  unfold consolidate_blanks
  rw [merge_blanks_id h]
  cases hl : pl.getLast? with
  | none =>
    have : pl = [] := List.getLast?_eq_none_iff.1 hl
    subst this
    rfl
  | some x =>
    have hx : x.is_blank = false := ht x hl
    have hb : ¬ (is_blank pl (count pl - 1) = true) := by
      unfold is_blank
      rw [get_clip_last, hl]
      simp [hx]
    rw [if_neg (fun h2 => hb h2.2)]

theorem ntb_append_cons (l1 : Playlist) (x : Entry) (l2 : Playlist) :
    no_trailing_blank (l1 ++ x :: l2) ↔ no_trailing_blank (x :: l2) := by
  unfold no_trailing_blank
  rw [List.getLast?_append_of_ne_nil _ (List.cons_ne_nil x l2)]

end Playlist
end Mlt

namespace Track

theorem set_length_at (pre : Playlist) (e : Entry) (post : Playlist) (v : Int) :
    set_length (pre ++ e :: post) pre.length v = pre ++ { e with length := v } :: post := by
  unfold set_length
  rw [get_clip_at]
  dsimp only
  have h : ((pre.length : Int)).toNat = pre.length := by omega
  rw [h]
  simp

end Track

namespace Mlt.Playlist

theorem frame_count_resize_blank {e : Entry} (hb : e.is_blank = true) (hw : e.wf) {o : Int}
    (ho : 0 ≤ o) : (e.resize 0 o).frame_count = o + 1 := by
  rw [Entry.resize_blank hb (by unfold Entry.wf at hw; omega) ho]
  show o - 0 + 1 = o + 1
  omega

theorem wf_merged {l r : Entry} (hl : l.wf) (hr : r.wf) :
    (l.resize 0 (l.frame_count + r.frame_count - 1)).wf := by
  apply Entry.wf_resize hl
  intro _
  have := Entry.wf_frame_count_pos hl
  have := Entry.wf_frame_count_pos hr
  exact ⟨rfl, by omega⟩

theorem frame_count_merged {l r : Entry} (hb : l.is_blank = true) (hl : l.wf) (hr : r.wf) :
    (l.resize 0 (l.frame_count + r.frame_count - 1)).frame_count =
      l.frame_count + r.frame_count := by
  have := Entry.wf_frame_count_pos hl
  have := Entry.wf_frame_count_pos hr
  rw [frame_count_resize_blank hb hl (by omega)]
  omega

/-- Merging adjacent blanks keeps the total number of frames. -/
theorem get_playtime_mergeFrom (rest : Playlist) : ∀ left : Entry, left.wf → wf rest →
    get_playtime (mergeFrom left rest) = left.frame_count + get_playtime rest := by
  induction rest with
  | nil => intro left _ _; simp [mergeFrom, get_playtime]
  | cons right rest ih =>
    intro left hl hr
    have hrw : right.wf := hr right (List.mem_cons_self _ _)
    have hrest : wf rest := fun e he => hr e (List.mem_cons_of_mem _ he)
    unfold mergeFrom
    split_ifs with hb
    · rw [ih _ (wf_merged hl hrw) hrest, frame_count_merged hb.1 hl hrw, get_playtime_cons]
      omega
    · rw [get_playtime_cons, ih right hrw hrest, get_playtime_cons]

theorem get_playtime_merge_blanks {pl : Playlist} (h : wf pl) :
    get_playtime (merge_blanks pl) = get_playtime pl := by
  cases pl with
  | nil => rfl
  | cons e rest =>
    show get_playtime (mergeFrom e rest) = _
    rw [get_playtime_mergeFrom rest e (h e (List.mem_cons_self _ _))
      (fun x hx => h x (List.mem_cons_of_mem _ hx)), get_playtime_cons]

/-- Merging a playlist that ends in a blank leaves a blank at least as long at the end. -/
theorem mergeFrom_snoc_blank (rest : Playlist) : ∀ left : Entry, left.wf → wf rest →
    ∀ bl : Entry, bl.wf → bl.is_blank = true →
    ∃ init lastE, mergeFrom left (rest ++ [bl]) = init ++ [lastE] ∧ lastE.is_blank = true ∧
      bl.frame_count ≤ lastE.frame_count := by
  induction rest with
  | nil =>
    intro left hl _ bl hbl hb
    have h1 := Entry.wf_frame_count_pos hl
    show ∃ init lastE, mergeFrom left [bl] = init ++ [lastE] ∧ _
    unfold mergeFrom
    split_ifs with h
    · refine ⟨[], left.resize 0 (left.frame_count + bl.frame_count - 1), rfl, ?_, ?_⟩
      · rw [Entry.is_blank_resize]; exact h.1
      · rw [frame_count_merged h.1 hl hbl]; omega
    · exact ⟨[left], bl, rfl, hb, le_refl _⟩
  | cons right rest ih =>
    intro left hl hr bl hbl hb
    have hrw : right.wf := hr right (List.mem_cons_self _ _)
    have hrest : wf rest := fun e he => hr e (List.mem_cons_of_mem _ he)
    show ∃ init lastE, mergeFrom left (right :: (rest ++ [bl])) = init ++ [lastE] ∧ _
    unfold mergeFrom
    split_ifs with h
    · exact ih _ (wf_merged hl hrw) hrest bl hbl hb
    · obtain ⟨init, lastE, h1, h2, h3⟩ := ih right hrw hrest bl hbl hb
      exact ⟨left :: init, lastE, by rw [h1]; rfl, h2, h3⟩

theorem merge_blanks_snoc_blank {pre : Playlist} (h : wf pre) {bl : Entry} (hbl : bl.wf)
    (hb : bl.is_blank = true) :
    ∃ init lastE, merge_blanks (pre ++ [bl]) = init ++ [lastE] ∧ lastE.is_blank = true ∧
      bl.frame_count ≤ lastE.frame_count := by
  cases pre with
  | nil => exact ⟨[], bl, rfl, hb, le_refl _⟩
  | cons e rest =>
    exact mergeFrom_snoc_blank rest e (h e (List.mem_cons_self _ _))
      (fun x hx => h x (List.mem_cons_of_mem _ hx)) bl hbl hb

theorem get_clip_snoc (init : Playlist) (x : Entry) :
    get_clip (init ++ [x]) (count (init ++ [x]) - 1) = some x := by
  rw [get_clip_last]; simp

/-- Consolidating a playlist that ends in a blank removes at least the frames of that
blank. -/
theorem get_playtime_consolidate_snoc_blank {pre : Playlist} (h : wf pre) {bl : Entry}
    (hbl : bl.wf) (hb : bl.is_blank = true) :
    get_playtime (consolidate_blanks (pre ++ [bl]) 0) ≤ get_playtime pre := by
  have hw : wf (pre ++ [bl]) := wf_append h hbl
  obtain ⟨init, lastE, h1, h2, h3⟩ := merge_blanks_snoc_blank h hbl hb
  have hp := get_playtime_merge_blanks hw
  unfold consolidate_blanks
  rw [h1] at hp ⊢
  have hbl2 : is_blank (init ++ [lastE]) (count (init ++ [lastE]) - 1) = true := by
    unfold is_blank; rw [get_clip_snoc]; exact h2
  rw [if_pos ⟨rfl, hbl2⟩, remove_last, List.dropLast_concat]
  rw [get_playtime_append, get_playtime_append, get_playtime_cons, get_playtime_cons,
    get_playtime_nil] at hp
  omega

theorem replace_with_blank_at (pre : Playlist) {e : Entry} (post : Playlist)
    (hb : e.is_blank = false) (hio : e.frame_in ≤ e.frame_out) :
    replace_with_blank (pre ++ e :: post) pre.length =
      (some e, pre ++ Entry.blankCut (e.frame_out - e.frame_in) :: post) := by
  unfold replace_with_blank
  rw [if_pos (by rw [is_blank_at]; exact hb), get_clip_at]
  dsimp only
  rw [remove_at, blank_of_nonneg _ (by omega)]
  have h1 : count (pre ++ post ++ [Entry.blankCut (e.frame_out - e.frame_in)]) - 1 =
      count (append (pre ++ post) (Entry.blankCut (e.frame_out - e.frame_in))) - 1 := rfl
  have h2 := insert_at_length pre post (Entry.blankCut (e.frame_out - e.frame_in))
  unfold insert at h2
  rw [h1]
  exact congrArg (Prod.mk (some e)) h2

/-- Past the end of a well-formed playlist, `insert_at` in mode 1 puts the cut at the
requested position: the playtime becomes the position plus the length of the cut. -/
theorem get_playtime_insert_at_past_end {pl : Playlist} (h : ∀ e ∈ pl, 0 ≤ e.frame_count)
    {p : Int} (hp : get_playtime pl ≤ p) (e : Entry) :
    get_playtime (insert_at pl p e 1).2 = p + e.frame_count := by
  have h0 := get_playtime_nonneg h
  have hidx : get_clip_index_at pl p = count pl := by
    unfold get_clip_index_at count
    rw [locate_of_playtime_le h hp]
  unfold insert_at
  rw [if_neg (by omega), hidx, if_neg (by omega), if_neg (by omega)]
  rcases insert_at_end_shape pl p e 1 (le_refl (count pl)) with hs | ⟨k, hk0, hk, _, hs⟩
  · -- no gap was filled: the position is the end of the playlist
    have hs2 := hs
    unfold insert_at_end at hs2
    dsimp only at hs2
    rw [if_pos rfl] at hs2
    have hinfo : info_start pl (count pl) = 0 := by
      unfold info_start; rw [if_pos (Or.inr (le_refl _))]
    rw [hinfo] at hs2
    rw [hs]
    dsimp only
    rw [get_playtime_append, get_playtime_cons, get_playtime_nil]
    by_cases hp0 : p = 0
    · omega
    · rw [if_neg hp0] at hs2
      by_cases hk : 0 ≤ p - get_playtime pl - 1
      · exfalso
        rw [blank_of_nonneg _ hk] at hs2
        unfold append at hs2
        have := congrArg (fun r => r.2.length) hs2
        simp at this
      · omega
  · rw [hs]
    dsimp only
    rw [get_playtime_append, get_playtime_cons, get_playtime_cons, get_playtime_nil]
    show get_playtime pl + (k - 0 + 1 + (e.frame_count + 0)) = p + e.frame_count
    omega

end Mlt.Playlist

namespace Track

theorem frame_congr {tr1 tr2 : Track} (h : tr1.m_fps = tr2.m_fps) (t : ℚ) :
    tr1.frame t = tr2.frame t := by
  unfold frame; rw [h]

theorem del_fps (tr : Track) (t : ℚ) : (tr.del t).2.m_fps = tr.m_fps := by
  unfold del
  dsimp only
  cases (replace_with_blank tr.lock.m_playlist
      (get_clip_index_at tr.lock.m_playlist (tr.lock.frame t))).1 with
  | none => rfl
  | some e =>
    dsimp only
    split_ifs <;> rfl

/-- What `del` does when the engine hands back a clip. -/
theorem del_of_clip (tr : Track) (t : ℚ) {e : Entry}
    (h : (replace_with_blank tr.m_playlist
      (get_clip_index_at tr.m_playlist (tr.frame t))).1 = some e) :
    (tr.del t).1 = true ∧
    (tr.del t).2.m_playlist = consolidate_blanks
      (replace_with_blank tr.m_playlist (get_clip_index_at tr.m_playlist (tr.frame t))).2 0 ∧
    (tr.del t).2.emitted =
      (if get_clip_index_at tr.m_playlist (tr.frame t) = count tr.m_playlist - 1 then
        tr.emitted ++ [get_playtime (consolidate_blanks
          (replace_with_blank tr.m_playlist (get_clip_index_at tr.m_playlist (tr.frame t))).2 0)]
      else tr.emitted) := by
  unfold del
  dsimp only
  rw [show tr.lock.m_playlist = tr.m_playlist from rfl,
    show tr.lock.frame t = tr.frame t from rfl, h]
  dsimp only
  by_cases hlast : get_clip_index_at tr.m_playlist (tr.frame t) = count tr.m_playlist - 1
  · simp [hlast, Track.withPlaylist, Track.unlock, Track.lock, Track.emitDuration]
  · simp [hlast, Track.withPlaylist, Track.unlock, Track.lock, Track.emitDuration]

theorem add_playlist (tr : Track) (t : ℚ) (c : Entry) (mode : Int) :
    (tr.add t c mode).2.m_playlist =
      (insert_at (doAdd_prepared tr t c mode) (tr.frame t) c 1).2 := by
  unfold add
  show (doAdd tr.lock t c mode).2.m_playlist = _
  rw [doAdd_playlist]
  rfl

theorem add_fst (tr : Track) (t : ℚ) (c : Entry) (mode : Int) : (tr.add t c mode).1 = true := by
  unfold add
  exact doAdd_fst _ _ _ _

theorem doAdd_prepared_mode_zero (tr : Track) (t : ℚ) (c : Entry) :
    doAdd_prepared tr t c 0 = consolidate_blanks tr.m_playlist 0 := by
  unfold doAdd_prepared
  rw [if_neg (fun h => by have := h.2; omega)]

theorem doAdd_prepared_congr {tr1 tr2 : Track} (h1 : tr1.m_fps = tr2.m_fps)
    (h2 : tr1.m_playlist = tr2.m_playlist) (t : ℚ) (c : Entry) (mode : Int) :
    doAdd_prepared tr1 t c mode = doAdd_prepared tr2 t c mode := by
  unfold doAdd_prepared
  rw [frame_congr h1, h2]

end Track

namespace Mlt.Playlist

theorem ntb_cons_cons (a b : Entry) (l : Playlist) :
    no_trailing_blank (a :: b :: l) ↔ no_trailing_blank (b :: l) := by
  have := ntb_append_cons [a] b l
  simpa using this

/-- Merging adjacent blanks keeps a clip at the end of the playlist. -/
theorem ntb_mergeFrom (rest : Playlist) : ∀ left : Entry, no_trailing_blank (left :: rest) →
    no_trailing_blank (mergeFrom left rest) := by
  induction rest with
  | nil => intro left h; exact h
  | cons right rest ih =>
    intro left h
    unfold mergeFrom
    split_ifs with hb
    · apply ih
      cases rest with
      | nil =>
        exfalso
        have := h right (by simp)
        rw [hb.2] at this
        cases this
      | cons x rest2 =>
        rw [ntb_cons_cons] at h ⊢
        rw [ntb_cons_cons] at h
        exact h
    · rw [ntb_cons_cons] at h
      have h1 := ih right h
      obtain ⟨_, hd, tl, h2, _⟩ := nab_mergeFrom rest right
      rw [h2] at h1 ⊢
      rw [ntb_cons_cons]
      exact h1

theorem ntb_merge_blanks {pl : Playlist} (h : no_trailing_blank pl) :
    no_trailing_blank (merge_blanks pl) := by
  cases pl with
  | nil => exact h
  | cons e rest => exact ntb_mergeFrom rest e h

/-- Consolidating a well-formed playlist that ends in a clip keeps its playtime. -/
theorem get_playtime_consolidate_of_ntb {pl : Playlist} (h : wf pl) (ht : no_trailing_blank pl) :
    get_playtime (consolidate_blanks pl 0) = get_playtime pl := by
  unfold consolidate_blanks
  have h1 := ntb_merge_blanks ht
  cases hl : (merge_blanks pl).getLast? with
  | none =>
    have h2 : merge_blanks pl = [] := List.getLast?_eq_none_iff.1 hl
    have h3 := get_playtime_merge_blanks h
    rw [h2] at h3 ⊢
    rw [← h3]
    rfl
  | some x =>
    have hx : x.is_blank = false := h1 x hl
    have hb : ¬ (is_blank (merge_blanks pl) (count (merge_blanks pl) - 1) = true) := by
      unfold is_blank
      rw [get_clip_last, hl]
      simp [hx]
    rw [if_neg (fun h2 => hb h2.2)]
    exact get_playtime_merge_blanks h

end Mlt.Playlist

namespace Track

theorem wf_of_reachable {tr : Track} (h : Reachable tr) : wf tr.m_playlist := by
  induction h with
  | empty fps => intro e he; cases he
  | add t c mode _ hc _ ih => exact wf_track_add ih t hc mode
  | move s e mode _ ih => exact wf_track_move ih s e mode
  | del t _ ih => exact wf_track_del ih t
  | del_dt t dt _ ih => exact wf_track_del_dt ih t dt
  | resize t dt e _ ih => exact wf_track_resize ih t dt e
  | cut t _ ih => exact wf_track_cut ih t

end Track

namespace Mlt.Playlist

theorem clip_start_zero (pl : Playlist) : clip_start pl 0 = 0 := by
  simp [clip_start]

theorem clip_start_succ (pl : Playlist) {i : Int} (h0 : 0 ≤ i) (h1 : i < count pl) :
    clip_start pl i + clip_length pl i = clip_start pl (i + 1) := by
  unfold clip_start clip_length get_clip count at *
  have hlt : i.toNat < pl.length := by omega
  have hs : (i + 1).toNat = i.toNat + 1 := by omega
  rw [if_neg (by omega), hs, List.take_succ, List.getElem?_eq_getElem hlt]
  simp only [Option.toList, List.map_append, List.sum_append, List.map_cons, List.map_nil,
    List.sum_cons, List.sum_nil, add_zero]

theorem clip_length_pos {pl : Playlist} (h : wf pl) {i : Int} (h0 : 0 ≤ i) (h1 : i < count pl) :
    1 ≤ clip_length pl i := by
  unfold clip_length get_clip count at *
  have hlt : i.toNat < pl.length := by omega
  rw [if_neg (by omega), List.getElem?_eq_getElem hlt]
  exact Entry.wf_frame_count_pos (h _ (List.getElem_mem _))

end Mlt.Playlist

/-- C1: in every track state reachable from an empty track by `add`, `move`, `del(t)`,
`del(t, dt)`, `resize` and `cut` calls, the first region starts at frame 0, every region
has at least one frame, and every region ends where the next one starts (the last one
at the index `count`, whose start is the playtime): the regions are contiguous, do not
overlap and are ordered by start position. -/
theorem Track.regions_contiguous (tr : Track) (h : tr.Reachable) :
    clip_start tr.m_playlist 0 = 0 ∧
    ∀ i : Int, 0 ≤ i → i < count tr.m_playlist →
      1 ≤ clip_length tr.m_playlist i ∧
      clip_start tr.m_playlist i + clip_length tr.m_playlist i =
        clip_start tr.m_playlist (i + 1) :=
  ⟨clip_start_zero _, fun _ h0 h1 =>
    ⟨clip_length_pos (Track.wf_of_reachable h) h0 h1, clip_start_succ _ h0 h1⟩⟩

/-- Witness for C1: the track obtained from the empty track by adding `clipA` at 0 s and
`clipB` at 4 s, then cutting at 2 s, is reachable and its regions are contiguous. -/
theorem Track.regions_contiguous_witness :
    Track.Reachable (((emptyTrack.add 0 clipA 0).2.add 4 clipB 0).2.cut 2).2 ∧
    (clip_start (((emptyTrack.add 0 clipA 0).2.add 4 clipB 0).2.cut 2).2.m_playlist 0 = 0 ∧
    ∀ i : Int, 0 ≤ i → i < count (((emptyTrack.add 0 clipA 0).2.add 4 clipB 0).2.cut 2).2.m_playlist →
      1 ≤ clip_length (((emptyTrack.add 0 clipA 0).2.add 4 clipB 0).2.cut 2).2.m_playlist i ∧
      clip_start (((emptyTrack.add 0 clipA 0).2.add 4 clipB 0).2.cut 2).2.m_playlist i +
          clip_length (((emptyTrack.add 0 clipA 0).2.add 4 clipB 0).2.cut 2).2.m_playlist i =
        clip_start (((emptyTrack.add 0 clipA 0).2.add 4 clipB 0).2.cut 2).2.m_playlist (i + 1)) :=
  have hr : Track.Reachable (((emptyTrack.add 0 clipA 0).2.add 4 clipB 0).2.cut 2).2 :=
    Track.Reachable.cut 2
      (Track.Reachable.add 4 clipB 0
        (Track.Reachable.add 0 clipA 0 (Track.Reachable.empty 25) (by decide) (by decide))
        (by decide) (by decide))
  ⟨hr, Track.regions_contiguous _ hr⟩

/-- The C rule `round`: the result has the sign of `x` and its absolute value is the one
integer in the interval `(|x| - 1/2, |x| + 1/2]`. -/
theorem Libm.round_half_away (x : ℚ) :
    0 ≤ (Libm.round x : ℚ) * x ∧
    |x| - 1 / 2 < |(Libm.round x : ℚ)| ∧
    |(Libm.round x : ℚ)| ≤ |x| + 1 / 2 := by
  refine ⟨?_, ?_, ?_⟩ <;> unfold Libm.round
  all_goals
    by_cases hx : 0 ≤ x
    · rw [if_pos hx]
      have h1 : ((⌊x + 1 / 2⌋ : Int) : ℚ) ≤ x + 1 / 2 := Int.floor_le _
      have h2 : x + 1 / 2 < ((⌊x + 1 / 2⌋ : Int) : ℚ) + 1 := Int.lt_floor_add_one _
      have h3 : (0 : ℚ) ≤ ((⌊x + 1 / 2⌋ : Int) : ℚ) := by
        have : (0 : Int) ≤ ⌊x + 1 / 2⌋ := Int.floor_nonneg.2 (by linarith)
        exact_mod_cast this
      first
        | exact mul_nonneg h3 hx
        | (rw [abs_of_nonneg hx, abs_of_nonneg h3]; linarith)
    · rw [if_neg hx]
      have hx2 : x < 0 := lt_of_not_ge hx
      have h1 : x - 1 / 2 ≤ ((⌈x - 1 / 2⌉ : Int) : ℚ) := Int.le_ceil _
      have h2 : ((⌈x - 1 / 2⌉ : Int) : ℚ) < x - 1 / 2 + 1 := Int.ceil_lt_add_one _
      have h3 : ((⌈x - 1 / 2⌉ : Int) : ℚ) ≤ 0 := by
        have : ⌈x - 1 / 2⌉ ≤ (0 : Int) := Int.ceil_le.2 (by push_cast; linarith)
        exact_mod_cast this
      first
        | exact mul_nonneg_of_nonpos_of_nonpos h3 (le_of_lt hx2)
        | (rw [abs_of_neg hx2, abs_of_nonpos h3]; linarith)

/-- C2 (the claim fails): `frame` multiplies in `double` arithmetic and returns an `int`.
The number d = 3152519739159347 / 2^52 is a `double` (the one nearest to 0.7); at 25
frames per second d * 25 = 17.4999999999999988..., which rounds to 17, but the `double`
product is 17.5 and `frame(d)` is 18.  And for the time 1000000000 s the product
25000000000 is out of the range of `int`, and `frame` gives -2147483648. -/
theorem Track.frame_not_exact_rounding :
    Double.ofReal (3152519739159347 / 4503599627370496) =
      some (3152519739159347 / 4503599627370496) ∧
    emptyTrack.frame (3152519739159347 / 4503599627370496) = 18 ∧
    Libm.round (3152519739159347 / 4503599627370496 * emptyTrack.m_fps) = 17 ∧
    emptyTrack.frame 1000000000 = -2147483648 ∧
    Libm.round (1000000000 * emptyTrack.m_fps) = 25000000000 := by
  have ha : Double.ofReal (3152519739159347 / 4503599627370496) =
      some (3152519739159347 / 4503599627370496) := by
    apply Double.ofReal_eq (-1) (-53) 6305039478318694 <;> norm_num [abs_lt, abs_of_pos]
  have hb : Double.ofReal (25 : ℚ) = some (25 : ℚ) := by
    simpa using Double.ofReal_intCast 25 (by norm_num)
  have hp : Double.ofReal (3152519739159347 / 4503599627370496 * 25) = some (35 / 2) := by
    apply Double.ofReal_eq 4 (-48) 4925812092436480 <;> norm_num [abs_lt, abs_of_pos]
  have h18 : emptyTrack.frame (3152519739159347 / 4503599627370496) = 18 := by
    show Track.frame_value (3152519739159347 / 4503599627370496) 25 = 18
    rw [Track.frame_value_eq ha hb hp]
    have hr : Libm.round (35 / 2) = 18 := by
      unfold Libm.round
      rw [if_pos (by norm_num), Int.floor_eq_iff]
      norm_num
    rw [hr]
    decide
  have h17 : Libm.round (3152519739159347 / 4503599627370496 * emptyTrack.m_fps) = 17 := by
    show Libm.round (3152519739159347 / 4503599627370496 * 25) = 17
    unfold Libm.round
    rw [if_pos (by norm_num), Int.floor_eq_iff]
    norm_num
  have ha9 : Double.ofReal (1000000000 : ℚ) = some (1000000000 : ℚ) := by
    simpa using Double.ofReal_intCast 1000000000 (by norm_num)
  have hp9 : Double.ofReal ((1000000000 : ℚ) * 25) = some (25000000000 : ℚ) := by
    have h := Double.ofReal_intCast 25000000000 (by norm_num)
    have e : ((25000000000 : Int) : ℚ) = (1000000000 : ℚ) * 25 := by norm_num
    rw [e] at h
    rw [h]
    norm_num
  have hr9 : Libm.round (25000000000 : ℚ) = 25000000000 := by
    simpa using Libm.round_intCast 25000000000
  have hmin : emptyTrack.frame 1000000000 = -2147483648 := by
    show Track.frame_value 1000000000 25 = -2147483648
    rw [Track.frame_value_eq ha9 hb hp9, hr9]
    decide
  have hbig : Libm.round (1000000000 * emptyTrack.m_fps) = 25000000000 := by
    show Libm.round ((1000000000 : ℚ) * 25) = 25000000000
    have e : (1000000000 : ℚ) * 25 = 25000000000 := by norm_num
    rw [e, hr9]
  exact ⟨ha, h18, h17, hmin, hbig⟩

/-- C2 (amended): let `a` and `b` be the `double` values of the time `t` and of the frame
rate, and `p` their `double` product: the exact product `a * b` rounded to the nearest
`double`, which differs from `a * b` by at most the 2^53-th part of its size (or by
2^-1075).  When `p` rounded with the C rule `round` is in the range of `int`, `frame(t)` is
that number: it has the sign of `p` and its absolute value is the one integer in the
interval `(|p| - 1/2, |p| + 1/2]`, a half rounding away from zero.  At 25 frames per
second the time 0.02 s is frame 1. -/
theorem Track.frame_rounds_double_product (tr : Track) (t a b p : ℚ)
    (ha : Double.ofReal t = some a) (hb : Double.ofReal tr.m_fps = some b)
    (hp : Double.ofReal (a * b) = some p)
    (hlo : -2147483648 ≤ Libm.round p) (hhi : Libm.round p ≤ 2147483647) :
    |p - a * b| ≤ max (|a * b| / 2 ^ 53) (1 / 2 ^ 1075) ∧
    tr.frame t = Libm.round p ∧
    0 ≤ (tr.frame t : ℚ) * p ∧
    |p| - 1 / 2 < |(tr.frame t : ℚ)| ∧
    |(tr.frame t : ℚ)| ≤ |p| + 1 / 2 ∧
    emptyTrack.frame (1 / 50) = 1 := by
  have hf : tr.frame t = Libm.round p := by
    unfold Track.frame
    rw [Track.frame_value_eq ha hb hp, Libm.toInt_of_range hlo hhi]
  obtain ⟨h1, h2, h3⟩ := Libm.round_half_away p
  rw [hf]
  exact ⟨Double.abs_ofReal_sub_le hp, rfl, h1, h2, h3, Track.frame_value_fiftieth⟩

/-- Witness for C2: the time 0.02 s at 25 frames per second.  The `double` nearest to 0.02
is 5764607523034235 / 2^58, and its `double` product with 25 is one half. -/
theorem Track.frame_rounds_double_product_witness :
    |(1 / 2 : ℚ) - 5764607523034235 / 288230376151711744 * 25| ≤
      max (|(5764607523034235 / 288230376151711744 : ℚ) * 25| / 2 ^ 53) (1 / 2 ^ 1075) ∧
    emptyTrack.frame (1 / 50) = Libm.round (1 / 2) ∧
    0 ≤ (emptyTrack.frame (1 / 50) : ℚ) * (1 / 2) ∧
    |(1 / 2 : ℚ)| - 1 / 2 < |(emptyTrack.frame (1 / 50) : ℚ)| ∧
    |(emptyTrack.frame (1 / 50) : ℚ)| ≤ |(1 / 2 : ℚ)| + 1 / 2 ∧
    emptyTrack.frame (1 / 50) = 1 :=
  have ha : Double.ofReal (1 / 50) = some (5764607523034235 / 288230376151711744) := by
    apply Double.ofReal_eq (-6) (-58) 5764607523034235 <;> norm_num [abs_lt, abs_of_pos]
  have hb : Double.ofReal emptyTrack.m_fps = some (25 : ℚ) := by
    show Double.ofReal (25 : ℚ) = some (25 : ℚ)
    simpa using Double.ofReal_intCast 25 (by norm_num)
  have hp : Double.ofReal (5764607523034235 / 288230376151711744 * 25) = some (1 / 2) := by
    apply Double.ofReal_eq (-1) (-53) 4503599627370496 <;> norm_num [abs_lt, abs_of_pos]
  have hr : Libm.round (1 / 2) = 1 := by norm_num [Libm.round]
  Track.frame_rounds_double_product emptyTrack (1 / 50)
    (5764607523034235 / 288230376151711744) 25 (1 / 2) ha hb hp
    (by rw [hr]; decide) (by rw [hr]; decide)

/-- C5 (the code breaks the claim): `resize` and `cut` addressed past the end of a track
return false on their first failure path, which takes the playlist lock and does not
release it: the lock depth after the call is one more than before. -/
theorem Track.resize_cut_failure_keeps_lock :
    (trackAB.resize 9 1 true).1 = false ∧
    (trackAB.resize 9 1 true).2.lockDepth = trackAB.lockDepth + 1 ∧
    (trackAB.cut 9).1 = false ∧
    (trackAB.cut 9).2.lockDepth = trackAB.lockDepth + 1 := by
  have h9 : Track.frame_value 9 25 = 225 := by
    simpa using Track.frame_value_int 9 (by norm_num)
  simp only [Track.resize, Track.cut, Track.frame, Track.lock, trackAB, h9]
  decide

/-- C7 (the code breaks the claim): at 25 frames per second, on the track holding `clipA`
on [0, 100) and `clipB` on [100, 110), `move(4.0, 8.0, 0)` moves the last clip to frame
200, beyond the end of the track, and emits two duration-change notifications, both with
the playtime 210. -/
theorem Track.move_last_clip_emits_twice :
    (trackAB.move 4 8 0).1 = true ∧
    (trackAB.move 4 8 0).2.emitted = trackAB.emitted ++ [210, 210] := by
  have h4 : Track.frame_value 4 25 = 100 := by
    simpa using Track.frame_value_int 4 (by norm_num)
  have h8 : Track.frame_value 8 25 = 200 := by
    simpa using Track.frame_value_int 8 (by norm_num)
  simp only [Track.move, Track.doAdd, Track.frame, Track.lock, Track.unlock, Track.withPlaylist,
    trackAB, h4, h8]
  decide

/-- What `del` does when the engine hands back no clip. -/
theorem Track.del_of_none (tr : Track) (t : ℚ)
    (h : (replace_with_blank tr.m_playlist
      (get_clip_index_at tr.m_playlist (tr.frame t))).1 = none) :
    (tr.del t).1 = false ∧
    (tr.del t).2.m_playlist =
      (replace_with_blank tr.m_playlist (get_clip_index_at tr.m_playlist (tr.frame t))).2 ∧
    (tr.del t).2.emitted = tr.emitted := by
  unfold Track.del
  dsimp only
  rw [show tr.lock.m_playlist = tr.m_playlist from rfl,
    show tr.lock.frame t = tr.frame t from rfl, h]
  exact ⟨rfl, rfl, rfl⟩

/-- A call of `del` that fails emits nothing. -/
theorem Track.del_failure_silent (tr : Track) (t : ℚ) (h : (tr.del t).1 = false) :
    (tr.del t).2.emitted = tr.emitted := by
  cases hr : (replace_with_blank tr.m_playlist
      (get_clip_index_at tr.m_playlist (tr.frame t))).1 with
  | none => exact (Track.del_of_none tr t hr).2.2
  | some e =>
    rw [(Track.del_of_clip tr t hr).1] at h
    cases h

/-- C8: on a well-formed track, `del(t)` at a frame that lies in the clip `c` succeeds,
leaves the consolidated playlist with `c` replaced by a blank, and emits exactly one
duration-change notification, carrying the playtime of that playlist (measured after the
removal and the consolidation), when `c` is the last region of the track, and none when
regions follow `c`.  At a frame that lies in a blank, or at or past the end of the track,
`del(t)` fails, leaves the playlist as it is and emits nothing; and no call that fails
emits a notification. -/
theorem Track.del_notifies_once (tr : Track) (t : ℚ) (hwf : wf tr.m_playlist) :
    (∀ (pre post : Playlist) (c : Entry), tr.m_playlist = pre ++ c :: post →
      get_playtime pre ≤ tr.frame t → tr.frame t < get_playtime pre + c.frame_count →
      (c.is_blank = false →
        (tr.del t).1 = true ∧
        (tr.del t).2.m_playlist =
          consolidate_blanks (pre ++ Entry.blankCut (c.frame_out - c.frame_in) :: post) 0 ∧
        (tr.del t).2.emitted =
          (if post = [] then tr.emitted ++ [get_playtime (tr.del t).2.m_playlist]
            else tr.emitted)) ∧
      (c.is_blank = true →
        (tr.del t).1 = false ∧ (tr.del t).2.m_playlist = tr.m_playlist ∧
        (tr.del t).2.emitted = tr.emitted)) ∧
    (get_playtime tr.m_playlist ≤ tr.frame t →
      (tr.del t).1 = false ∧ (tr.del t).2.m_playlist = tr.m_playlist ∧
      (tr.del t).2.emitted = tr.emitted) ∧
    ((tr.del t).1 = false → (tr.del t).2.emitted = tr.emitted) := by
  have hnn := frame_count_nonneg_of_wf hwf
  refine ⟨?_, ?_, Track.del_failure_silent tr t⟩
  · intro pre post c hpl h1 h2
    have hprenn : ∀ x ∈ pre, 0 ≤ x.frame_count := fun x hx => hnn x (by rw [hpl]; simp [hx])
    have hidx : get_clip_index_at tr.m_playlist (tr.frame t) = pre.length := by
      rw [hpl]
      exact get_clip_index_at_mid pre c post hprenn h1 h2
    constructor
    · intro hc
      have hcw : c.wf := hwf c (by rw [hpl]; simp)
      unfold Entry.wf at hcw
      have hrep : replace_with_blank tr.m_playlist
          (get_clip_index_at tr.m_playlist (tr.frame t)) =
          (some c, pre ++ Entry.blankCut (c.frame_out - c.frame_in) :: post) := by
        rw [hidx, hpl]
        exact replace_with_blank_at pre post hc hcw.2.1
      obtain ⟨hd1, hd2, hd3⟩ := Track.del_of_clip tr t (e := c) (by rw [hrep])
      rw [hrep] at hd2 hd3
      dsimp only at hd2 hd3
      refine ⟨hd1, hd2, ?_⟩
      rw [hd3, hd2]
      have hlast : (get_clip_index_at tr.m_playlist (tr.frame t) = count tr.m_playlist - 1) ↔
          post = [] := by
        rw [hidx, hpl]
        unfold count
        cases post with
        | nil => simp
        | cons x r =>
          simp only [List.length_append, List.length_cons, reduceCtorEq, iff_false]
          push_cast
          omega
      by_cases hp : post = []
      · rw [if_pos hp, if_pos (hlast.2 hp)]
      · rw [if_neg hp, if_neg (fun h => hp (hlast.1 h))]
    · intro hc
      have hb : is_blank tr.m_playlist (get_clip_index_at tr.m_playlist (tr.frame t)) = true := by
        rw [hidx, hpl, is_blank_at]
        exact hc
      have hrep := replace_with_blank_of_blank hb
      obtain ⟨hd1, hd2, hd3⟩ := Track.del_of_none tr t (by rw [hrep])
      rw [hrep] at hd2
      exact ⟨hd1, hd2, hd3⟩
  · intro hend
    have hidx : get_clip_index_at tr.m_playlist (tr.frame t) = count tr.m_playlist := by
      unfold get_clip_index_at count
      rw [locate_of_playtime_le hnn hend]
    have hb : is_blank tr.m_playlist (get_clip_index_at tr.m_playlist (tr.frame t)) = true :=
      is_blank_of_count_le _ (by rw [hidx])
    have hrep := replace_with_blank_of_blank hb
    obtain ⟨hd1, hd2, hd3⟩ := Track.del_of_none tr t (by rw [hrep])
    rw [hrep] at hd2
    exact ⟨hd1, hd2, hd3⟩

/-- Witness for C8: at 25 frames per second `del(5.0)` on the track holding `clipA` on
[0, 100), a blank on [100, 125) and `clipB` on [125, 135) removes the last region, the clip
at frame 125: the call succeeds, the consolidated track holds `clipA` alone, and exactly
one notification is emitted, with the new playtime 100. -/
theorem Track.del_notifies_once_witness :
    (trackLate.del 5).1 = true ∧
    (trackLate.del 5).2.m_playlist = [clipA] ∧
    (trackLate.del 5).2.emitted = [100] := by
  have h5 : trackLate.frame 5 = 125 := by
    simpa using Track.frame_int trackLate 5 rfl (by norm_num)
  obtain ⟨h1, h2, h3⟩ := ((Track.del_notifies_once trackLate 5 (by decide)).1
    [clipA, Entry.blankCut 24] [] clipB rfl (by rw [h5]; decide) (by rw [h5]; decide)).1
    (by decide)
  have hpl : (trackLate.del 5).2.m_playlist = [clipA] := by
    rw [h2]
    decide
  refine ⟨h1, hpl, ?_⟩
  rw [h3, if_pos rfl, hpl]
  decide

/-- C6: on a track whose regions have no negative length, when the region at the addressed
frame is a blank, or the frame lies at or past the end of the track, `move`, `del(t)`,
`resize` and `cut` all return false and leave the region sequence as it was. -/
theorem Track.edit_without_clip_fails (tr : Track) (t u : ℚ) (mode : Int) (fromEnd : Bool)
    (hwf : ∀ e ∈ tr.m_playlist, 0 ≤ e.frame_count)
    (h : is_blank tr.m_playlist (get_clip_index_at tr.m_playlist (tr.frame t)) = true ∨
      get_playtime tr.m_playlist ≤ tr.frame t) :
    ((tr.move t u mode).1 = false ∧ (tr.move t u mode).2.m_playlist = tr.m_playlist) ∧
    ((tr.del t).1 = false ∧ (tr.del t).2.m_playlist = tr.m_playlist) ∧
    ((tr.resize t u fromEnd).1 = false ∧ (tr.resize t u fromEnd).2.m_playlist = tr.m_playlist) ∧
    ((tr.cut t).1 = false ∧ (tr.cut t).2.m_playlist = tr.m_playlist) := by
  have hb : is_blank tr.m_playlist (get_clip_index_at tr.m_playlist (tr.frame t)) = true := by
    rcases h with h | h
    · exact h
    · apply is_blank_of_count_le
      unfold get_clip_index_at count
      rw [locate_of_playtime_le hwf h]
  have hpl : tr.lock.m_playlist = tr.m_playlist := rfl
  have hfr : tr.lock.frame t = tr.frame t := rfl
  refine ⟨?_, ?_, ?_, ?_⟩
  · unfold Track.move
    dsimp only
    rw [hpl, replace_with_blank_of_blank hb]
    exact ⟨rfl, rfl⟩
  · unfold Track.del
    dsimp only
    rw [hpl, hfr, replace_with_blank_of_blank hb]
    exact ⟨rfl, rfl⟩
  · unfold Track.resize
    dsimp only
    rw [hpl, hfr]
    unfold is_blank at hb
    cases hget : get_clip tr.m_playlist (get_clip_index_at tr.m_playlist (tr.frame t)) with
    | none => exact ⟨rfl, rfl⟩
    | some e =>
      rw [hget] at hb
      dsimp only at hb ⊢
      rw [if_pos hb]
      exact ⟨rfl, rfl⟩
  · unfold Track.cut
    dsimp only
    rw [hpl, if_pos hb]
    exact ⟨rfl, rfl⟩

/-- Witness for C6: on the track holding `clipA` and `clipB` (110 frames at 25 frames per
second) the time 9 s is frame 225, past the end. -/
theorem Track.edit_without_clip_fails_witness :
    ((trackAB.move 9 1 0).1 = false ∧ (trackAB.move 9 1 0).2.m_playlist = trackAB.m_playlist) ∧
    ((trackAB.del 9).1 = false ∧ (trackAB.del 9).2.m_playlist = trackAB.m_playlist) ∧
    ((trackAB.resize 9 1 true).1 = false ∧
      (trackAB.resize 9 1 true).2.m_playlist = trackAB.m_playlist) ∧
    ((trackAB.cut 9).1 = false ∧ (trackAB.cut 9).2.m_playlist = trackAB.m_playlist) :=
  Track.edit_without_clip_fails trackAB 9 1 0 true (by decide)
    (Or.inr (by
      have h9 : Track.frame_value 9 25 = 225 := by
        simpa using Track.frame_value_int 9 (by norm_num)
      simp only [Track.frame, trackAB, h9]
      decide))

/-- C10: on a track without two adjacent blank regions, after every `add` (of a clip),
`move`, `del(t)`, `del(t, dt)` and `resize` call, successful or not, the track again has no
two adjacent blank regions. -/
theorem Track.no_adjacent_blanks_preserved (tr : Track)
    (h : no_adjacent_blanks tr.m_playlist) (t u : ℚ) (c : Entry) (hc : c.is_blank = false)
    (mode : Int) (fromEnd : Bool) :
    no_adjacent_blanks (tr.add t c mode).2.m_playlist ∧
    no_adjacent_blanks (tr.move t u mode).2.m_playlist ∧
    no_adjacent_blanks (tr.del t).2.m_playlist ∧
    no_adjacent_blanks (tr.del_dt t u).2.m_playlist ∧
    no_adjacent_blanks (tr.resize t u fromEnd).2.m_playlist :=
  ⟨Track.nab_add tr t hc mode, Track.nab_move h t u mode, Track.nab_del h t,
    Track.nab_del_dt tr t u, Track.nab_resize h t u fromEnd⟩

/-- Witness for C10: the track holding `clipA`, a 50-frame blank and `clipB`, edited at
2 s (inside `clipA`) with a second time of 5 s (inside the blank). -/
theorem Track.no_adjacent_blanks_preserved_witness :
    no_adjacent_blanks (trackGap.add 2 clipB 2).2.m_playlist ∧
    no_adjacent_blanks (trackGap.move 2 5 2).2.m_playlist ∧
    no_adjacent_blanks (trackGap.del 2).2.m_playlist ∧
    no_adjacent_blanks (trackGap.del_dt 2 5).2.m_playlist ∧
    no_adjacent_blanks (trackGap.resize 2 5 true).2.m_playlist :=
  Track.no_adjacent_blanks_preserved trackGap
    (by simp [no_adjacent_blanks, trackGap, clipA, clipB, Entry.blankCut, Entry.is_blank])
    2 5 clipB (by decide) 2 true

/-- C9: a clip `c` on frames [s, s + L) is followed by a blank `b` of B frames and then by
a region `n`, a clip since the track has no adjacent blanks.  Resizing `c` from its end by `d` frames, `0 ≤ d ≤ B`, succeeds and leaves
`pre ++ c2 :: mid ++ n :: post`, where `c2` is the same cut with `d` more frames at its
end (frames [s, s + L + d)), `mid` is a blank of `B - d` frames, or nothing when `B = d`,
and `n` and every later region are untouched and start where they did; no
duration-change notification is emitted.  The track is well formed and consolidated. -/
theorem Track.resize_into_following_blank (tr : Track) (pre post : Playlist) (c b n : Entry)
    (t dt : ℚ)
    (hpl : tr.m_playlist = pre ++ c :: b :: n :: post)
    (hwf : wf tr.m_playlist)
    (hnab : no_adjacent_blanks tr.m_playlist) (hntb : no_trailing_blank tr.m_playlist)
    (hc : c.is_blank = false) (hb : b.is_blank = true)
    (ht1 : get_playtime pre ≤ tr.frame t) (ht2 : tr.frame t < get_playtime pre + c.frame_count)
    (hd0 : 0 ≤ tr.frame dt) (hd : tr.frame dt ≤ b.frame_count) :
    ∃ c2 mid,
      (tr.resize t dt true).1 = true ∧
      (tr.resize t dt true).2.m_playlist = pre ++ c2 :: mid ++ n :: post ∧
      (tr.resize t dt true).2.emitted = tr.emitted ∧
      c2.parent = c.parent ∧ c2.frame_in = c.frame_in ∧
      c2.frame_count = c.frame_count + tr.frame dt ∧
      ((mid = [] ∧ tr.frame dt = b.frame_count) ∨
        ∃ b2, mid = [b2] ∧ b2.is_blank = true ∧
          b2.frame_count = b.frame_count - tr.frame dt) ∧
      get_playtime (pre ++ c2 :: mid) = get_playtime (pre ++ [c, b]) := by
  have hcw : c.wf := hwf c (by rw [hpl]; simp)
  have hbw : b.wf := hwf b (by rw [hpl]; simp)
  have hprew : ∀ x ∈ pre, 0 ≤ x.frame_count :=
    fun x hx => frame_count_nonneg_of_wf hwf x (by rw [hpl]; simp [hx])
  have hidx : get_clip_index_at (pre ++ c :: b :: n :: post) (tr.frame t) = pre.length :=
    get_clip_index_at_mid pre c _ hprew ht1 ht2
  have hcw2 := hcw
  have hbw2 := hbw
  unfold Entry.wf at hcw2 hbw2
  generalize hdv : tr.frame dt = d at *
  -- the clip after the length fix and the engine resize
  let c1 : Entry := if c.length < c.frame_out + d + 1 then { c with length := c.frame_out + d + 2 } else c
  have hc1b : c1.is_blank = false := by
    show (if c.length < c.frame_out + d + 1 then _ else c).is_blank = false
    split_ifs
    · exact hc
    · exact hc
  have hc1l : c.frame_out + d < c1.length := by
    show c.frame_out + d < (if c.length < c.frame_out + d + 1 then _ else c).length
    split_ifs
    · show c.frame_out + d < c.frame_out + d + 2
      omega
    · omega
  have hc1p : c1.parent = c.parent := by
    show (if c.length < c.frame_out + d + 1 then _ else c).parent = c.parent
    split_ifs <;> rfl
  let c2 : Entry := { c1 with frame_in := c.frame_in, frame_out := c.frame_out + d }
  have hres : c1.resize c.frame_in (c.frame_out + d) = c2 :=
    Entry.resize_clip_exact hc1b hcw2.1 (by omega) hc1l
  have hpl1 : (if c.length < c.frame_out + d + 1 then
        Track.set_length (pre ++ c :: b :: n :: post) pre.length (c.frame_out + d + 2)
      else pre ++ c :: b :: n :: post) = pre ++ c1 :: b :: n :: post := by
    show _ = pre ++ (if c.length < c.frame_out + d + 1 then _ else c) :: b :: n :: post
    split_ifs
    · rw [Track.set_length_at]
    · rfl
  have hc2b : c2.is_blank = false := hc1b
  have hcnt : ¬ ((pre.length : Int) + 1 > count (pre ++ c2 :: b :: n :: post) - 1) := by
    unfold count
    simp only [List.length_append, List.length_cons]
    push_cast
    omega
  have hsplit : pre ++ c2 :: b :: n :: post = (pre ++ [c2]) ++ b :: (n :: post) := by simp
  have hidx1 : ((pre.length : Int) + 1) = ((pre ++ [c2]).length : Int) := by simp
  have hfc2 : c2.frame_count = c.frame_count + d := by
    show c.frame_out + d - c.frame_in + 1 = c.frame_out - c.frame_in + 1 + d
    omega
  have hflag1 : (pre ++ c2 :: b :: n :: post).map Entry.is_blank =
      tr.m_playlist.map Entry.is_blank := by
    rw [hpl]; simp [hc2b, hc]
  have hstep : (tr.resize t dt true) =
      (true, ((tr.lock.withPlaylist (pre ++ c2 :: b :: n :: post)).withPlaylist
        (consolidate_blanks
          (if clip_length (pre ++ c2 :: b :: n :: post) ((pre.length : Int) + 1) + -d - 1 ≥ 0 then
            (resize_clip (pre ++ c2 :: b :: n :: post) ((pre.length : Int) + 1) 0
              (clip_length (pre ++ c2 :: b :: n :: post) ((pre.length : Int) + 1) + -d - 1)).2
          else (remove (pre ++ c2 :: b :: n :: post) ((pre.length : Int) + 1)).2) 0)).unlock) := by
    unfold Track.resize
    dsimp only
    rw [show tr.lock.m_playlist = tr.m_playlist from rfl,
      show tr.lock.frame t = tr.frame t from rfl, show tr.lock.frame dt = tr.frame dt from rfl,
      hdv, hpl, hidx, get_clip_at]
    dsimp only
    rw [if_neg (by rw [hc]; decide)]
    simp only [if_true]
    rw [if_neg (by omega : ¬ c.frame_in < 0), if_neg (by omega : ¬ c.frame_in < 0), hpl1,
      resize_clip_at, hres]
    dsimp only
    rw [if_neg (by decide), Track.withPlaylist]
    dsimp only
    rw [if_neg (fun h => hcnt h.2), if_neg (by omega : ¬ (-d > 0))]
    rfl
  rw [hstep]
  rw [hsplit, hidx1, clip_length_at]
  by_cases hout : b.frame_count + -d - 1 ≥ 0
  · rw [if_pos hout, resize_clip_at]
    have hb2 : b.resize 0 (b.frame_count + -d - 1) =
        { b with frame_in := 0, frame_out := b.frame_count + -d - 1,
                 length := max b.length (b.frame_count + -d - 1 + 1) } :=
      Entry.resize_blank hb (by omega) hout
    have hb2b : (b.resize 0 (b.frame_count + -d - 1)).is_blank = true := by
      rw [Entry.is_blank_resize]; exact hb
    have hb2c : (b.resize 0 (b.frame_count + -d - 1)).frame_count = b.frame_count - d := by
      rw [hb2]
      show b.frame_count + -d - 1 - 0 + 1 = b.frame_count - d
      omega
    have hflag2 : ((pre ++ [c2]) ++ b.resize 0 (b.frame_count + -d - 1) :: n :: post).map
        Entry.is_blank = tr.m_playlist.map Entry.is_blank := by
      rw [hpl]; simp [hc2b, hc, hb2b, hb]
    have hnab2 := nab_of_flags hflag2.symm hnab
    have hntb2 : no_trailing_blank
        ((pre ++ [c2]) ++ b.resize 0 (b.frame_count + -d - 1) :: n :: post) := by
      have h1 : (pre ++ [c2]) ++ b.resize 0 (b.frame_count + -d - 1) :: n :: post =
          (pre ++ [c2, b.resize 0 (b.frame_count + -d - 1)]) ++ n :: post := by simp
      have h2 : tr.m_playlist = (pre ++ [c, b]) ++ n :: post := by rw [hpl]; simp
      rw [h1, ntb_append_cons]
      rw [h2, ntb_append_cons] at hntb
      exact hntb
    rw [consolidate_blanks_id hnab2 hntb2]
    refine ⟨c2, [b.resize 0 (b.frame_count + -d - 1)], rfl, by simp [Track.unlock, Track.withPlaylist],
      rfl, hc1p, rfl, hfc2, Or.inr ⟨_, rfl, hb2b, hb2c⟩, ?_⟩
    simp only [get_playtime_append, get_playtime_cons, get_playtime_nil, hfc2, hb2c]
    omega
  · rw [if_neg hout, remove_at]
    have hdeq : d = b.frame_count := by omega
    have hnab2 : no_adjacent_blanks ((pre ++ [c2]) ++ n :: post) := by
      have h2 : tr.m_playlist = (pre ++ [c]) ++ b :: (n :: post) := by rw [hpl]; simp
      rw [h2] at hnab
      have h3 := nab_remove_blank hb hnab
      exact nab_of_flags (by simp [hc2b, hc]) h3
    have hntb2 : no_trailing_blank ((pre ++ [c2]) ++ n :: post) := by
      have h2 : tr.m_playlist = (pre ++ [c, b]) ++ n :: post := by rw [hpl]; simp
      rw [ntb_append_cons]
      rw [h2, ntb_append_cons] at hntb
      exact hntb
    rw [consolidate_blanks_id hnab2 hntb2]
    refine ⟨c2, [], rfl, by simp [Track.unlock, Track.withPlaylist],
      rfl, hc1p, rfl, hfc2, Or.inl ⟨rfl, hdeq⟩, ?_⟩
    simp only [get_playtime_append, get_playtime_cons, get_playtime_nil, hfc2]
    omega

/-- Witness for C9: on the track holding `clipA` on [0, 100), a 50-frame blank and `clipB`,
`resize(2.0, 0.4, true)` lengthens `clipA` by 10 frames. -/
theorem Track.resize_into_following_blank_witness :
    ∃ c2 mid,
      (trackGap.resize 2 (2 / 5) true).1 = true ∧
      (trackGap.resize 2 (2 / 5) true).2.m_playlist = [] ++ c2 :: mid ++ clipB :: [] ∧
      (trackGap.resize 2 (2 / 5) true).2.emitted = trackGap.emitted ∧
      c2.parent = clipA.parent ∧ c2.frame_in = clipA.frame_in ∧
      c2.frame_count = clipA.frame_count + trackGap.frame (2 / 5) ∧
      ((mid = [] ∧ trackGap.frame (2 / 5) = (Entry.blankCut 49).frame_count) ∨
        ∃ b2, mid = [b2] ∧ b2.is_blank = true ∧
          b2.frame_count = (Entry.blankCut 49).frame_count - trackGap.frame (2 / 5)) ∧
      get_playtime ([] ++ c2 :: mid) = get_playtime ([] ++ [clipA, Entry.blankCut 49]) :=
  have ht : trackGap.frame 2 = 50 := by
    simpa using Track.frame_int trackGap 2 rfl (by norm_num)
  have hd : trackGap.frame (2 / 5) = 10 := Track.frame_value_two_fifths
  Track.resize_into_following_blank trackGap [] [] clipA (Entry.blankCut 49) clipB 2 (2 / 5)
    rfl (by decide)
    (by simp [no_adjacent_blanks, trackGap, clipA, clipB, Entry.blankCut, Entry.is_blank])
    (by simp [no_trailing_blank, trackGap, clipA, clipB, Entry.is_blank])
    (by decide) (by decide)
    (by rw [ht]; decide) (by rw [ht]; decide) (by rw [hd]; decide) (by rw [hd]; decide)

/-- C3: on a well-formed track whose last region is a clip `c` starting at `frame(t)`,
`del(t)` succeeds, and adding at time `t`, with insert mode 0, a cut with as many frames as
`c` yields a track whose total playtime is the playtime before the `del`. -/
theorem Track.del_then_add_restores_playtime (tr : Track) (pre : Playlist) (c cut : Entry)
    (t : ℚ)
    (hpl : tr.m_playlist = pre ++ [c]) (hwf : wf tr.m_playlist)
    (hc : c.is_blank = false) (ht : tr.frame t = get_playtime pre)
    (hlen : cut.frame_count = c.frame_count) :
    (tr.del t).1 = true ∧ ((tr.del t).2.add t cut 0).1 = true ∧
    get_playtime ((tr.del t).2.add t cut 0).2.m_playlist = get_playtime tr.m_playlist := by
  have hcw : c.wf := hwf c (by rw [hpl]; simp)
  have hprew : wf pre := fun x hx => hwf x (by rw [hpl]; simp [hx])
  have hcw2 := hcw
  unfold Entry.wf at hcw2
  have hfc := Entry.wf_frame_count_pos hcw
  have hidx : get_clip_index_at tr.m_playlist (tr.frame t) = pre.length := by
    rw [hpl]
    exact get_clip_index_at_mid pre c [] (frame_count_nonneg_of_wf hprew) (by omega) (by omega)
  have hrep : replace_with_blank tr.m_playlist (get_clip_index_at tr.m_playlist (tr.frame t)) =
      (some c, pre ++ [Entry.blankCut (c.frame_out - c.frame_in)]) := by
    rw [hidx, hpl]
    exact replace_with_blank_at pre [] hc hcw2.2.1
  obtain ⟨hd1, hd2, _⟩ := Track.del_of_clip tr t (e := c) (by rw [hrep])
  rw [hrep] at hd2
  dsimp only at hd2
  have hblw : (Entry.blankCut (c.frame_out - c.frame_in)).wf := Entry.wf_blankCut (by omega)
  have hq1 := get_playtime_consolidate_snoc_blank hprew hblw rfl
  have hq2 : wf (consolidate_blanks (pre ++ [Entry.blankCut (c.frame_out - c.frame_in)]) 0) :=
    wf_consolidate_blanks (wf_append hprew hblw) 0
  refine ⟨hd1, Track.add_fst _ _ _ _, ?_⟩
  rw [Track.add_playlist, Track.doAdd_prepared_mode_zero, hd2,
    consolidate_blanks_id (nab_consolidate_blanks _ 0) (ntb_consolidate_blanks _),
    Track.frame_congr (Track.del_fps tr t) t, ht,
    get_playtime_insert_at_past_end (frame_count_nonneg_of_wf hq2) hq1, hpl, get_playtime_append,
    get_playtime_cons, get_playtime_nil, hlen]
  omega

/-- Witness for C3: on the track holding `clipA` and `clipB`, where `clipB` is the last
region and starts at 4 s (frame 100), `del(4.0)` followed by `add` of `clipB` at 4 s. -/
theorem Track.del_then_add_restores_playtime_witness :
    (trackAB.del 4).1 = true ∧ ((trackAB.del 4).2.add 4 clipB 0).1 = true ∧
    get_playtime ((trackAB.del 4).2.add 4 clipB 0).2.m_playlist =
      get_playtime trackAB.m_playlist :=
  have ht : trackAB.frame 4 = 100 := by
    simpa using Track.frame_int trackAB 4 rfl (by norm_num)
  Track.del_then_add_restores_playtime trackAB [clipA] clipB clipB 4 rfl (by decide) (by decide)
    (by rw [ht]; decide) rfl

/-- C4, counterexample: on the track holding `clipA` on [0, 100) and `clipB` on [100, 110)
at 25 frames per second, `add(1.0, clipB, 0)`, `move(0.0, 4.0, 0)`, `del(4.0, 1.0)` and
`resize(0.0, -1.0, false)` each change the total playtime (from 110 to 120, 210, 100 and
135 frames) and emit no duration-change notification. -/
theorem Track.playtime_change_without_notification :
    (get_playtime (trackAB.add 1 clipB 0).2.m_playlist ≠ get_playtime trackAB.m_playlist ∧
      (trackAB.add 1 clipB 0).2.emitted = trackAB.emitted) ∧
    (get_playtime (trackAB.move 0 4 0).2.m_playlist ≠ get_playtime trackAB.m_playlist ∧
      (trackAB.move 0 4 0).2.emitted = trackAB.emitted) ∧
    (get_playtime (trackAB.del_dt 4 1).2.m_playlist ≠ get_playtime trackAB.m_playlist ∧
      (trackAB.del_dt 4 1).2.emitted = trackAB.emitted) ∧
    (get_playtime (trackAB.resize 0 (-1) false).2.m_playlist ≠ get_playtime trackAB.m_playlist ∧
      (trackAB.resize 0 (-1) false).2.emitted = trackAB.emitted) := by
  have h0 : Track.frame_value 0 25 = 0 := by
    simpa using Track.frame_value_int 0 (by norm_num)
  have h1 : Track.frame_value 1 25 = 25 := by
    simpa using Track.frame_value_int 1 (by norm_num)
  have h4 : Track.frame_value 4 25 = 100 := by
    simpa using Track.frame_value_int 4 (by norm_num)
  have hm1 : Track.frame_value (-1) 25 = -25 := by
    simpa using Track.frame_value_int (-1) (by norm_num)
  simp only [Track.add, Track.move, Track.del_dt, Track.resize, Track.doAdd, Track.frame,
    Track.lock, Track.unlock, Track.withPlaylist, trackAB, h0, h1, h4, hm1]
  decide

/-- C4, amended: on a well-formed track that does not end in a blank, whenever `del(t)`
changes the total playtime it emits a duration-change notification, carrying the new
playtime. -/
theorem Track.del_playtime_change_notified (tr : Track) (t : ℚ) (hwf : wf tr.m_playlist)
    (hntb : no_trailing_blank tr.m_playlist)
    (hchg : get_playtime (tr.del t).2.m_playlist ≠ get_playtime tr.m_playlist) :
    (tr.del t).2.emitted = tr.emitted ++ [get_playtime (tr.del t).2.m_playlist] := by
  by_cases hb : is_blank tr.m_playlist (get_clip_index_at tr.m_playlist (tr.frame t)) = true
  · exfalso
    apply hchg
    unfold Track.del
    dsimp only
    rw [show tr.lock.m_playlist = tr.m_playlist from rfl,
      show tr.lock.frame t = tr.frame t from rfl, replace_with_blank_of_blank hb]
    rfl
  · have hidx0 := get_clip_index_at_nonneg tr.m_playlist (tr.frame t)
    have hidx1 : get_clip_index_at tr.m_playlist (tr.frame t) < count tr.m_playlist := by
      by_contra hge
      exact hb (is_blank_of_count_le _ (by omega))
    obtain ⟨pre, e, post, hpl, hidx⟩ := exists_decomp hidx0 hidx1
    have hew : e.wf := hwf e (by rw [hpl]; simp)
    have hew2 := hew
    unfold Entry.wf at hew2
    have heb : e.is_blank = false := by
      rw [hidx, hpl, is_blank_at] at hb
      simpa using hb
    have hrep : replace_with_blank tr.m_playlist (get_clip_index_at tr.m_playlist (tr.frame t)) =
        (some e, pre ++ Entry.blankCut (e.frame_out - e.frame_in) :: post) := by
      rw [hidx, hpl]
      exact replace_with_blank_at pre post heb hew2.2.1
    obtain ⟨_, hd2, hd3⟩ := Track.del_of_clip tr t (e := e) (by rw [hrep])
    rw [hrep] at hd2 hd3
    dsimp only at hd2 hd3
    by_cases hlast : get_clip_index_at tr.m_playlist (tr.frame t) = count tr.m_playlist - 1
    · rw [if_pos hlast] at hd3
      rw [hd3, hd2]
    · exfalso
      apply hchg
      have hpost : post ≠ [] := by
        intro hp
        apply hlast
        rw [hidx, hpl, hp]
        unfold count
        simp
      obtain ⟨x, post2, rfl⟩ := List.exists_cons_of_ne_nil hpost
      have hblw : (Entry.blankCut (e.frame_out - e.frame_in)).wf := Entry.wf_blankCut (by omega)
      have hw2 : wf (pre ++ Entry.blankCut (e.frame_out - e.frame_in) :: x :: post2) := by
        intro y hy
        rcases List.mem_append.1 hy with h1 | h1
        · exact hwf y (by rw [hpl]; simp [h1])
        · rcases List.mem_cons.1 h1 with h2 | h2
          · rw [h2]; exact hblw
          · exact hwf y (by rw [hpl]; simp [List.mem_cons.1 h2])
      have hnt2 : no_trailing_blank
          (pre ++ Entry.blankCut (e.frame_out - e.frame_in) :: x :: post2) := by
        have h1 : pre ++ Entry.blankCut (e.frame_out - e.frame_in) :: x :: post2 =
            (pre ++ [Entry.blankCut (e.frame_out - e.frame_in)]) ++ x :: post2 := by simp
        have h2 : tr.m_playlist = (pre ++ [e]) ++ x :: post2 := by rw [hpl]; simp
        rw [h1, ntb_append_cons]
        rw [h2, ntb_append_cons] at hntb
        exact hntb
      have e1 : get_playtime (pre ++ Entry.blankCut (e.frame_out - e.frame_in) :: x :: post2) =
          get_playtime pre + (e.frame_out - e.frame_in - 0 + 1 + get_playtime (x :: post2)) := by
        rw [get_playtime_append, get_playtime_cons]
        rfl
      have e2 : get_playtime (pre ++ e :: x :: post2) =
          get_playtime pre + (e.frame_out - e.frame_in + 1 + get_playtime (x :: post2)) := by
        rw [get_playtime_append, get_playtime_cons]
        rfl
      rw [hd2, get_playtime_consolidate_of_ntb hw2 hnt2, hpl, e1, e2]
      omega

/-- Witness for the amended C4: `del(4.0)` removes the last clip of the track holding
`clipA` and `clipB`; the playtime drops from 110 to 100 and 100 is notified. -/
theorem Track.del_playtime_change_notified_witness :
    (trackAB.del 4).2.emitted = trackAB.emitted ++ [get_playtime (trackAB.del 4).2.m_playlist] :=
  have h4 : Track.frame_value 4 25 = 100 := by
    simpa using Track.frame_value_int 4 (by norm_num)
  Track.del_playtime_change_notified trackAB 4 (by decide)
    (by simp [no_trailing_blank, trackAB, clipA, clipB, Entry.is_blank])
    (by
      simp only [Track.del, Track.frame, Track.lock, Track.unlock, Track.withPlaylist, trackAB, h4]
      decide)

namespace Mlt

theorem Entry.cut_exact {e : Entry} (hb : e.is_blank = false) {i o : Int}
    (hi : 0 ≤ i) (hio : i ≤ o) (ho : o < e.length) :
    e.cut i o = { e with frame_in := i, frame_out := o } := by
  have hb2 : e.parent.isNone = false := hb
  have h2 : ¬ (o < 0) := by omega
  have h3 : ¬ (e.length ≤ o) := by omega
  have h4 : ¬ (e.length ≤ i) := by omega
  have h5 : ¬ (o < i) := by omega
  by_cases h0 : i = 0
  · subst h0
    simp [Entry.cut, Entry.set_in_and_out, Entry.is_blank, hb2, h2, h3, h4, h5]
  · have h1 : ¬ (i < 0) := by omega
    have h6 : ¬ (i ≤ 0) := by omega
    simp [Entry.cut, Entry.set_in_and_out, Entry.is_blank, hb2, h1, h2, h3, h4, h5, h6]

theorem Playlist.clip_start_at (pre : Playlist) (e : Entry) (post : Playlist) :
    clip_start (pre ++ e :: post) pre.length = get_playtime pre := by
  unfold clip_start get_playtime
  have h : ((pre.length : Int)).toNat = pre.length := by omega
  rw [h]
  simp

/-- Splitting a clip region strictly inside it. -/
theorem Playlist.split_clip_at (pre : Playlist) {c : Entry} (post : Playlist) (hw : c.wf)
    (hb : c.is_blank = false) {q : Int} (h0 : 0 ≤ q) (h1 : q < c.frame_count - 1) :
    split (pre ++ c :: post) pre.length q =
      (false, pre ++ { c with frame_out := c.frame_in + q } ::
        { c with frame_in := c.frame_in + q + 1 } :: post) := by
  unfold Entry.wf at hw
  unfold Entry.frame_count at h1
  unfold split count
  rw [if_neg (by simp)]
  have h : ((pre.length : Int)).toNat = pre.length := by omega
  rw [h, List.getElem?_append_right (le_refl _)]
  simp only [Nat.sub_self, List.getElem?_cons_zero]
  rw [if_neg (by omega)]
  unfold split_entry
  dsimp only
  rw [if_pos ⟨h0, by unfold Entry.frame_count; omega⟩, if_pos hb, resize_clip_at,
    Entry.resize_clip_exact hb hw.1 (by omega) (by omega),
    Entry.cut_exact hb (by omega) (by omega) (by omega)]
  have h3 : ((pre.length : Int) + 1) =
      ((pre ++ [{ c with frame_in := c.frame_in, frame_out := c.frame_in + q }]).length : Int) := by
    simp
  have h4 : pre ++ { c with frame_in := c.frame_in, frame_out := c.frame_in + q } :: post =
      (pre ++ [{ c with frame_in := c.frame_in, frame_out := c.frame_in + q }]) ++ post := by simp
  rw [h3, h4, insert_at_length]
  simp

end Mlt

/-- C12: for a clip region `c` on frames [s, e) of a well-formed track and a time `t` with
`s < frame(t) < e`, `cut(t)` returns true, releases the lock, and replaces `c` by two cuts
of the same producer: the first keeps the in point of `c` and has `frame(t) - s` frames
(frames [s, p)), the second starts at the next source frame and keeps the out point of `c`
(frames [p, e)); every other region is unchanged. -/
theorem Track.cut_splits_clip (tr : Track) (pre post : Playlist) (c : Entry) (t : ℚ)
    (hpl : tr.m_playlist = pre ++ c :: post) (hwf : wf tr.m_playlist)
    (hc : c.is_blank = false)
    (h1 : get_playtime pre < tr.frame t) (h2 : tr.frame t < get_playtime pre + c.frame_count) :
    (tr.cut t).1 = true ∧
    (tr.cut t).2.m_playlist =
      pre ++ { c with frame_out := c.frame_in + (tr.frame t - get_playtime pre) - 1 } ::
        { c with frame_in := c.frame_in + (tr.frame t - get_playtime pre) } :: post ∧
    (tr.cut t).2.lockDepth = tr.lockDepth := by
  have hcw : c.wf := hwf c (by rw [hpl]; simp)
  have hprew : ∀ x ∈ pre, 0 ≤ x.frame_count :=
    fun x hx => frame_count_nonneg_of_wf hwf x (by rw [hpl]; simp [hx])
  have hidx : get_clip_index_at (pre ++ c :: post) (tr.frame t) = pre.length :=
    get_clip_index_at_mid pre c _ hprew (by omega) h2
  have hs := split_clip_at pre post hcw hc (q := tr.frame t - get_playtime pre - 1) (by omega)
    (by omega)
  have e1 : c.frame_in + (tr.frame t - get_playtime pre - 1) =
      c.frame_in + (tr.frame t - get_playtime pre) - 1 := by omega
  have e2 : c.frame_in + (tr.frame t - get_playtime pre) - 1 + 1 =
      c.frame_in + (tr.frame t - get_playtime pre) := by omega
  rw [e1, e2] at hs
  unfold Track.cut
  dsimp only
  rw [show tr.lock.m_playlist = tr.m_playlist from rfl, hpl, hidx, is_blank_at,
    if_neg (by rw [hc]; decide), clip_start_at, hs]
  refine ⟨rfl, rfl, ?_⟩
  show tr.lockDepth + 1 - 1 = tr.lockDepth
  omega

/-- Witness for C12: cutting `clipA` (frames [0, 100)) of the track holding `clipA` and
`clipB` at 2 s (frame 50). -/
theorem Track.cut_splits_clip_witness :
    (trackAB.cut 2).1 = true ∧
    (trackAB.cut 2).2.m_playlist =
      [] ++ { clipA with frame_out := clipA.frame_in + (trackAB.frame 2 - get_playtime []) - 1 } ::
        { clipA with frame_in := clipA.frame_in + (trackAB.frame 2 - get_playtime []) } ::
          [clipB] ∧
    (trackAB.cut 2).2.lockDepth = trackAB.lockDepth :=
  have ht : trackAB.frame 2 = 50 := by
    simpa using Track.frame_int trackAB 2 rfl (by norm_num)
  Track.cut_splits_clip trackAB [] [clipB] clipA 2 rfl (by decide) (by decide)
    (by rw [ht]; decide) (by rw [ht]; decide)

namespace QString

/-- The first field of a string: the string is the field followed by nothing or by the
separator and more, and the field holds no separator. -/
theorem section_first_spec (s : String) (sep : Char) :
    sep ∉ (section_first s sep).data ∧
    ∃ rest : List Char, s.data = (section_first s sep).data ++ rest ∧
      (rest = [] ∨ rest.head? = some sep) := by
  unfold section_first
  dsimp only
  constructor
  · intro h
    have := List.mem_takeWhile_imp h
    simp at this
  · refine ⟨s.data.dropWhile (fun c => c != sep), (List.takeWhile_append_dropWhile _ _).symm, ?_⟩
    cases hd : s.data.dropWhile (fun c => c != sep) with
    | nil => exact Or.inl rfl
    | cons a l =>
      right
      have := List.head_dropWhile_not (fun c => c != sep) s.data (by rw [hd]; simp)
      simp only [hd, List.head_cons] at this
      simp only [List.head?_cons, Option.some.injEq]
      simpa using this

end QString

namespace Track

theorem find_some_get {tr : Track} {name value : String} {k : Int} {e : Entry}
    (h : tr.find name value k = some e) :
    e.is_blank = false ∧ e.get name = value ∧ e ∈ tr.m_playlist := by
  unfold find at h
  have h1 := List.find?_some h
  have h2 := List.mem_of_find?_eq_some h
  simp only [Bool.and_eq_true, decide_eq_true_eq] at h1
  exact ⟨h1.1, h1.2.symm, List.mem_of_mem_drop h2⟩

theorem get_id_cloneWithId {e : Entry} (hb : e.is_blank = false) (id : String) (a : Bool) :
    (e.cloneWithId id a).get "id" = id := by
  unfold Entry.is_blank at hb
  cases hp : e.parent with
  | none => rw [hp] at hb; cases hb
  | some p => simp [Entry.cloneWithId, Entry.get, Producer.get, hp]

theorem get_parentHandle (e : Entry) (name : String) : e.parentHandle.get name = e.get name := rfl

theorem needsDuplicate_empty : needsDuplicate "" = false := by decide

end Track

/-- C20: `clipProducer` returns the parent producer itself (no clone, no new tag) when the
parent's service contains none of "avformat", "consumer", "xml", or the state is
`VideoOnly`, or the parent id ends with "_video".  In every other case the id of the
returned producer is `<rootId>_<trackId>`, followed by "_audio" exactly when the state is
`AudioOnly`, where `rootId` is the parent id up to its first underscore: `rootId` holds no
underscore and the parent id is `rootId` followed by nothing or by an underscore and
more. -/
theorem Track.clipProducer_tag (tr : Track) (parent : Entry) (state : ClipState)
    (forceCreation : Bool) :
    (if (QString.contains (parent.get "mlt_service") "avformat" = false ∧
          QString.contains (parent.get "mlt_service") "consumer" = false ∧
          QString.contains (parent.get "mlt_service") "xml" = false) ∨
        state = ClipState.VideoOnly ∨ QString.endsWith (parent.get "id") "_video" = true
      then tr.clipProducer parent state forceCreation = Duplicate.same parent
      else (tr.clipProducer parent state forceCreation).producer.get "id" =
        QString.section_first (parent.get "id") '_' ++ "_" ++ tr.playlistId ++
          (if state = ClipState.AudioOnly then "_audio" else "")) ∧
    ('_' ∉ (QString.section_first (parent.get "id") '_').data ∧
      ∃ rest : List Char,
        (parent.get "id").data = (QString.section_first (parent.get "id") '_').data ++ rest ∧
        (rest = [] ∨ rest.head? = some '_')) := by
  refine ⟨?_, QString.section_first_spec _ _⟩
  have hnd : (Track.needsDuplicate (parent.get "mlt_service") = false) ↔
      (QString.contains (parent.get "mlt_service") "avformat" = false ∧
        QString.contains (parent.get "mlt_service") "consumer" = false ∧
        QString.contains (parent.get "mlt_service") "xml" = false) := by
    unfold Track.needsDuplicate
    simp [Bool.or_eq_false_iff, and_assoc]
  by_cases hcond : Track.needsDuplicate (parent.get "mlt_service") = false ∨
      state = ClipState.VideoOnly ∨ QString.endsWith (parent.get "id") "_video" = true
  · have hcond2 := hcond
    rw [hnd] at hcond2
    rw [if_pos hcond2]
    unfold Track.clipProducer
    rw [if_pos hcond]
  · have hcond2 := hcond
    rw [hnd] at hcond2
    rw [if_neg hcond2]
    have hstate : state ≠ ClipState.VideoOnly := fun h => hcond (Or.inr (Or.inl h))
    have htag : tr.idForTrack (parent.get "id") state =
        QString.section_first (parent.get "id") '_' ++ "_" ++ tr.playlistId ++
          (if state = ClipState.AudioOnly then "_audio" else "") := by
      unfold Track.idForTrack
      by_cases ha : state = ClipState.AudioOnly
      · rw [if_pos ha, if_pos ha]
      · rw [if_neg ha, if_neg ha, if_neg hstate]
    have hnb : parent.is_blank = false := by
      cases hp : parent.parent with
      | none =>
        exfalso
        apply hcond
        left
        have : parent.get "mlt_service" = "" := by unfold Entry.get; rw [hp]
        rw [this]
        exact Track.needsDuplicate_empty
      | some p => unfold Entry.is_blank; rw [hp]; rfl
    unfold Track.clipProducer
    rw [if_neg hcond, ← htag]
    cases hf : (if forceCreation = false then
        tr.find "id" (tr.idForTrack (parent.get "id") state) 0 else none) with
    | none =>
      dsimp only
      exact Track.get_id_cloneWithId hnb _ _
    | some e =>
      dsimp only
      by_cases hforce : forceCreation = false
      · rw [if_pos hforce] at hf
        exact (Track.find_some_get hf).2.1
      · rw [if_neg hforce] at hf
        cases hf

namespace Mlt.Playlist

variable {Q : Option Producer → Prop}

theorem pq_move {pl : Playlist} (h : ∀ e ∈ pl, Q e.parent) (s d : Int) :
    ∀ e ∈ move pl s d, Q e.parent :=
  fun e he => h e (mem_move he)

theorem pq_remove {pl : Playlist} (h : ∀ e ∈ pl, Q e.parent) (c : Int) :
    ∀ e ∈ (remove pl c).2, Q e.parent := by
  unfold remove
  split_ifs
  · exact h
  · exact fun e he => h e (List.mem_of_mem_eraseIdx he)

theorem pq_append {pl : Playlist} (h : ∀ e ∈ pl, Q e.parent) {x : Entry} (hx : Q x.parent) :
    ∀ e ∈ append pl x, Q e.parent := by
  intro e he
  unfold append at he
  rcases List.mem_append.1 he with h1 | h1
  · exact h e h1
  · rw [List.mem_singleton.1 h1]; exact hx

theorem pq_blank (hQ : Q none) {pl : Playlist} (h : ∀ e ∈ pl, Q e.parent) (o : Int) :
    ∀ e ∈ blank pl o, Q e.parent := by
  unfold blank
  split_ifs
  · exact pq_append h hQ
  · exact h

theorem pq_insert_blank (hQ : Q none) {pl : Playlist} (h : ∀ e ∈ pl, Q e.parent) (c o : Int) :
    ∀ e ∈ insert_blank pl c o, Q e.parent := by
  unfold insert_blank
  split_ifs
  · exact pq_move (pq_blank hQ h o) _ _
  · exact h

theorem pq_insert {pl : Playlist} (h : ∀ e ∈ pl, Q e.parent) {x : Entry} (hx : Q x.parent)
    (c : Int) : ∀ e ∈ insert pl x c, Q e.parent := by
  unfold insert
  exact pq_move (pq_append h hx) _ _

theorem pq_set {pl : Playlist} (h : ∀ e ∈ pl, Q e.parent) {x : Entry} (hx : Q x.parent)
    (n : Nat) : ∀ e ∈ pl.set n x, Q e.parent := by
  intro e he
  rcases List.mem_or_eq_of_mem_set he with h1 | h1
  · exact h e h1
  · rw [h1]; exact hx

theorem pq_resize_clip {pl : Playlist} (h : ∀ e ∈ pl, Q e.parent) (c i o : Int) :
    ∀ e ∈ (resize_clip pl c i o).2, Q e.parent := by
  unfold resize_clip
  split_ifs
  · exact h
  · cases hget : pl[c.toNat]? with
    | none => exact h
    | some x =>
      apply pq_set h
      rw [Entry.parent_resize]
      exact h x (List.getElem?_mem hget)

theorem pq_split_entry (hQ : Q none) {pl : Playlist} (h : ∀ e ∈ pl, Q e.parent) (c : Int)
    {x : Entry} (hx : Q x.parent) (p : Int) : ∀ e ∈ (split_entry pl c x p).2, Q e.parent := by
  unfold split_entry
  dsimp only
  split_ifs
  · apply pq_insert (pq_resize_clip h _ _ _)
    rw [Entry.parent_cut]; exact hx
  · exact pq_insert (pq_resize_clip h _ _ _) hQ _
  · exact h

theorem pq_split (hQ : Q none) {pl : Playlist} (h : ∀ e ∈ pl, Q e.parent) (c p : Int) :
    ∀ e ∈ (split pl c p).2, Q e.parent := by
  unfold split
  by_cases hc : c < 0 ∨ c ≥ count pl
  · rw [if_pos hc]; exact h
  · rw [if_neg hc]
    cases hget : pl[c.toNat]? with
    | none => exact h
    | some x => exact pq_split_entry hQ h c (h x (List.getElem?_mem hget)) _

theorem pq_mergeFrom (rest : Playlist) : ∀ left : Entry, Q left.parent →
    (∀ e ∈ rest, Q e.parent) → ∀ e ∈ mergeFrom left rest, Q e.parent := by
  induction rest with
  | nil =>
    intro left hl _ e he
    unfold mergeFrom at he
    rw [List.mem_singleton.1 he]; exact hl
  | cons right rest ih =>
    intro left hl hr
    have hrest : ∀ e ∈ rest, Q e.parent := fun e he => hr e (List.mem_cons_of_mem _ he)
    unfold mergeFrom
    split_ifs
    · apply ih _ _ hrest
      rw [Entry.parent_resize]; exact hl
    · intro e he
      rcases List.mem_cons.1 he with h2 | h2
      · rw [h2]; exact hl
      · exact ih right (hr right (List.mem_cons_self _ _)) hrest e h2

theorem pq_merge_blanks {pl : Playlist} (h : ∀ e ∈ pl, Q e.parent) :
    ∀ e ∈ merge_blanks pl, Q e.parent := by
  cases pl with
  | nil => exact h
  | cons x rest =>
    exact pq_mergeFrom rest x (h x (List.mem_cons_self _ _))
      (fun e he => h e (List.mem_cons_of_mem _ he))

theorem pq_consolidate_blanks {pl : Playlist} (h : ∀ e ∈ pl, Q e.parent) (k : Int) :
    ∀ e ∈ consolidate_blanks pl k, Q e.parent := by
  unfold consolidate_blanks
  split_ifs
  · exact pq_remove (pq_merge_blanks h) _
  · exact pq_merge_blanks h

theorem pq_replace_with_blank (hQ : Q none) {pl : Playlist} (h : ∀ e ∈ pl, Q e.parent)
    (c : Int) : ∀ e ∈ (replace_with_blank pl c).2, Q e.parent := by
  unfold replace_with_blank
  by_cases hb : is_blank pl c = false
  · rw [if_pos hb]
    cases hget : get_clip pl c with
    | none => exact h
    | some x => exact pq_move (pq_blank hQ (pq_remove h _) _) _ _
  · rw [if_neg hb]; exact h

theorem pq_split_at (hQ : Q none) {pl : Playlist} (h : ∀ e ∈ pl, Q e.parent) (p : Int) :
    ∀ e ∈ split_at pl p, Q e.parent := by
  unfold split_at
  dsimp only
  split_ifs
  · exact pq_split hQ h _ _
  · exact h
  · exact h

theorem pq_remove_loop (hQ : Q none) (fuel : Nat) : ∀ (pl : Playlist) (index length : Int),
    (∀ e ∈ pl, Q e.parent) → ∀ e ∈ remove_loop fuel pl index length, Q e.parent := by
  induction fuel with
  | zero => intro pl _ _ h; exact h
  | succ n ih =>
    intro pl index length h
    unfold remove_loop
    dsimp only
    split_ifs
    · exact ih _ _ _ (pq_remove (pq_split hQ h _ _) _)
    · exact ih _ _ _ (pq_remove h _)
    · exact h

theorem pq_remove_region (hQ : Q none) {pl : Playlist} (h : ∀ e ∈ pl, Q e.parent) (p l : Int) :
    ∀ e ∈ (remove_region pl p l).2, Q e.parent := by
  unfold remove_region
  dsimp only
  split_ifs
  all_goals first
    | exact h
    | (apply pq_consolidate_blanks; apply pq_remove_loop hQ
       first | exact h | exact pq_split hQ h _ _)

theorem pq_insert_at_blank_head (hQ : Q none) {pl : Playlist} (h : ∀ e ∈ pl, Q e.parent)
    (p c : Int) : ∀ e ∈ (insert_at_blank_head pl p c).2, Q e.parent := by
  unfold insert_at_blank_head
  split_ifs
  · exact pq_split hQ h _ _
  · exact pq_split hQ h _ _
  · exact h

theorem pq_insert_at_blank (hQ : Q none) {pl : Playlist} (h : ∀ e ∈ pl, Q e.parent) (p : Int)
    {x : Entry} (hx : Q x.parent) (c : Int) :
    ∀ e ∈ (insert_at_blank pl p x c).2, Q e.parent := by
  unfold insert_at_blank
  dsimp only
  have hr := pq_insert_at_blank_head hQ h p c
  generalize insert_at_blank_head pl p c = r at hr
  apply pq_insert _ hx
  apply pq_remove
  split_ifs
  · exact pq_split hQ hr _ _
  · exact hr
  · exact pq_split hQ hr _ _
  · exact hr

theorem pq_insert_at_clip (hQ : Q none) {pl : Playlist} (h : ∀ e ∈ pl, Q e.parent) (p : Int)
    {x : Entry} (hx : Q x.parent) (m c : Int) :
    ∀ e ∈ (insert_at_clip pl p x m c).2, Q e.parent := by
  unfold insert_at_clip
  dsimp only
  generalize (if p > info_start pl c + (clip_length pl c).tdiv 2 then c + 1 else c) = c2
  apply pq_insert _ hx
  split_ifs
  · exact pq_remove (pq_split hQ h _ _) _
  · exact pq_remove h _
  · exact h

theorem pq_insert_at_end (hQ : Q none) {pl : Playlist} (h : ∀ e ∈ pl, Q e.parent) (p : Int)
    {x : Entry} (hx : Q x.parent) (m c : Int) :
    ∀ e ∈ (insert_at_end pl p x m c).2, Q e.parent := by
  unfold insert_at_end
  dsimp only
  apply pq_append _ hx
  split_ifs
  · exact pq_remove h _
  · exact pq_blank hQ h _
  · exact h

/-- The producers on a playlist after `insert_at` are producers that were on it before, or
the producer of the inserted cut. -/
theorem pq_insert_at (hQ : Q none) {pl : Playlist} (h : ∀ e ∈ pl, Q e.parent) (p : Int)
    {x : Entry} (hx : Q x.parent) (m : Int) : ∀ e ∈ (insert_at pl p x m).2, Q e.parent := by
  unfold insert_at
  split_ifs
  · exact h
  · exact pq_insert_at_blank hQ h p hx _
  · exact pq_insert_at_clip hQ h p hx _ _
  · exact pq_insert_at_end hQ h p hx _ _

/-- For a non-negative position `insert_at` puts the cut on the playlist. -/
theorem mem_insert_at (pl : Playlist) {p : Int} (hp : 0 ≤ p) (x : Entry) (m : Int) :
    x ∈ (insert_at pl p x m).2 := by
  unfold insert_at
  rw [if_neg (by omega)]
  have key : ∀ (q : Playlist) (c : Int), x ∈ insert q x c := by
    intro q c
    rw [insert_eq]
    simp
  split_ifs
  · unfold insert_at_blank
    exact key _ _
  · unfold insert_at_clip
    exact key _ _
  · unfold insert_at_end
    dsimp only
    unfold append
    simp

end Mlt.Playlist

namespace Track

theorem pq_doAdd {Q : Option Producer → Prop} (hQ : Q none) {tr : Track}
    (h : ∀ e ∈ tr.m_playlist, Q e.parent) (t : ℚ) {c : Entry} (hc : Q c.parent) (mode : Int) :
    ∀ e ∈ (doAdd tr t c mode).2.m_playlist, Q e.parent := by
  rw [doAdd_playlist]
  apply pq_insert_at hQ _ _ hc
  unfold doAdd_prepared
  apply pq_consolidate_blanks
  split_ifs
  · exact pq_insert_blank hQ (pq_remove_region hQ h _ _) _ _
  · exact pq_insert_blank hQ (pq_split_at hQ h _) _ _
  · exact pq_insert_blank hQ h _ _
  · exact h

theorem mem_add (tr : Track) {t : ℚ} (ht : 0 ≤ tr.frame t) (c : Entry) (mode : Int) :
    c ∈ (tr.add t c mode).2.m_playlist := by
  rw [add_playlist]
  exact mem_insert_at _ ht c 1

theorem doAdd_playlistId (tr : Track) (t : ℚ) (c : Entry) (mode : Int) :
    (doAdd tr t c mode).2.playlistId = tr.playlistId := by
  unfold doAdd; dsimp only; split_ifs <;> rfl

theorem add_playlistId (tr : Track) (t : ℚ) (c : Entry) (mode : Int) :
    (tr.add t c mode).2.playlistId = tr.playlistId := by
  unfold add
  exact doAdd_playlistId tr.lock t c mode

end Track

namespace Track

theorem pq_add {Q : Option Producer → Prop} (hQ : Q none) {tr : Track}
    (h : ∀ e ∈ tr.m_playlist, Q e.parent) (t : ℚ) {c : Entry} (hc : Q c.parent) (mode : Int) :
    ∀ e ∈ (tr.add t c mode).2.m_playlist, Q e.parent := by
  unfold add
  exact pq_doAdd hQ (show ∀ e ∈ tr.lock.m_playlist, Q e.parent from h) t hc mode

theorem find_none_get {tr : Track} {name value : String}
    (h : tr.find name value 0 = none) {e : Entry} (he : e ∈ tr.m_playlist)
    (hb : e.is_blank = false) : e.get name ≠ value := by
  unfold find at h
  have h1 := List.find?_eq_none.1 h e (by simpa using he)
  intro hv
  apply h1
  simp [hb, hv]

theorem find_isSome {tr : Track} {name value : String} {e : Entry} (he : e ∈ tr.m_playlist)
    (hb : e.is_blank = false) (hv : e.get name = value) :
    ∃ q, tr.find name value 0 = some q := by
  cases hf : tr.find name value 0 with
  | some q => exact ⟨q, rfl⟩
  | none => exact absurd hv (find_none_get hf he hb)

theorem get_cut (e : Entry) (i o : Int) (name : String) : (e.cut i o).get name = e.get name := by
  unfold Entry.get
  rw [Entry.parent_cut]

theorem is_blank_of_needsDuplicate {e : Entry}
    (h : needsDuplicate (e.get "mlt_service") = true) : e.is_blank = false := by
  cases hp : e.parent with
  | none =>
    have : e.get "mlt_service" = "" := by unfold Entry.get; rw [hp]
    rw [this, needsDuplicate_empty] at h
    cases h
  | some p => unfold Entry.is_blank; rw [hp]; rfl

theorem is_blank_cloneWithId (e : Entry) (id : String) (a : Bool) :
    (e.cloneWithId id a).is_blank = e.is_blank := by
  unfold Entry.is_blank Entry.cloneWithId
  cases e.parent <;> rfl

/-- When the duplicate is needed and not forced, `clipProducer` clones exactly when no
region of the track carries the tag, and otherwise hands back the parent of the first
region that does. -/
theorem clipProducer_of_needed (tr : Track) (parent : Entry) (state : ClipState)
    (hneed : needsDuplicate (parent.get "mlt_service") = true)
    (hstate : state ≠ ClipState.VideoOnly)
    (hid : QString.endsWith (parent.get "id") "_video" = false) :
    tr.clipProducer parent state false =
      match tr.find "id" (tr.idForTrack (parent.get "id") state) 0 with
      | some prod => Duplicate.found prod.parentHandle
      | none => Duplicate.cloned
          (parent.cloneWithId (tr.idForTrack (parent.get "id") state)
            (decide (state = ClipState.AudioOnly))) := by
  unfold clipProducer
  rw [if_neg (by simp [hneed, hstate, hid])]
  rfl

end Track

/-- C19 (the claim fails): on the track holding `clipA` and `clipB`, with `clipA` backed by
an "avformat" producer, `clipProducer(clipA, Original)` without forced creation creates a
clone; the call leaves the track as it is, so a second call right after it creates a
clone again. -/
theorem Track.clipProducer_clones_again :
    Track.needsDuplicate (clipA.get "mlt_service") = true ∧
    (trackAB.clipProducer clipA ClipState.Original false).isClone = true ∧
    trackAB.find "id" ((trackAB.clipProducer clipA ClipState.Original false).producer.get "id") 0
      = none := by
  decide

/-- C19 (amended): for a parent whose service needs duplication (state not `VideoOnly`, id
not ending in "_video"), once a cut of the producer returned by `clipProducer` has been
added to the track at a non-negative frame, the next call without forced creation does
not clone: it returns a producer found on the track under the same tag, and when the
first call had to clone, that producer is the first call's clone. -/
theorem Track.clipProducer_reuses_placed_duplicate (tr : Track) (parent : Entry)
    (state : ClipState) (t : ℚ) (i o mode : Int)
    (hneed : Track.needsDuplicate (parent.get "mlt_service") = true)
    (hstate : state ≠ ClipState.VideoOnly)
    (hid : QString.endsWith (parent.get "id") "_video" = false)
    (ht : 0 ≤ tr.frame t) :
    ∃ q : Entry,
      ((tr.add t ((tr.clipProducer parent state false).producer.cut i o) mode).2.clipProducer
        parent state false) = Duplicate.found q ∧
      q.get "id" = (tr.clipProducer parent state false).producer.get "id" ∧
      ((tr.clipProducer parent state false).isClone = true →
        q.parent = (tr.clipProducer parent state false).producer.parent) := by
  have hpb := Track.is_blank_of_needsDuplicate hneed
  generalize hd : tr.clipProducer parent state false = d
  have hdid : d.producer.get "id" = tr.idForTrack (parent.get "id") state := by
    rw [← hd, Track.clipProducer_of_needed tr parent state hneed hstate hid]
    cases hf : tr.find "id" (tr.idForTrack (parent.get "id") state) 0 with
    | some e => exact (Track.find_some_get hf).2.1
    | none => exact Track.get_id_cloneWithId hpb _ _
  have hdb : d.producer.is_blank = false := by
    rw [← hd, Track.clipProducer_of_needed tr parent state hneed hstate hid]
    cases hf : tr.find "id" (tr.idForTrack (parent.get "id") state) 0 with
    | some e => exact (Track.find_some_get hf).1
    | none =>
      show (parent.cloneWithId _ _).is_blank = false
      rw [Track.is_blank_cloneWithId]; exact hpb
  have hmem := Track.mem_add tr ht (d.producer.cut i o) mode
  generalize htr : (tr.add t (d.producer.cut i o) mode).2 = tr2 at hmem
  have hpid : tr2.playlistId = tr.playlistId := by
    rw [← htr]; exact Track.add_playlistId _ _ _ _
  have htag : tr2.idForTrack (parent.get "id") state = tr.idForTrack (parent.get "id") state := by
    unfold Track.idForTrack; rw [hpid]
  obtain ⟨q, hq⟩ := @Track.find_isSome tr2 "id" _ _ hmem
    (by rw [Entry.is_blank_cut]; exact hdb)
    (show (d.producer.cut i o).get "id" = tr2.idForTrack (parent.get "id") state by
      rw [Track.get_cut, hdid, htag])
  refine ⟨q.parentHandle, ?_, ?_, ?_⟩
  · rw [Track.clipProducer_of_needed tr2 parent state hneed hstate hid, hq]
  · rw [Track.get_parentHandle, (Track.find_some_get hq).2.1, hdid, htag]
  · intro hclone
    have hnone : tr.find "id" (tr.idForTrack (parent.get "id") state) 0 = none := by
      rw [← hd, Track.clipProducer_of_needed tr parent state hneed hstate hid] at hclone
      cases hf : tr.find "id" (tr.idForTrack (parent.get "id") state) 0 with
      | some e => rw [hf] at hclone; cases hclone
      | none => rfl
    have hall : ∀ e ∈ tr2.m_playlist,
        (e.parent = none ∨
          (∀ p, e.parent = some p → p.id ≠ tr.idForTrack (parent.get "id") state) ∨
          e.parent = d.producer.parent) := by
      rw [← htr]
      apply Track.pq_add (Q := fun op : Option Producer => op = none ∨
          (∀ p, op = some p → p.id ≠ tr.idForTrack (parent.get "id") state) ∨
          op = d.producer.parent) (Or.inl rfl)
      · intro e he
        cases hp : e.parent with
        | none => exact Or.inl rfl
        | some p =>
          right; left
          intro p2 hp2
          cases hp2
          have hb : e.is_blank = false := by unfold Entry.is_blank; rw [hp]; rfl
          have := Track.find_none_get hnone he hb
          simpa [Entry.get, hp, Producer.get] using this
      · right; right
        exact Entry.parent_cut _ _ _
    obtain ⟨hqb, hqid, hqmem⟩ := Track.find_some_get hq
    show q.parent = d.producer.parent
    rcases hall q hqmem with h1 | h1 | h1
    · unfold Entry.is_blank at hqb; rw [h1] at hqb; cases hqb
    · exfalso
      cases hp : q.parent with
      | none => unfold Entry.is_blank at hqb; rw [hp] at hqb; cases hqb
      | some p =>
        apply h1 p hp
        rw [← htag, ← hqid]
        simp [Entry.get, hp, Producer.get]
    · exact h1

theorem Track.clipProducer_reuses_placed_duplicate_witness :
    ∃ q : Entry,
      ((trackAB.add 5 ((trackAB.clipProducer clipA ClipState.Original false).producer.cut 0 9)
        0).2.clipProducer clipA ClipState.Original false) = Duplicate.found q ∧
      q.get "id" = (trackAB.clipProducer clipA ClipState.Original false).producer.get "id" ∧
      ((trackAB.clipProducer clipA ClipState.Original false).isClone = true →
        q.parent = (trackAB.clipProducer clipA ClipState.Original false).producer.parent) :=
  Track.clipProducer_reuses_placed_duplicate trackAB clipA ClipState.Original 5 0 9 0
    (by decide) (by decide) (by decide)
    (by
      have h5 : trackAB.frame 5 = 125 := by
        simpa using Track.frame_int trackAB 5 rfl (by norm_num)
      rw [h5]
      decide)

namespace Mlt.Playlist

/-- A cut that is exactly as long as the blank it is put on takes the place of the blank. -/
theorem insert_at_blank_exact {pre : Playlist} (hpre : wf pre) (b : Entry) (post : Playlist)
    (hb : b.is_blank = true) (e : Entry) (hfc : e.frame_count = b.frame_count)
    (hpos : 1 ≤ b.frame_count) (m : Int) :
    insert_at (pre ++ b :: post) (get_playtime pre) e m =
      ((pre.length : Int), pre ++ e :: post) := by
  have hidx : get_clip_index_at (pre ++ b :: post) (get_playtime pre) = pre.length :=
    get_clip_index_at_mid pre b post (frame_count_nonneg_of_wf hpre) (le_refl _) (by omega)
  unfold insert_at
  rw [if_neg (by have := get_playtime_nonneg (frame_count_nonneg_of_wf hpre); omega), hidx,
    if_pos ⟨by unfold count; simp, by rw [is_blank_at]; exact hb⟩]
  unfold insert_at_blank
  dsimp only
  unfold insert_at_blank_head
  rw [info_start_at, if_neg (by simp)]
  dsimp only
  rw [if_pos rfl, clip_length_at, if_neg (by omega), remove_at, insert_at_length]

theorem clip_start_congr {pl pl2 : Playlist}
    (h : pl2.map Entry.frame_count = pl.map Entry.frame_count) (i : Int) :
    clip_start pl2 i = clip_start pl i := by
  unfold clip_start
  rw [List.map_take, List.map_take, h]

theorem clip_length_congr {pl pl2 : Playlist}
    (h : pl2.map Entry.frame_count = pl.map Entry.frame_count) (i : Int) :
    clip_length pl2 i = clip_length pl i := by
  unfold clip_length get_clip
  split_ifs
  · rfl
  · have h1 : (pl2.map Entry.frame_count)[i.toNat]? = (pl.map Entry.frame_count)[i.toNat]? := by
      rw [h]
    rw [List.getElem?_map, List.getElem?_map] at h1
    cases h2 : pl2[i.toNat]? <;> cases h3 : pl[i.toNat]? <;> simp_all

end Mlt.Playlist

namespace Track

theorem get_cloneWithId_length (e : Entry) (id : String) (a : Bool) :
    (e.cloneWithId id a).length = e.length := rfl

/-- The producer that `clipProducer` hands back is the parent, a clone of it, or the parent
of a region of the track that carries the tag. -/
theorem clipProducer_cases (tr : Track) (parent : Entry) (state : ClipState) (force : Bool) :
    (tr.clipProducer parent state force).producer = parent ∨
    (tr.clipProducer parent state force).producer =
      parent.cloneWithId (tr.idForTrack (parent.get "id") state)
        (decide (state = ClipState.AudioOnly)) ∨
    ∃ q ∈ tr.m_playlist, q.is_blank = false ∧
      q.get "id" = tr.idForTrack (parent.get "id") state ∧
      (tr.clipProducer parent state force).producer = q.parentHandle := by
  unfold clipProducer
  split_ifs with h1 h2
  · left; rfl
  · cases hf : tr.find "id" (tr.idForTrack (parent.get "id") state) 0 with
    | none => right; left; rfl
    | some q =>
      right; right
      obtain ⟨hb, hid, hmem⟩ := find_some_get hf
      exact ⟨q, hmem, hb, hid, rfl⟩
  · right; left; rfl

end Track

/-- C13 (the claim fails): on the track holding `clipA` on frames [0, 100) and `clipB` on
frames [100, 110).  First, `replace` at 2 seconds (frame 50, inside `clipA`) leaves a blank
on frames [0, 50), puts the new cut on frames [50, 150) and moves `clipB` to frame 150.
Second, `replace` at 0 seconds with a producer of 50 frames leaves the cut [0, 49] instead
of [0, 99] on frames [0, 50), followed by a new blank region on frames [50, 100). -/
theorem Track.replace_changes_layout :
    (trackAB.replace 2 clipB ClipState.VideoOnly).map (fun r => r.2.m_playlist) =
      some [{ parent := none, frame_in := 0, frame_out := 49, length := 100 },
        { clipB with frame_in := 0, frame_out := 99 }, clipB] ∧
    (trackAB.replace 0 { slowS with frame_out := 49, length := 50 } ClipState.VideoOnly).map
        (fun r => r.2.m_playlist) =
      some [{ slowS with frame_out := 49, length := 50 }, Entry.blankCut 49, clipB] := by
  have h0 : Track.frame_value 0 25 = 0 := by
    simpa using Track.frame_value_int 0 (by norm_num)
  have h2 : Track.frame_value 2 25 = 50 := by
    simpa using Track.frame_value_int 2 (by norm_num)
  constructor
  · simp only [Track.replace, Track.frame, Track.lock, Track.unlock, Track.withPlaylist, trackAB,
      h2]
    decide
  · simp only [Track.replace, Track.frame, Track.lock, Track.unlock, Track.withPlaylist, trackAB,
      h0]
    decide

/-- C13 (amended): for a clip region `c` with trim [in, out] on a well-formed track and a
time `t` whose frame is the first frame of `c`, where the new producer and every region
that already carries its duplicate's tag have more than `out` frames, `replace(t, prod,
state)` returns, releases the lock, and leaves at the place of `c` a cut with the same
[in, out] of the new producer (state `VideoOnly`) or of the producer `clipProducer` gives
for it; every other region is unchanged, so the start position and the length of every
region are the same as before the call. -/
theorem Track.replace_keeps_layout (tr : Track) (pre post : Playlist) (c prod : Entry)
    (state : ClipState) (t : ℚ)
    (hpl : tr.m_playlist = pre ++ c :: post) (hwf : wf tr.m_playlist)
    (hc : c.is_blank = false) (ht : tr.frame t = get_playtime pre)
    (hprod : prod.is_blank = false) (hlen : c.frame_out < prod.length)
    (hdup : ∀ e ∈ tr.m_playlist,
      e.get "id" = tr.idForTrack (prod.get "id") state → c.frame_out < e.length) :
    ∃ (r : Bool × Track) (d : Entry),
      tr.replace t prod state = some r ∧
      (d = if state ≠ ClipState.VideoOnly then
          ((tr.withPlaylist (pre ++ Entry.blankCut (c.frame_out - c.frame_in) ::
            post)).clipProducer prod state false).producer
        else prod) ∧
      r.2.m_playlist = pre ++ { d with frame_in := c.frame_in, frame_out := c.frame_out } :: post ∧
      r.2.lockDepth = tr.lockDepth ∧
      (∀ i : Int, clip_start r.2.m_playlist i = clip_start tr.m_playlist i ∧
        clip_length r.2.m_playlist i = clip_length tr.m_playlist i) := by
  have hcw : c.wf := hwf c (by rw [hpl]; simp)
  have hprew : wf pre := fun e he => hwf e (by rw [hpl]; simp [he])
  have hcw2 := hcw
  unfold Entry.wf at hcw2
  have hidx : get_clip_index_at tr.m_playlist (tr.frame t) = pre.length := by
    rw [hpl, ht]
    exact get_clip_index_at_mid pre c post (frame_count_nonneg_of_wf hprew) (le_refl _)
      (by have := Entry.wf_frame_count_pos hcw; omega)
  -- the producer that is cut
  generalize hd : (if state ≠ ClipState.VideoOnly then
      ((tr.withPlaylist (pre ++ Entry.blankCut (c.frame_out - c.frame_in) ::
        post)).clipProducer prod state false).producer
    else prod) = d
  have hdprop : d.is_blank = false ∧ c.frame_out < d.length := by
    rw [← hd]
    by_cases hs : state ≠ ClipState.VideoOnly
    · rw [if_pos hs]
      rcases Track.clipProducer_cases
          (tr.withPlaylist (pre ++ Entry.blankCut (c.frame_out - c.frame_in) :: post))
          prod state false with h | h | ⟨q, hq, hqb, hqid, h⟩
      · rw [h]; exact ⟨hprod, hlen⟩
      · rw [h]; exact ⟨by rw [Track.is_blank_cloneWithId]; exact hprod, hlen⟩
      · rw [h]
        refine ⟨hqb, ?_⟩
        have hq2 : q ∈ tr.m_playlist := by
          rw [hpl]
          have hq3 : q ∈ pre ++ Entry.blankCut (c.frame_out - c.frame_in) :: post := hq
          rcases List.mem_append.1 hq3 with h1 | h1
          · simp [h1]
          · rcases List.mem_cons.1 h1 with h2 | h2
            · rw [h2] at hqb; cases hqb
            · simp [h2]
        exact hdup q hq2 hqid
    · rw [if_neg hs]; exact ⟨hprod, hlen⟩
  have hcut : d.cut c.frame_in c.frame_out =
      { d with frame_in := c.frame_in, frame_out := c.frame_out } :=
    Entry.cut_exact hdprop.1 hcw2.1 hcw2.2.1 hdprop.2
  have hrb := replace_with_blank_at pre post hc hcw2.2.1
  have hins := insert_at_blank_exact hprew (Entry.blankCut (c.frame_out - c.frame_in)) post rfl
    { d with frame_in := c.frame_in, frame_out := c.frame_out }
    (by unfold Entry.frame_count Entry.blankCut; dsimp only; omega)
    (by unfold Entry.frame_count Entry.blankCut; dsimp only; omega) 1
  refine ⟨(decide ((pre.length : Int) ≠ 0),
    ((tr.lock.withPlaylist (pre ++ Entry.blankCut (c.frame_out - c.frame_in) ::
      post)).withPlaylist
      (pre ++ { d with frame_in := c.frame_in, frame_out := c.frame_out } :: post)).unlock),
    d, ?_, rfl, rfl, ?_, ?_⟩
  · unfold Track.replace
    dsimp only
    have hidx2 : get_clip_index_at tr.lock.m_playlist (tr.lock.frame t) = pre.length := hidx
    have hpl2 : tr.lock.m_playlist = pre ++ c :: post := hpl
    rw [hidx2, hpl2, hrb]
    dsimp only
    have hframe : (tr.lock.withPlaylist
        (pre ++ Entry.blankCut (c.frame_out - c.frame_in) :: post)).frame t = get_playtime pre := ht
    have hd2 : (if state ≠ ClipState.VideoOnly then
        ((tr.lock.withPlaylist (pre ++ Entry.blankCut (c.frame_out - c.frame_in) ::
          post)).clipProducer prod state false).producer.cut c.frame_in c.frame_out
        else prod.cut c.frame_in c.frame_out) =
        { d with frame_in := c.frame_in, frame_out := c.frame_out } := by
      rw [← hcut, ← hd]
      by_cases hs : state ≠ ClipState.VideoOnly
      · rw [if_pos hs, if_pos hs]; rfl
      · rw [if_neg hs, if_neg hs]
    rw [hframe, hd2]
    have hpl3 : (tr.lock.withPlaylist
        (pre ++ Entry.blankCut (c.frame_out - c.frame_in) :: post)).m_playlist =
        pre ++ Entry.blankCut (c.frame_out - c.frame_in) :: post := rfl
    rw [hpl3, hins]
  · show tr.lockDepth + 1 - 1 = tr.lockDepth
    omega
  · have hmap : (pre ++ { d with frame_in := c.frame_in, frame_out := c.frame_out } :: post).map
        Entry.frame_count = tr.m_playlist.map Entry.frame_count := by
      rw [hpl]
      simp [Entry.frame_count]
    intro i
    exact ⟨clip_start_congr hmap i, clip_length_congr hmap i⟩

theorem Track.replace_keeps_layout_witness :
    ∃ (r : Bool × Track) (d : Entry),
      trackAB.replace 4 clipA ClipState.VideoOnly = some r ∧
      (d = if ClipState.VideoOnly ≠ ClipState.VideoOnly then
          ((trackAB.withPlaylist ([clipA] ++ Entry.blankCut (clipB.frame_out - clipB.frame_in) ::
            [])).clipProducer clipA ClipState.VideoOnly false).producer
        else clipA) ∧
      r.2.m_playlist =
        [clipA] ++ { d with frame_in := clipB.frame_in, frame_out := clipB.frame_out } :: [] ∧
      r.2.lockDepth = trackAB.lockDepth ∧
      (∀ i : Int, clip_start r.2.m_playlist i = clip_start trackAB.m_playlist i ∧
        clip_length r.2.m_playlist i = clip_length trackAB.m_playlist i) :=
  Track.replace_keeps_layout trackAB [clipA] [] clipB clipA ClipState.VideoOnly 4 rfl
    (by decide) (by decide) (by
      have h4 : trackAB.frame 4 = 100 := by
        simpa using Track.frame_int trackAB 4 rfl (by norm_num)
      rw [h4]
      decide)
    (by decide) (by decide) (by decide)

namespace Track

theorem is_blank_parentHandle (e : Entry) : e.parentHandle.is_blank = e.is_blank := rfl

/-- The producer that `clipProducer` hands back for a producer that is not blank is not
blank. -/
theorem clipProducer_is_blank (tr : Track) {parent : Entry} (hp : parent.is_blank = false)
    (state : ClipState) (force : Bool) :
    (tr.clipProducer parent state force).producer.is_blank = false := by
  rcases clipProducer_cases tr parent state force with h | h | ⟨q, _, hqb, _, h⟩
  · rw [h]; exact hp
  · rw [h, is_blank_cloneWithId]; exact hp
  · rw [h, is_blank_parentHandle]; exact hqb

/-- With a `videoOnlyProducer` at hand the loop body of `replaceAll` does not fail. -/
theorem replaceAll_cut_ne_none (tr : Track) (id : String) (original v : Entry)
    (nsm : String → Option Entry) (p : Entry) :
    replaceAll_cut tr id original (some v) nsm p ≠ none := by
  unfold replaceAll_cut
  dsimp only
  split_ifs <;> first
    | exact Option.some_ne_none _
    | (cases nsm (QString.section_from2 (QString.remove_first (p.get "id")) ':') <;>
        exact Option.some_ne_none _)

/-- Every cut the loop body of `replaceAll` chooses is a cut of a producer that is not
blank. -/
theorem replaceAll_cut_is_blank (tr : Track) (id : String) {original v : Entry}
    {nsm : String → Option Entry} (ho : original.is_blank = false) (hv : v.is_blank = false)
    (hs : ∀ s q, nsm s = some q → q.is_blank = false) {p c : Entry}
    (h : replaceAll_cut tr id original (some v) nsm p = some (some c)) : c.is_blank = false := by
  unfold replaceAll_cut at h
  dsimp only at h
  split_ifs at h
  · cases h
  · cases hn : nsm (QString.section_from2 (QString.remove_first (p.get "id")) ':') with
    | none => rw [hn] at h; cases h
    | some q =>
      rw [hn] at h
      simp only [Option.some.injEq] at h
      rw [← h, Entry.is_blank_cut]
      exact hs _ q hn
  all_goals (cases h)
  all_goals
    (rw [Entry.is_blank_cut]
     first
       | exact ho
       | exact hv
       | (rw [is_blank_cloneWithId]; exact ho)
       | exact clipProducer_is_blank tr ho _ _)

/-- A region whose producer id does not begin with "#" is left alone by the loop body of
`replaceAll`. -/
theorem replaceAll_cut_of_unmarked (tr : Track) (id : String) (original : Entry)
    (vop : Option Entry) (nsm : String → Option Entry) {p : Entry}
    (h : QString.startsWith (p.get "id") "#" = false) :
    replaceAll_cut tr id original vop nsm p = some none := by
  unfold replaceAll_cut
  dsimp only
  rw [if_pos h]

theorem ntb_replace_clip {pre post : Playlist} {p c : Entry} (_hp : p.is_blank = false)
    (hc : c.is_blank = false) (h : no_trailing_blank (pre ++ p :: post)) :
    no_trailing_blank (pre ++ c :: post) := by
  rw [ntb_append_cons] at h ⊢
  cases post with
  | nil =>
    intro e he
    simp only [List.getLast?_singleton, Option.mem_def, Option.some.injEq] at he
    rw [← he]; exact hc
  | cons r rest =>
    rw [ntb_cons_cons] at h ⊢
    exact h

theorem nab_replace_clip {pre post : Playlist} {p c : Entry} (hp : p.is_blank = false)
    (hc : c.is_blank = false) (h : no_adjacent_blanks (pre ++ p :: post)) :
    no_adjacent_blanks (pre ++ c :: post) := by
  apply nab_of_flags _ h
  simp [hp, hc]

/-- The loop of `replaceAll` on a consolidated playlist, started at the region that follows
`done` with enough iterations left: it returns, every remaining region is replaced by what
the loop body leaves at its place, and `found` is set when one of them is re-cut. -/
theorem replaceAll_loop_spec (tr : Track) (id : String) {original v : Entry}
    {nsm : String → Option Entry} (ho : original.is_blank = false) (hv : v.is_blank = false)
    (hs : ∀ s q, nsm s = some q → q.is_blank = false) :
    ∀ (todo : Playlist) (fuel : Nat) (done : Playlist) (found : Bool),
      todo.length ≤ fuel → no_adjacent_blanks (done ++ todo) → no_trailing_blank (done ++ todo) →
      replaceAll_loop tr id original (some v) nsm fuel done.length (done ++ todo) found =
        some (found || todo.any (replaceAll_recut tr id original (some v) nsm),
          done ++ todo.map (replaceAll_region tr id original (some v) nsm)) := by
  intro todo
  induction todo with
  | nil =>
    intro fuel done found _ _ _
    cases fuel with
    | zero => unfold replaceAll_loop; simp
    | succ f =>
      unfold replaceAll_loop
      rw [if_neg (by unfold count; simp)]
      simp
  | cons p rest ih =>
    intro fuel done found hfuel hnab hntb
    cases fuel with
    | zero => simp at hfuel
    | succ f =>
      have hf : rest.length ≤ f := by simpa using hfuel
      have hnext : ((done.length : Int) + 1) = ((done ++ [p]).length : Int) := by simp
      have hsplit : done ++ p :: rest = (done ++ [p]) ++ rest := by simp
      unfold replaceAll_loop
      rw [if_pos (by unfold count; simp), is_blank_at]
      by_cases hb : p.is_blank = true
      · rw [if_pos hb, hnext, hsplit, ih f (done ++ [p]) found hf (by rw [← hsplit]; exact hnab)
          (by rw [← hsplit]; exact hntb)]
        simp [replaceAll_recut, replaceAll_region, hb]
      · have hb2 : p.is_blank = false := by simpa using hb
        rw [if_neg hb, get_clip_at]
        dsimp only
        cases hc : replaceAll_cut tr id original (some v) nsm p with
        | none => exact absurd hc (replaceAll_cut_ne_none tr id original v nsm p)
        | some oc =>
          cases oc with
          | none =>
            dsimp only
            rw [hnext, hsplit, ih f (done ++ [p]) found hf (by rw [← hsplit]; exact hnab)
              (by rw [← hsplit]; exact hntb)]
            simp [replaceAll_recut, replaceAll_region, hb2, hc]
          | some c =>
            dsimp only
            have hcb := replaceAll_cut_is_blank tr id ho hv hs hc
            have hnab2 := nab_replace_clip hb2 hcb hnab
            have hntb2 := ntb_replace_clip hb2 hcb hntb
            rw [remove_at, insert_at_length, consolidate_blanks_id hnab2 hntb2]
            have hnext2 : ((done.length : Int) + 1) = ((done ++ [c]).length : Int) := by simp
            have hsplit2 : done ++ c :: rest = (done ++ [c]) ++ rest := by simp
            rw [hnext2, hsplit2, ih f (done ++ [c]) true hf (by rw [← hsplit2]; exact hnab2)
              (by rw [← hsplit2]; exact hntb2)]
            simp [replaceAll_recut, replaceAll_region, hb2, hc]

end Track

/-- C14 (the claim fails): `replaceAll` consolidates the blanks after every replacement and
dereferences `videoOnlyProducer` without a test.  On the track `[clipMarked][clipB][blank
5]`, replacing the marked producer "A" re-cuts the first region and drops the blank at the
end, a region whose producer id does not begin with "#"; on the track
`[clipMarked][blank 5][blank 3][clipB]` the two blanks are merged into one of 8 frames;
and on the track `[clipMarkedVideo][clipB]`, whose first region carries the video tag,
the call with a null `videoOnlyProducer` does not return. -/
theorem Track.replaceAll_changes_unmarked :
    ((trackMarkedTail.replaceAll "A" prodA (some clipB) (fun _ => none)).map
        (fun r => (r.1, r.2.m_playlist)) =
      some (true, [{ prodA with frame_in := 10, frame_out := 59 }, clipB]) ∧
      trackMarkedTail.m_playlist = [clipMarked, clipB, Entry.blankCut 4] ∧
      QString.startsWith ((Entry.blankCut 4).get "id") "#" = false) ∧
    ((trackMarkedGap.replaceAll "A" prodA (some clipB) (fun _ => none)).map
        (fun r => (r.1, r.2.m_playlist)) =
      some (true, [{ prodA with frame_in := 10, frame_out := 59 }, Entry.blankCut 7, clipB]) ∧
      trackMarkedGap.m_playlist = [clipMarked, Entry.blankCut 4, Entry.blankCut 2, clipB]) ∧
    (trackMarkedVideo.replaceAll "A" clipA none (fun _ => none)).isNone = true := by
  refine ⟨⟨?_, rfl, ?_⟩, ⟨?_, rfl⟩, ?_⟩ <;> decide

/-- C14 (amended): on a consolidated track (no adjacent blanks, no blank at the end), with
replacement producers that are not blank and a `videoOnlyProducer` that is not null,
`replaceAll` returns; every region is replaced by what the loop body leaves at its place,
so that a region whose producer id does not begin with "#" (a blank included) is
unchanged and is not counted as re-cut; and the returned flag is true exactly when at
least one region was re-cut against a replacement producer. -/
theorem Track.replaceAll_marked_only (tr : Track) (id : String) (original v : Entry)
    (newSlowMos : String → Option Entry)
    (hnab : no_adjacent_blanks tr.m_playlist) (hntb : no_trailing_blank tr.m_playlist)
    (ho : original.is_blank = false) (hv : v.is_blank = false)
    (hs : ∀ s q, newSlowMos s = some q → q.is_blank = false) :
    ∃ found : Bool,
      tr.replaceAll id original (some v) newSlowMos =
        some (found, tr.withPlaylist
          (tr.m_playlist.map (Track.replaceAll_region tr id original (some v) newSlowMos))) ∧
      (∀ e : Entry, QString.startsWith (e.get "id") "#" = false →
        Track.replaceAll_region tr id original (some v) newSlowMos e = e ∧
        Track.replaceAll_recut tr id original (some v) newSlowMos e = false) ∧
      (found = true ↔ ∃ e ∈ tr.m_playlist, e.is_blank = false ∧
        ∃ c, Track.replaceAll_cut tr id original (some v) newSlowMos e = some (some c) ∧
          Track.replaceAll_region tr id original (some v) newSlowMos e = c) := by
  refine ⟨tr.m_playlist.any (Track.replaceAll_recut tr id original (some v) newSlowMos),
    ?_, ?_, ?_⟩
  · unfold Track.replaceAll
    have h := Track.replaceAll_loop_spec tr id ho hv hs tr.m_playlist tr.m_playlist.length []
      false (le_refl _) hnab hntb
    simp only [List.length_nil, List.nil_append, Bool.false_or, Nat.cast_zero] at h
    rw [h]
  · intro e he
    have hc := Track.replaceAll_cut_of_unmarked tr id original (some v) newSlowMos he
    unfold Track.replaceAll_region Track.replaceAll_recut
    rw [hc]
    simp
  · rw [List.any_eq_true]
    constructor
    · rintro ⟨e, he, hr⟩
      unfold Track.replaceAll_recut at hr
      by_cases hb : e.is_blank = true
      · rw [if_pos hb] at hr; cases hr
      · rw [if_neg hb] at hr
        cases hc : Track.replaceAll_cut tr id original (some v) newSlowMos e with
        | none => rw [hc] at hr; cases hr
        | some oc =>
          cases oc with
          | none => rw [hc] at hr; cases hr
          | some c =>
            refine ⟨e, he, by simpa using hb, c, hc, ?_⟩
            unfold Track.replaceAll_region
            rw [if_neg hb, hc]
    · rintro ⟨e, he, hb, c, hc, _⟩
      refine ⟨e, he, ?_⟩
      unfold Track.replaceAll_recut
      rw [if_neg (by simp [hb]), hc]

/-- Witness for C14: replacing the marked producer "A" on the track `[clipMarked][clipB]`. -/
theorem Track.replaceAll_marked_only_witness :
    ∃ found : Bool,
      trackMarked.replaceAll "A" prodA (some clipB) (fun _ => none) =
        some (found, trackMarked.withPlaylist
          (trackMarked.m_playlist.map (Track.replaceAll_region trackMarked "A" prodA
            (some clipB) (fun _ => none)))) ∧
      (∀ e : Entry, QString.startsWith (e.get "id") "#" = false →
        Track.replaceAll_region trackMarked "A" prodA
          (some clipB) (fun _ => none) e = e ∧
        Track.replaceAll_recut trackMarked "A" prodA
          (some clipB) (fun _ => none) e = false) ∧
      (found = true ↔ ∃ e ∈ trackMarked.m_playlist, e.is_blank = false ∧
        ∃ c, Track.replaceAll_cut trackMarked "A" prodA
            (some clipB) (fun _ => none) e = some (some c) ∧
          Track.replaceAll_region trackMarked "A" prodA
            (some clipB) (fun _ => none) e = c) :=
  Track.replaceAll_marked_only trackMarked "A" prodA clipB
    (fun _ => none)
    (by simp [no_adjacent_blanks, trackMarked, clipMarked, clipB, Entry.is_blank])
    (by decide) (by decide) (by decide) (by intro s q h; cases h)

/-- C15 (the claim fails): on the track holding `clipA` and `clipB`, `changeClipSpeed` for the
clip at 4 seconds (frame 100, the colour clip `clipB`, whose service is neither
"avformat" nor "framebuffer") returns 0, which is neither -1 nor the length (10 frames) of
the region at that position after the call. -/
theorem Track.changeClipSpeed_returns_zero :
    (trackAB.changeClipSpeed ⟨4, 0, 2 / 5⟩ ⟨4, 0, 2 / 5⟩ 2 0 (some slowS) none "2").1 = 0 ∧
    clip_length
      (trackAB.changeClipSpeed ⟨4, 0, 2 / 5⟩ ⟨4, 0, 2 / 5⟩ 2 0 (some slowS) none "2").2.m_playlist
      (get_clip_index_at
        (trackAB.changeClipSpeed ⟨4, 0, 2 / 5⟩ ⟨4, 0, 2 / 5⟩ 2 0 (some slowS) none "2").2.m_playlist
        (GenTime.frames 4 25)) = 10 := by
  have h0 : GenTime.frames 4 25 = 100 := by norm_num [GenTime.frames]
  have hgc : get_clip [clipA, clipB] (get_clip_index_at [clipA, clipB] 100) = some clipB := by
    decide
  have hb : clipB.is_blank = false := by decide
  have hsv : QString.contains (clipB.get "mlt_service") "avformat" = false := by decide
  have hsf : ¬ (clipB.get "mlt_service" = "framebuffer") := by decide
  simp only [Track.changeClipSpeed, trackAB, h0, hgc, hb, hsv, hsf, if_false, Bool.false_eq_true]
  decide

/-- C15 (amended): `changeClipSpeed` returns -1, or it found a clip at `info.startPos` and,
when the service of that clip contains "avformat" or is "framebuffer", it returns the
length in frames of the region located at `info.startPos` after the call, and for a clip
of any other service it returns 0 and leaves the track as it was. -/
theorem Track.changeClipSpeed_result (tr : Track) (info speedIndependantInfo : ItemInfo)
    (speed : ℚ) (strobe : Int) (prod created : Option Entry) (speedText : String) :
    (tr.changeClipSpeed info speedIndependantInfo speed strobe prod created speedText).1 = -1 ∨
    ∃ original : Entry,
      get_clip tr.m_playlist
        (get_clip_index_at tr.m_playlist (GenTime.frames info.startPos tr.m_fps)) = some original ∧
      original.is_blank = false ∧
      if QString.contains (original.get "mlt_service") "avformat" = true ∨
          original.get "mlt_service" = "framebuffer" then
        (tr.changeClipSpeed info speedIndependantInfo speed strobe prod created speedText).1 =
          clip_length
            (tr.changeClipSpeed info speedIndependantInfo speed strobe prod created
              speedText).2.m_playlist
            (get_clip_index_at
              (tr.changeClipSpeed info speedIndependantInfo speed strobe prod created
                speedText).2.m_playlist
              (GenTime.frames info.startPos tr.m_fps))
      else
        (tr.changeClipSpeed info speedIndependantInfo speed strobe prod created speedText) =
          (0, tr) := by
  unfold Track.changeClipSpeed
  dsimp only
  cases hgc : get_clip tr.m_playlist
      (get_clip_index_at tr.m_playlist (GenTime.frames info.startPos tr.m_fps)) with
  | none => left; rfl
  | some original =>
    dsimp only
    by_cases hb : original.is_blank = true
    · left; rw [if_pos hb]
    · rw [if_neg hb]
      by_cases hav : QString.contains (original.get "mlt_service") "avformat" = true
      · rw [if_pos hav]
        by_cases hsp : (if speed ≤ 0 ∧ speed > -1 then (1 : ℚ) else speed) ≠ 1 ∨ strobe > 1
        · rw [if_pos hsp]
          cases hp : Track.slowmotionProducer prod created
              ("slowmotion:" ++ QString.section_first (original.get "id") '_' ++ ":" ++
                speedText ++ if strobe > 1 then ":" ++ QString.number strobe else "") with
          | none => left; rfl
          | some p =>
            right
            refine ⟨original, rfl, by simpa using hb, ?_⟩
            rw [if_pos (Or.inl hav)]
            rfl
        · rw [if_neg hsp]
          cases hp : Track.slowmotionProducer prod created
              ("slowmotion:" ++ QString.section_first (original.get "id") '_' ++ ":" ++
                speedText ++ if strobe > 1 then ":" ++ QString.number strobe else "") with
          | none => left; rfl
          | some p =>
            right
            refine ⟨original, rfl, by simpa using hb, ?_⟩
            rw [if_pos (Or.inl hav)]
            rfl
      · rw [if_neg hav]
        by_cases hfb : original.get "mlt_service" = "framebuffer"
        · rw [if_pos hfb]
          cases hp : Track.slowmotionProducer prod created
              ("slowmotion:" ++
                QString.section_second (QString.section_first (original.get "id") '_') ':' ++
                ":" ++ speedText ++ if strobe > 1 then ":" ++ QString.number strobe else "") with
          | none => left; rfl
          | some p =>
            right
            refine ⟨original, rfl, by simpa using hb, ?_⟩
            rw [if_pos (Or.inr hfb)]
            rfl
        · rw [if_neg hfb]
          right
          refine ⟨original, rfl, by simpa using hb, ?_⟩
          rw [if_neg (by simp [hav, hfb])]

/-- C16 (the code breaks the claim): on the track holding `clipA` (an "avformat" clip) and
`clipB`, `changeClipSpeed` at speed 1.0 without strobe, with no usable producer passed in
and the creation of a new one failing, returns -1 after it has already replaced `clipA`
by a blank: the region sequence is no longer the one before the call, and the playlist
stays locked. -/
theorem Track.changeClipSpeed_failure_drops_clip :
    (trackAB.changeClipSpeed ⟨0, 0, 4⟩ ⟨0, 0, 4⟩ 1 0 none none "1").1 = -1 ∧
    (trackAB.changeClipSpeed ⟨0, 0, 4⟩ ⟨0, 0, 4⟩ 1 0 none none "1").2.m_playlist =
      [Entry.blankCut 99, clipB] ∧
    (trackAB.changeClipSpeed ⟨0, 0, 4⟩ ⟨0, 0, 4⟩ 1 0 none none "1").2.m_playlist ≠
      trackAB.m_playlist ∧
    (trackAB.changeClipSpeed ⟨0, 0, 4⟩ ⟨0, 0, 4⟩ 1 0 none none "1").2.lockDepth =
      trackAB.lockDepth + 1 := by
  have h0 : GenTime.frames 0 25 = 0 := by norm_num [GenTime.frames]
  have hs : ¬ ((1 : ℚ) ≤ 0 ∧ (1 : ℚ) > -1) := by norm_num
  simp only [Track.changeClipSpeed, trackAB, h0, hs, if_false]
  decide

/-- C18 (the code breaks the claim): two successful calls at a speed above 0 on a clip that
is directly followed by `clipB`.  First, the one-frame "avformat" clip `clipF` with a crop
start of 2 frames, at speed 2: the method asks for the cut [1, 0], which the engine turns
into the two-frame cut [0, 1], so the re-inserted clip ends at frame 2 and `clipB` moves
from frame 1 to frame 2.  Second, a ten-frame "framebuffer" clip at speed 20: the new
duration is 0 frames, the method asks for the cut [0, -1], which the engine turns into the
whole producer (1000 frames), and `clipB` moves from frame 10 to frame 1000. -/
theorem Track.changeClipSpeed_overruns_next_clip :
    ((trackFB.changeClipSpeed ⟨0, 2 / 25, 1 / 25⟩ ⟨0, 2 / 25, 1 / 25⟩ 2 0 (some slowS) none
        "2").1 = 2 ∧
      (trackFB.changeClipSpeed ⟨0, 2 / 25, 1 / 25⟩ ⟨0, 2 / 25, 1 / 25⟩ 2 0 (some slowS) none
        "2").2.m_playlist = [{ slowS with frame_in := 0, frame_out := 1 }, clipB] ∧
      clip_start trackFB.m_playlist 1 = 1 ∧
      clip_start [{ slowS with frame_in := 0, frame_out := 1 }, clipB] 1 = 2) ∧
    ((trackSB.changeClipSpeed ⟨0, 0, 2 / 5⟩ ⟨0, 0, 2 / 5⟩ 20 0 (some slowS) none "20").1 = 1000 ∧
      (trackSB.changeClipSpeed ⟨0, 0, 2 / 5⟩ ⟨0, 0, 2 / 5⟩ 20 0 (some slowS) none
        "20").2.m_playlist = [slowS, clipB] ∧
      clip_start trackSB.m_playlist 1 = 10 ∧
      clip_start [slowS, clipB] 1 = 1000) := by
  have h0 : GenTime.frames 0 25 = 0 := by norm_num [GenTime.frames]
  have key1 :
      (trackFB.changeClipSpeed ⟨0, 2 / 25, 1 / 25⟩ ⟨0, 2 / 25, 1 / 25⟩ 2 0 (some slowS) none
        "2").1 = 2 ∧
      (trackFB.changeClipSpeed ⟨0, 2 / 25, 1 / 25⟩ ⟨0, 2 / 25, 1 / 25⟩ 2 0 (some slowS) none
        "2").2.m_playlist = [{ slowS with frame_in := 0, frame_out := 1 }, clipB] := by
    have h2 : GenTime.frames (2 / 25) 25 = 2 := by norm_num [GenTime.frames]
    have hs : ¬ ((2 : ℚ) ≤ 0 ∧ (2 : ℚ) > -1) := by norm_num
    have hcl : clip_length [clipF, clipB] (get_clip_index_at [clipF, clipB] 0) = 1 := by decide
    have hgc : get_clip [clipF, clipB] (get_clip_index_at [clipF, clipB] 0) = some clipF := by
      decide
    have hpl1 : Track.changeClipSpeed_clear [clipF, clipB] (get_clip_index_at [clipF, clipB] 0) =
        [Entry.blankCut 0, clipB] := by decide
    have hb : clipF.is_blank = false := by decide
    have hsv : QString.contains (clipF.get "mlt_service") "avformat" = true := by decide
    have hbe : clip_start [Entry.blankCut 0, clipB]
          (get_clip_index_at [Entry.blankCut 0, clipB] 0) +
        clip_length [Entry.blankCut 0, clipB]
          (get_clip_index_at [Entry.blankCut 0, clipB] 0) = 1 := by decide
    have hc : ¬ ((0 : ℚ) + (1 : ℚ) / 2 > (1 : ℚ)) := by norm_num
    have ht1 : Libm.trunc ((2 : ℚ) / 2) = 1 := by norm_num [Libm.trunc]
    have ht2 : Libm.trunc (((2 : ℚ) + 1) / 2 - 1) = 0 := by
      unfold Libm.trunc; rw [if_pos (by norm_num), Int.floor_eq_iff]; norm_num
    simp only [Track.changeClipSpeed, trackFB, h0, h2, hs, if_false, hcl, hgc, Track.lock, hpl1,
      Track.slowmotionProducer, hb, hsv, hbe, Int.cast_zero, Int.cast_one, Int.cast_ofNat, hc,
      and_false, ht1, ht2, if_true, ne_eq, OfNat.ofNat_ne_one, not_false_eq_true, true_or,
      Track.changeClipSpeed_place, Track.unlock, Track.withPlaylist]
    decide
  have key2 :
      (trackSB.changeClipSpeed ⟨0, 0, 2 / 5⟩ ⟨0, 0, 2 / 5⟩ 20 0 (some slowS) none "20").1 =
        1000 ∧
      (trackSB.changeClipSpeed ⟨0, 0, 2 / 5⟩ ⟨0, 0, 2 / 5⟩ 20 0 (some slowS) none
        "20").2.m_playlist = [slowS, clipB] := by
    have h10 : GenTime.frames (2 / 5) 25 = 10 := by norm_num [GenTime.frames]
    have hs : ¬ ((20 : ℚ) ≤ 0 ∧ (20 : ℚ) > -1) := by norm_num
    have hgc : get_clip [{ slowS with frame_out := 9 }, clipB]
        (get_clip_index_at [{ slowS with frame_out := 9 }, clipB] 0) =
          some { slowS with frame_out := 9 } := by decide
    have hpl1 : Track.changeClipSpeed_clear [{ slowS with frame_out := 9 }, clipB]
        (get_clip_index_at [{ slowS with frame_out := 9 }, clipB] 0) =
          [Entry.blankCut 9, clipB] := by decide
    have hb : Entry.is_blank { slowS with frame_out := 9 } = false := by decide
    have hsv : QString.contains (Entry.get { slowS with frame_out := 9 } "mlt_service")
        "avformat" = false := by decide
    have hsf : Entry.get { slowS with frame_out := 9 } "mlt_service" = "framebuffer" := by decide
    have hbe : clip_start [Entry.blankCut 9, clipB]
          (get_clip_index_at [Entry.blankCut 9, clipB] 0) +
        clip_length [Entry.blankCut 9, clipB]
          (get_clip_index_at [Entry.blankCut 9, clipB] 0) = 10 := by decide
    have ht1 : Libm.trunc ((10 : ℚ) / 20) = 0 := by
      unfold Libm.trunc; rw [if_pos (by norm_num), Int.floor_eq_iff]; norm_num
    have ht2 : Libm.trunc ((0 : ℚ) / 20) = 0 := by norm_num [Libm.trunc]
    simp only [Track.changeClipSpeed, trackSB, h0, h10, hs, if_false, hgc, Track.lock, hpl1,
      Track.slowmotionProducer, hb, hsv, hsf, hbe, Int.cast_zero, Int.cast_ofNat, ht1, ht2,
      if_true, Bool.false_eq_true, Track.changeClipSpeed_place, Track.unlock,
      Track.withPlaylist]
    decide
  exact ⟨⟨key1.1, key1.2, by decide, by decide⟩, ⟨key2.1, key2.2, by decide, by decide⟩⟩

namespace Mlt

theorem Entry.length_entry_frames (e : Entry) : e.frames.length = e.frame_count.toNat := by
  simp [Entry.frames]

theorem Entry.frames_blank {e : Entry} (hb : e.is_blank = true) :
    e.frames = List.replicate e.frame_count.toNat none := by
  have hp : e.parent = none := by
    unfold Entry.is_blank at hb
    cases h : e.parent with
    | none => rfl
    | some p => rw [h] at hb; cases hb
  unfold Entry.frames
  rw [hp]
  simp only [Option.map_none']
  rw [List.map_const', List.length_range]

/-- A region shows the frames of its first part followed by those of the rest. -/
theorem Entry.frames_cut_split (e : Entry) {q : Int} (h0 : 0 ≤ q) (h1 : q < e.frame_count - 1) :
    Entry.frames { e with frame_out := e.frame_in + q } ++
      Entry.frames { e with frame_in := e.frame_in + q + 1 } = e.frames := by
  unfold Entry.frame_count at h1
  unfold Entry.frames Entry.frame_count
  dsimp only
  have e1 : (e.frame_in + q - e.frame_in + 1).toNat = (q + 1).toNat := by congr 1; omega
  have e2 : (e.frame_out - e.frame_in + 1).toNat =
      (q + 1).toNat + (e.frame_out - (e.frame_in + q + 1) + 1).toNat := by omega
  rw [e1, e2, List.range_add, List.map_append, List.map_map]
  congr 1
  apply List.map_congr_left
  intro k _
  have e3 : e.frame_in + q + 1 + (k : Int) = e.frame_in + (((q + 1).toNat + k : Nat) : Int) := by
    push_cast
    rw [Int.toNat_of_nonneg (by omega)]
    omega
  simp only [Function.comp]
  rw [e3]

namespace Playlist

theorem frames_nil : frames [] = [] := rfl

theorem frames_cons (e : Entry) (pl : Playlist) : frames (e :: pl) = e.frames ++ frames pl := rfl

theorem frames_append (a b : Playlist) : frames (a ++ b) = frames a ++ frames b := by
  induction a with
  | nil => rfl
  | cons e a ih => simp [frames_cons, ih]

/-- The number of frames a playlist shows is its playtime. -/
theorem length_frames {pl : Playlist} (h : ∀ e ∈ pl, 0 ≤ e.frame_count) :
    ((frames pl).length : Int) = get_playtime pl := by
  induction pl with
  | nil => rfl
  | cons e rest ih =>
    have h1 := h e (List.mem_cons_self _ _)
    have h2 := ih (fun x hx => h x (List.mem_cons_of_mem _ hx))
    rw [frames_cons, List.length_append, get_playtime_cons, Entry.length_entry_frames]
    push_cast
    rw [h2, Int.toNat_of_nonneg h1]

/-- What `split` does to the region `x` at the index `pre.length`: nothing when the relative
position is not inside the region, else two regions that show the frames of `x`, the
first one up to the position. -/
theorem split_spec (pre : Playlist) {x : Entry} (post : Playlist) (hx : x.wf) (p : Int) :
    (¬ (0 ≤ (if p < 0 then x.frame_count + p - 1 else p) ∧
        (if p < 0 then x.frame_count + p - 1 else p) < x.frame_count - 1) ∧
      split (pre ++ x :: post) pre.length p = (true, pre ++ x :: post)) ∨
    (0 ≤ (if p < 0 then x.frame_count + p - 1 else p) ∧
      (if p < 0 then x.frame_count + p - 1 else p) < x.frame_count - 1 ∧
      ∃ x1 x2, split (pre ++ x :: post) pre.length p = (false, pre ++ x1 :: x2 :: post) ∧
        x1.frames ++ x2.frames = x.frames ∧
        x1.frame_count = (if p < 0 then x.frame_count + p - 1 else p) + 1 ∧
        x1.is_blank = x.is_blank ∧ x2.is_blank = x.is_blank) := by
  have hs : split (pre ++ x :: post) pre.length p =
      split_entry (pre ++ x :: post) pre.length x
        (if p < 0 then x.frame_count + p - 1 else p) := by
    unfold split count
    rw [if_neg (by simp)]
    have h : ((pre.length : Int)).toNat = pre.length := by omega
    rw [h, List.getElem?_append_right (le_refl _)]
    simp only [Nat.sub_self, List.getElem?_cons_zero]
  rw [hs]
  generalize (if p < 0 then x.frame_count + p - 1 else p) = q
  have key : ∀ (y z : Entry),
      insert (pre ++ y :: post) z ((pre.length : Int) + 1) = pre ++ y :: z :: post := by
    intro y z
    have h3 : ((pre.length : Int) + 1) = ((pre ++ [y]).length : Int) := by simp
    have h4 : pre ++ y :: post = (pre ++ [y]) ++ post := by simp
    rw [h3, h4, insert_at_length]
    simp
  have hx2 := hx
  unfold Entry.wf at hx2
  unfold split_entry
  dsimp only
  by_cases hq : 0 ≤ q ∧ q < x.frame_count - 1
  · right
    rw [if_pos hq]
    refine ⟨hq.1, hq.2, ?_⟩
    have hq2 := hq.2
    unfold Entry.frame_count at hq2
    by_cases hb : x.is_blank = false
    · rw [if_pos hb, resize_clip_at, Entry.resize_clip_exact hb hx2.1 (by omega) (by omega),
        Entry.cut_exact hb (by omega) (by omega) (by omega)]
      refine ⟨{ x with frame_out := x.frame_in + q }, { x with frame_in := x.frame_in + q + 1 },
        ?_, Entry.frames_cut_split x hq.1 hq.2, ?_, rfl, rfl⟩
      · rw [key]
      · show x.frame_in + q - x.frame_in + 1 = q + 1
        omega
    · rw [if_neg hb, resize_clip_at]
      have hb2 : x.is_blank = true := by simpa using hb
      have hin : x.frame_in = 0 := hx2.2.2.2 hb2
      have hfc1 : (x.resize x.frame_in (x.frame_in + q)).frame_count = q + 1 := by
        rw [hin, zero_add]
        exact frame_count_resize_blank hb2 hx hq.1
      have hfc2 : (Entry.blankCut (x.frame_out - q - 1)).frame_count = x.frame_out - q := by
        show x.frame_out - q - 1 - 0 + 1 = x.frame_out - q
        omega
      refine ⟨x.resize x.frame_in (x.frame_in + q), Entry.blankCut (x.frame_out - q - 1),
        ?_, ?_, hfc1, Entry.is_blank_resize _ _ _, by rw [hb2]; rfl⟩
      · rw [key]
      · rw [Entry.frames_blank (show (x.resize x.frame_in (x.frame_in + q)).is_blank = true by
            rw [Entry.is_blank_resize]; exact hb2),
          Entry.frames_blank (show (Entry.blankCut (x.frame_out - q - 1)).is_blank = true from rfl),
          Entry.frames_blank hb2, hfc1, hfc2, ← List.replicate_add]
        congr 1
        unfold Entry.frame_count
        omega
  · left
    rw [if_neg hq]
    exact ⟨hq, rfl⟩

/-- Splitting a region does not change what a well-formed playlist shows. -/
theorem frames_split {pl : Playlist} (hwf : wf pl) (c p : Int) :
    frames (split pl c p).2 = frames pl := by
  by_cases hc : c < 0 ∨ c ≥ count pl
  · unfold split; rw [if_pos hc]
  · obtain ⟨pre, x, post, hpl, hcl⟩ := exists_decomp (show 0 ≤ c by omega) (show c < count pl by omega)
    subst hpl
    rw [hcl]
    rcases split_spec pre post (hwf x (by simp)) p with ⟨_, h⟩ | ⟨_, _, x1, x2, h, hf, _⟩
    · rw [h]
    · rw [h]
      simp only [frames_append, frames_cons]
      rw [← hf]
      simp

/-- The region that holds a position inside the playlist. -/
theorem locate_spec : ∀ (pl : Playlist) (p : Int), (∀ e ∈ pl, 0 ≤ e.frame_count) → 0 ≤ p →
    p < get_playtime pl →
    ∃ pre x post, pl = pre ++ x :: post ∧ locate pl p = pre.length ∧
      get_playtime pre ≤ p ∧ p < get_playtime pre + x.frame_count := by
  intro pl
  induction pl with
  | nil => intro p _ h0 h1; simp [get_playtime] at h1; omega
  | cons e rest ih =>
    intro p h h0 h1
    by_cases hp : p < e.frame_count
    · refine ⟨[], e, rest, rfl, ?_, ?_, ?_⟩
      · unfold locate; rw [if_pos hp]; rfl
      · simpa [get_playtime] using h0
      · simpa [get_playtime] using hp
    · rw [get_playtime_cons] at h1
      obtain ⟨pre, x, post, hpl, hloc, h2, h3⟩ := ih (p - e.frame_count)
        (fun y hy => h y (List.mem_cons_of_mem _ hy)) (by omega) (by omega)
      refine ⟨e :: pre, x, post, by rw [hpl]; rfl, ?_, ?_, ?_⟩
      · unfold locate; rw [if_neg hp, hloc]; simp
      · rw [get_playtime_cons]; omega
      · rw [get_playtime_cons]; omega

theorem remove_loop_zero (fuel : Nat) (pl : Playlist) (i : Int) : remove_loop fuel pl i 0 = pl := by
  cases fuel with
  | zero => rfl
  | succ f => unfold remove_loop; simp

/-- The removal loop of `remove_region`, run at the start of `M` with enough iterations:
the first `n` frames of `M` go, whatever the region boundaries. -/
theorem remove_loop_spec : ∀ (M : Playlist) (fuel : Nat) (L : Playlist) (n : Int),
    wf (L ++ M) → 0 ≤ n → n ≤ get_playtime M → M.length + 1 ≤ fuel →
    ∃ R, remove_loop fuel (L ++ M) L.length n = L ++ R ∧
      frames R = (frames M).drop n.toNat := by
  intro M
  induction M with
  | nil =>
    intro fuel L n _ h0 h1 _
    have hn : n = 0 := by simp [get_playtime] at h1; omega
    subst hn
    exact ⟨[], remove_loop_zero _ _ _, rfl⟩
  | cons x M ih =>
    intro fuel L n hwf h0 h1 hfuel
    have hxw : x.wf := hwf x (by simp)
    have hxp := Entry.wf_frame_count_pos hxw
    by_cases hn : n = 0
    · subst hn
      exact ⟨x :: M, remove_loop_zero _ _ _, rfl⟩
    · cases fuel with
      | zero => simp at hfuel
      | succ f =>
        have hf : M.length + 1 ≤ f := by simpa using hfuel
        unfold remove_loop
        rw [if_pos (by omega)]
        dsimp only
        rw [clip_length_at]
        by_cases hlt : x.frame_count > n
        · rw [if_pos hlt]
          rcases split_spec L M hxw (n - 1) with ⟨hno, _⟩ | ⟨_, _, x1, x2, hs, hfr, hfc, _, _⟩
          · exfalso
            apply hno
            rw [if_neg (by omega)]
            constructor <;> omega
          · rw [if_neg (by omega)] at hfc
            rw [hs]
            dsimp only
            rw [clip_length_at, remove_at, hfc]
            have hz : n - (n - 1 + 1) = 0 := by omega
            rw [hz, remove_loop_zero]
            refine ⟨x2 :: M, rfl, ?_⟩
            rw [frames_cons, frames_cons, ← hfr, List.append_assoc]
            have hl : x1.frames.length = n.toNat := by
              rw [Entry.length_entry_frames, hfc]; congr 1; omega
            rw [← hl, List.drop_left]
        · rw [if_neg hlt, clip_length_at, remove_at]
          rw [get_playtime_cons] at h1
          have hwf2 : wf (L ++ M) := by
            intro e he
            apply hwf
            rcases List.mem_append.1 he with h2 | h2
            · simp [h2]
            · simp [h2]
          obtain ⟨R, hR, hfR⟩ := ih f L (n - x.frame_count) hwf2 (by omega) (by omega) (by omega)
          refine ⟨R, hR, ?_⟩
          rw [hfR, frames_cons]
          have hl : x.frames.length ≤ n.toNat := by
            rw [Entry.length_entry_frames]; omega
          rw [List.drop_append_eq_append_drop, List.drop_eq_nil_of_le hl, List.nil_append,
            Entry.length_entry_frames]
          congr 1
          omega

end Playlist

end Mlt

namespace Mlt.Playlist

theorem getLast?_drop_of_lt {α : Type} {l : List α} {k : Nat} (h : k < l.length) :
    (l.drop k).getLast? = l.getLast? := by
  have hne : l.drop k ≠ [] := by
    intro h0
    have := congrArg List.length h0
    simp at this
    omega
  conv_rhs => rw [← List.take_append_drop k l]
  rw [List.getLast?_append_of_ne_nil _ hne]

/-- Merging adjacent blanks does not change what a well-formed playlist shows. -/
theorem frames_mergeFrom (rest : Playlist) : ∀ left : Entry, left.wf → wf rest →
    frames (mergeFrom left rest) = left.frames ++ frames rest := by
  induction rest with
  | nil =>
    intro left _ _
    unfold mergeFrom
    rfl
  | cons right rest ih =>
    intro left hl hr
    have hrw : right.wf := hr right (List.mem_cons_self _ _)
    have hrest : wf rest := fun x hx => hr x (List.mem_cons_of_mem _ hx)
    unfold mergeFrom
    split_ifs with hb
    · rw [ih _ (wf_merged hl hrw) hrest, frames_cons, ← List.append_assoc]
      congr 1
      have h1 := Entry.wf_frame_count_pos hl
      have h2 := Entry.wf_frame_count_pos hrw
      rw [Entry.frames_blank (show (left.resize 0 (left.frame_count + right.frame_count - 1)).is_blank
          = true by rw [Entry.is_blank_resize]; exact hb.1),
        Entry.frames_blank hb.1, Entry.frames_blank hb.2, frame_count_merged hb.1 hl hrw,
        ← List.replicate_add]
      congr 1
      omega
    · rw [frames_cons, ih right hrw hrest]
      rfl

theorem frames_merge_blanks {pl : Playlist} (h : wf pl) : frames (merge_blanks pl) = frames pl := by
  cases pl with
  | nil => rfl
  | cons e rest =>
    exact frames_mergeFrom rest e (h e (List.mem_cons_self _ _))
      (fun x hx => h x (List.mem_cons_of_mem _ hx))

theorem consolidate_blanks_of_ntb {pl : Playlist} (ht : no_trailing_blank pl) :
    consolidate_blanks pl 0 = merge_blanks pl := by
  unfold consolidate_blanks
  have h1 := ntb_merge_blanks ht
  cases hl : (merge_blanks pl).getLast? with
  | none =>
    have h2 : merge_blanks pl = [] := List.getLast?_eq_none_iff.1 hl
    rw [h2]
    rfl
  | some x =>
    have hx : x.is_blank = false := h1 x hl
    have hb : ¬ (is_blank (merge_blanks pl) (count (merge_blanks pl) - 1) = true) := by
      unfold is_blank
      rw [get_clip_last, hl]
      simp [hx]
    rw [if_neg (fun h2 => hb h2.2)]

/-- Consolidation does not change what a well-formed playlist that ends in a clip shows. -/
theorem frames_consolidate_of_ntb {pl : Playlist} (h : wf pl) (ht : no_trailing_blank pl) :
    frames (consolidate_blanks pl 0) = frames pl := by
  rw [consolidate_blanks_of_ntb ht, frames_merge_blanks h]

theorem Entry.entry_frames_ne_nil {e : Entry} (h : e.wf) : e.frames ≠ [] := by
  intro h0
  have h1 := congrArg List.length h0
  rw [Entry.length_entry_frames] at h1
  have := Entry.wf_frame_count_pos h
  simp at h1
  omega

theorem Entry.mem_frames {e : Entry} {f : Frame} (h : f ∈ e.frames) :
    (f = none ↔ e.is_blank = true) := by
  unfold Entry.frames at h
  obtain ⟨k, _, hk⟩ := List.mem_map.1 h
  rw [← hk]
  unfold Entry.is_blank
  cases e.parent <;> simp

theorem frames_ne_nil {pl : Playlist} (h : wf pl) (hne : pl ≠ []) : frames pl ≠ [] := by
  cases pl with
  | nil => exact absurd rfl hne
  | cons e rest =>
    rw [frames_cons]
    intro h0
    exact Entry.entry_frames_ne_nil (h e (List.mem_cons_self _ _)) (List.append_eq_nil.1 h0).1

/-- A well-formed playlist ends in a clip exactly when the last frame it shows is not
empty. -/
theorem ntb_iff_frames : ∀ {pl : Playlist}, wf pl →
    (no_trailing_blank pl ↔ ∀ f ∈ (frames pl).getLast?, f ≠ none) := by
  intro pl
  induction pl with
  | nil => intro _; simp [no_trailing_blank, frames_nil]
  | cons e rest ih =>
    intro hwf
    have hew : e.wf := hwf e (List.mem_cons_self _ _)
    have hrw : wf rest := fun x hx => hwf x (List.mem_cons_of_mem _ hx)
    cases rest with
    | nil =>
      rw [frames_cons, frames_nil, List.append_nil]
      cases hl : e.frames.getLast? with
      | none => exact absurd (List.getLast?_eq_none_iff.1 hl) (Entry.entry_frames_ne_nil hew)
      | some f =>
        have hm := Entry.mem_frames (List.mem_of_getLast?_eq_some hl)
        unfold no_trailing_blank
        simp only [List.getLast?_singleton, Option.mem_def, Option.some.injEq, forall_eq']
        constructor
        · intro hb hf
          rw [hm.1 hf] at hb
          cases hb
        · intro hf
          cases hb : e.is_blank with
          | false => rfl
          | true => exact absurd (hm.2 hb) hf
    | cons r rest2 =>
      rw [ntb_cons_cons, frames_cons,
        List.getLast?_append_of_ne_nil _ (frames_ne_nil hrw (List.cons_ne_nil _ _))]
      exact ih hrw

theorem softBoundary_nil (p : Int) : softBoundary [] p := trivial

theorem softBoundary_cons (e : Entry) (rest : Playlist) (p : Int) :
    softBoundary (e :: rest) p ↔
      if p < e.frame_count then 0 < p → e.is_blank = true
      else softBoundary rest (p - e.frame_count) := by
  rfl

/-- The end of a well-formed prefix is a region boundary. -/
theorem softBoundary_append_at : ∀ (L R : Playlist), wf L → wf R →
    softBoundary (L ++ R) (get_playtime L) := by
  intro L
  induction L with
  | nil =>
    intro R _ hR
    cases R with
    | nil => trivial
    | cons e rest =>
      have := Entry.wf_frame_count_pos (hR e (List.mem_cons_self _ _))
      show softBoundary (e :: rest) (get_playtime [])
      rw [softBoundary_cons, get_playtime_nil, if_pos (by omega)]
      intro h; omega
  | cons e L ih =>
    intro R hL hR
    have hLw : wf L := fun x hx => hL x (List.mem_cons_of_mem _ hx)
    have h0 := get_playtime_nonneg (frame_count_nonneg_of_wf hLw)
    show softBoundary (e :: (L ++ R)) (get_playtime (e :: L))
    rw [softBoundary_cons, get_playtime_cons, if_neg (by omega)]
    have : e.frame_count + get_playtime L - e.frame_count = get_playtime L := by omega
    rw [this]
    exact ih R hLw hR

theorem softBoundary_mergeFrom (rest : Playlist) : ∀ (left : Entry) (p : Int), left.wf → wf rest →
    softBoundary (left :: rest) p → softBoundary (mergeFrom left rest) p := by
  induction rest with
  | nil =>
    intro left p _ _ h
    unfold mergeFrom
    exact h
  | cons right rest ih =>
    intro left p hl hr h
    have hrw : right.wf := hr right (List.mem_cons_self _ _)
    have hrest : wf rest := fun x hx => hr x (List.mem_cons_of_mem _ hx)
    have h1 := Entry.wf_frame_count_pos hl
    have h2 := Entry.wf_frame_count_pos hrw
    unfold mergeFrom
    split_ifs with hb
    · apply ih _ p (wf_merged hl hrw) hrest
      rw [softBoundary_cons, frame_count_merged hb.1 hl hrw]
      by_cases hp : p < left.frame_count + right.frame_count
      · rw [if_pos hp]
        intro _
        rw [Entry.is_blank_resize]
        exact hb.1
      · rw [if_neg hp]
        rw [softBoundary_cons, if_neg (by omega), softBoundary_cons, if_neg (by omega)] at h
        have e1 : p - left.frame_count - right.frame_count =
            p - (left.frame_count + right.frame_count) := by omega
        rw [← e1]
        exact h
    · rw [softBoundary_cons] at h ⊢
      by_cases hp : p < left.frame_count
      · rw [if_pos hp] at h ⊢
        exact h
      · rw [if_neg hp] at h ⊢
        exact ih right _ hrw hrest h

theorem softBoundary_merge_blanks {pl : Playlist} (hwf : wf pl) {p : Int}
    (h : softBoundary pl p) : softBoundary (merge_blanks pl) p := by
  cases pl with
  | nil => exact h
  | cons e rest =>
    exact softBoundary_mergeFrom rest e p (hwf e (List.mem_cons_self _ _))
      (fun x hx => hwf x (List.mem_cons_of_mem _ hx)) h

theorem softBoundary_consolidate_of_ntb {pl : Playlist} (hwf : wf pl)
    (ht : no_trailing_blank pl) {p : Int} (h : softBoundary pl p) :
    softBoundary (consolidate_blanks pl 0) p := by
  rw [consolidate_blanks_of_ntb ht]
  exact softBoundary_merge_blanks hwf h

/-- A run of empty frames put in front of the region that holds a position which is not
strictly inside a clip shows up at that position. -/
theorem frames_insert_soft (n : Nat) : ∀ (pl : Playlist) (p : Int),
    (∀ e ∈ pl, 0 ≤ e.frame_count) → 0 ≤ p → softBoundary pl p →
    frames (pl.take (locate pl p)) ++ List.replicate n (none : Frame) ++
        frames (pl.drop (locate pl p)) =
      (frames pl).take p.toNat ++ List.replicate n (none : Frame) ++ (frames pl).drop p.toNat := by
  intro pl
  induction pl with
  | nil => intro p _ _ _; simp [locate, frames_nil]
  | cons e rest ih =>
    intro p hnn h0 hsb
    have he := hnn e (List.mem_cons_self _ _)
    rw [softBoundary_cons] at hsb
    by_cases hp : p < e.frame_count
    · rw [if_pos hp] at hsb
      have hloc : locate (e :: rest) p = 0 := by unfold locate; rw [if_pos hp]
      rw [hloc]
      simp only [List.take_zero, List.drop_zero, frames_nil, List.nil_append]
      by_cases hz : p = 0
      · subst hz
        simp
      · have hb := hsb (by omega)
        rw [frames_cons, Entry.frames_blank hb]
        have hle : p.toNat ≤ e.frame_count.toNat := by omega
        rw [List.take_append_of_le_length (by simpa using hle),
          List.drop_append_of_le_length (by simpa using hle), List.take_replicate,
          List.drop_replicate, Nat.min_eq_left hle]
        simp only [← List.append_assoc, ← List.replicate_add]
        congr 2
        omega
    · rw [if_neg hp] at hsb
      have hloc : locate (e :: rest) p = locate rest (p - e.frame_count) + 1 := by
        rw [locate, if_neg hp]
      rw [hloc, List.take_succ_cons, List.drop_succ_cons, frames_cons, frames_cons,
        List.append_assoc, List.append_assoc,
        ← List.append_assoc (frames (List.take _ rest)),
        ih (p - e.frame_count) (fun x hx => hnn x (List.mem_cons_of_mem _ hx)) (by omega) hsb]
      have hl : e.frames.length ≤ p.toNat := by rw [Entry.length_entry_frames]; omega
      have hsub : p.toNat - e.frames.length = (p - e.frame_count).toNat := by
        rw [Entry.length_entry_frames]; omega
      rw [List.take_append_eq_append_take, List.take_of_length_le hl,
        List.drop_append_eq_append_drop, List.drop_eq_nil_of_le hl, hsub]
      simp

end Mlt.Playlist

namespace Mlt.Playlist

theorem take_frames_append {L M : Playlist} (hL : ∀ e ∈ L, 0 ≤ e.frame_count) :
    (frames (L ++ M)).take (get_playtime L).toNat = frames L ∧
    (frames (L ++ M)).drop (get_playtime L).toNat = frames M := by
  have hl : (frames L).length = (get_playtime L).toNat := by
    have := length_frames hL
    omega
  rw [frames_append]
  exact ⟨List.take_left' hl, List.drop_left' hl⟩

/-- The first step of `remove_region` makes the position a region boundary without changing
what the playlist shows. -/
theorem remove_region_head {pl : Playlist} (hwf : wf pl) {p : Int} (hp : 0 ≤ p)
    (hin : p < get_playtime pl) :
    get_clip_index_at pl p ≥ 0 ∧ get_clip_index_at pl p < count pl ∧
    ∃ L M : Playlist,
      (if clip_start pl (get_clip_index_at pl p) < p then
          (get_clip_index_at pl p + 1,
            (split pl (get_clip_index_at pl p)
              (p - clip_start pl (get_clip_index_at pl p) - 1)).2)
        else (get_clip_index_at pl p, pl)) = ((L.length : Int), L ++ M) ∧
      get_playtime L = p ∧ frames (L ++ M) = frames pl ∧ wf (L ++ M) := by
  obtain ⟨pre, x, post, hpl, hloc, h1, h2⟩ := locate_spec pl p (frame_count_nonneg_of_wf hwf) hp hin
  have hidx : get_clip_index_at pl p = (pre.length : Int) := by
    unfold get_clip_index_at; rw [hloc]
  subst hpl
  rw [hidx, clip_start_at]
  refine ⟨by omega, by unfold count; simp, ?_⟩
  have hxw : x.wf := hwf x (by simp)
  by_cases hlt : get_playtime pre < p
  · rw [if_pos hlt]
    rcases split_spec pre post hxw (p - get_playtime pre - 1) with
      ⟨hno, _⟩ | ⟨_, _, x1, x2, hs, hfr, hfc, _, _⟩
    · exfalso
      apply hno
      rw [if_neg (by omega)]
      constructor <;> omega
    · rw [if_neg (by omega)] at hfc
      have hwf2 := wf_split hwf (pre.length : Int) (p - get_playtime pre - 1)
      rw [hs] at hwf2 ⊢
      refine ⟨pre ++ [x1], x2 :: post, ?_, ?_, ?_, ?_⟩
      · simp
      · rw [get_playtime_append, get_playtime_cons, get_playtime_nil, hfc]; omega
      · simp only [frames_append, frames_cons, frames_nil, List.append_nil, List.append_assoc]
        rw [← hfr, List.append_assoc]
      · simpa using hwf2
  · rw [if_neg hlt]
    exact ⟨pre, x :: post, rfl, by omega, rfl, hwf⟩

/-- What `remove_region` does for a span that ends before the last frame of a well-formed
playlist whose last region is a clip: the frames of the span go, the other frames stay
in order, and the position no longer falls strictly inside a clip. -/
theorem remove_region_spec {pl : Playlist} (hwf : wf pl) (hntb : no_trailing_blank pl)
    {p n : Int} (hp : 0 ≤ p) (hn : 0 ≤ n) (hin : p + n < get_playtime pl) :
    (remove_region pl p n).1 = get_clip_index_at (remove_region pl p n).2 p ∧
    frames (remove_region pl p n).2 =
      (frames pl).take p.toNat ++ (frames pl).drop (p + n).toNat ∧
    softBoundary (remove_region pl p n).2 p ∧
    wf (remove_region pl p n).2 := by
  have hwfr := wf_remove_region hwf p n
  obtain ⟨hi0, hi1, L, M, hhead, hpL, hfr, hwfLM⟩ := remove_region_head hwf hp (by omega)
  have hLw : wf L := fun e he => hwfLM e (List.mem_append_left _ he)
  have hMw : wf M := fun e he => hwfLM e (List.mem_append_right _ he)
  have hLnn := frame_count_nonneg_of_wf hLw
  have hptM : get_playtime M = get_playtime pl - p := by
    have h1 := length_frames (frame_count_nonneg_of_wf hwfLM)
    have h2 := length_frames (frame_count_nonneg_of_wf hwf)
    rw [hfr, h2, get_playtime_append] at h1
    omega
  obtain ⟨R, hR, hfR⟩ := remove_loop_spec M ((L ++ M).length + 1) L n hwfLM hn (by omega)
    (by simp)
  have hwf2 : wf (L ++ R) := by
    rw [← hR]
    exact wf_remove_loop _ _ _ _ hwfLM
  have hRw : wf R := fun e he => hwf2 e (List.mem_append_right _ he)
  -- what is shown after the removal
  have hF : frames (L ++ R) = (frames pl).take p.toNat ++ (frames pl).drop (p + n).toNat := by
    have h3 := take_frames_append (M := M) hLnn
    rw [hpL, hfr] at h3
    rw [frames_append, hfR, ← h3.1, ← h3.2, List.drop_drop]
    congr 2
    omega
  have hlenF : ((frames pl).length : Int) = get_playtime pl :=
    length_frames (frame_count_nonneg_of_wf hwf)
  have hlast : (frames (L ++ R)).getLast? = (frames pl).getLast? := by
    rw [hF]
    have hlt : (p + n).toNat < (frames pl).length := by omega
    have hne : (frames pl).drop (p + n).toNat ≠ [] := by
      intro h0
      have := congrArg List.length h0
      simp at this
      omega
    rw [List.getLast?_append_of_ne_nil _ hne, getLast?_drop_of_lt hlt]
  have hntb2 : no_trailing_blank (L ++ R) := by
    rw [ntb_iff_frames hwf2, hlast]
    exact (ntb_iff_frames hwf).1 hntb
  have hsb : softBoundary (L ++ R) p := by
    rw [← hpL]
    exact softBoundary_append_at L R hLw hRw
  have hval : remove_region pl p n =
      (get_clip_index_at (consolidate_blanks (L ++ R) 0) p, consolidate_blanks (L ++ R) 0) := by
    unfold remove_region
    dsimp only
    rw [if_pos ⟨hi0, hi1⟩, if_neg (show ¬ (p + n > get_playtime pl) by omega), hhead]
    dsimp only
    rw [hR]
  rw [hval]
  refine ⟨rfl, ?_, softBoundary_consolidate_of_ntb hwf2 hntb2 hsb, ?_⟩
  · rw [frames_consolidate_of_ntb hwf2 hntb2, hF]
  · exact wf_consolidate_blanks hwf2 0

end Mlt.Playlist

/-- C11 (the claim fails): on the track holding `clipA` on frames [0, 100) and `clipB` on
frames [100, 110), `del(2, 1)` (frame 50, 25 frames) returns true and leaves a blank of 26
frames on frames [50, 76): frame 75, which lies outside [50, 75), no longer shows its clip
frame. -/
theorem Track.del_dt_blanks_one_more_frame :
    (trackAB.del_dt 2 1).1 = true ∧
    (trackAB.del_dt 2 1).2.m_playlist =
      [{ clipA with frame_out := 49 }, Entry.blankCut 25, { clipA with frame_in := 76 }, clipB] ∧
    (frames trackAB.m_playlist)[75]? ≠ (frames (trackAB.del_dt 2 1).2.m_playlist)[75]? := by
  have h2 : Track.frame_value 2 25 = 50 := by
    simpa using Track.frame_value_int 2 (by norm_num)
  have h1 : Track.frame_value 1 25 = 25 := by
    simpa using Track.frame_value_int 1 (by norm_num)
  have hpl : (trackAB.del_dt 2 1).2.m_playlist =
      [{ clipA with frame_out := 49 }, Entry.blankCut 25, { clipA with frame_in := 76 },
        clipB] := by
    simp only [Track.del_dt, Track.frame, Track.lock, Track.unlock, Track.withPlaylist, trackAB,
      h2, h1]
    decide
  refine ⟨rfl, hpl, ?_⟩
  rw [hpl]
  decide

/-- C11 (amended): on a well-formed track whose last region is a clip, for `frame(t) ≥ 0`,
`frame(dt) ≥ 0` and a span that ends before the last frame of the track, `del(t, dt)`
returns true and replaces exactly the `frame(dt) + 1` frames
[frame(t), frame(t) + frame(dt)] by blank: every frame before and after the span shows
what it showed before, at the same position, and the total playtime is unchanged. -/
theorem Track.del_dt_blanks_span (tr : Track) (t dt : ℚ)
    (hwf : wf tr.m_playlist) (hntb : no_trailing_blank tr.m_playlist)
    (hp : 0 ≤ tr.frame t) (hd : 0 ≤ tr.frame dt)
    (hin : tr.frame t + tr.frame dt + 1 < get_playtime tr.m_playlist) :
    (tr.del_dt t dt).1 = true ∧
    frames (tr.del_dt t dt).2.m_playlist =
      (frames tr.m_playlist).take (tr.frame t).toNat ++
        List.replicate (tr.frame dt + 1).toNat none ++
        (frames tr.m_playlist).drop (tr.frame t + tr.frame dt + 1).toNat ∧
    get_playtime (tr.del_dt t dt).2.m_playlist = get_playtime tr.m_playlist := by
  have hlenF : ((frames tr.m_playlist).length : Int) = get_playtime tr.m_playlist :=
    length_frames (frame_count_nonneg_of_wf hwf)
  obtain ⟨hidx, hF, hsb, hwf3⟩ := remove_region_spec hwf hntb hp (show 0 ≤ tr.frame dt + 1 by omega)
    (show tr.frame t + (tr.frame dt + 1) < get_playtime tr.m_playlist by omega)
  generalize hr : remove_region tr.m_playlist (tr.frame t) (tr.frame dt + 1) = r at hidx hF hsb hwf3
  have hpl : (tr.del_dt t dt).2.m_playlist =
      consolidate_blanks (insert_blank r.2 r.1 (tr.frame dt)) 0 := by
    unfold Track.del_dt
    dsimp only
    show consolidate_blanks (insert_blank
      (remove_region tr.m_playlist (tr.frame t) (tr.frame dt + 1)).2
      (remove_region tr.m_playlist (tr.frame t) (tr.frame dt + 1)).1 (tr.frame dt)) 0 = _
    rw [hr]
  have hwf4 : wf (insert_blank r.2 r.1 (tr.frame dt)) := wf_insert_blank hwf3 _ _
  -- what is shown once the blank is in
  have hF4 : frames (insert_blank r.2 r.1 (tr.frame dt)) =
      (frames tr.m_playlist).take (tr.frame t).toNat ++
        List.replicate (tr.frame dt + 1).toNat none ++
        (frames tr.m_playlist).drop (tr.frame t + tr.frame dt + 1).toNat := by
    rw [insert_blank_eq _ _ hd, insert_eq, hidx]
    unfold get_clip_index_at
    rw [clampIdx_natCast_le (locate_le_length _ _)]
    have hb : (Entry.blankCut (tr.frame dt)).frames =
        List.replicate (tr.frame dt + 1).toNat none := by
      rw [Entry.frames_blank (show (Entry.blankCut (tr.frame dt)).is_blank = true from rfl)]
      congr 1
      show (tr.frame dt - 0 + 1).toNat = _
      congr 1
      omega
    rw [frames_append, frames_cons, hb, ← List.append_assoc,
      frames_insert_soft _ r.2 (tr.frame t) (frame_count_nonneg_of_wf hwf3) hp hsb, hF]
    have hl : ((frames tr.m_playlist).take (tr.frame t).toNat).length = (tr.frame t).toNat := by
      rw [List.length_take]; omega
    have e1 : (tr.frame t + (tr.frame dt + 1)).toNat =
        (tr.frame t + tr.frame dt + 1).toNat := by congr 1; omega
    rw [e1]
    rw [List.take_left' hl, List.drop_left' hl]
  have hlast : (frames (insert_blank r.2 r.1 (tr.frame dt))).getLast? =
      (frames tr.m_playlist).getLast? := by
    rw [hF4]
    have hlt : (tr.frame t + tr.frame dt + 1).toNat < (frames tr.m_playlist).length := by omega
    have hne : (frames tr.m_playlist).drop (tr.frame t + tr.frame dt + 1).toNat ≠ [] := by
      intro h0
      have := congrArg List.length h0
      simp at this
      omega
    rw [List.getLast?_append_of_ne_nil _ hne, getLast?_drop_of_lt hlt]
  have hntb4 : no_trailing_blank (insert_blank r.2 r.1 (tr.frame dt)) := by
    rw [ntb_iff_frames hwf4, hlast]
    exact (ntb_iff_frames hwf).1 hntb
  have hF5 : frames (tr.del_dt t dt).2.m_playlist =
      (frames tr.m_playlist).take (tr.frame t).toNat ++
        List.replicate (tr.frame dt + 1).toNat none ++
        (frames tr.m_playlist).drop (tr.frame t + tr.frame dt + 1).toNat := by
    rw [hpl, frames_consolidate_of_ntb hwf4 hntb4, hF4]
  refine ⟨rfl, hF5, ?_⟩
  have hwf5 : wf (tr.del_dt t dt).2.m_playlist := by
    rw [hpl]; exact wf_consolidate_blanks hwf4 0
  have h5 := length_frames (frame_count_nonneg_of_wf hwf5)
  rw [hF5] at h5
  simp only [List.length_append, List.length_take, List.length_replicate, List.length_drop] at h5
  omega

theorem Track.del_dt_blanks_span_witness :
    (trackAB.del_dt 2 1).1 = true ∧
    frames (trackAB.del_dt 2 1).2.m_playlist =
      (frames trackAB.m_playlist).take (trackAB.frame 2).toNat ++
        List.replicate (trackAB.frame 1 + 1).toNat none ++
        (frames trackAB.m_playlist).drop (trackAB.frame 2 + trackAB.frame 1 + 1).toNat ∧
    get_playtime (trackAB.del_dt 2 1).2.m_playlist = get_playtime trackAB.m_playlist :=
  Track.del_dt_blanks_span trackAB 2 1 (by decide) (by decide)
    (by
      have h2 : trackAB.frame 2 = 50 := by
        simpa using Track.frame_int trackAB 2 rfl (by norm_num)
      rw [h2]
      decide)
    (by
      have h1 : trackAB.frame 1 = 25 := by
        simpa using Track.frame_int trackAB 1 rfl (by norm_num)
      rw [h1]
      decide)
    (by
      have h2 : trackAB.frame 2 = 50 := by
        simpa using Track.frame_int trackAB 2 rfl (by norm_num)
      have h1 : trackAB.frame 1 = 25 := by
        simpa using Track.frame_int trackAB 1 rfl (by norm_num)
      rw [h2, h1]
      decide)

namespace Mlt.Playlist

theorem mergeFrom_cons (left right : Entry) (rest : Playlist) :
    mergeFrom left (right :: rest) =
      if left.is_blank = true ∧ right.is_blank = true then
        mergeFrom (left.resize 0 (left.frame_count + right.frame_count - 1)) rest
      else left :: mergeFrom right rest := rfl

theorem mergeFrom_clip {n : Entry} (hn : n.is_blank = false) (rest : Playlist) :
    mergeFrom n rest = n :: merge_blanks rest := by
  cases rest with
  | nil => rfl
  | cons r rest =>
    rw [mergeFrom_cons, if_neg (by simp [hn])]
    rfl

/-- A blank absorbs the run of blanks that follows it. -/
theorem mergeFrom_blank_run (gap : Playlist) : ∀ (left : Entry) (N0 : Playlist),
    left.wf → left.is_blank = true → wf gap → (∀ g ∈ gap, g.is_blank = true) →
    (∀ n ∈ N0.head?, n.is_blank = false) →
    ∃ m, mergeFrom left (gap ++ N0) = m :: merge_blanks N0 ∧ m.is_blank = true ∧ m.wf ∧
      m.frame_count = left.frame_count + get_playtime gap := by
  induction gap with
  | nil =>
    intro left N0 hl hb _ _ hN
    refine ⟨left, ?_, hb, hl, by simp [get_playtime]⟩
    cases N0 with
    | nil => rfl
    | cons n rest =>
      have hn : n.is_blank = false := hN n (by simp)
      show mergeFrom left (n :: rest) = _
      rw [mergeFrom_cons, if_neg (by simp [hn])]
      rfl
  | cons g gap ih =>
    intro left N0 hl hb hg hgb hN
    have hgw : g.wf := hg g (List.mem_cons_self _ _)
    have hgapw : wf gap := fun x hx => hg x (List.mem_cons_of_mem _ hx)
    have hgb1 : g.is_blank = true := hgb g (List.mem_cons_self _ _)
    show ∃ m, mergeFrom left (g :: (gap ++ N0)) = _ ∧ _
    rw [mergeFrom_cons left g (gap ++ N0), if_pos ⟨hb, hgb1⟩]
    obtain ⟨m, h1, h2, h3, h4⟩ := ih (left.resize 0 (left.frame_count + g.frame_count - 1)) N0
      (wf_merged hl hgw) (by rw [Entry.is_blank_resize]; exact hb) hgapw
      (fun x hx => hgb x (List.mem_cons_of_mem _ hx)) hN
    refine ⟨m, h1, h2, h3, ?_⟩
    rw [h4, frame_count_merged hb hl hgw, get_playtime_cons]
    omega

/-- Merging up to a blank: the blank may absorb blanks in front of it. -/
theorem mergeFrom_to_blank (pre : Playlist) : ∀ (left B : Entry) (rest : Playlist),
    left.wf → wf pre → B.wf → B.is_blank = true →
    ∃ L B2, mergeFrom left (pre ++ B :: rest) = L ++ mergeFrom B2 rest ∧ B2.wf ∧
      B2.is_blank = true ∧ wf L ∧
      get_playtime L + B2.frame_count = left.frame_count + get_playtime pre + B.frame_count ∧
      B.frame_count ≤ B2.frame_count := by
  induction pre with
  | nil =>
    intro left B rest hl _ hB hBb
    show ∃ L B2, mergeFrom left (B :: rest) = _ ∧ _
    rw [mergeFrom_cons left B rest]
    by_cases hb : left.is_blank = true
    · rw [if_pos ⟨hb, hBb⟩]
      refine ⟨[], left.resize 0 (left.frame_count + B.frame_count - 1), rfl, wf_merged hl hB,
        by rw [Entry.is_blank_resize]; exact hb, fun _ h => absurd h (List.not_mem_nil _), ?_, ?_⟩
      · rw [frame_count_merged hb hl hB]; simp [get_playtime]
      · rw [frame_count_merged hb hl hB]
        have := Entry.wf_frame_count_pos hl
        omega
    · rw [if_neg (fun h => hb h.1)]
      refine ⟨[left], B, rfl, hB, hBb, ?_, ?_, le_refl _⟩
      · intro x hx
        rw [List.mem_singleton.1 hx]; exact hl
      · simp [get_playtime]
  | cons x pre ih =>
    intro left B rest hl hpre hB hBb
    have hxw : x.wf := hpre x (List.mem_cons_self _ _)
    have hprew : wf pre := fun y hy => hpre y (List.mem_cons_of_mem _ hy)
    show ∃ L B2, mergeFrom left (x :: (pre ++ B :: rest)) = _ ∧ _
    rw [mergeFrom_cons left x (pre ++ B :: rest)]
    by_cases hb : left.is_blank = true ∧ x.is_blank = true
    · rw [if_pos hb]
      obtain ⟨L, B2, h1, h2, h3, h4, h5, h6⟩ :=
        ih (left.resize 0 (left.frame_count + x.frame_count - 1)) B rest (wf_merged hl hxw)
          hprew hB hBb
      refine ⟨L, B2, h1, h2, h3, h4, ?_, h6⟩
      rw [h5, frame_count_merged hb.1 hl hxw, get_playtime_cons]
      omega
    · rw [if_neg hb]
      obtain ⟨L, B2, h1, h2, h3, h4, h5, h6⟩ := ih x B rest hxw hprew hB hBb
      refine ⟨left :: L, B2, by rw [h1]; rfl, h2, h3, ?_, ?_, h6⟩
      · intro y hy
        rcases List.mem_cons.1 hy with h | h
        · rw [h]; exact hl
        · exact h4 y h
      · rw [get_playtime_cons, get_playtime_cons]
        omega

/-- Merging around a blank region `B` that is followed by a run of blanks `gap`: one blank
covers `B`, the run and what it absorbs in front of it. -/
theorem merge_blanks_at_blank {pre gap N0 : Playlist} {B : Entry}
    (hwf : wf (pre ++ B :: (gap ++ N0))) (hB : B.is_blank = true)
    (hgap : ∀ g ∈ gap, g.is_blank = true) (hN : ∀ n ∈ N0.head?, n.is_blank = false) :
    ∃ L m, merge_blanks (pre ++ B :: (gap ++ N0)) = L ++ m :: merge_blanks N0 ∧ wf L ∧ m.wf ∧
      m.is_blank = true ∧ get_playtime L ≤ get_playtime pre ∧
      get_playtime L + m.frame_count = get_playtime pre + B.frame_count + get_playtime gap := by
  have hprew : wf pre := fun e he => hwf e (List.mem_append_left _ he)
  have hBw : B.wf := hwf B (by simp)
  have hgapw : wf gap := fun e he => hwf e (by simp [he])
  cases pre with
  | nil =>
    obtain ⟨m, h1, h2, h3, h4⟩ := mergeFrom_blank_run gap B N0 hBw hB hgapw hgap hN
    refine ⟨[], m, h1, fun _ h => absurd h (List.not_mem_nil _), h3, h2, le_refl _, ?_⟩
    rw [h4]; simp [get_playtime]
  | cons x pre =>
    have hxw : x.wf := hprew x (List.mem_cons_self _ _)
    have hprew2 : wf pre := fun y hy => hprew y (List.mem_cons_of_mem _ hy)
    obtain ⟨L, B2, h1, h2, h3, h4, h5, h6⟩ :=
      mergeFrom_to_blank pre x B (gap ++ N0) hxw hprew2 hBw hB
    obtain ⟨m, g1, g2, g3, g4⟩ := mergeFrom_blank_run gap B2 N0 h2 h3 hgapw hgap hN
    refine ⟨L, m, ?_, h4, g3, g2, ?_, ?_⟩
    · show mergeFrom x (pre ++ B :: (gap ++ N0)) = _
      rw [h1, g1]
    · rw [get_playtime_cons]; omega
    · rw [g4, get_playtime_cons]; omega

/-- Consolidation after a clip is replaced by the blank `B`, when only blanks follow: the
playlist ends before the place of the clip. -/
theorem consolidate_at_blank_end {pre gap : Playlist} {B : Entry}
    (hwf : wf (pre ++ B :: gap)) (hB : B.is_blank = true) (hgap : ∀ g ∈ gap, g.is_blank = true) :
    wf (consolidate_blanks (pre ++ B :: gap) 0) ∧
    get_playtime (consolidate_blanks (pre ++ B :: gap) 0) ≤ get_playtime pre := by
  refine ⟨wf_consolidate_blanks hwf 0, ?_⟩
  have hwf2 : wf (pre ++ B :: (gap ++ [])) := by simpa using hwf
  obtain ⟨L, m, h1, _, _, h4, h5, _⟩ := merge_blanks_at_blank hwf2 hB hgap (by simp)
  rw [List.append_nil] at h1
  unfold consolidate_blanks
  rw [h1]
  have hm : merge_blanks [] = [] := rfl
  rw [hm]
  have hlast : is_blank (L ++ [m]) (count (L ++ [m]) - 1) = true := by
    unfold is_blank
    rw [get_clip_last]
    simp [h4]
  rw [if_pos ⟨rfl, hlast⟩, remove_last]
  simpa using h5

/-- Consolidation after a clip is replaced by the blank `B`, when the clip `n` follows
after a run of blanks: one blank reaches from at or before the place of `B` to `n`. -/
theorem consolidate_at_blank_mid {pre gap rest : Playlist} {B n : Entry}
    (hwf : wf (pre ++ B :: (gap ++ n :: rest))) (hB : B.is_blank = true)
    (hgap : ∀ g ∈ gap, g.is_blank = true) (hn : n.is_blank = false) :
    ∃ L m N, consolidate_blanks (pre ++ B :: (gap ++ n :: rest)) 0 = L ++ m :: n :: N ∧
      wf L ∧ m.wf ∧ m.is_blank = true ∧ get_playtime L ≤ get_playtime pre ∧
      get_playtime L + m.frame_count = get_playtime pre + B.frame_count + get_playtime gap := by
  obtain ⟨L, m, h1, h2, h3, h4, h5, h6⟩ :=
    merge_blanks_at_blank hwf hB hgap (by simpa using hn)
  have hm : merge_blanks (n :: rest) = n :: merge_blanks rest := mergeFrom_clip hn rest
  rw [hm] at h1
  unfold consolidate_blanks
  rw [h1]
  split_ifs
  · rw [remove_last]
    cases hT : merge_blanks rest with
    | nil =>
      exfalso
      rename_i hc
      have hlast := hc.2
      unfold is_blank at hlast
      rw [get_clip_last, hT] at hlast
      simp [hn] at hlast
    | cons t T =>
      refine ⟨L, m, (t :: T).dropLast, ?_, h2, h3, h4, h5, h6⟩
      rw [List.dropLast_append_of_ne_nil _ (by simp)]
      simp
  · exact ⟨L, m, merge_blanks rest, rfl, h2, h3, h4, h5, h6⟩

/-- The first step of `insert_at` on a blank puts a region boundary at the position. -/
theorem insert_at_blank_head_pos {L : Playlist} {m : Entry} (N : Playlist) (hL : wf L)
    (hm : m.wf) {s : Int} (h1 : get_playtime L ≤ s) (h2 : s < get_playtime L + m.frame_count) :
    ∃ pre2 b2, insert_at_blank_head (L ++ m :: N) s L.length =
        ((pre2.length : Int), pre2 ++ b2 :: N) ∧
      get_playtime pre2 = s ∧ (∀ x ∈ pre2, 0 ≤ x.frame_count) := by
  unfold insert_at_blank_head
  rw [info_start_at]
  by_cases hs : s ≠ get_playtime L
  · rw [if_pos hs]
    rcases split_spec L N hm (s - get_playtime L - 1) with
      ⟨hno, _⟩ | ⟨_, _, x1, x2, hsp, _, hfc, _, _⟩
    · exfalso
      apply hno
      rw [if_neg (by omega)]
      constructor <;> omega
    · rw [if_neg (by omega)] at hfc
      rw [hsp, if_pos rfl]
      refine ⟨L ++ [x1], x2, by simp, ?_, ?_⟩
      · rw [get_playtime_append, get_playtime_cons, get_playtime_nil, hfc]; omega
      · intro x hx
        rcases List.mem_append.1 hx with h | h
        · exact frame_count_nonneg_of_wf hL x h
        · rw [List.mem_singleton.1 h, hfc]; omega
  · rw [if_neg hs]
    exact ⟨L, m, rfl, by omega, frame_count_nonneg_of_wf hL⟩

/-- On a blank, `insert_at` puts the cut exactly at the position. -/
theorem insert_at_in_blank {L : Playlist} {m : Entry} (N : Playlist) (hL : wf L) (hm : m.wf)
    (hb : m.is_blank = true) {s : Int} (h1 : get_playtime L ≤ s)
    (h2 : s < get_playtime L + m.frame_count) (e : Entry) (mode : Int) :
    ∃ l1 l2, (insert_at (L ++ m :: N) s e mode).2 = l1 ++ e :: l2 ∧ get_playtime l1 = s ∧
      (∀ x ∈ l1, 0 ≤ x.frame_count) := by
  have hidx : get_clip_index_at (L ++ m :: N) s = L.length :=
    get_clip_index_at_mid L m N (frame_count_nonneg_of_wf hL) h1 h2
  have h0 := get_playtime_nonneg (frame_count_nonneg_of_wf hL)
  unfold insert_at
  rw [if_neg (by omega), hidx, if_pos ⟨by unfold count; simp, by rw [is_blank_at]; exact hb⟩]
  unfold insert_at_blank
  dsimp only
  obtain ⟨pre2, b2, h, hp2, hnn⟩ := insert_at_blank_head_pos N hL hm h1 h2
  rw [h]
  dsimp only
  generalize (if (pre2.length : Int) = (L.length : Int) then
      clip_length (L ++ m :: N) L.length
    else clip_length (pre2 ++ b2 :: N) pre2.length) = fc
  by_cases hlt : e.frame_count < fc
  · rw [if_pos hlt]
    rcases split_cases pre2 b2 N (e.frame_count - 1) with hs | ⟨y1, y2, hs, _, _⟩
    · rw [hs]
      dsimp only
      rw [remove_at, insert_at_length]
      exact ⟨pre2, N, rfl, hp2, hnn⟩
    · rw [hs]
      dsimp only
      rw [remove_at, insert_at_length]
      exact ⟨pre2, y2 :: N, rfl, hp2, hnn⟩
  · rw [if_neg hlt, remove_at, insert_at_length]
    exact ⟨pre2, N, rfl, hp2, hnn⟩

/-- At or past the end, `insert_at` in mode 1 puts the cut exactly at the position. -/
theorem insert_at_past_end_pos {L : Playlist} (hL : wf L) {s : Int}
    (h1 : get_playtime L ≤ s) (e : Entry) :
    ∃ l1 l2, (insert_at L s e 1).2 = l1 ++ e :: l2 ∧ get_playtime l1 = s ∧
      (∀ x ∈ l1, 0 ≤ x.frame_count) := by
  have hnn := frame_count_nonneg_of_wf hL
  have h0 := get_playtime_nonneg hnn
  have hidx : get_clip_index_at L s = count L := by
    unfold get_clip_index_at count
    rw [locate_of_playtime_le hnn h1]
  unfold insert_at
  rw [if_neg (by omega), hidx, if_neg (by omega), if_neg (by omega)]
  unfold insert_at_end
  dsimp only
  rw [if_pos rfl]
  have hinfo : info_start L (count L) = 0 := by
    unfold info_start; rw [if_pos (Or.inr (le_refl _))]
  rw [hinfo]
  by_cases hs : s = 0
  · rw [if_pos hs, remove_of_count_le L (le_refl _)]
    exact ⟨L, [], rfl, by omega, hnn⟩
  · rw [if_neg hs]
    by_cases hk : 0 ≤ s - get_playtime L - 1
    · rw [blank_of_nonneg L hk]
      refine ⟨L ++ [Entry.blankCut (s - get_playtime L - 1)], [], by unfold append; simp, ?_, ?_⟩
      · rw [get_playtime_append, get_playtime_cons, get_playtime_nil]
        show get_playtime L + (s - get_playtime L - 1 - 0 + 1 + 0) = s
        omega
      · intro x hx
        rcases List.mem_append.1 hx with h | h
        · exact hnn x h
        · rw [List.mem_singleton.1 h]
          show 0 ≤ s - get_playtime L - 1 - 0 + 1
          omega
    · unfold blank
      rw [if_neg hk]
      exact ⟨L, [], rfl, by omega, hnn⟩

/-- The length of the region found at the position of a cut that starts there. -/
theorem clip_length_at_pos {l1 l2 : Playlist} {e : Entry} {s : Int}
    (hnn : ∀ x ∈ l1, 0 ≤ x.frame_count) (hs : get_playtime l1 = s) (he : 1 ≤ e.frame_count) :
    clip_length (l1 ++ e :: l2) (get_clip_index_at (l1 ++ e :: l2) s) = e.frame_count := by
  rw [get_clip_index_at_mid l1 e l2 hnn (by omega) (by omega), clip_length_at]

end Mlt.Playlist

theorem GenTime.frames_of_int {x fps : ℚ} {k : Int} (h : x * fps = (k : ℚ)) :
    GenTime.frames x fps = k := by
  unfold GenTime.frames
  rw [h, Int.floor_eq_iff]
  constructor <;> norm_num

theorem GenTime.frames_add_int {a fps : ℚ} {k : Int} (h : a * fps = (k : ℚ)) (b : ℚ) :
    GenTime.frames (a + b) fps = k + GenTime.frames b fps := by
  unfold GenTime.frames
  have e : (a + b) * fps + 1 / 2 = (k : ℚ) + (b * fps + 1 / 2) := by rw [add_mul, h]; ring
  rw [e, Int.floor_int_add]

theorem GenTime.frames_ofFrames_sub {a fps : ℚ} {k : Int} (hfps : fps ≠ 0)
    (h : a * fps = (k : ℚ)) (E : Int) :
    GenTime.frames (GenTime.ofFrames E fps - a) fps = E - k := by
  apply GenTime.frames_of_int
  unfold GenTime.ofFrames
  rw [sub_mul, h, div_mul_cancel₀ _ hfps]
  push_cast
  ring

theorem Libm.trunc_div_one (k : Int) : Libm.trunc ((k : ℚ) / 1) = k := by
  unfold Libm.trunc
  rw [div_one]
  split_ifs
  · exact Int.floor_intCast k
  · exact Int.ceil_intCast k

namespace Track

/-- At speed 1.0 without strobe, on an "avformat" or "framebuffer" clip that starts at
`info.startPos`, a whole number of frames, with a usable producer: `changeClipSpeed` clears
the clip and places a cut of `cropDuration` frames, or of the frames up to the end of the
blank when the blank is followed by a region and is too short. -/
theorem changeClipSpeed_unit (tr : Track) (pre post : Playlist) (c : Entry)
    (info speedIndependantInfo : ItemInfo) (strobe : Int) (prod created : Option Entry)
    (speedText : String)
    (hpl : tr.m_playlist = pre ++ c :: post) (hwf : wf tr.m_playlist)
    (hc : c.is_blank = false)
    (hserv : QString.contains (c.get "mlt_service") "avformat" = true ∨
      c.get "mlt_service" = "framebuffer")
    (hfps : 0 < tr.m_fps)
    (hstart : info.startPos * tr.m_fps = (get_playtime pre : ℚ))
    (hstrobe : strobe < 2)
    (hP : ∀ producerid : String, ∃ P : Entry,
      slowmotionProducer prod created producerid = some P ∧ P.is_blank = false ∧
      GenTime.frames speedIndependantInfo.cropStart tr.m_fps +
        GenTime.frames speedIndependantInfo.cropDuration tr.m_fps ≤ P.length) :
    ∃ P : Entry, P.is_blank = false ∧
      GenTime.frames speedIndependantInfo.cropStart tr.m_fps +
        GenTime.frames speedIndependantInfo.cropDuration tr.m_fps ≤ P.length ∧
      tr.changeClipSpeed info speedIndependantInfo 1 strobe prod created speedText =
        changeClipSpeed_place tr.lock (changeClipSpeed_clear tr.m_playlist pre.length)
          (get_playtime pre)
          (if get_clip_index_at (changeClipSpeed_clear tr.m_playlist pre.length)
                (get_playtime pre) + 1 < count (changeClipSpeed_clear tr.m_playlist pre.length) ∧
              get_playtime pre + GenTime.frames speedIndependantInfo.cropDuration tr.m_fps >
                clip_start (changeClipSpeed_clear tr.m_playlist pre.length)
                    (get_clip_index_at (changeClipSpeed_clear tr.m_playlist pre.length)
                      (get_playtime pre)) +
                  clip_length (changeClipSpeed_clear tr.m_playlist pre.length)
                    (get_clip_index_at (changeClipSpeed_clear tr.m_playlist pre.length)
                      (get_playtime pre)) then
            P.cut (GenTime.frames speedIndependantInfo.cropStart tr.m_fps)
              (GenTime.frames speedIndependantInfo.cropStart tr.m_fps +
                (clip_start (changeClipSpeed_clear tr.m_playlist pre.length)
                    (get_clip_index_at (changeClipSpeed_clear tr.m_playlist pre.length)
                      (get_playtime pre)) +
                  clip_length (changeClipSpeed_clear tr.m_playlist pre.length)
                    (get_clip_index_at (changeClipSpeed_clear tr.m_playlist pre.length)
                      (get_playtime pre)) - get_playtime pre) - 1)
          else
            P.cut (GenTime.frames speedIndependantInfo.cropStart tr.m_fps)
              (GenTime.frames speedIndependantInfo.cropStart tr.m_fps +
                GenTime.frames speedIndependantInfo.cropDuration tr.m_fps - 1)) := by
  have hcw : c.wf := hwf c (by rw [hpl]; simp)
  have hprew : wf pre := fun e he => hwf e (by rw [hpl]; simp [he])
  have hs : GenTime.frames info.startPos tr.m_fps = get_playtime pre :=
    GenTime.frames_of_int hstart
  have hidx : get_clip_index_at tr.m_playlist (get_playtime pre) = pre.length := by
    rw [hpl]
    exact get_clip_index_at_mid pre c post (frame_count_nonneg_of_wf hprew) (le_refl _)
      (by have := Entry.wf_frame_count_pos hcw; omega)
  have hgc : get_clip tr.m_playlist pre.length = some c := by
    rw [hpl]; exact get_clip_at pre c post
  have hsp : (if (1 : ℚ) ≤ 0 ∧ (1 : ℚ) > -1 then (1 : ℚ) else 1) = 1 := by simp
  have hne : ¬ ((1 : ℚ) ≠ 1 ∨ strobe > 1) := by
    intro h
    rcases h with h | h
    · exact h rfl
    · omega
  have hfps0 : tr.m_fps ≠ 0 := ne_of_gt hfps
  unfold changeClipSpeed
  dsimp only
  rw [hs, hidx, hgc]
  dsimp only
  rw [if_neg (by simp [hc]), hsp]
  by_cases hav : QString.contains (c.get "mlt_service") "avformat" = true
  · rw [if_pos hav, if_neg hne]
    obtain ⟨P, hP1, hP2, hP3⟩ := hP ("slowmotion:" ++ QString.section_first (c.get "id") '_' ++
      ":" ++ speedText ++ if strobe > 1 then ":" ++ QString.number strobe else "")
    rw [hP1]
    dsimp only
    refine ⟨P, hP2, hP3, ?_⟩
    rw [GenTime.frames_add_int hstart, GenTime.frames_ofFrames_sub hfps0 hstart]
    rfl
  · rcases hserv with h | h
    · exact absurd h hav
    · rw [if_neg hav, if_pos h]
      obtain ⟨P, hP1, hP2, hP3⟩ := hP ("slowmotion:" ++
        QString.section_second (QString.section_first (c.get "id") '_') ':' ++
        ":" ++ speedText ++ if strobe > 1 then ":" ++ QString.number strobe else "")
      rw [hP1]
      dsimp only
      refine ⟨P, hP2, hP3, ?_⟩
      rw [GenTime.frames_ofFrames_sub hfps0 hstart, Libm.trunc_div_one, Libm.trunc_div_one]
      rfl

end Track

namespace Track

/-- What `changeClipSpeed_place` returns when the cut lands exactly on the position. -/
theorem changeClipSpeed_place_fst (tr : Track) (pl : Playlist) (s : Int) (cut : Entry)
    (h : ∃ l1 l2, (insert_at pl s cut 1).2 = l1 ++ cut :: l2 ∧ get_playtime l1 = s ∧
      (∀ x ∈ l1, 0 ≤ x.frame_count)) (hfc : 1 ≤ cut.frame_count) :
    (changeClipSpeed_place tr pl s cut).1 = cut.frame_count := by
  obtain ⟨l1, l2, h1, h2, h3⟩ := h
  unfold changeClipSpeed_place
  dsimp only
  rw [h1]
  exact clip_length_at_pos h3 h2 hfc

theorem frame_count_cut_exact {P : Entry} (hb : P.is_blank = false) {i k : Int} (hi : 0 ≤ i)
    (hk : 1 ≤ k) (hl : i + k ≤ P.length) : (P.cut i (i + k - 1)).frame_count = k := by
  rw [Entry.cut_exact hb hi (by omega) (by omega)]
  show i + k - 1 - i + 1 = k
  omega

end Track

/-- C17 (the claim fails): three calls at speed 1.0 without strobe on the "avformat" clip
`clipA`.  With a producer of only 50 frames and a crop duration of 100 frames, with no
clip in the way, the returned length is 50.  With a start time and a crop duration that
are not whole numbers of frames (0.6 and 9.6 frames, rounded to frame 1 and to 10 frames)
on a clip of 9 frames directly followed by `clipB`, the returned length is 10, more than
the 9 frames available.  With no usable producer and the creation of one failing, the
call returns -1. -/
theorem Track.changeClipSpeed_unit_speed_other_lengths :
    ((trackAB.changeClipSpeed ⟨0, 0, 4⟩ ⟨0, 0, 4⟩ 1 0
        (some { slowS with frame_out := 49, length := 50 }) none "1").1 = 50 ∧
      GenTime.frames 4 25 = 100) ∧
    ((Track.changeClipSpeed
        { trackAB with m_playlist := [Entry.blankCut 0, { clipA with frame_out := 8 }, clipB] }
        ⟨3 / 125, 0, 48 / 125⟩ ⟨3 / 125, 0, 48 / 125⟩ 1 0 (some slowS) none "1").1 = 10 ∧
      GenTime.frames (3 / 125) 25 = 1 ∧ GenTime.frames (48 / 125) 25 = 10 ∧
      clip_start [Entry.blankCut 0, { clipA with frame_out := 8 }, clipB] 2 = 10) ∧
    (trackAB.changeClipSpeed ⟨0, 0, 4⟩ ⟨0, 0, 4⟩ 1 0 none none "1").1 = -1 := by
  have h0 : GenTime.frames 0 25 = 0 := by norm_num [GenTime.frames]
  have h4 : GenTime.frames 4 25 = 100 := by norm_num [GenTime.frames]
  have h04 : GenTime.frames (0 + 4) 25 = 100 := by norm_num [GenTime.frames]
  have hs : ¬ ((1 : ℚ) ≤ 0 ∧ (1 : ℚ) > -1) := by norm_num
  have ha : GenTime.frames (3 / 125) 25 = 1 := by
    unfold GenTime.frames; rw [Int.floor_eq_iff]; norm_num
  have hb : GenTime.frames (48 / 125) 25 = 10 := by
    unfold GenTime.frames; rw [Int.floor_eq_iff]; norm_num
  have hab : GenTime.frames (3 / 125 + 48 / 125) 25 = 10 := by
    unfold GenTime.frames; rw [Int.floor_eq_iff]; norm_num
  refine ⟨⟨?_, h4⟩, ⟨?_, ha, hb, by decide⟩, ?_⟩
  · simp only [Track.changeClipSpeed, trackAB, h0, h4, h04, hs, if_false]
    decide
  · simp only [Track.changeClipSpeed, trackAB, h0, ha, hb, hab, hs, if_false]
    decide
  · simp only [Track.changeClipSpeed, trackAB, h0, hs, if_false]
    decide

/-- C17 (amended): for an "avformat" or "framebuffer" clip `c` that starts at
`info.startPos`, a whole number of frames, `changeClipSpeed` with speed 1.0 and strobe < 2,
given a usable producer (passed in or created) that is not blank and holds the crop
[cropStart, cropStart + cropDuration) of `speedIndependantInfo`, which has at least one
frame, returns `cropDuration` in frames when only blanks follow the clip, and when a next
clip follows (after blanks or directly) it returns the smaller of `cropDuration` in frames
and the number of frames between the clip's start and that next clip. -/
theorem Track.changeClipSpeed_unit_speed_length (tr : Track) (pre post : Playlist) (c : Entry)
    (info speedIndependantInfo : ItemInfo) (strobe : Int) (prod created : Option Entry)
    (speedText : String)
    (hpl : tr.m_playlist = pre ++ c :: post) (hwf : wf tr.m_playlist)
    (hc : c.is_blank = false)
    (hserv : QString.contains (c.get "mlt_service") "avformat" = true ∨
      c.get "mlt_service" = "framebuffer")
    (hfps : 0 < tr.m_fps)
    (hstart : info.startPos * tr.m_fps = (get_playtime pre : ℚ))
    (hstrobe : strobe < 2)
    (hP : ∀ producerid : String, ∃ P : Entry,
      Track.slowmotionProducer prod created producerid = some P ∧ P.is_blank = false ∧
      GenTime.frames speedIndependantInfo.cropStart tr.m_fps +
        GenTime.frames speedIndependantInfo.cropDuration tr.m_fps ≤ P.length)
    (hcs : 0 ≤ GenTime.frames speedIndependantInfo.cropStart tr.m_fps)
    (hdur : 1 ≤ GenTime.frames speedIndependantInfo.cropDuration tr.m_fps) :
    ((∀ e ∈ post, e.is_blank = true) →
      (tr.changeClipSpeed info speedIndependantInfo 1 strobe prod created speedText).1 =
        GenTime.frames speedIndependantInfo.cropDuration tr.m_fps) ∧
    (∀ (gap : Playlist) (n : Entry) (rest : Playlist), post = gap ++ n :: rest →
      (∀ g ∈ gap, g.is_blank = true) → n.is_blank = false →
      (tr.changeClipSpeed info speedIndependantInfo 1 strobe prod created speedText).1 =
        min (GenTime.frames speedIndependantInfo.cropDuration tr.m_fps)
          (c.frame_count + get_playtime gap)) := by
  obtain ⟨P, hPb, hPl, hval⟩ := Track.changeClipSpeed_unit tr pre post c info
    speedIndependantInfo strobe prod created speedText hpl hwf hc hserv hfps hstart hstrobe hP
  rw [hval]
  have hcw : c.wf := hwf c (by rw [hpl]; simp)
  have hcw2 := hcw
  unfold Entry.wf at hcw2
  have hcfc := Entry.wf_frame_count_pos hcw
  have hprew : wf pre := fun e he => hwf e (by rw [hpl]; simp [he])
  have hpostw : wf post := fun e he => hwf e (by rw [hpl]; simp [he])
  have hp0 := get_playtime_nonneg (frame_count_nonneg_of_wf hprew)
  have hBw : (Entry.blankCut (c.frame_out - c.frame_in)).wf := Entry.wf_blankCut (by omega)
  have hBfc : (Entry.blankCut (c.frame_out - c.frame_in)).frame_count = c.frame_count := by
    show c.frame_out - c.frame_in - 0 + 1 = c.frame_out - c.frame_in + 1
    omega
  have hclear : Track.changeClipSpeed_clear tr.m_playlist pre.length =
      consolidate_blanks (pre ++ Entry.blankCut (c.frame_out - c.frame_in) :: post) 0 := by
    unfold Track.changeClipSpeed_clear
    rw [hpl, replace_with_blank_at pre post hc hcw2.2.1]
  have hwfB : wf (pre ++ Entry.blankCut (c.frame_out - c.frame_in) :: post) := by
    intro e he
    rcases List.mem_append.1 he with h | h
    · exact hprew e h
    · rcases List.mem_cons.1 h with h2 | h2
      · rw [h2]; exact hBw
      · exact hpostw e h2
  rw [hclear]
  generalize GenTime.frames speedIndependantInfo.cropStart tr.m_fps = cs at *
  generalize GenTime.frames speedIndependantInfo.cropDuration tr.m_fps = dur at *
  constructor
  · intro hall
    obtain ⟨hw1, hpt1⟩ := consolidate_at_blank_end hwfB rfl hall
    generalize consolidate_blanks (pre ++ Entry.blankCut (c.frame_out - c.frame_in) :: post) 0
      = pl1 at hw1 hpt1
    have hidx : get_clip_index_at pl1 (get_playtime pre) = count pl1 := by
      unfold get_clip_index_at count
      rw [locate_of_playtime_le (frame_count_nonneg_of_wf hw1) hpt1]
    rw [hidx, if_neg (by intro h; have := h.1; omega)]
    rw [Track.changeClipSpeed_place_fst _ _ _ _ (insert_at_past_end_pos hw1 hpt1 _)
      (by rw [Track.frame_count_cut_exact hPb hcs hdur hPl]; exact hdur)]
    exact Track.frame_count_cut_exact hPb hcs hdur hPl
  · intro gap n rest hpost hgap hn
    subst hpost
    have hgapw : wf gap := fun e he => hpostw e (by simp [he])
    have hg0 := get_playtime_nonneg (frame_count_nonneg_of_wf hgapw)
    obtain ⟨L, m, N, hshape, hLw, hmw, hmb, hL1, hL2⟩ := consolidate_at_blank_mid hwfB rfl hgap hn
    rw [hshape]
    rw [hBfc] at hL2
    have h1 : get_playtime L ≤ get_playtime pre := hL1
    have h2 : get_playtime pre < get_playtime L + m.frame_count := by omega
    have hidx : get_clip_index_at (L ++ m :: n :: N) (get_playtime pre) = L.length :=
      get_clip_index_at_mid L m (n :: N) (frame_count_nonneg_of_wf hLw) h1 h2
    rw [hidx, clip_start_at, clip_length_at]
    have hcnt : (L.length : Int) + 1 < count (L ++ m :: n :: N) := by
      unfold count
      simp only [List.length_append, List.length_cons]
      push_cast
      omega
    by_cases hlong : get_playtime pre + dur > get_playtime L + m.frame_count
    · rw [if_pos ⟨hcnt, hlong⟩]
      have hk : 1 ≤ get_playtime L + m.frame_count - get_playtime pre := by omega
      have hfc : (P.cut cs (cs + (get_playtime L + m.frame_count - get_playtime pre) - 1)).frame_count
          = get_playtime L + m.frame_count - get_playtime pre :=
        Track.frame_count_cut_exact hPb hcs hk (by omega)
      rw [Track.changeClipSpeed_place_fst _ _ _ _ (insert_at_in_blank (n :: N) hLw hmw hmb h1 h2 _ 1)
        (by rw [hfc]; exact hk), hfc]
      omega
    · rw [if_neg (fun h => hlong h.2)]
      have hfc : (P.cut cs (cs + dur - 1)).frame_count = dur :=
        Track.frame_count_cut_exact hPb hcs hdur hPl
      rw [Track.changeClipSpeed_place_fst _ _ _ _ (insert_at_in_blank (n :: N) hLw hmw hmb h1 h2 _ 1)
        (by rw [hfc]; exact hdur), hfc]
      omega

theorem Track.changeClipSpeed_unit_speed_length_witness :
    ((∀ e ∈ [clipB], e.is_blank = true) →
      (trackAB.changeClipSpeed ⟨0, 0, 4⟩ ⟨0, 0, 2⟩ 1 0 (some slowS) none "1").1 =
        GenTime.frames (2 : ℚ) trackAB.m_fps) ∧
    (∀ (gap : Playlist) (n : Entry) (rest : Playlist), [clipB] = gap ++ n :: rest →
      (∀ g ∈ gap, g.is_blank = true) → n.is_blank = false →
      (trackAB.changeClipSpeed ⟨0, 0, 4⟩ ⟨0, 0, 2⟩ 1 0 (some slowS) none "1").1 =
        min (GenTime.frames (2 : ℚ) trackAB.m_fps) (clipA.frame_count + get_playtime gap)) :=
  Track.changeClipSpeed_unit_speed_length trackAB [] [clipB] clipA ⟨0, 0, 4⟩ ⟨0, 0, 2⟩ 0
    (some slowS) none "1" rfl (by decide) (by decide) (Or.inl (by decide))
    (by norm_num [trackAB]) (by simp [get_playtime])
    (by decide)
    (fun _ => ⟨slowS, rfl, by decide, by norm_num [GenTime.frames, trackAB, slowS]⟩)
    (by norm_num [GenTime.frames, trackAB]) (by norm_num [GenTime.frames, trackAB])

/-- The loop of `hasAudio` from the index of the first region of `post` on: it finds a clip
with one of the three marks exactly when `post` has one. -/
theorem Track.hasAudio_loop_spec : ∀ (post pre : Playlist) (fuel : Nat), post.length ≤ fuel →
    (Track.hasAudio_loop (pre ++ post) fuel pre.length = true ↔
      ∃ e ∈ post, e.is_blank = false ∧
        (e.region_get "mlt_service" = "xml" ∨ e.region_get "mlt_service" = "consumer" ∨
          e.region_get_int "audio_index" > -1)) := by
  intro post
  induction post with
  | nil =>
    intro pre fuel _
    cases fuel with
    | zero => simp [Track.hasAudio_loop]
    | succ f =>
      rw [Track.hasAudio_loop, if_neg (by unfold count; simp)]
      simp
  | cons c rest ih =>
    intro pre fuel hf
    cases fuel with
    | zero => simp at hf
    | succ f =>
      have hstep : ((pre.length : Int) + 1) = ((pre ++ [c]).length : Int) := by simp
      have hpl : pre ++ c :: rest = (pre ++ [c]) ++ rest := by simp
      have hrec := ih (pre ++ [c]) f (by simpa using hf)
      rw [← hpl, ← hstep] at hrec
      rw [Track.hasAudio_loop, if_pos (by unfold count; simp), is_blank_at, get_clip_at]
      by_cases hb : c.is_blank = true
      · rw [if_pos hb, hrec]
        constructor
        · rintro ⟨e, he, h⟩
          exact ⟨e, List.mem_cons_of_mem _ he, h⟩
        · rintro ⟨e, he, h⟩
          rcases List.mem_cons.1 he with h1 | h1
          · rw [h1, hb] at h; exact absurd h.1 (by simp)
          · exact ⟨e, h1, h⟩
      · rw [if_neg hb]
        dsimp only
        by_cases hm : c.region_get "mlt_service" = "xml" ∨ c.region_get "mlt_service" = "consumer" ∨
            c.region_get_int "audio_index" > -1
        · rw [if_pos hm]
          simp only [true_iff]
          exact ⟨c, List.mem_cons_self _ _, by simpa using hb, hm⟩
        · rw [if_neg hm, hrec]
          constructor
          · rintro ⟨e, he, h⟩
            exact ⟨e, List.mem_cons_of_mem _ he, h⟩
          · rintro ⟨e, he, h⟩
            rcases List.mem_cons.1 he with h1 | h1
            · rw [h1] at h; exact absurd h.2 hm
            · exact ⟨e, h1, h⟩

/-- C21: on a well-formed playlist and for a frame position `pos ≥ 0`,
`getBlankLength(pos, fromBlankStart)` returns -1 exactly when `pos` is at or past the end
of the playlist; when `pos` lies in the region `c` that starts at frame `s` (the playtime
of the regions before it) and has `L` frames, the result is 0 if `c` is a clip, and if
`c` is a blank it is `L` with `fromBlankStart` and `s + L - pos` without it, in both cases
a value between 1 and `L`. -/
theorem Track.getBlankLength_spec (tr : Track) (pos : Int) (fromBlankStart : Bool)
    (hwf : wf tr.m_playlist) (hpos : 0 ≤ pos) :
    (tr.getBlankLength pos fromBlankStart = -1 ↔ get_playtime tr.m_playlist ≤ pos) ∧
    (∀ (pre post : Playlist) (c : Entry), tr.m_playlist = pre ++ c :: post →
      get_playtime pre ≤ pos → pos < get_playtime pre + c.frame_count →
      (c.is_blank = false → tr.getBlankLength pos fromBlankStart = 0) ∧
      (c.is_blank = true →
        tr.getBlankLength pos fromBlankStart =
          (if fromBlankStart = true then c.frame_count
            else get_playtime pre + c.frame_count - pos) ∧
        1 ≤ tr.getBlankLength pos fromBlankStart ∧
        tr.getBlankLength pos fromBlankStart ≤ c.frame_count)) := by
  have hnn := frame_count_nonneg_of_wf hwf
  have hin : ∀ (pre post : Playlist) (c : Entry), tr.m_playlist = pre ++ c :: post →
      get_playtime pre ≤ pos → pos < get_playtime pre + c.frame_count →
      tr.getBlankLength pos fromBlankStart =
        (if c.is_blank = false then 0
          else if fromBlankStart = true then c.frame_count
          else get_playtime pre + c.frame_count - pos) := by
    intro pre post c hpl h1 h2
    have hprenn : ∀ x ∈ pre, 0 ≤ x.frame_count := fun x hx => hnn x (by rw [hpl]; simp [hx])
    unfold Track.getBlankLength
    dsimp only
    rw [hpl, get_clip_index_at_mid pre c post hprenn h1 h2,
      if_neg (by unfold count; simp; omega),
      is_blank_at, clip_length_at, Playlist.clip_start_at]
    by_cases hb : c.is_blank = false
    · rw [if_pos hb, if_pos hb]
    · rw [if_neg hb, if_neg hb]
      by_cases hf : fromBlankStart = true
      · rw [if_pos hf, if_pos hf]
      · rw [if_neg hf, if_neg hf]; omega
  refine ⟨?_, ?_⟩
  · constructor
    · intro h
      by_contra hlt
      obtain ⟨pre, c, post, hpl, _, h1, h2⟩ :=
        locate_spec tr.m_playlist pos hnn hpos (by omega)
      rw [hin pre post c hpl h1 h2] at h
      split_ifs at h <;> omega
    · intro h
      unfold Track.getBlankLength
      dsimp only
      rw [if_pos (by unfold get_clip_index_at count; rw [locate_of_playtime_le hnn h])]
  · intro pre post c hpl h1 h2
    rw [hin pre post c hpl h1 h2]
    constructor
    · intro hb; rw [if_pos hb]
    · intro hb
      rw [if_neg (by rw [hb]; simp)]
      refine ⟨rfl, ?_, ?_⟩ <;> split_ifs <;> omega

/-- Witness for C21: on the track `[clipA][blank 50][clipB]`, frame 120 lies in the
blank on frames [100, 150). -/
theorem Track.getBlankLength_spec_witness :
    (trackGap.getBlankLength 120 false = -1 ↔ get_playtime trackGap.m_playlist ≤ 120) ∧
    (∀ (pre post : Playlist) (c : Entry), trackGap.m_playlist = pre ++ c :: post →
      get_playtime pre ≤ 120 → 120 < get_playtime pre + c.frame_count →
      (c.is_blank = false → trackGap.getBlankLength 120 false = 0) ∧
      (c.is_blank = true →
        trackGap.getBlankLength 120 false =
          (if false = true then c.frame_count
            else get_playtime pre + c.frame_count - 120) ∧
        1 ≤ trackGap.getBlankLength 120 false ∧
        trackGap.getBlankLength 120 false ≤ c.frame_count)) :=
  Track.getBlankLength_spec trackGap 120 false (by decide) (by decide)

/-- C22: for every `TrackInfo` `i` and every track, `info()` after `setInfo(i)` returns `i`
(the same trackName, isLocked, isMute, isBlind and type), and `state()` then returns
`2 * isMute + isBlind`. -/
theorem Track.info_setInfo (tr : Track) (i : TrackInfo) :
    (tr.setInfo i).info = i ∧
    (tr.setInfo i).state =
      2 * (if i.isMute = true then 1 else 0) + (if i.isBlind = true then 1 else 0) := by
  cases i with
  | mk ty nm mu bl lk =>
    cases mu <;> cases bl <;> cases lk <;>
      simp [Track.info, Track.setInfo, Track.state] <;> decide

/-- C23: `hasAudio()` returns true exactly when some non-blank region of the track has the
property "mlt_service" equal to "xml" or to "consumer", or an "audio_index" greater than
-1; so it returns false for a track whose regions are all blank, the empty track
included. -/
theorem Track.hasAudio_iff (tr : Track) :
    (tr.hasAudio = true ↔
      ∃ e ∈ tr.m_playlist, e.is_blank = false ∧
        (e.region_get "mlt_service" = "xml" ∨ e.region_get "mlt_service" = "consumer" ∨
          e.region_get_int "audio_index" > -1)) ∧
    ((∀ e ∈ tr.m_playlist, e.is_blank = true) → tr.hasAudio = false) ∧
    (tr.m_playlist = [] → tr.hasAudio = false) := by
  have h := Track.hasAudio_loop_spec tr.m_playlist [] tr.m_playlist.length (le_refl _)
  have hiff : tr.hasAudio = true ↔
      ∃ e ∈ tr.m_playlist, e.is_blank = false ∧
        (e.region_get "mlt_service" = "xml" ∨ e.region_get "mlt_service" = "consumer" ∨
          e.region_get_int "audio_index" > -1) := by
    unfold Track.hasAudio
    simpa using h
  have hall : (∀ e ∈ tr.m_playlist, e.is_blank = true) → tr.hasAudio = false := by
    intro hb
    cases hA : tr.hasAudio with
    | false => rfl
    | true =>
      obtain ⟨e, he, h1, _⟩ := hiff.1 hA
      rw [hb e he] at h1
      exact absurd h1 (by simp)
  refine ⟨hiff, hall, ?_⟩
  intro hnil
  apply hall
  rw [hnil]
  intro e he
  simp at he

namespace Mlt.Playlist

end Mlt.Playlist

namespace QString

theorem isSpace_of_isDigit {c : Char} (h : c.isDigit = true) : isSpace c = false := by
  have h1 : c.val ≥ 48 := by
    unfold Char.isDigit at h
    simp at h
    exact h.1
  have hne : ∀ d : Char, d.val < 48 → c ≠ d := by
    intro d hd hcd
    rw [hcd] at h1
    exact absurd h1 (by simpa using hd)
  unfold isSpace
  simp only [Bool.or_eq_false_iff, decide_eq_false_iff_not]
  refine ⟨⟨⟨⟨⟨?_, ?_⟩, ?_⟩, ?_⟩, ?_⟩, ?_⟩ <;> exact hne _ (by decide)

theorem dropWhile_isSpace_digits {l : List Char} (h : ∀ c ∈ l, c.isDigit = true) :
    l.dropWhile isSpace = l := by
  cases l with
  | nil => rfl
  | cons a r =>
    rw [List.dropWhile_cons, if_neg]
    rw [isSpace_of_isDigit (h a (List.mem_cons_self _ _))]
    simp

theorem trimChars_digits {l : List Char} (h : ∀ c ∈ l, c.isDigit = true) : trimChars l = l := by
  unfold trimChars
  rw [dropWhile_isSpace_digits h, dropWhile_isSpace_digits (fun c hc => h c (by simpa using hc)),
    List.reverse_reverse]

/-- The value that `toInt` gives for a string of decimal digits. -/
theorem toInt_digits {s : String} (hne : s.data ≠ []) (hd : ∀ c ∈ s.data, c.isDigit = true)
    (hv : digitsValue s.data ≤ 2147483647) : toInt s = (digitsValue s.data : Int) := by
  unfold toInt
  rw [trimChars_digits hd]
  cases hs : s.data with
  | nil => exact absurd hs hne
  | cons a r =>
    have ha : a.isDigit = true := hd a (by rw [hs]; simp)
    have hm : a ≠ '-' := by rintro rfl; exact absurd ha (by decide)
    have hp : a ≠ '+' := by rintro rfl; exact absurd ha (by decide)
    have hh1 : (a :: r).head? ≠ some '-' := by simpa using hm
    have hh2 : (a :: r).head? ≠ some '+' := by simpa using hp
    have hdig : (if (a :: r).head? = some '-' ∨ (a :: r).head? = some '+' then (a :: r).tail
        else a :: r) = a :: r := if_neg (by rintro (h | h); exact hh1 h; exact hh2 h)
    dsimp only
    rw [hs] at hd hv
    rw [hdig, if_pos ⟨by simp, by simpa using hd⟩, if_neg hh1]
    rw [if_pos ⟨by omega, by omega⟩]

/-- Splitting at dots: a piece without a dot is read up to the end of the text. -/
theorem splitChars_dot_end (w : List Char) (hw : '.' ∉ w) : ∀ acc : List Char,
    splitChars ['.'] w acc 0 = [acc.reverse ++ w] := by
  induction w with
  | nil => intro acc; simp [splitChars]
  | cons c r ih =>
    intro acc
    have hc : c ≠ '.' := fun h => hw (by rw [h]; simp)
    have hr : '.' ∉ r := fun h => hw (List.mem_cons_of_mem _ h)
    rw [splitChars, if_neg (by simp [List.isPrefixOf, hc]; exact fun h => hc h.symm), ih hr]
    simp

/-- Splitting at dots: a piece without a dot is read up to the next dot. -/
theorem splitChars_dot_next (w : List Char) (hw : '.' ∉ w) (rest : List Char) :
    ∀ acc : List Char,
    splitChars ['.'] (w ++ '.' :: rest) acc 0 =
      (acc.reverse ++ w) :: splitChars ['.'] rest [] 0 := by
  induction w with
  | nil =>
    intro acc
    rw [List.nil_append, splitChars, if_pos (by simp [List.isPrefixOf])]
    simp
  | cons c r ih =>
    intro acc
    have hc : c ≠ '.' := fun h => hw (by rw [h]; simp)
    have hr : '.' ∉ r := fun h => hw (List.mem_cons_of_mem _ h)
    rw [List.cons_append, splitChars,
      if_neg (by simp [List.isPrefixOf, hc]; exact fun h => hc h.symm), ih hr]
    simp

end QString

namespace VersionSpec

theorem not_dot_of_isDigit {s : String} (h : ∀ c ∈ s.data, c.isDigit = true) : '.' ∉ s.data := by
  intro hm
  exact absurd (h _ hm) (by decide)

/-- Splitting the version string made of decimal components at the dots gives the
components back. -/
theorem split_versionString : ∀ (cs : List String), cs ≠ [] →
    (∀ s ∈ cs, ∀ c ∈ s.data, c.isDigit = true) →
    QString.split (versionString cs) "." = cs := by
  intro cs
  induction cs with
  | nil => intro h; exact absurd rfl h
  | cons s r ih =>
    intro _ hd
    have hs := not_dot_of_isDigit (hd s (List.mem_cons_self _ _))
    cases r with
    | nil =>
      unfold QString.split
      show (QString.splitChars ['.'] s.data [] 0).map String.mk = [s]
      rw [QString.splitChars_dot_end _ hs]
      simp
    | cons t r2 =>
      have ih2 := ih (by simp) (fun x hx => hd x (List.mem_cons_of_mem _ hx))
      unfold QString.split at ih2 ⊢
      show (QString.splitChars ['.'] (s ++ "." ++ versionString (t :: r2)).data [] 0).map
        String.mk = s :: t :: r2
      have hdata : (s ++ "." ++ versionString (t :: r2)).data =
          s.data ++ '.' :: (versionString (t :: r2)).data := by
        simp [String.data_append]
      rw [hdata, QString.splitChars_dot_next _ hs, List.map_cons]
      have ih3 : (QString.splitChars ['.'] (versionString (t :: r2)).data [] 0).map String.mk =
          t :: r2 := ih2
      rw [ih3]
      simp

end VersionSpec

namespace AbstractPythonInterface

/-- The value of `QT_VERSION_CHECK` when the minor and the patch number are below 256. -/
theorem QT_VERSION_CHECK_eq (x y z : Int) (a b c : Nat) (hx : x = (a : Int)) (hy : y = (b : Int))
    (hz : z = (c : Int)) (hb : b ≤ 255) (hc : c ≤ 255) :
    QT_VERSION_CHECK x y z = ((a * 65536 + b * 256 + c : Nat) : Int) := by
  have h1 : (a : Int) <<< (16 : Int) = ((a <<< 16 : Nat) : Int) := Int.shiftLeft_coe_nat a 16
  have h2 : (b : Int) <<< (8 : Int) = ((b <<< 8 : Nat) : Int) := Int.shiftLeft_coe_nat b 8
  unfold QT_VERSION_CHECK
  rw [hx, hy, hz, h1, h2]
  show (((a <<< 16 ||| b <<< 8) ||| c : Nat) : Int) = _
  congr 1
  rw [Nat.shiftLeft_eq, Nat.shiftLeft_eq]
  have e1 : a * 2 ^ 16 ||| b * 2 ^ 8 = a * 2 ^ 16 + b * 2 ^ 8 := by
    have := Nat.mul_add_lt_is_or (show b * 2 ^ 8 < 2 ^ 16 by omega) a
    rw [Nat.mul_comm (2 ^ 16) a] at this
    exact this.symm
  have e2 : (a * 2 ^ 16 + b * 2 ^ 8) ||| c = a * 2 ^ 16 + b * 2 ^ 8 + c := by
    have := Nat.mul_add_lt_is_or (show c < 2 ^ 8 by omega) (a * 2 ^ 8 + b)
    have e3 : 2 ^ 8 * (a * 2 ^ 8 + b) = a * 2 ^ 16 + b * 2 ^ 8 := by ring
    rw [e3] at this
    exact this.symm
  rw [e1, e2]
  norm_num

/-- The value of `versionToInt` on a version string of at most three decimal components
in 0..255. -/
theorem versionToInt_versionString (cs : List String) (hl : cs.length ≤ 3)
    (hc : ∀ s ∈ cs, VersionSpec.isComponent s) :
    versionToInt (VersionSpec.versionString cs) =
      (((VersionSpec.triple cs).1 * 65536 + (VersionSpec.triple cs).2.1 * 256 +
        (VersionSpec.triple cs).2.2 : Nat) : Int) := by
  have hti : ∀ s ∈ cs, QString.toInt s = (QString.digitsValue s.data : Int) := fun s hs =>
    QString.toInt_digits (hc s hs).1 (hc s hs).2.1 (by have := (hc s hs).2.2; omega)
  have hle : ∀ s ∈ cs, QString.digitsValue s.data ≤ 255 := fun s hs => (hc s hs).2.2
  have hz : QString.toInt "" = ((0 : Nat) : Int) := rfl
  cases cs with
  | nil =>
    have hsp : QString.split (VersionSpec.versionString []) "." = [""] := rfl
    unfold versionToInt
    rw [hsp]
    exact QT_VERSION_CHECK_eq _ _ _ 0 0 0 hz rfl rfl (by omega) (by omega)
  | cons a r =>
    have hsp := VersionSpec.split_versionString (a :: r) (by simp) (fun s hs => (hc s hs).2.1)
    unfold versionToInt
    rw [hsp]
    cases r with
    | nil =>
      exact QT_VERSION_CHECK_eq _ _ _ (QString.digitsValue a.data) 0 0 (hti a (by simp)) rfl rfl
        (by omega) (by omega)
    | cons b r2 =>
      cases r2 with
      | nil =>
        exact QT_VERSION_CHECK_eq _ _ _ (QString.digitsValue a.data) (QString.digitsValue b.data)
          0 (hti a (by simp)) (hti b (by simp)) rfl (hle b (by simp)) (by omega)
      | cons c r3 =>
        cases r3 with
        | nil =>
          exact QT_VERSION_CHECK_eq _ _ _ (QString.digitsValue a.data)
            (QString.digitsValue b.data) (QString.digitsValue c.data) (hti a (by simp))
            (hti b (by simp)) (hti c (by simp)) (hle b (by simp)) (hle c (by simp))
        | cons d r4 =>
          exfalso
          simp at hl

end AbstractPythonInterface

/-- C28: for version strings `a` and `b` made of at most three dot-separated decimal
components, each in 0..255, `versionToInt(a) < versionToInt(b)` holds exactly when the
triple (major, minor, patch) of `a` precedes that of `b` in the lexicographic order, a
missing component counting as 0. -/
theorem AbstractPythonInterface.versionToInt_lt_iff (ca cb : List String)
    (hla : ca.length ≤ 3) (hlb : cb.length ≤ 3)
    (hca : ∀ s ∈ ca, VersionSpec.isComponent s) (hcb : ∀ s ∈ cb, VersionSpec.isComponent s) :
    AbstractPythonInterface.versionToInt (VersionSpec.versionString ca) <
        AbstractPythonInterface.versionToInt (VersionSpec.versionString cb) ↔
      VersionSpec.precedes (VersionSpec.triple ca) (VersionSpec.triple cb) := by
  rw [AbstractPythonInterface.versionToInt_versionString ca hla hca,
    AbstractPythonInterface.versionToInt_versionString cb hlb hcb]
  have hb : ∀ (cs : List String), (∀ s ∈ cs, VersionSpec.isComponent s) →
      (VersionSpec.triple cs).2.1 ≤ 255 ∧ (VersionSpec.triple cs).2.2 ≤ 255 := by
    intro cs h
    unfold VersionSpec.triple
    dsimp only
    constructor
    · cases h1 : cs[1]? with
      | none => simp
      | some s => simpa using (h s (List.getElem?_mem h1)).2.2
    · cases h2 : cs[2]? with
      | none => simp
      | some s => simpa using (h s (List.getElem?_mem h2)).2.2
  have h1 := hb ca hca
  have h2 := hb cb hcb
  unfold VersionSpec.precedes
  generalize VersionSpec.triple ca = x at h1 ⊢
  generalize VersionSpec.triple cb = y at h2 ⊢
  constructor
  · intro h
    have h3 : x.1 * 65536 + x.2.1 * 256 + x.2.2 < y.1 * 65536 + y.2.1 * 256 + y.2.2 := by
      exact_mod_cast h
    omega
  · intro h
    have h3 : x.1 * 65536 + x.2.1 * 256 + x.2.2 < y.1 * 65536 + y.2.1 * 256 + y.2.2 := by
      omega
    exact_mod_cast h3

/-- Witness for C28: the versions "1.9" and "1.10.2". -/
theorem AbstractPythonInterface.versionToInt_lt_iff_witness :
    AbstractPythonInterface.versionToInt (VersionSpec.versionString ["1", "9"]) <
        AbstractPythonInterface.versionToInt (VersionSpec.versionString ["1", "10", "2"]) ↔
      VersionSpec.precedes (VersionSpec.triple ["1", "9"]) (VersionSpec.triple ["1", "10", "2"]) :=
  AbstractPythonInterface.versionToInt_lt_iff ["1", "9"] ["1", "10", "2"] (by decide) (by decide)
    (by decide) (by decide)

namespace QString

theorem splitChars_ne_nil (sep : List Char) : ∀ (l acc : List Char) (skip : Nat),
    splitChars sep l acc skip ≠ [] := by
  intro l
  induction l with
  | nil => intro acc skip; simp [splitChars]
  | cons c r ih =>
    intro acc skip
    cases skip with
    | succ k => rw [splitChars]; exact ih acc k
    | zero =>
      rw [splitChars]
      split_ifs
      · simp
      · exact ih _ 0

theorem split_ne_nil (s sep : String) : split s sep ≠ [] := by
  unfold split
  intro h
  exact splitChars_ne_nil _ _ _ _ (List.map_eq_nil_iff.1 h)

end QString

namespace AbstractPythonInterface

/-- The loop of `checkVersions` from the index `i` on, with `n` chunks left: it reads
`raw.at(i + 1)` out of range exactly when a chunk is left and the last chunk holds
"Name:". -/
theorem checkVersions_loop_none (raw : List String) : ∀ (n fuel i : Nat)
    (st : List String × List (String × String)), i + n = raw.length → n ≤ fuel →
    (checkVersions_loop raw fuel i st = none ↔
      1 ≤ n ∧ QString.indexOf (raw.getD (raw.length - 1) "") "Name:" > -1) := by
  intro n
  induction n with
  | zero =>
    intro fuel i st hi _
    cases fuel with
    | zero => simp [checkVersions_loop]
    | succ f =>
      rw [checkVersions_loop, if_neg (by omega)]
      simp
  | succ n ih =>
    intro fuel i st hi hf
    cases fuel with
    | zero => omega
    | succ f =>
      rw [checkVersions_loop, if_pos (by omega)]
      by_cases hN : QString.indexOf (raw.getD i "") "Name:" > -1
      · rw [if_pos hN]
        cases h : raw[i + 1]? with
        | none =>
          have hlen : raw.length ≤ i + 1 := List.getElem?_eq_none_iff.1 h
          have hlast : raw.length - 1 = i := by omega
          simp only [true_iff]
          rw [hlast]
          exact ⟨by omega, hN⟩
        | some v =>
          have hlen : i + 1 < raw.length := by
            by_contra hc
            rw [List.getElem?_eq_none_iff.2 (by omega)] at h
            cases h
          simp only []
          rw [ih f (i + 1) _ (by omega) (by omega)]
          constructor
          · rintro ⟨_, h2⟩; exact ⟨by omega, h2⟩
          · rintro ⟨_, h2⟩; exact ⟨by omega, h2⟩
      · rw [if_neg hN, ih f (i + 1) st (by omega) (by omega)]
        constructor
        · rintro ⟨_, h2⟩; exact ⟨by omega, h2⟩
        · rintro ⟨_, h2⟩
          refine ⟨?_, h2⟩
          by_contra hn
          have hlast : raw.length - 1 = i := by omega
          rw [hlast] at h2
          exact hN h2

end AbstractPythonInterface

/-- C27 (the code breaks the claim): the run of `checkVersions` on a script output that is
not empty reads `raw.at(i + 1)` out of range exactly when the last of the chunks obtained
by splitting the output at "Version: " holds "Name:".  The output "Name: foo" is such a
text: it is its only chunk, and the loop reads `raw.at(1)` of a list of one chunk. -/
theorem AbstractPythonInterface.checkVersions_reads_past_the_end :
    (∀ (output : String) (m_versions : List (String × String)) (signalOnResult : Bool),
      AbstractPythonInterface.checkVersions false output m_versions signalOnResult = none ↔
        output.isEmpty = false ∧
        ∃ last, (QString.split output "Version: ").getLast? = some last ∧
          QString.indexOf last "Name:" > -1) ∧
    QString.split "Name: foo" "Version: " = ["Name: foo"] ∧
    AbstractPythonInterface.checkVersions false "Name: foo" [] true = none := by
  refine ⟨?_, by decide, by decide⟩
  intro output m s
  have hne := QString.split_ne_nil output "Version: "
  unfold AbstractPythonInterface.checkVersions
  generalize QString.split output "Version: " = raw at hne ⊢
  have hloop := AbstractPythonInterface.checkVersions_loop_none raw raw.length raw.length 0
    ([], m) (by omega) (le_refl _)
  have hlen : 1 ≤ raw.length := by
    cases raw with
    | nil => exact absurd rfl hne
    | cons a r => simp
  have hlast : ∀ last, raw.getLast? = some last ↔ raw.getD (raw.length - 1) "" = last := by
    intro last
    rw [List.getLast?_eq_getElem?, List.getD_eq_getElem?_getD,
      List.getElem?_eq_getElem (show raw.length - 1 < raw.length by omega)]
    simp
  rw [if_neg (by simp)]
  by_cases he : output.isEmpty = true
  · rw [if_pos he]
    simp [he]
  · rw [if_neg he]
    have he2 : output.isEmpty = false := by simpa using he
    cases hr : AbstractPythonInterface.checkVersions_loop raw raw.length 0 ([], m) with
    | none =>
      simp only [true_iff]
      have h2 := (hloop.1 hr).2
      exact ⟨he2, _, (hlast _).2 rfl, h2⟩
    | some r =>
      constructor
      · intro h; cases h
      rintro ⟨_, last, h1, h2⟩
      rw [← (hlast last).1 h1] at h2
      have := hloop.2 ⟨hlen, h2⟩
      rw [hr] at this
      cases this

/-- A text that starts with `id` and an underscore does not start with `W` and `id`, when `W`
is not empty and holds no underscore. -/
theorem Track.underscore_no_overlap (W : List Char) (hW : '_' ∉ W) (hne : W ≠ []) :
    ∀ (n : Nat) (id X Y : List Char), id.length ≤ n → id ++ '_' :: X ≠ W ++ (id ++ Y) := by
  intro n
  induction n with
  | zero =>
    intro id X Y hl h
    have hid : id = [] := List.eq_nil_of_length_eq_zero (by omega)
    subst hid
    cases W with
    | nil => exact hne rfl
    | cons w ws =>
      simp at h
      exact hW (by rw [h.1]; simp)
  | succ n ih =>
    intro id X Y hl h
    rcases List.append_eq_append_iff.1 h with ⟨a, h1, h2⟩ | ⟨c, h1, h2⟩
    · cases a with
      | nil =>
        cases W with
        | nil => exact hne rfl
        | cons w ws =>
          rw [List.append_nil] at h1
          rw [← h1] at h2
          simp at h2
          exact hW (by rw [h2.1]; simp)
      | cons a0 a1 =>
        simp at h2
        exact hW (by rw [h1, h2.1]; simp)
    · have hlen : c.length ≤ n := by
        have := congrArg List.length h1
        have hWl : 1 ≤ W.length := by
          cases W with
          | nil => exact absurd rfl hne
          | cons w ws => simp
        simp at this
        omega
      apply ih c X Y hlen
      rw [← h2, h1, List.append_assoc]

/-- An id that passes the test of `replaceId` starts with `id`, or with "slowmotion:" and
`id`. -/
theorem Track.replaceId_matches_data {id T cur : String}
    (h : Track.replaceId_matches id T cur = true) :
    ∃ W0 Y, (W0 = [] ∨ W0 = "slowmotion:".data) ∧ cur.data = W0 ++ (id.data ++ Y) := by
  unfold Track.replaceId_matches at h
  simp only [Bool.or_eq_true, decide_eq_true_eq] at h
  rcases h with (((h | h) | h) | h) | h
  · exact ⟨[], [], Or.inl rfl, by rw [h]; simp⟩
  · exact ⟨[], ("_" ++ T).data, Or.inl rfl, by rw [h]; simp [String.data_append]⟩
  · exact ⟨[], ("_" ++ T ++ "_audio").data, Or.inl rfl, by rw [h]; simp [String.data_append]⟩
  · exact ⟨[], ("_" ++ T ++ "_video").data, Or.inl rfl, by rw [h]; simp [String.data_append]⟩
  · unfold QString.startsWith at h
    obtain ⟨Y, hY⟩ := List.isPrefixOf_iff_prefix.1 h
    refine ⟨"slowmotion:".data, ':' :: Y, Or.inr rfl, ?_⟩
    rw [← hY]
    simp [String.data_append]

/-- An id that passes the test of `replaceId` no longer passes it once "#" is prepended. -/
theorem Track.replaceId_matches_marked {id T cur : String}
    (h : Track.replaceId_matches id T cur = true) :
    Track.replaceId_matches id T ("#" ++ cur) = false := by
  obtain ⟨W0, Y, hW0, hcur⟩ := Track.replaceId_matches_data h
  have hdata : ("#" ++ cur).data = ('#' :: W0) ++ (id.data ++ Y) := by
    rw [String.data_append, hcur]; rfl
  have hW : '_' ∉ '#' :: W0 := by
    rcases hW0 with h0 | h0 <;> rw [h0] <;> decide
  have hno : ∀ X : List Char, ("#" ++ cur).data ≠ id.data ++ '_' :: X := by
    intro X hX
    rw [hdata] at hX
    exact Track.underscore_no_overlap ('#' :: W0) hW (by simp) id.data.length id.data X Y
      (le_refl _) hX.symm
  cases hm : Track.replaceId_matches id T ("#" ++ cur) with
  | false => rfl
  | true =>
    exfalso
    unfold Track.replaceId_matches at hm
    simp only [Bool.or_eq_true, decide_eq_true_eq] at hm
    rcases hm with (((hm | hm) | hm) | hm) | hm
    · have hl := congrArg (fun s : String => s.data.length) hm
      simp only [hdata] at hl
      simp at hl
      omega
    · exact hno T.data (by rw [hm]; simp [String.data_append])
    · exact hno (T ++ "_audio").data (by rw [hm]; simp [String.data_append])
    · exact hno (T ++ "_video").data (by rw [hm]; simp [String.data_append])
    · unfold QString.startsWith at hm
      rw [hdata] at hm
      have hs : ("slowmotion:" ++ id ++ ":").data = 's' :: ("lowmotion:" ++ id ++ ":").data := by
        simp [String.data_append]
      rw [hs] at hm
      simp [List.isPrefixOf] at hm

namespace SharedTrack

/-- One pass of the loop body of `replaceId` keeps the invariant of the loop: each producer
is the original one, with "#" prepended to its id exactly when its id passed the test and
a region seen so far refers to it. -/
theorem replaceId_step_inv (id T : String) (P Q : List Producer) (seen : List (Option Nat))
    (r : Option Nat)
    (hQ : Q.length = P.length ∧ ∀ k p, P[k]? = some p →
      Q[k]? = some (if some k ∈ seen ∧ Track.replaceId_matches id T p.id = true
        then { p with id := "#" ++ p.id } else p)) :
    (replaceId_step id T Q r).length = P.length ∧ ∀ k p, P[k]? = some p →
      (replaceId_step id T Q r)[k]? =
        some (if some k ∈ seen ++ [r] ∧ Track.replaceId_matches id T p.id = true
          then { p with id := "#" ++ p.id } else p) := by
  obtain ⟨hlen, hinv⟩ := hQ
  cases r with
  | none =>
    refine ⟨hlen, ?_⟩
    intro k p hp
    rw [show replaceId_step id T Q none = Q from rfl, hinv k p hp]
    simp
  | some j =>
    cases hq : Q[j]? with
    | none =>
      have hstep : replaceId_step id T Q (some j) = Q := by
        unfold replaceId_step; simp only [hq]
      rw [hstep]
      refine ⟨hlen, ?_⟩
      intro k p hp
      have hkj : k ≠ j := by
        rintro rfl
        rw [hinv k p hp] at hq
        cases hq
      rw [hinv k p hp]
      simp [hkj]
    | some q =>
      have hjlt : j < P.length := by
        rw [← hlen]
        by_contra hc
        rw [List.getElem?_eq_none_iff.2 (by omega)] at hq
        cases hq
      have hpj : P[j]? = some P[j] := List.getElem?_eq_getElem hjlt
      have hqj := hinv j P[j] hpj
      rw [hq] at hqj
      have hqeq : q = (if some j ∈ seen ∧ Track.replaceId_matches id T P[j].id = true
          then { P[j] with id := "#" ++ P[j].id } else P[j]) := Option.some.inj hqj
      by_cases hm : Track.replaceId_matches id T q.id = true
      · have hstep : replaceId_step id T Q (some j) = Q.set j { q with id := "#" ++ q.id } := by
          unfold replaceId_step; simp only [hq, hm, if_true]
        have hcond : ¬ (some j ∈ seen ∧ Track.replaceId_matches id T P[j].id = true) := by
          intro hc
          rw [if_pos hc] at hqeq
          rw [hqeq] at hm
          have := Track.replaceId_matches_marked hc.2
          rw [this] at hm
          cases hm
        rw [if_neg hcond] at hqeq
        rw [hqeq] at hm
        rw [hstep, hqeq]
        refine ⟨by rw [List.length_set]; exact hlen, ?_⟩
        intro k p hp
        by_cases hkj : k = j
        · subst hkj
          rw [hpj] at hp
          cases hp
          rw [List.getElem?_set_self (by rw [hlen]; exact hjlt), if_pos ⟨by simp, hm⟩]
        · rw [List.getElem?_set_ne (Ne.symm hkj), hinv k p hp]
          simp [hkj]
      · have hstep : replaceId_step id T Q (some j) = Q := by
          unfold replaceId_step; simp only [hq, hm]; rfl
        rw [hstep]
        refine ⟨hlen, ?_⟩
        intro k p hp
        by_cases hkj : k = j
        · subst hkj
          rw [hpj] at hp
          cases hp
          rw [hq, hqeq]
          by_cases hc : some k ∈ seen ∧ Track.replaceId_matches id T P[k].id = true
          · rw [if_pos hc, if_pos ⟨by simp, hc.2⟩]
          · rw [if_neg hc] at hqeq
            rw [hqeq] at hm
            rw [if_neg hc, if_neg (fun h => hm h.2)]
        · rw [hinv k p hp]
          simp [hkj]

/-- The loop of `replaceId` keeps its invariant over the regions it runs through. -/
theorem replaceId_fold_inv (id T : String) (P : List Producer) :
    ∀ (rs seen : List (Option Nat)) (Q : List Producer),
    (Q.length = P.length ∧ ∀ k p, P[k]? = some p →
      Q[k]? = some (if some k ∈ seen ∧ Track.replaceId_matches id T p.id = true
        then { p with id := "#" ++ p.id } else p)) →
    (rs.foldl (replaceId_step id T) Q).length = P.length ∧ ∀ k p, P[k]? = some p →
      (rs.foldl (replaceId_step id T) Q)[k]? =
        some (if some k ∈ seen ++ rs ∧ Track.replaceId_matches id T p.id = true
          then { p with id := "#" ++ p.id } else p) := by
  intro rs
  induction rs with
  | nil => intro seen Q h; simpa using h
  | cons r rs ih =>
    intro seen Q h
    have h2 := ih (seen ++ [r]) _ (replaceId_step_inv id T P Q seen r h)
    rw [List.append_assoc] at h2
    exact h2

end SharedTrack

/-- C25: `replaceId(id)` leaves the regions as they are and changes of the producers only
the ids: a producer that some clip region of the track is a cut of, and whose id was
`id`, `id_<trackId>`, `id_<trackId>_audio` or `id_<trackId>_video`, or began with
"slowmotion:" + id + ":", has "#" prepended to its id exactly once, however many regions
are cuts of it; every other producer is unchanged. -/
theorem SharedTrack.replaceId_marks_once (tr : SharedTrack) (id : String) :
    (tr.replaceId id).regions = tr.regions ∧
    (tr.replaceId id).playlistId = tr.playlistId ∧
    (tr.replaceId id).producers.length = tr.producers.length ∧
    ∀ (k : Nat) (p : Producer), tr.producers[k]? = some p →
      (tr.replaceId id).producers[k]? =
        some (if some k ∈ tr.regions ∧
            (p.id = id ∨ p.id = id ++ "_" ++ tr.playlistId ∨
              p.id = id ++ "_" ++ tr.playlistId ++ "_audio" ∨
              p.id = id ++ "_" ++ tr.playlistId ++ "_video" ∨
              QString.startsWith p.id ("slowmotion:" ++ id ++ ":") = true)
          then { p with id := "#" ++ p.id } else p) := by
  have h := SharedTrack.replaceId_fold_inv id tr.playlistId tr.producers tr.regions []
    tr.producers ⟨rfl, by intro k p hp; rw [hp]; simp⟩
  refine ⟨rfl, rfl, h.1, ?_⟩
  intro k p hp
  have hk := h.2 k p hp
  rw [List.nil_append] at hk
  have hiff : Track.replaceId_matches id tr.playlistId p.id = true ↔
      (p.id = id ∨ p.id = id ++ "_" ++ tr.playlistId ∨
        p.id = id ++ "_" ++ tr.playlistId ++ "_audio" ∨
        p.id = id ++ "_" ++ tr.playlistId ++ "_video" ∨
        QString.startsWith p.id ("slowmotion:" ++ id ++ ":") = true) := by
    unfold Track.replaceId_matches
    simp only [Bool.or_eq_true, decide_eq_true_eq]
    tauto
  show (List.foldl (SharedTrack.replaceId_step id tr.playlistId) tr.producers tr.regions)[k]? = _
  rw [hk]
  congr 1
  by_cases hc : some k ∈ tr.regions ∧ Track.replaceId_matches id tr.playlistId p.id = true
  · rw [if_pos hc, if_pos ⟨hc.1, hiff.1 hc.2⟩]
  · rw [if_neg hc, if_neg (fun h => hc ⟨h.1, hiff.2 h.2⟩)]

namespace Mlt.Playlist

/-- What the playlist shows after `remove_region` of `n` frames at `p`, `insert_blank` with
the out point `m` at the index of `p`, and `consolidate_blanks`: a run of `m + 1` empty
frames stands where the `n` frames were. -/
theorem frames_region_to_blank {pl : Playlist} (hwf : wf pl) (hntb : no_trailing_blank pl)
    {p n m : Int} (hp : 0 ≤ p) (hn : 0 ≤ n) (hm : 0 ≤ m) (hin : p + n < get_playtime pl) :
    frames (consolidate_blanks (insert_blank (remove_region pl p n).2
        (get_clip_index_at (remove_region pl p n).2 p) m) 0) =
      (frames pl).take p.toNat ++ List.replicate (m + 1).toNat none ++
        (frames pl).drop (p + n).toNat ∧
    wf (consolidate_blanks (insert_blank (remove_region pl p n).2
        (get_clip_index_at (remove_region pl p n).2 p) m) 0) := by
  have hlenF : ((frames pl).length : Int) = get_playtime pl :=
    length_frames (frame_count_nonneg_of_wf hwf)
  obtain ⟨_, hF, hsb, hwf3⟩ := remove_region_spec hwf hntb hp hn hin
  generalize (remove_region pl p n).2 = r2 at hF hsb hwf3 ⊢
  have hwf4 : wf (insert_blank r2 (get_clip_index_at r2 p) m) := wf_insert_blank hwf3 _ _
  have hF4 : frames (insert_blank r2 (get_clip_index_at r2 p) m) =
      (frames pl).take p.toNat ++ List.replicate (m + 1).toNat none ++
        (frames pl).drop (p + n).toNat := by
    rw [insert_blank_eq _ _ hm, insert_eq]
    unfold get_clip_index_at
    rw [clampIdx_natCast_le (locate_le_length _ _)]
    have hb : (Entry.blankCut m).frames = List.replicate (m + 1).toNat none := by
      rw [Entry.frames_blank (show (Entry.blankCut m).is_blank = true from rfl)]
      congr 1
      show (m - 0 + 1).toNat = _
      congr 1
      omega
    rw [frames_append, frames_cons, hb, ← List.append_assoc,
      frames_insert_soft _ r2 p (frame_count_nonneg_of_wf hwf3) hp hsb, hF]
    have hl : ((frames pl).take p.toNat).length = p.toNat := by
      rw [List.length_take]; omega
    rw [List.take_left' hl, List.drop_left' hl]
  have hlast : (frames (insert_blank r2 (get_clip_index_at r2 p) m)).getLast? =
      (frames pl).getLast? := by
    rw [hF4]
    have hlt : (p + n).toNat < (frames pl).length := by omega
    have hne : (frames pl).drop (p + n).toNat ≠ [] := by
      intro h0
      have := congrArg List.length h0
      simp at this
      omega
    rw [List.getLast?_append_of_ne_nil _ hne, getLast?_drop_of_lt hlt]
  have hntb4 : no_trailing_blank (insert_blank r2 (get_clip_index_at r2 p) m) := by
    rw [ntb_iff_frames hwf4, hlast]
    exact (ntb_iff_frames hwf).1 hntb
  exact ⟨by rw [frames_consolidate_of_ntb hwf4 hntb4, hF4], wf_consolidate_blanks hwf4 0⟩

/-- In a well-formed playlist without neighbouring blanks, a run of empty frames lies in
one blank region. -/
theorem blank_run_region {pl : Playlist} (hwf : wf pl) (hnab : no_adjacent_blanks pl) {p k : Int}
    (hp : 0 ≤ p) (hk : 1 ≤ k) (hlen : p + k ≤ get_playtime pl)
    (hnone : ∀ i : Nat, p.toNat ≤ i → i < (p + k).toNat → (frames pl)[i]? = some none) :
    ∃ pre x post, pl = pre ++ x :: post ∧ x.is_blank = true ∧ get_playtime pre ≤ p ∧
      p + k ≤ get_playtime pre + x.frame_count := by
  have hnn := frame_count_nonneg_of_wf hwf
  obtain ⟨pre, x, post, hpl, _, h1, h2⟩ := locate_spec pl p hnn hp (by omega)
  subst hpl
  have hprew : wf pre := fun e he => hwf e (by simp [he])
  have hxw : x.wf := hwf x (by simp)
  have hpre0 := get_playtime_nonneg (frame_count_nonneg_of_wf hprew)
  have hlpre : (frames pre).length = (get_playtime pre).toNat := by
    have := length_frames (frame_count_nonneg_of_wf hprew)
    omega
  have hlx : x.frames.length = x.frame_count.toNat := Entry.length_entry_frames x
  have hxfc := Entry.wf_frame_count_pos hxw
  have hfp := hnone p.toNat (le_refl _) (by omega)
  rw [frames_append, frames_cons, List.getElem?_append_right (by omega),
    List.getElem?_append_left (by omega)] at hfp
  have hxb : x.is_blank = true := (Entry.mem_frames (List.getElem?_mem hfp)).1 rfl
  refine ⟨pre, x, post, rfl, hxb, h1, ?_⟩
  by_contra hlt
  cases post with
  | nil =>
    rw [get_playtime_append, get_playtime_cons, get_playtime_nil] at hlen
    omega
  | cons y post2 =>
    have hyw : y.wf := hwf y (by simp)
    have hyfc := Entry.wf_frame_count_pos hyw
    have hly : y.frames.length = y.frame_count.toNat := Entry.length_entry_frames y
    have hq := hnone (get_playtime pre + x.frame_count).toNat (by omega) (by omega)
    rw [frames_append, frames_cons, frames_cons, List.getElem?_append_right (by omega),
      List.getElem?_append_right (by omega), List.getElem?_append_left (by omega)] at hq
    have hyb : y.is_blank = true := (Entry.mem_frames (List.getElem?_mem hq)).1 rfl
    have hch := nab_right hnab
    unfold no_adjacent_blanks at hch
    rw [List.chain'_cons] at hch
    exact hch.1 ⟨hxb, hyb⟩

/-- The second step of `insert_at` on a blank, with the cursor on the blank `b`: the cut
takes the place of the first frames of `b`. -/
theorem frames_insert_blank_tail (L N : Playlist) {b cut : Entry} (hb : b.is_blank = true)
    (hbw : b.wf) (hc : 1 ≤ cut.frame_count) (hle : cut.frame_count ≤ b.frame_count) :
    frames (insert (remove (if cut.frame_count < b.frame_count then
        (split (L ++ b :: N) L.length (cut.frame_count - 1)).2 else L ++ b :: N) L.length).2
        cut L.length) =
      frames L ++ (cut.frames ++
        (List.replicate (b.frame_count - cut.frame_count).toNat none ++ frames N)) := by
  by_cases hlt : cut.frame_count < b.frame_count
  · rw [if_pos hlt]
    rcases split_spec L N hbw (cut.frame_count - 1) with
      ⟨hno, _⟩ | ⟨_, _, y1, y2, hs, hfr, hfc, _, hb2⟩
    · exfalso
      apply hno
      rw [if_neg (by omega)]
      constructor <;> omega
    · rw [if_neg (by omega)] at hfc
      rw [hs]
      dsimp only
      rw [remove_at, insert_at_length, frames_append, frames_cons, frames_cons,
        Entry.frames_blank (hb2.trans hb)]
      have hl := congrArg List.length hfr
      rw [List.length_append, Entry.length_entry_frames, Entry.length_entry_frames,
        Entry.length_entry_frames] at hl
      have e1 : y2.frame_count.toNat = (b.frame_count - cut.frame_count).toNat := by omega
      rw [e1]
  · rw [if_neg hlt, remove_at, insert_at_length, frames_append, frames_cons]
    have e1 : (b.frame_count - cut.frame_count).toNat = 0 := by omega
    rw [e1]
    simp

/-- On a blank that is long enough, `insert_at` puts the cut over the frames from the
position on: the frames before the position and those after the cut stay. -/
theorem frames_insert_at_blank_cover {pre post : Playlist} {x cut : Entry}
    (hwf : wf (pre ++ x :: post)) (hx : x.is_blank = true) {p : Int}
    (h1 : get_playtime pre ≤ p) (hc : 1 ≤ cut.frame_count)
    (h2 : p + cut.frame_count ≤ get_playtime pre + x.frame_count) (mode : Int) :
    frames (insert_at (pre ++ x :: post) p cut mode).2 =
      (frames (pre ++ x :: post)).take p.toNat ++ cut.frames ++
        (frames (pre ++ x :: post)).drop (p + cut.frame_count).toNat := by
  have hprew : wf pre := fun e he => hwf e (by simp [he])
  have hxw : x.wf := hwf x (by simp)
  have hpre0 := get_playtime_nonneg (frame_count_nonneg_of_wf hprew)
  have hlpre : (frames pre).length = (get_playtime pre).toNat := by
    have := length_frames (frame_count_nonneg_of_wf hprew)
    omega
  have hxfc := Entry.wf_frame_count_pos hxw
  -- the two sides of the cut in what the playlist showed
  have htake : (frames (pre ++ x :: post)).take p.toNat =
      frames pre ++ List.replicate (p - get_playtime pre).toNat none := by
    rw [frames_append, frames_cons, Entry.frames_blank hx]
    have e1 : p.toNat = (frames pre).length + (p - get_playtime pre).toNat := by omega
    rw [e1, List.take_append, List.take_append_of_le_length (by simp; omega),
      List.take_replicate, Nat.min_eq_left (by omega)]
  have hdrop : (frames (pre ++ x :: post)).drop (p + cut.frame_count).toNat =
      List.replicate (get_playtime pre + x.frame_count - p - cut.frame_count).toNat none ++
        frames post := by
    rw [frames_append, frames_cons, Entry.frames_blank hx]
    have e1 : (p + cut.frame_count).toNat =
        (frames pre).length + (p + cut.frame_count - get_playtime pre).toNat := by omega
    rw [e1, List.drop_append, List.drop_append_of_le_length (by simp; omega),
      List.drop_replicate]
    congr 2
    omega
  rw [htake, hdrop]
  have hidx : get_clip_index_at (pre ++ x :: post) p = pre.length :=
    get_clip_index_at_mid pre x post (frame_count_nonneg_of_wf hprew) h1 (by omega)
  unfold insert_at
  rw [if_neg (by omega), hidx, if_pos ⟨by unfold count; simp, by rw [is_blank_at]; exact hx⟩]
  unfold insert_at_blank
  dsimp only
  unfold insert_at_blank_head
  rw [info_start_at]
  by_cases hs : p ≠ get_playtime pre
  · rw [if_pos hs]
    have hw2 := wf_split hwf (pre.length : Int) (p - get_playtime pre - 1)
    rcases split_spec pre post hxw (p - get_playtime pre - 1) with
      ⟨hno, _⟩ | ⟨_, _, x1, x2, hsp, hfr, hfc, hb1, hb2⟩
    · exfalso
      apply hno
      rw [if_neg (by omega)]
      constructor <;> omega
    · rw [if_neg (by omega)] at hfc
      rw [hsp] at hw2
      have hx2w : x2.wf := hw2 x2 (by simp)
      have hl := congrArg List.length hfr
      rw [List.length_append, Entry.length_entry_frames, Entry.length_entry_frames,
        Entry.length_entry_frames] at hl
      have hx2fc := Entry.wf_frame_count_pos hx2w
      rw [hsp, if_pos rfl]
      dsimp only
      have hcast : ((pre.length : Int) + 1) = ((pre ++ [x1]).length : Int) := by simp
      have hlist : pre ++ x1 :: x2 :: post = (pre ++ [x1]) ++ x2 :: post := by simp
      rw [if_neg (show ¬ ((pre.length : Int) + 1 = (pre.length : Int)) by omega), hcast, hlist,
        clip_length_at,
        frames_insert_blank_tail (pre ++ [x1]) post (hb2.trans hx) hx2w hc (by omega),
        frames_append, frames_cons, frames_nil, Entry.frames_blank (hb1.trans hx)]
      have e1 : x1.frame_count.toNat = (p - get_playtime pre).toNat := by omega
      have e2 : (x2.frame_count - cut.frame_count).toNat =
          (get_playtime pre + x.frame_count - p - cut.frame_count).toNat := by omega
      rw [e1, e2]
      simp
  · rw [if_neg hs]
    dsimp only
    rw [if_pos rfl, clip_length_at, frames_insert_blank_tail pre post hx hxw hc (by omega)]
    have hs2 : p = get_playtime pre := by
      by_contra h
      exact hs h
    have e1 : (p - get_playtime pre).toNat = 0 := by omega
    have e2 : (x.frame_count - cut.frame_count).toNat =
        (get_playtime pre + x.frame_count - p - cut.frame_count).toNat := by omega
    rw [e1, e2]
    simp

end Mlt.Playlist

/-- What `add` in mode 1 does when the cut ends before the end of the track: on a
well-formed track whose last region is a clip, for a cut of `len` frames at the frame
`pos ≥ 0` with `pos + len` below the playtime, the call returns true, the track shows the
frames before `pos`, the frames of the cut, one empty frame, and the frames that were at
`pos + len` and after: these all lie one frame later than before, and the playtime has
grown by one. -/
theorem Track.add_overwrite_frames (tr : Track) (t : ℚ) (cut : Entry)
    (hwf : wf tr.m_playlist) (hntb : no_trailing_blank tr.m_playlist) (hcw : cut.wf)
    (hp : 0 ≤ tr.frame t)
    (hin : tr.frame t + cut.frame_count < get_playtime tr.m_playlist) :
    (tr.add t cut 1).1 = true ∧
    frames (tr.add t cut 1).2.m_playlist =
      (frames tr.m_playlist).take (tr.frame t).toNat ++ cut.frames ++ [none] ++
        (frames tr.m_playlist).drop (tr.frame t + cut.frame_count).toNat ∧
    get_playtime (tr.add t cut 1).2.m_playlist = get_playtime tr.m_playlist + 1 := by
  have hcfc := Entry.wf_frame_count_pos hcw
  have hlenF : ((frames tr.m_playlist).length : Int) = get_playtime tr.m_playlist :=
    length_frames (frame_count_nonneg_of_wf hwf)
  obtain ⟨hF, hwf2⟩ := frames_region_to_blank hwf hntb hp (show 0 ≤ cut.frame_count by omega)
    (show 0 ≤ cut.frame_count by omega) hin
  have hprep : Track.doAdd_prepared tr t cut 1 =
      consolidate_blanks (insert_blank
        (remove_region tr.m_playlist (tr.frame t) cut.frame_count).2
        (get_clip_index_at (remove_region tr.m_playlist (tr.frame t) cut.frame_count).2
          (tr.frame t)) cut.frame_count) 0 := by
    unfold Track.doAdd_prepared
    rw [if_pos ⟨by omega, by decide⟩]
    simp only [if_true]
    rfl
  rw [← hprep] at hF hwf2
  have hnab : no_adjacent_blanks (Track.doAdd_prepared tr t cut 1) := by
    rw [hprep]; exact nab_consolidate_blanks _ 0
  have hadd := Track.add_playlist tr t cut 1
  generalize Track.doAdd_prepared tr t cut 1 = pl2 at hF hwf2 hnab hadd
  have hl : ((frames tr.m_playlist).take (tr.frame t).toNat).length = (tr.frame t).toNat := by
    rw [List.length_take]; omega
  have hpt2 : get_playtime pl2 = get_playtime tr.m_playlist + 1 := by
    have h5 := length_frames (frame_count_nonneg_of_wf hwf2)
    rw [hF] at h5
    simp only [List.length_append, List.length_take, List.length_replicate,
      List.length_drop] at h5
    omega
  have hnone : ∀ i : Nat, (tr.frame t).toNat ≤ i →
      i < (tr.frame t + (cut.frame_count + 1)).toNat → (frames pl2)[i]? = some none := by
    intro i hi1 hi2
    rw [hF, List.append_assoc, List.getElem?_append_right (by omega),
      List.getElem?_append_left (by simp; omega), List.getElem?_replicate]
    rw [if_pos (by omega)]
  obtain ⟨pre, x, post, hpl2, hxb, h1, h2⟩ := blank_run_region hwf2 hnab hp
    (show 1 ≤ cut.frame_count + 1 by omega) (by omega) hnone
  have hFr := frames_insert_at_blank_cover (hpl2 ▸ hwf2) hxb h1 hcfc (by omega) 1
  rw [← hpl2] at hFr
  have hres : frames (tr.add t cut 1).2.m_playlist =
      (frames tr.m_playlist).take (tr.frame t).toNat ++ cut.frames ++ [none] ++
        (frames tr.m_playlist).drop (tr.frame t + cut.frame_count).toNat := by
    have hG : frames pl2 = (frames tr.m_playlist).take (tr.frame t).toNat ++
        (List.replicate (cut.frame_count + 1).toNat none ++
          (frames tr.m_playlist).drop (tr.frame t + cut.frame_count).toNat) := by
      rw [hF, List.append_assoc]
    have hT : (frames pl2).take (tr.frame t).toNat =
        (frames tr.m_playlist).take (tr.frame t).toNat := by
      rw [hG]; exact List.take_left' hl
    have hD : (frames pl2).drop (tr.frame t + cut.frame_count).toNat =
        [none] ++ (frames tr.m_playlist).drop (tr.frame t + cut.frame_count).toNat := by
      have e1 : (tr.frame t + cut.frame_count).toNat =
          ((frames tr.m_playlist).take (tr.frame t).toNat).length + cut.frame_count.toNat := by
        omega
      have e2 : (cut.frame_count + 1).toNat - cut.frame_count.toNat = 1 := by omega
      rw [hG]
      nth_rewrite 1 [e1]
      rw [List.drop_append, List.drop_append_of_le_length (by simp),
        List.drop_replicate, e2]
      rfl
    rw [hadd, hFr, hT, hD]
    simp
  refine ⟨Track.add_fst tr t cut 1, hres, ?_⟩
  have hwf3 : wf (tr.add t cut 1).2.m_playlist := by
    rw [hadd]; exact wf_insert_at hwf2 _ hcw _
  have h5 := length_frames (frame_count_nonneg_of_wf hwf3)
  rw [hres] at h5
  simp only [List.length_append, List.length_take, List.length_drop, List.length_singleton,
    Entry.length_entry_frames] at h5
  omega

/-- C24 (the code breaks the claim): on the track holding `clipA` on frames [0, 100) and
`clipB` on frames [100, 110), `add` in mode 1 of the 10-frame cut `clipC` at time 2
(frame 50, so that frame 50 + 10 lies inside the track) returns true and leaves the
regions `clipA` [0, 50), `clipC` [50, 60), a blank of one frame, the rest of `clipA` from
its frame 60 on, and `clipB`: the playtime grows from 110 to 111 and `clipB` starts at
frame 101 instead of 100.  (At time 4, frame 100, where the cut ends with the track, the
playtime stays 110.) -/
theorem Track.add_overwrite_grows_playtime :
    (trackAB.add 2 clipC 1).1 = true ∧
    (trackAB.add 2 clipC 1).2.m_playlist =
      [{ clipA with frame_out := 49 }, clipC, Entry.blankCut 0, { clipA with frame_in := 60 },
        clipB] ∧
    trackAB.frame 2 + clipC.frame_count ≤ get_playtime trackAB.m_playlist ∧
    get_playtime trackAB.m_playlist = 110 ∧
    get_playtime (trackAB.add 2 clipC 1).2.m_playlist = 111 ∧
    clip_start trackAB.m_playlist 1 = 100 ∧
    get_clip trackAB.m_playlist 1 = some clipB ∧
    get_clip (trackAB.add 2 clipC 1).2.m_playlist 4 = some clipB ∧
    clip_start (trackAB.add 2 clipC 1).2.m_playlist 4 = 101 ∧
    (trackAB.add 4 clipC 1).2.m_playlist = [clipA, clipC] ∧
    get_playtime (trackAB.add 4 clipC 1).2.m_playlist = 110 := by
  have h2 : Track.frame_value 2 25 = 50 := by
    simpa using Track.frame_value_int 2 (by norm_num)
  have hpl : (trackAB.add 2 clipC 1).2.m_playlist =
      [{ clipA with frame_out := 49 }, clipC, Entry.blankCut 0, { clipA with frame_in := 60 },
        clipB] := by
    simp only [Track.add, Track.doAdd, Track.frame, Track.lock, Track.unlock, Track.withPlaylist,
      Track.emitDuration, trackAB, h2]
    decide
  have ht : trackAB.frame 2 = 50 := h2
  have h1 : (trackAB.add 2 clipC 1).1 = true := by
    simp only [Track.add, Track.doAdd]
    split_ifs <;> rfl
  have h4 : Track.frame_value 4 25 = 100 := by
    simpa using Track.frame_value_int 4 (by norm_num)
  have hpl4 : (trackAB.add 4 clipC 1).2.m_playlist = [clipA, clipC] := by
    simp only [Track.add, Track.doAdd, Track.frame, Track.lock, Track.unlock, Track.withPlaylist,
      Track.emitDuration, trackAB, h4]
    decide
  refine ⟨h1, hpl, ?_, by decide, ?_, by decide, by decide, ?_, ?_, hpl4, ?_⟩
  · rw [ht]; decide
  · rw [hpl]; decide
  · rw [hpl]; decide
  · rw [hpl]; decide
  · rw [hpl4]; decide
